import Mathlib

/-!
# USCC liveness analysis and dead-code elimination

A shallow embedding of `opt/Liveness.cpp` and `opt/DCE.cpp`.

* A function is the list of its basic blocks in layout order; a `BasicBlock *` is the
  index of the block in that list, so the entry block `F.front()` is block `0` and
  `F.back()` is block `F.length - 1`.
* A basic block is the list of its instructions in order; a program point is a pair
  `(block, position)`.
* An `Instruction *` is the `id` of the instruction; operands refer to other
  instructions through that id.
* `std::set<StringRef>` is a `Finset String`; `std::map<BasicBlock *, std::set<StringRef>>`
  is a function from block indices to `Option (Finset String)`, `none` meaning "no key".
* The analysis identifies a slot by the name of the `alloca`, and an access to a slot by
  the name of the pointer operand of a load or store; the embedding does the same.
* The recursions and loops of the source that are not structural (`computePostOrder`,
  the `while (change)` loop, `findDeadDefinitions`, the `while (true)` loop of the
  eliminator) take a bound and return `none` when it is exhausted; a failed `assert`
  is `none` as well.
-/

namespace USCC

/-- The name of an LLVM value (`StringRef`); unnamed values have the empty name. -/
abbrev Name := String

/-- A set of slot names, `std::set<StringRef>`. -/
abbrev LiveSet := Finset Name

/-- An operand of an instruction. -/
inductive Value where
  /-- the result of the instruction with this identity -/
  | inst (id : Nat)
  /-- a value that is not an instruction (argument, global, constant), with its name -/
  | other (name : Name)
  /-- the undefined-value placeholder `UndefValue` -/
  | undef
  deriving DecidableEq

/-- The opcode of an instruction together with its operands.  Only the opcodes that the
passes distinguish are kept apart; `other` stands for every remaining opcode and carries
the successor blocks when the instruction is a terminator. -/
inductive InstKind where
  | alloca (size : Value)
  | load (ptr : Value)
  | store (val ptr : Value)
  | call (ops : List Value)
  | other (ops : List Value) (term : Option (List Nat))
  deriving DecidableEq

/-- An LLVM instruction: its identity, its name and its opcode with operands. -/
structure Instruction where
  id : Nat
  name : Name
  kind : InstKind
  deriving DecidableEq

/-- A basic block: its instructions in order. -/
abbrev BasicBlock := List Instruction

/-- A function: its basic blocks in layout order. -/
abbrev Func := List BasicBlock

/-- The operand list of an instruction (`getOperand(0)`, `getOperand(1)`, ...). -/
def Instruction.operands (i : Instruction) : List Value :=
  match i.kind with
  | .alloca sz => [sz]
  | .load p => [p]
  | .store v p => [v, p]
  | .call ops => ops
  | .other ops _ => ops

/-- Test `getOpcode() == Instruction::Alloca`. -/
def Instruction.isAlloca (i : Instruction) : Bool :=
  match i.kind with
  | .alloca _ => true
  | _ => false

/-- Test `getOpcode() == Instruction::Call`. -/
def Instruction.isCall (i : Instruction) : Bool :=
  match i.kind with
  | .call _ => true
  | _ => false

/-- Test `getOpcode() == Instruction::Store`. -/
def Instruction.isStore (i : Instruction) : Bool :=
  match i.kind with
  | .store _ _ => true
  | _ => false

/-- The successor blocks named by an instruction, when it is a terminator. -/
def Instruction.successors (i : Instruction) : List Nat :=
  match i.kind with
  | .other _ (some ss) => ss
  | _ => []

/-- The block at an index; an index outside the function denotes an empty block. -/
def Func.block (F : Func) (b : Nat) : BasicBlock := F.getD b []

/-- The successors of a block (`succ_begin` .. `succ_end`): those of its terminator,
which is the last instruction of the block. -/
def Func.succs (F : Func) (b : Nat) : List Nat :=
  match (F.block b).getLast? with
  | some i => i.successors
  | none => []

/-- All instructions of the function, block after block. -/
def Func.insts (F : Func) : List Instruction := F.flatten

/-- The instruction with a given identity. -/
def Func.findInst (F : Func) (id : Nat) : Option Instruction :=
  F.insts.find? (fun i => i.id == id)

/-- The name of a value, `Value::getName()`. -/
def Func.valueName (F : Func) : Value → Name
  | .inst id =>
    match F.findInst id with
    | some i => i.name
    | none => ""
  | .other n => n
  | .undef => ""

/-- The state of the `Liveness` pass object: `bb2In`, `bb2Out` and `named`. -/
structure Liveness where
  bb2In : Nat → Option LiveSet
  bb2Out : Nat → Option LiveSet
  named : LiveSet

/-- The state built by the constructor `Liveness()` and left by `releaseMemory`. -/
def Liveness.init : Liveness := ⟨fun _ => none, fun _ => none, ∅⟩

/-- Reading `m[k]` of a `std::map`: an absent key reads as the empty set. -/
def getSet (m : Nat → Option LiveSet) (k : Nat) : LiveSet := (m k).getD ∅

/-- Assignment `m[k] = v`. -/
def setSet (m : Nat → Option LiveSet) (k : Nat) (v : LiveSet) : Nat → Option LiveSet :=
  fun j => if j = k then some v else m j

/-- The loop `for (auto &i : m) i.second.clear()`: every recorded set becomes empty. -/
def clearAll (m : Nat → Option LiveSet) : Nat → Option LiveSet :=
  fun j => (m j).map (fun _ => ∅)

/-- Step #1 of `runOnFunction`: the names of all `alloca` instructions are added to
`named`. -/
def identifyNamed (F : Func) (named : LiveSet) : LiveSet :=
  F.insts.foldl (fun acc i => if i.isAlloca then insert i.name acc else acc) named

/-- One iteration of the reverse scan of step #2 on the pair `(use, def)`. -/
def scanInst (F : Func) (named : LiveSet) (i : Instruction) (ud : LiveSet × LiveSet) :
    LiveSet × LiveSet :=
  match i.kind with
  | .store _ p =>
    if F.valueName p ∈ named then (ud.1.erase (F.valueName p), insert (F.valueName p) ud.2)
    else ud
  | .load p =>
    if F.valueName p ∈ named then (insert (F.valueName p) ud.1, ud.2.erase (F.valueName p))
    else ud
  | _ => ud

/-- Step #2 for one block: the scan from `rbegin` to `rend`, so the last instruction is
processed first (a right fold), starting from two empty sets. -/
def useDef (F : Func) (named : LiveSet) (bb : BasicBlock) : LiveSet × LiveSet :=
  bb.foldr (scanInst F named) (∅, ∅)

/-- The map `bb2Use` of step #2. -/
def bb2Use (F : Func) (named : LiveSet) (b : Nat) : LiveSet := (useDef F named (F.block b)).1

/-- The map `bb2Def` of step #2. -/
def bb2Def (F : Func) (named : LiveSet) (b : Nat) : LiveSet := (useDef F named (F.block b)).2

/-- The state of `computePostOrder`: the `visited` set and the `order` deque. -/
structure Dfs where
  visited : List Nat
  order : List Nat
  deriving DecidableEq

/-- The recursive `computePostOrder`.  The first argument bounds the recursion depth;
`none` is returned when it is exhausted. -/
def computePostOrder (F : Func) : Nat → Nat → Dfs → Option Dfs
  | 0, _, _ => none
  | fuel + 1, entry, s =>
    ((F.succs entry).foldlM
        (fun (s : Dfs) (succ : Nat) =>
          if succ ∈ s.visited then some s else computePostOrder F fuel succ s)
        { s with visited := entry :: s.visited }).map
      (fun s => { s with order := s.order ++ [entry] })

/-- The successor loop `for (...) out += bb2In[*iter]` of one block visit, on the pair
`(bb2In, out)`; reading `bb2In[*iter]` creates the key when it is absent. -/
def addSuccs (succs : List Nat) (acc : (Nat → Option LiveSet) × LiveSet) :
    (Nat → Option LiveSet) × LiveSet :=
  succs.foldl (fun acc s => (setSet acc.1 s (getSet acc.1 s), acc.2 ∪ getSet acc.1 s)) acc

/-- The body of the inner `for (auto bb : worklist)` loop of step #4. -/
def visitBlock (F : Func) (st : Liveness) (bb : Nat) : Liveness :=
  let oldIn := getSet st.bb2In bb
  let r := addSuccs (F.succs bb) (setSet st.bb2In bb oldIn, getSet st.bb2Out bb)
  let newIn := bb2Use F st.named bb ∪ (r.2 \ bb2Def F st.named bb)
  { st with bb2In := setSet r.1 bb newIn, bb2Out := setSet st.bb2Out bb r.2 }

/-- The body of the inner loop together with the flag: `change` is set when the new
`In` set of the block differs from `oldIn`. -/
def passStep (F : Func) (s : Liveness × Bool) (bb : Nat) : Liveness × Bool :=
  (visitBlock F s.1 bb,
    s.2 || decide (getSet s.1.bb2In bb ≠ getSet (visitBlock F s.1 bb).bb2In bb))

/-- One full pass over the worklist, starting with `change = false`. -/
def pass (F : Func) (worklist : List Nat) (st : Liveness) : Liveness × Bool :=
  worklist.foldl (passStep F) (st, false)

/-- The `while (change)` loop of step #4; the result carries the counter `cnt`.  The
first argument bounds the number of passes; `none` is returned when it is exhausted. -/
def fixpoint (F : Func) (worklist : List Nat) : Nat → Liveness → Nat → Option (Liveness × Nat)
  | 0, _, _ => none
  | fuel + 1, st, cnt =>
    let r := pass F worklist st
    if r.2 then fixpoint F worklist fuel r.1 (cnt + 1) else some (r.1, cnt + 1)

/-- The worklist of step #3: the post order from the entry block. -/
def worklist (F : Func) : Option (List Nat) :=
  (computePostOrder F F.length 0 ⟨[], []⟩).map (fun s => s.order)

/-- The state at the start of the `while` loop: `bb2Out[&endBB]` has been created,
`named` extended and all recorded sets cleared. -/
def startState (lv : Liveness) (F : Func) : Liveness :=
  { bb2In := clearAll lv.bb2In
    bb2Out := clearAll (setSet lv.bb2Out (F.length - 1) ∅)
    named := identifyNamed F lv.named }

/-- The method `Liveness::runOnFunction`, returning the new state of the pass together
with the pass counter `cnt`.  `none` stands for a failed `assert` (or an exhausted
bound in the two loops). -/
def Liveness.runOnFunctionCnt (lv : Liveness) (F : Func) : Option (Liveness × Nat) :=
  if F = [] then some (lv, 0)
  else if F.block 0 = [] ∨ F.block (F.length - 1) = [] then none
  else
    match worklist F with
    | none => none
    | some wl =>
      fixpoint F wl (1 + wl.length * (identifyNamed F lv.named).card) (startState lv F) 0

/-- The state left by `Liveness::runOnFunction`. -/
def Liveness.runOnFunction (lv : Liveness) (F : Func) : Option Liveness :=
  (lv.runOnFunctionCnt F).map (fun r => r.1)

/-- The inner scan of `isDead` over the instructions that follow the store: the value of
`use` when the loop is left. -/
def scanUse (F : Func) (name : Name) : List Instruction → Bool
  | [] => false
  | i :: rest =>
    match i.kind with
    | .load p => if F.valueName p = name then true else scanUse F name rest
    | .store _ p => if F.valueName p = name then false else scanUse F name rest
    | _ => scanUse F name rest

/-- The method `Liveness::isDead` on the instruction at position `k` of block `b`. -/
def Liveness.isDead (lv : Liveness) (F : Func) (b k : Nat) : Bool :=
  match (F.block b)[k]? with
  | none => true
  | some inst =>
    if (lv.bb2Out b).isNone then true
    else
      match inst.kind with
      | .store _ p =>
        if F.valueName p ∈ lv.named then
          !decide (F.valueName p ∈ getSet lv.bb2Out b) &&
            !scanUse F (F.valueName p) ((F.block b).drop (k + 1))
        else false
      | _ => false

/-- The number of uses of the result of an instruction: the operand slots of the
function that hold it. -/
def Func.numUses (F : Func) (id : Nat) : Nat :=
  (F.insts.map (fun i => i.operands.count (Value.inst id))).sum

/-- The test `hasOneUse()`. -/
def Func.hasOneUse (F : Func) (id : Nat) : Bool := F.numUses id == 1

/-- The test `use_empty()`. -/
def Func.useEmpty (F : Func) (id : Nat) : Bool := F.numUses id == 0

/-- A `std::set<Instruction *>` is kept as a duplicate-free list of identities;
`dead.insert(x)` is `List.insert`. -/
abbrev DeadSet := List Nat

/-- The recursive `DeadCodeElimination::findDeadDefinitions`.  The first argument bounds
the recursion depth; `none` is returned when it is exhausted. -/
def findDeadDefinitions (F : Func) : Nat → Instruction → DeadSet → Option DeadSet
  | 0, _, _ => none
  | fuel + 1, inst, dead =>
    inst.operands.foldlM
      (fun (dead : DeadSet) (val : Value) =>
        match val with
        | .inst id =>
          match F.findInst id with
          | some src =>
            if F.hasOneUse id && !src.isCall then
              findDeadDefinitions F fuel src (dead.insert id)
            else some dead
          | none => some dead
        | _ => some dead)
      dead

/-- The body of the two nested `for` loops of step #1 of the eliminator, for the
instruction at position `k` of block `b`. -/
def collectInst (lv : Liveness) (F : Func) (b k : Nat) (dead : DeadSet) : Option DeadSet :=
  match (F.block b)[k]? with
  | none => some dead
  | some ins =>
    match ins.kind with
    | .store v _ =>
      if lv.isDead F b k then
        match v with
        | .inst src =>
          findDeadDefinitions F (F.insts.length + 1) ins ((dead.insert ins.id).insert src)
        | _ => some (dead.insert ins.id)
      else some dead
    | _ => some dead

/-- The set `dead` collected by one elimination round. -/
def collectDead (lv : Liveness) (F : Func) : Option DeadSet :=
  (List.range F.length).foldlM
    (fun (dead : DeadSet) (b : Nat) =>
      (List.range (F.block b).length).foldlM
        (fun (dead : DeadSet) (k : Nat) => collectInst lv F b k dead) dead)
    []

/-- Replace the operands of an instruction. -/
def Instruction.mapOperands (f : Value → Value) (i : Instruction) : Instruction :=
  { i with
    kind :=
      match i.kind with
      | .alloca sz => .alloca (f sz)
      | .load p => .load (f p)
      | .store v p => .store (f v) (f p)
      | .call ops => .call (ops.map f)
      | .other ops t => .other (ops.map f) t }

/-- The call `ins->replaceAllUsesWith(UndefValue::get(...))`. -/
def replaceAllUsesWithUndef (id : Nat) (F : Func) : Func :=
  F.map (fun bb => bb.map (Instruction.mapOperands
    (fun v => if v = Value.inst id then Value.undef else v)))

/-- The call `ins->eraseFromParent()`. -/
def eraseFromParent (id : Nat) (F : Func) : Func :=
  F.map (fun bb => bb.filter (fun i => i.id != id))

/-- The loop over `dead` that redirects the uses of every dead instruction and erases
it.  The iteration order of the `std::set` is the address order, which the embedding
does not fix; the instructions are taken in list order. -/
def eraseDead (dead : DeadSet) (F : Func) : Func :=
  dead.foldl (fun F id => eraseFromParent id (replaceAllUsesWithUndef id F)) F

/-- One elimination round: the collected set and the function after the erasures. -/
def dceRound (lv : Liveness) (F : Func) : Option (DeadSet × Func) :=
  (collectDead lv F).map (fun dead => (dead, eraseDead dead F))

/-- The `while (true)` loop of `DeadCodeElimination::runOnFunction`.  The first argument
bounds the number of rounds; `none` is returned when it is exhausted or when the
recomputed liveness fails. -/
def dceLoop : Nat → Liveness → Func → Bool → Option (Liveness × Func × Bool)
  | 0, _, _, _ => none
  | fuel + 1, lv, F, changed =>
    match dceRound lv F with
    | none => none
    | some (dead, F1) =>
      if dead ≠ [] then
        match lv.runOnFunction F1 with
        | none => none
        | some lv1 => dceLoop fuel lv1 F1 true
      else some (lv, F, changed)

/-- Step #2 of the eliminator: every `alloca` without uses is erased. -/
def removeUnusedAllocas (F : Func) : Func :=
  F.insts.foldl
    (fun (G : Func) (i : Instruction) =>
      if i.isAlloca && G.useEmpty i.id then eraseFromParent i.id G else G)
    F

/-- The method `DeadCodeElimination::runOnFunction`: given the state of the liveness
analysis of `F`, the new state of the analysis, the function left and the returned
flag. -/
def DeadCodeElimination.runOnFunction (lv : Liveness) (F : Func) :
    Option (Liveness × Func × Bool) :=
  if F = [] then some (lv, F, false)
  else
    (dceLoop (F.insts.length + 1) lv F false).map
      (fun r => (r.1, removeUnusedAllocas r.2.1, r.2.2))

/-- The pass pipeline on a function: `Liveness` on a fresh pass object, then the
eliminator with that analysis. -/
def runDCE (F : Func) : Option (Liveness × Func × Bool) :=
  match Liveness.init.runOnFunction F with
  | none => none
  | some lv => DeadCodeElimination.runOnFunction lv F

/-! ### Notions used to state the properties -/

/-- Every successor of a block of the function is a block of the function. -/
def Func.WF (F : Func) : Prop :=
  ∀ b ∈ List.range F.length, ∀ s ∈ F.succs b, s < F.length

instance (F : Func) : Decidable F.WF := by
  unfold Func.WF; infer_instance

/-- A block is reachable from the entry block along successor edges. -/
def Func.Reachable (F : Func) (b : Nat) : Prop :=
  Relation.ReflTransGen (fun a c => c ∈ F.succs a) 0 b

/-- The instruction at a program point `(block, position)`. -/
def Func.instAt (F : Func) (p : Nat × Nat) : Option Instruction := (F.block p.1)[p.2]?

/-- The instruction is a load of the slot `x`: a load whose pointer operand has the
name `x`, which is how the analysis recognises it. -/
def isLoadOf (F : Func) (x : Name) (i : Instruction) : Bool :=
  match i.kind with
  | .load p => F.valueName p == x
  | _ => false

/-- The instruction is a store to the slot `x`: a store whose pointer operand has the
name `x`. -/
def isStoreTo (F : Func) (x : Name) (i : Instruction) : Bool :=
  match i.kind with
  | .store _ p => F.valueName p == x
  | _ => false

/-- The instruction at the program point is a load of `x`. -/
def loadAt (F : Func) (x : Name) (p : Nat × Nat) : Prop :=
  ∃ i, F.instAt p = some i ∧ isLoadOf F x i = true

/-- The instruction at the program point is a store to `x`. -/
def storeAt (F : Func) (x : Name) (p : Nat × Nat) : Prop :=
  ∃ i, F.instAt p = some i ∧ isStoreTo F x i = true

/-- One step of control flow between program points: to the next instruction of the
block, or from the last instruction of a block to the first of a successor. -/
inductive Step (F : Func) : Nat × Nat → Nat × Nat → Prop where
  | next (b k : Nat) : k + 1 < (F.block b).length → Step F (b, k) (b, k + 1)
  | jump (b k s : Nat) : k + 1 = (F.block b).length → s ∈ F.succs b → Step F (b, k) (s, 0)

/-- There is a control-flow path from the program point `p` to a load of `x` such that no
instruction of the path before that load is a store to `x`. -/
def LiveFrom (F : Func) (x : Name) (p : Nat × Nat) : Prop :=
  ∃ q, Relation.ReflTransGen (fun a c => ¬ storeAt F x a ∧ Step F a c) p q ∧ loadAt F x q

/-- The union of the recorded `In` sets of the successors of a block. -/
def succIn (F : Func) (lv : Liveness) (b : Nat) : LiveSet :=
  (F.succs b).toFinset.biUnion (getSet lv.bb2In)

/-- The facts that hold of the state of the analysis throughout the `while` loop, for the
set `N` of named slots. -/
structure LoopInv (F : Func) (N : LiveSet) (st : Liveness) : Prop where
  named : st.named = N
  in_le : ∀ b, getSet st.bb2In b ⊆ bb2Use F N b ∪ (getSet st.bb2Out b \ bb2Def F N b)
  out_le : ∀ b, getSet st.bb2Out b ⊆ succIn F st b
  in_named : ∀ b, getSet st.bb2In b ⊆ N
  in_sound : ∀ b x, x ∈ getSet st.bb2In b → LiveFrom F x (b, 0)

/-- The total size of the `In` sets of the blocks of a worklist. -/
def inSize (W : List Nat) (st : Liveness) : Nat :=
  (W.map (fun b => (getSet st.bb2In b).card)).sum

/-- The relation between the state `s` before a call of `computePostOrder` and the state
`t` after it, for a property `P` of blocks: the visited set has grown, the blocks newly
visited were appended to the order once each, and each of them satisfies `P` and has
all its successors visited. -/
structure DfsPost (F : Func) (P : Nat → Prop) (s t : Dfs) : Prop where
  mono : ∀ v ∈ s.visited, v ∈ t.visited
  order : ∃ l, t.order = s.order ++ l ∧ l.Nodup ∧ ∀ v, v ∈ l ↔ v ∈ t.visited ∧ v ∉ s.visited
  closed : ∀ v ∈ t.visited, v ∉ s.visited → P v ∧ ∀ u ∈ F.succs v, u ∈ t.visited

/-- The loop over the successors inside `computePostOrder`, with recursion bound
`fuel`. -/
def visitSuccs (F : Func) (fuel : Nat) (ss : List Nat) (s : Dfs) : Option Dfs :=
  ss.foldlM
    (fun (s : Dfs) (succ : Nat) =>
      if succ ∈ s.visited then some s else computePostOrder F fuel succ s)
    s

/-- The number of blocks of the function that are not yet visited. -/
def unvisited (F : Func) (s : Dfs) : Nat :=
  ((Finset.range F.length).filter (fun v => v ∉ s.visited)).card

/-- The slot `x` is live at a program point according to the analysis: the backward scan
of the rest of the block, started from the recorded `Out` set of the block, reports it. -/
def liveAtPoint (F : Func) (lv : Liveness) (x : Name) (p : Nat × Nat) : Prop :=
  x ∈ (useDef F lv.named ((F.block p.1).drop p.2)).1 ∨
    (x ∉ (useDef F lv.named ((F.block p.1).drop p.2)).2 ∧ x ∈ getSet lv.bb2Out p.1)

/-- The first dataflow equation at a block: `In = Use ∪ (Out − Def)`. -/
def inEquation (F : Func) (lv : Liveness) (b : Nat) : Prop :=
  getSet lv.bb2In b = bb2Use F lv.named b ∪ (getSet lv.bb2Out b \ bb2Def F lv.named b)

/-- The second dataflow equation at a block: `Out` is the union of the `In` sets of the
successors. -/
def outEquation (F : Func) (lv : Liveness) (b : Nat) : Prop :=
  getSet lv.bb2Out b = succIn F lv b

instance (F : Func) (lv : Liveness) (b : Nat) : Decidable (inEquation F lv b) := by
  unfold inEquation; infer_instance

instance (F : Func) (lv : Liveness) (b : Nat) : Decidable (outEquation F lv b) := by
  unfold outEquation; infer_instance

/-! ### Concrete functions -/

/-- The three-block function `entry -> body -> exit`: `entry` allocates the slots `a` and
`b` and stores into `a`, `body` loads `a` and stores the loaded value into `b`, `exit`
returns. -/
def ex3 : Func :=
  [ [ ⟨0, "a", .alloca (.other "1")⟩, ⟨1, "b", .alloca (.other "1")⟩,
      ⟨2, "", .store (.other "7") (.inst 0)⟩, ⟨3, "", .other [] (some [1])⟩ ],
    [ ⟨4, "t", .load (.inst 0)⟩, ⟨5, "", .store (.inst 4) (.inst 1)⟩,
      ⟨6, "", .other [] (some [2])⟩ ],
    [ ⟨7, "", .other [] (some [])⟩ ] ]

/-- The analysis of a function by a fresh pass object (the fresh state itself when the
analysis fails). -/
def liveOf (F : Func) : Liveness := (Liveness.init.runOnFunction F).getD Liveness.init

/-- The analysis of `ex3` by a fresh pass object. -/
def ex3Live : Liveness := liveOf ex3

/-- A one-block function with a store to `x` followed by a load of `x`:
`x = alloca; store 7, x; t = load x; ret`. -/
def exStoreLoad : Func :=
  [ [ ⟨0, "x", .alloca (.other "1")⟩, ⟨1, "", .store (.other "7") (.inst 0)⟩,
      ⟨2, "t", .load (.inst 0)⟩, ⟨3, "", .other [] (some [])⟩ ] ]

/-- A function whose block 1 has no predecessor: the entry allocates `x` and branches to
block 2, block 1 loads `x` and branches to block 2, block 2 returns. -/
def exUnreachLoad : Func :=
  [ [ ⟨0, "x", .alloca (.other "1")⟩, ⟨1, "", .other [] (some [2])⟩ ],
    [ ⟨2, "t", .load (.inst 0)⟩, ⟨3, "", .other [] (some [2])⟩ ],
    [ ⟨4, "", .other [] (some [])⟩ ] ]

/-- A function whose block 1 has no predecessor and holds a store to `x` followed by a
load of `x`. -/
def exUnreachStore : Func :=
  [ [ ⟨0, "x", .alloca (.other "1")⟩, ⟨1, "", .other [] (some [2])⟩ ],
    [ ⟨2, "", .store (.other "7") (.inst 0)⟩, ⟨3, "t", .load (.inst 0)⟩,
      ⟨4, "", .other [] (some [2])⟩ ],
    [ ⟨5, "", .other [] (some [])⟩ ] ]

/-- A function whose last block is a loop: the entry allocates `x` and branches to
block 1, which loads `x` and branches to itself. -/
def exLoop : Func :=
  [ [ ⟨0, "x", .alloca (.other "1")⟩, ⟨1, "", .other [] (some [1])⟩ ],
    [ ⟨2, "t", .load (.inst 0)⟩, ⟨3, "", .other [] (some [1])⟩ ] ]

/-- A one-block function that stores the result of a call into a slot that is never
read: `x = alloca; r = call f(); store r, x; ret`. -/
def exCall : Func :=
  [ [ ⟨0, "x", .alloca (.other "1")⟩, ⟨1, "r", .call [.other "f"]⟩,
      ⟨2, "", .store (.inst 1) (.inst 0)⟩, ⟨3, "", .other [] (some [])⟩ ] ]

/-! ## The register allocator `opt/RegAlloc.cpp`

* A `LiveInterval *` is the live interval itself; two intervals of one function differ in
  their register number.
* `std::unordered_map` and `std::unordered_set` are lists in iteration order; a
  `std::vector` used as a stack is a list whose head is the back of the vector.
* The spill weights are `float`s that are only compared; they are natural numbers here.
* The services of LLVM that the allocator calls (the allocation order of a register, the
  fixed interference of a register with a physical register, the registers that the
  spiller creates) are parameters, collected in `RegEnv`.
-/

/-- The largest `unsigned`, `__UINT32_MAX__`, which is also the failure value `~0u`. -/
def UINT32_MAX : Nat := 4294967295

/-- The constant `__FLT_MAX__`, the largest finite `float`. -/
def FLT_MAX : Nat := 340282346638528859811704183484516925440

/-- Modelled from the spec: the class `LiveInterval` of LLVM, which the repository only
uses: a virtual register with its register number `reg`, its spill weight, its spillable
flag (`isSpillable()`) and its live interval, one or more program-point ranges
`[start, end)`. -/
structure LiveInterval where
  reg : Nat
  weight : Nat
  spillable : Bool
  segs : List (Nat × Nat)
  deriving DecidableEq

/-- The live interval contains the program point `p`. -/
def LiveInterval.liveAt (a : LiveInterval) (p : Nat) : Bool :=
  a.segs.any (fun s => decide (s.1 ≤ p) && decide (p < s.2))

/-- Modelled from the spec: `LiveInterval::overlaps`, range intersection: some range of
one interval meets some range of the other. -/
def LiveInterval.overlaps (a b : LiveInterval) : Bool :=
  a.segs.any (fun s => b.segs.any (fun t => decide (max s.1 t.1 < min s.2 t.2)))

/-- A `std::unordered_set<LiveInterval *>`. -/
abbrev NodeSet := List LiveInterval

/-- The `std::unordered_map` from a live interval to the set of its neighbours. -/
abbrev Graph := List (LiveInterval × NodeSet)

/-- The call `set.emplace(x)`. -/
def NodeSet.emplace (x : LiveInterval) (s : NodeSet) : NodeSet :=
  if x ∈ s then s else s ++ [x]

/-- The call `set.erase(x)`. -/
def NodeSet.remove (x : LiveInterval) (s : NodeSet) : NodeSet :=
  s.filter (fun y => decide (y ≠ x))

/-- The map has the key `k`. -/
def Graph.hasKey (g : Graph) (k : LiveInterval) : Bool := g.any (fun e => decide (e.1 = k))

/-- The neighbour set recorded for `k`; empty when `k` is not a key. -/
def Graph.neighbours (g : Graph) (k : LiveInterval) : NodeSet :=
  match g.find? (fun e => decide (e.1 = k)) with
  | some e => e.2
  | none => []

/-- An update of `g[k]` through `operator[]`, which creates the key with an empty set
when it is absent. -/
def Graph.modify (g : Graph) (k : LiveInterval) (f : NodeSet → NodeSet) : Graph :=
  if g.hasKey k then g.map (fun e => if e.1 = k then (e.1, f e.2) else e)
  else g ++ [(k, f [])]

/-- The call `g.erase(it)` for the entry of key `k`. -/
def Graph.eraseKey (g : Graph) (k : LiveInterval) : Graph :=
  g.filter (fun e => decide (e.1 ≠ k))

/-- Modelled from the spec: what `MachineRegisterInfo` and `LiveIntervals` tell about one
virtual register: its live interval and whether it has no non-debug use
(`reg_nodbg_empty`). -/
structure VirtRegInfo where
  interval : LiveInterval
  nodbgEmpty : Bool
  deriving DecidableEq

/-- The services of LLVM used by the select phase.  `order v` is the allocation order of
the register `v` (`AllocationOrder`), a list of non-zero physical registers;
`fixedIntf v p` tells that `v` has a register-mask or register-unit interference with `p`;
`spillNew v` are the registers that the spiller creates when it spills `v`. -/
structure RegEnv where
  order : LiveInterval → List Nat
  fixedIntf : LiveInterval → Nat → Bool
  spillNew : LiveInterval → List LiveInterval

/-- The state of the allocator: the members `interferenceGraph`, `liveIntervals`, `stack`
and `Queue` of `RAUSCC`, and of the LLVM objects it drives the assignment of registers
(`LiveRegMatrix`, `VirtRegMap`) and the list of registers handed to the spiller. -/
structure RAUSCC where
  interferenceGraph : Graph
  liveIntervals : List LiveInterval
  stack : List LiveInterval
  queue : List LiveInterval
  assigned : List (LiveInterval × Nat)
  spilled : List LiveInterval
  deriving DecidableEq

/-- The state of a new allocator. -/
def RAUSCC.empty : RAUSCC := ⟨[], [], [], [], [], []⟩

/-- The method `RAUSCC::enqueue`: `Queue.push(LI)`. -/
def RAUSCC.enqueue (st : RAUSCC) (li : LiveInterval) : RAUSCC :=
  { st with queue := st.queue ++ [li] }

/-- The method `RAUSCC::dequeue`: the back of `stack` is popped and returned, `nullptr`
(here `none`) when the stack is empty. -/
def RAUSCC.dequeue (st : RAUSCC) : Option LiveInterval × RAUSCC :=
  match st.stack with
  | [] => (none, st)
  | li :: rest => (some li, { st with stack := rest })

/-- The first loop of `initGraph`: the intervals of the registers with a non-debug use, in
register order. -/
def liveIntervalsOf (mri : List VirtRegInfo) : List LiveInterval :=
  (mri.filter (fun r => !r.nodbgEmpty)).map (fun r => r.interval)

/-- The body of the inner loop of `initGraph` for the indices `i` and `j`. -/
def initEdge (g : Graph) (a b : Nat × LiveInterval) : Graph :=
  if b.1 = a.1 then g
  else if a.2.overlaps b.2 then
    (g.modify a.2 (NodeSet.emplace b.2)).modify b.2 (NodeSet.emplace a.2)
  else g

/-- The method `RAUSCC::initGraph`. -/
def RAUSCC.initGraph (st : RAUSCC) (mri : List VirtRegInfo) : RAUSCC :=
  let ivs := (liveIntervalsOf mri).foldl (fun acc v => acc ++ [v]) st.liveIntervals
  let g0 := (liveIntervalsOf mri).foldl (fun g v => g.modify v (fun _ => []))
    st.interferenceGraph
  let g1 := ivs.enum.foldl (fun g a => ivs.enum.foldl (fun g b => initEdge g a b) g) g0
  { st with liveIntervals := ivs, interferenceGraph := g1 }

/-- The `for` loop of the simplify step: the entry with fewer than `K` neighbours and the
lowest register number, together with `lowestReg`. -/
def findLowest (K : Nat) (g : Graph) : Option (LiveInterval × NodeSet) × Nat :=
  g.foldl
    (fun (acc : Option (LiveInterval × NodeSet) × Nat) e =>
      if e.2.length < K then
        if e.1.reg < acc.2 then (some e, e.1.reg) else acc
      else acc)
    (none, UINT32_MAX)

/-- The removal of the entry `e` in the simplify step: it is erased from the neighbour set
of each of its neighbours, then its entry is erased. -/
def removeNode (g : Graph) (e : LiveInterval × NodeSet) : Graph :=
  (e.2.foldl (fun g j => g.modify j (NodeSet.remove e.1)) g).eraseKey e.1

/-- The `do ... while (oldSize != interferenceGraph.size())` loop of `simplifyGraph` on
the pair of the graph and the stack.  The first argument bounds the iterations. -/
def simplifyLoop (K : Nat) : Nat → Graph × List LiveInterval → Option (Graph × List LiveInterval)
  | 0, _ => none
  | fuel + 1, s =>
    match (findLowest K s.1).1 with
    | some e =>
      let g1 := removeNode s.1 e
      if s.1.length ≠ g1.length then simplifyLoop K fuel (g1, e.1 :: s.2)
      else some (g1, e.1 :: s.2)
    | none => some s

/-- The `for` loop of the spill step on the pair `(minWeight, min)`, where `min` is `none`
as long as the iterator is uninitialised.  The result is `none` when the uninitialised
iterator is dereferenced. -/
def findMin (g : Graph) : Option (Nat × Option (LiveInterval × NodeSet)) :=
  g.foldlM
    (fun (acc : Nat × Option (LiveInterval × NodeSet)) e =>
      if e.1.weight = acc.1 then
        match acc.2 with
        | none => none
        | some m => if e.1.reg < m.1.reg then some (e.1.weight, some e) else some acc
      else if e.1.weight < acc.1 then some (e.1.weight, some e)
      else some acc)
    (FLT_MAX, none)

/-- The removal of the spill candidate `e`: it is erased from the neighbour set of each of
its neighbours, `go` is cleared when such a neighbour is left with fewer than `K`
neighbours, then the entry is erased. -/
def removeSpill (K : Nat) (g : Graph) (e : LiveInterval × NodeSet) : Graph × Bool :=
  let r := e.2.foldl
    (fun (acc : Graph × Bool) j =>
      let g1 := acc.1.modify j (NodeSet.remove e.1)
      (g1, if (g1.neighbours j).length < K then false else acc.2))
    (g, true)
  (r.1.eraseKey e.1, r.2)

/-- The `while (go && !interferenceGraph.empty())` loop of `simplifyGraph`.  The first
argument bounds the iterations; the result is also `none` when the candidate iterator is
used uninitialised. -/
def spillLoop (K : Nat) : Nat → Graph × List LiveInterval → Option (Graph × List LiveInterval)
  | 0, _ => none
  | fuel + 1, s =>
    if s.1 = [] then some s
    else
      match findMin s.1 with
      | none => none
      | some (_, none) => none
      | some (_, some e) =>
        let r := removeSpill K s.1 e
        if r.2 then spillLoop K fuel (r.1, e.1 :: s.2) else some (r.1, e.1 :: s.2)

/-- The outer `while (interferenceGraph.size() > 0)` loop of `simplifyGraph`.  The first
argument bounds the iterations. -/
def simplifyOuter (K : Nat) : Nat → Graph × List LiveInterval → Option (Graph × List LiveInterval)
  | 0, _ => none
  | fuel + 1, s =>
    if s.1.length > 0 then
      match simplifyLoop K (s.1.length + 1) s with
      | none => none
      | some s1 =>
        match spillLoop K (s1.1.length + 1) s1 with
        | none => none
        | some s2 => simplifyOuter K fuel s2
    else some s

/-- The method `RAUSCC::simplifyGraph` for `NUM_COLORS = K`. -/
def RAUSCC.simplifyGraph (K : Nat) (st : RAUSCC) : Option RAUSCC :=
  (simplifyOuter K (st.interferenceGraph.length + 1) (st.interferenceGraph, st.stack)).map
    (fun s => { st with interferenceGraph := s.1, stack := s.2 })

/-- The result of `LiveRegMatrix::checkInterference`; the register-mask and register-unit
kinds are one case. -/
inductive InterferenceKind where
  | IK_Free
  | IK_VirtReg
  | IK_RegUnit
  deriving DecidableEq

/-- The test `VRM->hasPhys(v.reg)`. -/
def RAUSCC.hasPhys (st : RAUSCC) (v : LiveInterval) : Bool :=
  st.assigned.any (fun a => decide (a.1 = v))

/-- The physical register that `v` holds, if any. -/
def RAUSCC.physOf (st : RAUSCC) (v : LiveInterval) : Option Nat :=
  (st.assigned.find? (fun a => decide (a.1 = v))).map (fun a => a.2)

/-- Modelled from the spec: the registers that hold the physical register `p` and whose
live interval overlaps that of `v` (`Query::interferingVRegs`). -/
def RAUSCC.interferingVRegs (st : RAUSCC) (v : LiveInterval) (p : Nat) : List LiveInterval :=
  (st.assigned.filter (fun a => decide (a.2 = p) && v.overlaps a.1)).map (fun a => a.1)

/-- Modelled from the spec: `LiveRegMatrix::checkInterference`: an empty interval is free,
a fixed interference is reported first, then the interference with registers that hold
`p`, taken as interval overlap. -/
def RAUSCC.checkInterference (env : RegEnv) (st : RAUSCC) (v : LiveInterval) (p : Nat) :
    InterferenceKind :=
  if v.segs = [] then .IK_Free
  else if env.fixedIntf v p then .IK_RegUnit
  else if st.interferingVRegs v p ≠ [] then .IK_VirtReg
  else .IK_Free

/-- Modelled from the spec: `LiveRegMatrix::assign`. -/
def RAUSCC.assign (st : RAUSCC) (v : LiveInterval) (p : Nat) : RAUSCC :=
  { st with assigned := st.assigned ++ [(v, p)] }

/-- Modelled from the spec: `LiveRegMatrix::unassign`. -/
def RAUSCC.unassign (st : RAUSCC) (v : LiveInterval) : RAUSCC :=
  { st with assigned := st.assigned.filter (fun a => decide (a.1 ≠ v)) }

/-- Modelled from the spec: `spiller().spill(LRE)` for the interval `v`: the interval is
recorded as handed to the spiller and the registers the spiller creates are appended to
`SplitVRegs`. -/
def RAUSCC.spill (env : RegEnv) (st : RAUSCC) (v : LiveInterval)
    (splits : List LiveInterval) : RAUSCC × List LiveInterval :=
  ({ st with spilled := st.spilled ++ [v] }, splits ++ env.spillNew v)

/-- The method `RAUSCC::spillInterferences`.  The outer `none` is the failed
`assert(!Intfs.empty())`; `some none` is the result `false`; `some (some r)` is the result
`true` with the new state and `SplitVRegs`. -/
def RAUSCC.spillInterferences (env : RegEnv) (st : RAUSCC) (v : LiveInterval) (p : Nat)
    (splits : List LiveInterval) : Option (Option (RAUSCC × List LiveInterval)) :=
  let intfs := (st.interferingVRegs v p).reverse
  if (st.interferingVRegs v p).any (fun u => !u.spillable) then some none
  else if intfs.any (fun u => !u.spillable || decide (u.weight > v.weight)) then some none
  else if intfs = [] then none
  else
    some (some (intfs.foldl
      (fun (acc : RAUSCC × List LiveInterval) u =>
        if acc.1.hasPhys u then (acc.1.unassign u).spill env u acc.2 else acc)
      (st, splits)))

/-- The first loop of `selectOrSplit` over the allocation order: `Sum.inl p` when the
register `p` is free, otherwise `Sum.inr` of the spill candidates `PhysRegSpillCands`. -/
def scanOrder (env : RegEnv) (st : RAUSCC) (v : LiveInterval) :
    List Nat → List Nat → Nat ⊕ List Nat
  | [], cands => .inr cands
  | p :: rest, cands =>
    match st.checkInterference env v p with
    | .IK_Free => .inl p
    | .IK_VirtReg => scanOrder env st v rest (cands ++ [p])
    | .IK_RegUnit => scanOrder env st v rest cands

/-- The second loop of `selectOrSplit` over the spill candidates.  The outer `none` is a
failed `assert`; `some none` means that no candidate could be freed. -/
def trySpill (env : RegEnv) (st : RAUSCC) (v : LiveInterval) (splits : List LiveInterval) :
    List Nat → Option (Option (Nat × RAUSCC × List LiveInterval))
  | [] => some none
  | p :: rest =>
    match st.spillInterferences env v p splits with
    | none => none
    | some none => trySpill env st v splits rest
    | some (some r) =>
      if r.1.checkInterference env v p = .IK_Free then some (some (p, r.1, r.2)) else none

/-- The method `RAUSCC::selectOrSplit`: the returned register (`0` when the register was
spilled, `~0u` on failure), the new state and `SplitVRegs`.  `none` is a failed
`assert`. -/
def RAUSCC.selectOrSplit (env : RegEnv) (st : RAUSCC) (v : LiveInterval)
    (splits : List LiveInterval) : Option (Nat × RAUSCC × List LiveInterval) :=
  match scanOrder env st v (env.order v) [] with
  | .inl p => some (p, st, splits)
  | .inr cands =>
    match trySpill env st v splits cands with
    | none => none
    | some (some r) => some r
    | some none =>
      if !v.spillable then some (UINT32_MAX, st, splits)
      else
        let r := st.spill env v splits
        some (0, r.1, r.2)

/-- Modelled from the spec: one iteration of the loop of `RegAllocBase::allocatePhysRegs`
for the dequeued register `v`: `selectOrSplit` is called, the register it returns is
assigned, and the registers it created are enqueued.  `none` is a failed `assert` or the
fatal error raised when `selectOrSplit` returns `~0u`. -/
def RAUSCC.allocStep (env : RegEnv) (st : RAUSCC) (v : LiveInterval) : Option RAUSCC :=
  if st.hasPhys v then none
  else
    match st.selectOrSplit env v [] with
    | none => none
    | some (r, st1, splits) =>
      if r = UINT32_MAX then none
      else some (splits.foldl RAUSCC.enqueue (if r ≠ 0 then st1.assign v r else st1))

/-- Modelled from the spec: the loop `while (LiveInterval *VirtReg = dequeue())` of
`RegAllocBase::allocatePhysRegs`, the select phase.  The first argument bounds the
iterations. -/
def RAUSCC.allocLoop (env : RegEnv) : Nat → RAUSCC → Option RAUSCC
  | 0, _ => none
  | fuel + 1, st =>
    match st.dequeue with
    | (none, st1) => some st1
    | (some v, st1) =>
      match st1.allocStep env v with
      | none => none
      | some st2 => allocLoop env fuel st2

/-- Modelled from the spec: `RegAllocBase::allocatePhysRegs`: every register with a
non-debug use is enqueued (`seedLiveRegs`), then the select loop runs. -/
def RAUSCC.allocatePhysRegs (env : RegEnv) (mri : List VirtRegInfo) (st : RAUSCC) :
    Option RAUSCC :=
  let st1 := (liveIntervalsOf mri).foldl RAUSCC.enqueue st
  RAUSCC.allocLoop env (st1.stack.length + 1) st1

/-- One allocation round, the part of `RAUSCC::runOnMachineFunction` before
`releaseMemory`: `initGraph`, `simplifyGraph` and `allocatePhysRegs` on a new allocator
with `NUM_COLORS = K`. -/
def RAUSCC.allocationRound (K : Nat) (env : RegEnv) (mri : List VirtRegInfo) :
    Option RAUSCC :=
  match (RAUSCC.empty.initGraph mri).simplifyGraph K with
  | none => none
  | some st => st.allocatePhysRegs env mri

/-- The method `RAUSCC::releaseMemory`. -/
def RAUSCC.releaseMemory (st : RAUSCC) : RAUSCC :=
  { st with liveIntervals := [], interferenceGraph := [], stack := [] }

/-- The method `RAUSCC::runOnMachineFunction` for `NUM_COLORS = K`. -/
def RAUSCC.runOnMachineFunction (K : Nat) (env : RegEnv) (mri : List VirtRegInfo) :
    Option RAUSCC :=
  (RAUSCC.allocationRound K env mri).map RAUSCC.releaseMemory

/-- No two different registers whose live intervals overlap hold the same physical
register. -/
def NoConflict (a : List (LiveInterval × Nat)) : Prop :=
  ∀ x ∈ a, ∀ y ∈ a, x.1 ≠ y.1 → x.1.overlaps y.1 = true → x.2 ≠ y.2

/-! ### Concrete allocator inputs -/

/-- A register with the given number (as index), weight and ranges, spillable. -/
def mkReg (i w : Nat) (segs : List (Nat × Nat)) : LiveInterval :=
  ⟨2147483648 + i, w, true, segs⟩

/-- An environment with the palette `1, 2, 3, 4` for every register, no fixed
interference, and a spiller that creates no register. -/
def env4 : RegEnv := ⟨fun _ => [1, 2, 3, 4], fun _ _ => false, fun _ => []⟩

/-- An environment with the palette `1, 2`. -/
def env2 : RegEnv := ⟨fun _ => [1, 2], fun _ _ => false, fun _ => []⟩

/-- An environment with the single physical register `1` whose spiller creates, for a
spilled register, one register with a short range. -/
def env1 : RegEnv :=
  ⟨fun _ => [1], fun _ _ => false, fun v => [⟨v.reg + 100, FLT_MAX + 1, false, [(0, 1)]⟩]⟩

/-- A state of the select phase in which register 0, of weight 3, holds the physical
register `1`. -/
def stHeld : RAUSCC := { RAUSCC.empty with assigned := [(mkReg 0 3 [(0, 10)], 1)] }

/-- Two registers with a non-debug use whose live intervals overlap; register 0 has
weight 3 and register 1 has weight 5. -/
def twoRegs : List VirtRegInfo :=
  [⟨mkReg 0 3 [(0, 10)], false⟩, ⟨mkReg 1 5 [(0, 10)], false⟩]

/-! ## Notions used to state the properties of the eliminator -/

/-- The instruction is a terminator. -/
def Instruction.isTerminator (i : Instruction) : Bool :=
  match i.kind with
  | .other _ (some _) => true
  | _ => false

/-- The identities of the instructions of the function are pairwise different. -/
def Func.UniqueIds (F : Func) : Prop := (F.insts.map (fun i => i.id)).Nodup

instance (F : Func) : Decidable F.UniqueIds := by
  unfold Func.UniqueIds; infer_instance

/-- Every block ends with a terminator whose result no instruction uses (as `br`, `ret`,
`switch` and `unreachable`, which have no result). -/
def Func.termOK (F : Func) : Bool :=
  F.all (fun bb =>
    match bb.getLast? with
    | some t => t.isTerminator && F.numUses t.id == 0
    | none => false)

/-- An edge of the operand graph: the instruction `a` has the result of `b` as an
operand. -/
def Func.opEdge (F : Func) (a b : Nat) : Prop :=
  ∃ i ∈ F.insts, i.id = a ∧ Value.inst b ∈ i.operands

/-- The operand graph has no cycle. -/
def Func.Acyclic (F : Func) : Prop := ∀ a, ¬ Relation.TransGen F.opEdge a a

/-- The substitution made by the erasure of the instructions of `dead`: their results
become the undefined value. -/
def substDead (dead : DeadSet) (v : Value) : Value :=
  match v with
  | .inst j => if j ∈ dead then Value.undef else Value.inst j
  | .other n => Value.other n
  | .undef => Value.undef

/-- The function without the instructions of `dead`, their uses redirected. -/
def eraseAll (dead : DeadSet) (F : Func) : Func :=
  F.map (fun bb =>
    (bb.filter (fun i => decide (i.id ∉ dead))).map (Instruction.mapOperands (substDead dead)))

/-- The function `ret (++x)`: `x = alloca; v = load x; inc = add v, 1; store inc, x;
ret inc`. -/
def exRetInc : Func :=
  [ [ ⟨0, "x", .alloca (.other "1")⟩, ⟨1, "v", .load (.inst 0)⟩,
      ⟨2, "inc", .other [.inst 1, .other "1"] none⟩, ⟨3, "", .store (.inst 2) (.inst 0)⟩,
      ⟨4, "", .other [.inst 2] (some [])⟩ ] ]

/-- A function whose entry block ends with an `invoke`, a terminator with a result, that
the normal destination stores into a slot never read: `x = alloca; y = alloca;
r = invoke f to block 1 unwind block 2`, then block 1 `store r, x; store 7, y; t = load y;
br block 3`, the landing pad block 2 `lp = landingpad; br block 3`, and block 3 `ret`. -/
def exInvoke : Func :=
  [ [ ⟨0, "x", .alloca (.other "1")⟩, ⟨1, "y", .alloca (.other "1")⟩,
      ⟨2, "r", .other [.other "f"] (some [1, 2])⟩ ],
    [ ⟨3, "", .store (.inst 2) (.inst 0)⟩, ⟨4, "", .store (.other "7") (.inst 1)⟩,
      ⟨5, "t", .load (.inst 1)⟩, ⟨6, "", .other [] (some [3])⟩ ],
    [ ⟨7, "lp", .other [] none⟩, ⟨8, "", .other [] (some [3])⟩ ],
    [ ⟨9, "", .other [] (some [])⟩ ] ]

/-- Every operand that is an instruction has a smaller identity than its user: the
instructions are numbered in definition order and no operand refers forward.  A
decidable condition under which the operand graph has no cycle. -/
def Func.opsOrdered (F : Func) : Bool :=
  F.insts.all (fun i =>
    i.operands.all (fun v =>
      match v with
      | .inst b => decide (b < i.id)
      | _ => true))

/-- The function without the instructions that a test rejects. -/
def filterBlocks (keep : Instruction → Bool) (F : Func) : Func :=
  F.map (fun bb => bb.filter keep)

/-- Liveness of a slot at the head of a block, told block by block: the slot is in the
`Use` set of the block, or it is not in its `Def` set and is live at the head of a
successor. -/
inductive BlockLive (F : Func) (N : LiveSet) (x : Name) : Nat → Prop where
  | use (b : Nat) : x ∈ bb2Use F N b → BlockLive F N x b
  | through (b s : Nat) : x ∉ bb2Def F N b → s ∈ F.succs b → BlockLive F N x s →
      BlockLive F N x b

/-- The keys of the map, in iteration order. -/
def Graph.keys (g : Graph) : List LiveInterval := g.map Prod.fst

/-- The map is the interference graph of its keys: no key occurs twice, and the
neighbour set of a key holds, once each, the other keys whose live interval overlaps
that of the key. -/
def Graph.IsOverlapGraph (g : Graph) : Prop :=
  g.keys.Nodup ∧ ∀ v ∈ g.keys, (g.neighbours v).Nodup ∧
    ∀ u, u ∈ g.neighbours v ↔ (u ∈ g.keys ∧ u ≠ v ∧ v.overlaps u = true)

/-- The map has the keys `ivs`, and the neighbour set of each key holds, once each, only
other registers of `ivs` whose live interval overlaps that of the key: what holds
throughout the second loop of `initGraph`. -/
def Graph.SoundFor (ivs : List LiveInterval) (g : Graph) : Prop :=
  g.keys = ivs ∧ ∀ v ∈ ivs, (g.neighbours v).Nodup ∧
    ∀ u ∈ g.neighbours v, u ∈ ivs ∧ u ≠ v ∧ v.overlaps u = true

/-- Every non-empty set of registers of `ivs` has a register, with a number below
`UINT32_MAX`, whose live interval overlaps those of fewer than `K` others of the set:
the condition under which the simplify step empties the graph. -/
def Degenerate (K : Nat) (ivs : List LiveInterval) : Prop :=
  ∀ l : List LiveInterval, l ≠ [] → l.Nodup → (∀ v ∈ l, v ∈ ivs) →
    ∃ v ∈ l, (l.filter (fun u => decide (u ≠ v) && v.overlaps u)).length < K ∧
      v.reg < UINT32_MAX

/-- Every register of the stack overlaps fewer than `K` of the registers that are above it
in the stack or still keys of the graph. -/
def StackInv (K : Nat) (keys stk : List LiveInterval) : Prop :=
  ∀ pre x suf, stk = pre ++ x :: suf →
    pre.countP (fun u => x.overlaps u) + keys.countP (fun u => x.overlaps u) < K

/-- The live interval is a single non-empty range `[start, end)`. -/
def LiveInterval.isRange (v : LiveInterval) : Bool :=
  match v.segs with
  | [(s, e)] => decide (s < e)
  | _ => false

/-- Five registers whose interference graph is a cycle of length five, with at most two of
them live at any program point: register 0 has the two ranges `[0, 2)` and `[8, 10)`, the
others the ranges `[1, 4)`, `[3, 6)`, `[5, 7)` and `[6, 9)`. -/
def exCycle5 : List VirtRegInfo :=
  [⟨mkReg 0 1 [(0, 2), (8, 10)], false⟩, ⟨mkReg 1 1 [(1, 4)], false⟩,
    ⟨mkReg 2 1 [(3, 6)], false⟩, ⟨mkReg 3 1 [(5, 7)], false⟩, ⟨mkReg 4 1 [(6, 9)], false⟩]

/-- Three registers with single ranges `[0, 4)`, `[2, 6)` and `[5, 8)`: at most two are
live at any program point. -/
def exChain3 : List VirtRegInfo :=
  [⟨mkReg 0 1 [(0, 4)], false⟩, ⟨mkReg 1 1 [(2, 6)], false⟩, ⟨mkReg 2 1 [(5, 8)], false⟩]

/-- Five registers with the same range, hence all overlapping each other, with the spill
weights 5, 3, 1, 4 and 2: register 2 has the least weight. -/
def exFive : List VirtRegInfo :=
  [⟨mkReg 0 5 [(0, 10)], false⟩, ⟨mkReg 1 3 [(0, 10)], false⟩, ⟨mkReg 2 1 [(0, 10)], false⟩,
    ⟨mkReg 3 4 [(0, 10)], false⟩, ⟨mkReg 4 2 [(0, 10)], false⟩]

/-- Five registers with the same range and the same spill weight. -/
def exFiveTied : List VirtRegInfo :=
  [⟨mkReg 0 1 [(0, 10)], false⟩, ⟨mkReg 1 1 [(0, 10)], false⟩, ⟨mkReg 2 1 [(0, 10)], false⟩,
    ⟨mkReg 3 1 [(0, 10)], false⟩, ⟨mkReg 4 1 [(0, 10)], false⟩]

/-! ## Notions used to state further properties of the analysis -/

/-- The first access to the slot `x` in a list of instructions, in forward order:
`some true` when it is a load of `x`, `some false` when it is a store to `x`, `none` when
no instruction of the list accesses the slot. -/
def firstAccess (F : Func) (x : Name) : List Instruction → Option Bool
  | [] => none
  | i :: rest =>
    if isLoadOf F x i then some true
    else if isStoreTo F x i then some false
    else firstAccess F x rest

/-- The control-flow graph has no cycle. -/
def Func.CfgAcyclic (F : Func) : Prop :=
  ∀ a, ¬ Relation.TransGen (fun a c => c ∈ F.succs a) a a

/-- In the sequence of blocks, every block appears after all of its successors. -/
def PostOrdered (F : Func) (l : List Nat) : Prop :=
  ∀ pre v suf, l = pre ++ v :: suf → ∀ u ∈ F.succs v, u ∈ pre

/-- The families `inS` and `outS` of sets satisfy the two dataflow equations
`In[b] = Use[b] ∪ (Out[b] − Def[b])` and `Out[b] = ⋃ In[s]`, `s` a successor of `b`, at
every block reachable from the entry. -/
def IsSolution (F : Func) (N : LiveSet) (inS outS : Nat → LiveSet) : Prop :=
  ∀ b, F.Reachable b →
    inS b = bb2Use F N b ∪ (outS b \ bb2Def F N b) ∧
      outS b = (F.succs b).toFinset.biUnion inS

/-! ## Notions used to state further properties of the eliminator -/

/-- The walk of `findDeadDefinitions` from the instruction `inst` reaches the instruction
with identity `id`: `id` is an operand of `inst` that is an instruction with exactly one
use and is not a call, or it is reached this way from such an operand. -/
inductive Chain (F : Func) : Instruction → Nat → Prop where
  | here (inst src : Instruction) (id : Nat) : Value.inst id ∈ inst.operands →
      F.findInst id = some src → F.hasOneUse id = true → src.isCall = false →
      Chain F inst id
  | there (inst src : Instruction) (id id2 : Nat) : Value.inst id ∈ inst.operands →
      F.findInst id = some src → F.hasOneUse id = true → src.isCall = false →
      Chain F src id2 → Chain F inst id2

/-- A function in which the stored value is also the operand of a comparison:
`x = alloca; t = add a, 1; store t, x; c = icmp t, 0; br c, block 1, block 1`, then
`ret` (the statement `if ((x = a + 1) != 0)` with `x` never read). -/
def exAssignCond : Func :=
  [ [ ⟨0, "x", .alloca (.other "1")⟩, ⟨1, "t", .other [.other "a", .other "1"] none⟩,
      ⟨2, "", .store (.inst 1) (.inst 0)⟩, ⟨3, "c", .other [.inst 1, .other "0"] none⟩,
      ⟨4, "", .other [.inst 3] (some [1, 1])⟩ ],
    [ ⟨5, "", .other [] (some [])⟩ ] ]

/-- A function with a slot that is never used: `x = alloca; ret`. -/
def exUnusedAlloca : Func :=
  [ [ ⟨0, "x", .alloca (.other "1")⟩, ⟨1, "", .other [] (some [])⟩ ] ]

/-! ## Notions used to state further properties of the allocator -/

/-- The graph is well formed: every register of a neighbour set is a key of the map and
is not the key of the set, and the edges are symmetric. -/
def Graph.WellFormed (g : Graph) : Prop :=
  ∀ v ∈ g.keys, ∀ u ∈ g.neighbours v, u ∈ g.keys ∧ u ≠ v ∧ v ∈ g.neighbours u

/-- One node removal of `simplifyGraph` on the pair of the graph and the stack: the
removal of the entry found by the simplify step, or that of the spill candidate. -/
inductive Removal (K : Nat) : Graph × List LiveInterval → Graph × List LiveInterval → Prop where
  | simplify (g : Graph) (stk : List LiveInterval) (e : LiveInterval × NodeSet) :
      (findLowest K g).1 = some e → Removal K (g, stk) (removeNode g e, e.1 :: stk)
  | spill (g : Graph) (stk : List LiveInterval) (w : Nat) (e : LiveInterval × NodeSet) :
      g ≠ [] → findMin g = some (w, some e) →
      Removal K (g, stk) ((removeSpill K g e).1, e.1 :: stk)

/-- Two overlapping registers, the first with the spill weight `FLT_MAX` and the second
with the spill weight 1, in the order of their numbers. -/
def exFltMax : List VirtRegInfo :=
  [⟨mkReg 0 FLT_MAX [(0, 10)], false⟩, ⟨mkReg 1 1 [(0, 10)], false⟩]

/-- One node removal of `simplifyGraph` with the moment at which it happens: a simplify step
removes the entry found by the simplify loop; a spill step removes the spill candidate of a
non-empty graph in which every entry has at least `K` neighbours. -/
inductive ReductionStep (K : Nat) :
    Graph × List LiveInterval → Graph × List LiveInterval → Prop where
  | simplify (g : Graph) (stk : List LiveInterval) (e : LiveInterval × NodeSet) :
      (findLowest K g).1 = some e → ReductionStep K (g, stk) (removeNode g e, e.1 :: stk)
  | spill (g : Graph) (stk : List LiveInterval) (w : Nat) (e : LiveInterval × NodeSet) :
      g ≠ [] → (∀ x ∈ g, K ≤ x.2.length) → findMin g = some (w, some e) →
      ReductionStep K (g, stk) ((removeSpill K g e).1, e.1 :: stk)

/-- One iteration of the select loop: a register is dequeued and `selectOrSplit` is run for
it. -/
def SelectStep (env : RegEnv) (st st2 : RAUSCC) : Prop :=
  ∃ v st1, st.dequeue = (some v, st1) ∧ st1.allocStep env v = some st2

/-- The results of `n` successive calls of `RAUSCC::dequeue`, and the state they leave. -/
def dequeueN : Nat → RAUSCC → List (Option LiveInterval) × RAUSCC
  | 0, st => ([], st)
  | n + 1, st =>
    let r := st.dequeue
    let rest := dequeueN n r.2
    (r.1 :: rest.1, rest.2)

/-- The registers pushed by a sequence of node removals, in the order of the pushes. -/
inductive Pushes (K : Nat) :
    Graph × List LiveInterval → List LiveInterval → Graph × List LiveInterval → Prop where
  | done (s : Graph × List LiveInterval) : Pushes K s [] s
  | push (s t u : Graph × List LiveInterval) (x : LiveInterval) (l : List LiveInterval) :
      Removal K s t → t.2 = x :: s.2 → Pushes K t l u → Pushes K s (x :: l) u

/-- Two overlapping registers whose spill weights are above `FLT_MAX` (the weight of a
register marked not spillable is infinite). -/
def exInfWeights : List VirtRegInfo :=
  [⟨mkReg 0 (FLT_MAX + 1) [(0, 10)], false⟩, ⟨mkReg 1 (FLT_MAX + 1) [(0, 10)], false⟩]

/-- The state that `simplifyGraph` leaves on the three registers of `exChain3` with two
colours: the graph is empty and register 2, pushed last, is at the top of the stack. -/
def exChain3Simplified : RAUSCC :=
  ⟨[], [mkReg 0 1 [(0, 4)], mkReg 1 1 [(2, 6)], mkReg 2 1 [(5, 8)]],
    [mkReg 2 1 [(5, 8)], mkReg 1 1 [(2, 6)], mkReg 0 1 [(0, 4)]], [], [], []⟩

/-! ## The parser of expressions and of the return statement

The functions of `ParseExpr.cpp` and `Parser::parseReturnStmt` of `ParseStmt.cpp`.  The
scanner, the symbol table, the classes of the syntax tree and the helper methods of the
class `Parser` that these functions call are not among the sources: the token stream and
the members of the parser that the functions read or write are a record, the syntax tree
is an inductive type with one constructor for each class that the functions build, and
what the functions ask of the symbol table and of the tree nodes is a parameter. -/

/-- Modelled from the spec: the values of `Token::Tokens` that the functions test; every
other token is `Other`. -/
inductive Token where
  | Or | And | EqualTo | NotEqual | LessThan | GreaterThan | Plus | Minus | Mult | Div | Mod
  | Not | LParen | RParen | LBracket | RBracket | Comma | SemiColon | Inc | Dec | Addr
  | Identifier | Constant | String | Key_return | EndOfFile | Other
  deriving DecidableEq

/-- Modelled from the spec: the enumeration `Type` of the types of USC. -/
inductive Ty where
  | Void | Int | Char | IntArray | CharArray | Function
  deriving DecidableEq

/-- Modelled from the spec: the expression nodes that the functions build.  An identifier
is given by its name; `array n e` is `ASTArrayExpr` on `ASTArraySub(n, e)`; `func n` is the
`ASTFuncExpr` of `n` without argument and `addArg c a` the node `c` after
`c->addArg(a)`; `toInt` and `toChar` are the conversion nodes. -/
inductive ASTExpr where
  | logicalOr (lhs rhs : ASTExpr)
  | logicalAnd (lhs rhs : ASTExpr)
  | binaryCmp (op : Token) (lhs rhs : ASTExpr)
  | binaryMath (op : Token) (lhs rhs : ASTExpr)
  | notExpr (e : ASTExpr)
  | constant (txt : String)
  | string (txt : String)
  | ident (name : String)
  | array (name : String) (sub : ASTExpr)
  | func (name : String)
  | addArg (call arg : ASTExpr)
  | inc (name : String)
  | dec (name : String)
  | addrOfArray (name : String) (sub : ASTExpr)
  | toInt (e : ASTExpr)
  | toChar (e : ASTExpr)
  deriving DecidableEq

/-- Modelled from the spec: the node `ASTReturnStmt`, with its expression or `nullptr`. -/
structure ASTReturnStmt where
  expr : Option ASTExpr
  deriving DecidableEq

/-- Modelled from the spec: the exceptions derived from `ParseExcept` that the functions
throw, directly or through `matchToken`. -/
inductive ParseExcept where
  | OperandMissing (op : Token)
  | ParseExceptMsg (msg : String)
  | EOFExcept
  | TokenMismatch (expected got : Token)
  deriving DecidableEq

/-- The ways a parse function ends: it returns a value, it throws a `ParseExcept`, it
calls a method through a null pointer, or the bound on the recursion of the embedding is
exhausted. -/
inductive Outcome (α : Type) where
  | ok (a : α)
  | throw (e : ParseExcept)
  | nullDeref
  | outOfFuel
  deriving DecidableEq

/-- The members of the class `Parser` that the functions read or write: the tokens not yet
consumed, with their text (the current token first), the members `mUnusedIdent` and
`mUnusedArray`, the errors reported so far and the member `mNeedPrintf`. -/
structure ParserState where
  toks : List (Token × String)
  mUnusedIdent : Option String
  mUnusedArray : Option (String × ASTExpr)
  errors : List String
  mNeedPrintf : Bool
  deriving DecidableEq

/-- What the functions ask of the rest of the compiler: the members `mCheckSemant` and
`mCurrReturnType`, the symbol table (whether a name is declared, its type, whether it is a
dummy identifier, and for a function the number of its arguments, `checkArgType` and
`getArgType`), the methods `getType` and `finalizeOp` of the nodes, and the conversions
`charToInt` and `intToChar`. -/
structure ParseEnv where
  mCheckSemant : Bool
  mCurrReturnType : Ty
  declared : String → Bool
  identType : String → Ty
  isDummy : String → Bool
  getNumArgs : String → Nat
  checkArgType : String → Nat → Ty → Bool
  getArgType : String → Nat → Ty
  getType : ASTExpr → Ty
  finalizeOp : ASTExpr → Bool
  charToInt : ASTExpr → ASTExpr
  intToChar : ASTExpr → ASTExpr

/-- The result of a parse function with the state it leaves. -/
abbrev PResult (α : Type) := Outcome α × ParserState

/-- A function that parses an expression: it returns a node or `nullptr`. -/
abbrev ExprParser := ParserState → PResult (Option ASTExpr)

/-- Modelled from the spec: `peekToken()`, the current token, `EndOfFile` at the end. -/
def peekToken (s : ParserState) : Token :=
  match s.toks with
  | [] => .EndOfFile
  | t :: _ => t.1

/-- Modelled from the spec: `getTokenTxt()`, the text of the current token. -/
def getTokenTxt (s : ParserState) : String :=
  match s.toks with
  | [] => ""
  | t :: _ => t.2

/-- Modelled from the spec: `consumeToken()`. -/
def consumeToken (s : ParserState) : ParserState := { s with toks := s.toks.tail }

/-- Modelled from the spec: `consumeUntil(tok)`: tokens are consumed until the current one
is `tok` or the end of the file. -/
def consumeUntil (tok : Token) (s : ParserState) : ParserState :=
  { s with toks := s.toks.dropWhile (fun t => decide (t.1 ≠ tok)) }

/-- Modelled from the spec: `matchToken(tok)`: the current token is consumed when it is
`tok`, and `TokenMismatch` is thrown otherwise. -/
def matchToken (tok : Token) (s : ParserState) : PResult Unit :=
  if peekToken s = tok then (.ok (), consumeToken s)
  else (.throw (.TokenMismatch tok (peekToken s)), s)

/-- Modelled from the spec: `reportSemantError` and `reportError`: the error is recorded
and parsing goes on.  The texts of the messages are shortened. -/
def reportError (msg : String) (s : ParserState) : ParserState :=
  { s with errors := s.errors ++ [msg] }

/-- Modelled from the spec: `getVariable(name)`: the identifier of that name, or the dummy
identifier `@@variable` with an error when the name is not declared. -/
def getVariable (env : ParseEnv) (name : String) (s : ParserState) : String × ParserState :=
  if env.declared name then (name, s)
  else ("@@variable", reportError "use of undeclared identifier" s)

/-- Sequencing: the second function runs on the state that the first one leaves when it
returns; an exception, a null dereference or the exhaustion of the bound ends both. -/
def andThen {α β : Type} (p : ParserState → PResult α) (f : α → ParserState → PResult β) :
    ParserState → PResult β :=
  fun s =>
    match p s with
    | (.ok a, s1) => f a s1
    | (.throw e, s1) => (.throw e, s1)
    | (.nullDeref, s1) => (.nullDeref, s1)
    | (.outOfFuel, s1) => (.outOfFuel, s1)

/-- The chain `if ((retVal = p())) ; else if ((retVal = q()))` of `parseFactor`: `q` is
tried, on the state that `p` leaves, when `p` returns `nullptr`. -/
def orElse (p q : ExprParser) : ExprParser :=
  fun s =>
    match p s with
    | (.ok none, s1) => q s1
    | r => r

/-- The function `Parser::parseConstantFactor`. -/
def parseConstantFactor : ExprParser :=
  fun s =>
    if peekToken s = .Constant then (.ok (some (.constant (getTokenTxt s))), consumeToken s)
    else (.ok none, s)

/-- The function `Parser::parseStringFactor`. -/
def parseStringFactor : ExprParser :=
  fun s =>
    if peekToken s = .String then (.ok (some (.string (getTokenTxt s))), consumeToken s)
    else (.ok none, s)

/-- The function `Parser::parseParenFactor`; `pe` is `parseExpr`. -/
def parseParenFactor (pe : ExprParser) : ExprParser :=
  fun s =>
    if peekToken s = .LParen then
      andThen pe
        (fun r s1 =>
          match r with
          | none => (.throw (.ParseExceptMsg "Not a valid expression inside parenthesis"), s1)
          | some e => andThen (matchToken .RParen) (fun _ s2 => (.ok (some e), s2)) s1)
        (consumeToken s)
    else (.ok none, s)

/-- The function `Parser::parseIncFactor`. -/
def parseIncFactor (env : ParseEnv) : ExprParser :=
  fun s =>
    if peekToken s = .Inc then
      let s1 := consumeToken s
      let v := getVariable env (getTokenTxt s1) s1
      andThen (matchToken .Identifier) (fun _ s2 => (.ok (some (env.charToInt (.inc v.1))), s2))
        v.2
    else (.ok none, s)

/-- The function `Parser::parseDecFactor`. -/
def parseDecFactor (env : ParseEnv) : ExprParser :=
  fun s =>
    if peekToken s = .Dec then
      let s1 := consumeToken s
      let v := getVariable env (getTokenTxt s1) s1
      andThen (matchToken .Identifier) (fun _ s2 => (.ok (some (env.charToInt (.dec v.1))), s2))
        v.2
    else (.ok none, s)

/-- The function `Parser::parseAddrOfArrayFactor`; `pe` is `parseExpr`. -/
def parseAddrOfArrayFactor (env : ParseEnv) (pe : ExprParser) : ExprParser :=
  fun s =>
    if peekToken s = .Addr then
      let s1 := consumeToken s
      if peekToken s1 ≠ .Identifier then
        (.throw (.ParseExceptMsg "& must be followed by an identifier."), s1)
      else
        let v := getVariable env (getTokenTxt s1) s1
        andThen (matchToken .LBracket)
          (fun _ => andThen pe
            (fun r s3 =>
              match r with
              | none => (.throw (.ParseExceptMsg "Missing required subscript expression."), s3)
              | some e =>
                andThen (matchToken .RBracket)
                  (fun _ s4 => (.ok (some (.addrOfArray v.1 e)), s4)) s3))
          (consumeToken v.2)
    else (.ok none, s)

/-- The `catch (ParseExcept& e)` blocks of `parseIdentFactor`: the error is reported, the
tokens up to `tok` are skipped, and `EOFExcept` is thrown at the end of the file. -/
def recover (tok : Token) (s : ParserState) : PResult Unit :=
  let s1 := consumeUntil tok (reportError "parse error" s)
  if peekToken s1 = .EndOfFile then (.throw .EOFExcept, s1) else (.ok (), s1)

/-- The branch of `parseIdentFactor` for an identifier followed by `[`. -/
def identIndex (env : ParseEnv) (pe : ExprParser) (ident : String) : ExprParser :=
  fun s =>
    if env.mCheckSemant && decide (env.identType ident ≠ .IntArray) &&
        decide (env.identType ident ≠ .CharArray) && !env.isDummy ident then
      let s1 := consumeUntil .RBracket (reportError "not an array" s)
      if peekToken s1 = .EndOfFile then (.throw .EOFExcept, s1)
      else andThen (matchToken .RBracket) (fun _ s2 => (.ok (some (.ident "@@variable")), s2)) s1
    else
      match pe (consumeToken s) with
      | (.ok (some e), s1) =>
        andThen (matchToken .RBracket) (fun _ s2 => (.ok (some (.array ident e)), s2)) s1
      | (.ok none, s1) =>
        andThen (recover .RBracket)
          (fun _ => andThen (matchToken .RBracket) (fun _ s3 => (.ok none, s3))) s1
      | (.throw _, s1) =>
        andThen (recover .RBracket)
          (fun _ => andThen (matchToken .RBracket) (fun _ s3 => (.ok none, s3))) s1
      | (.nullDeref, s1) => (.nullDeref, s1)
      | (.outOfFuel, s1) => (.outOfFuel, s1)

/-- The checks made on the argument number `currArg` of a call of `ident`, which may
convert the argument. -/
def checkArg (env : ParseEnv) (ident : String) (currArg : Nat) (arg : ASTExpr)
    (s : ParserState) : ASTExpr × ParserState :=
  if env.isDummy ident then (arg, s)
  else if ident = "printf" then
    let s1 := { s with mNeedPrintf := true }
    if currArg = 1 ∧ env.getType arg ≠ .CharArray then
      (arg, reportError "The first parameter to printf must be a char[]" s1)
    else (arg, s1)
  else if env.mCheckSemant then
    if currArg > env.getNumArgs ident then (arg, reportError "too many arguments" s)
    else if !env.checkArgType ident currArg (env.getType arg) then
      if env.getType arg = .Int ∧ env.getArgType ident currArg = .Char then
        (env.intToChar arg, s)
      else (arg, reportError "unexpected type of argument" s)
    else (arg, s)
  else (arg, s)

/-- The loop `while (arg)` of `parseIdentFactor` on the argument `arg` just parsed: the
outcome, the call node with the arguments added so far and their number.  The first
argument bounds the iterations. -/
def parseArgs (env : ParseEnv) (pe : ExprParser) (ident : String) :
    Nat → Nat → ASTExpr → ASTExpr → ParserState → Outcome Unit × ASTExpr × Nat × ParserState
  | 0, currArg, call, _, s => (.outOfFuel, call, currArg - 1, s)
  | fuel + 1, currArg, call, arg, s =>
    let c := checkArg env ident currArg arg s
    if peekToken c.2 = .Comma then
      match pe (consumeToken c.2) with
      | (.ok (some a), s2) =>
        parseArgs env pe ident fuel (currArg + 1) (ASTExpr.addArg call c.1) a s2
      | (.ok none, s2) =>
        (.throw (.ParseExceptMsg "Comma must be followed by expression in function call"),
          ASTExpr.addArg call c.1, currArg, s2)
      | (.throw e, s2) => (.throw e, ASTExpr.addArg call c.1, currArg, s2)
      | (.nullDeref, s2) => (.nullDeref, ASTExpr.addArg call c.1, currArg, s2)
      | (.outOfFuel, s2) => (.outOfFuel, ASTExpr.addArg call c.1, currArg, s2)
    else (.ok (), ASTExpr.addArg call c.1, currArg, c.2)

/-- The end of the branch of `parseIdentFactor` for a call: the number of arguments is
checked and `)` is matched. -/
def afterArgs (env : ParseEnv) (ident : String) (call : ASTExpr) (n : Nat) : ExprParser :=
  fun s =>
    let s1 :=
      if env.isDummy ident then s
      else if ident = "printf" then
        if n = 0 then reportError "printf requires a minimum of one argument" s else s
      else if env.mCheckSemant && decide (n < env.getNumArgs ident) then
        reportError "too few arguments" s
      else s
    andThen (matchToken .RParen) (fun _ s2 => (.ok (some call), s2)) s1

/-- The branch of `parseIdentFactor` for an identifier followed by `(`. -/
def identCall (env : ParseEnv) (pe : ExprParser) (ident : String) : ExprParser :=
  fun s =>
    if env.mCheckSemant && decide (env.identType ident ≠ .Function) &&
        !env.isDummy ident then
      let s1 := consumeUntil .RParen (reportError "not a function" s)
      if peekToken s1 = .EndOfFile then (.throw .EOFExcept, s1)
      else andThen (matchToken .RParen) (fun _ s2 => (.ok (some (.ident "@@variable")), s2)) s1
    else
      let r : Outcome Unit × ASTExpr × Nat × ParserState :=
        match pe (consumeToken s) with
        | (.ok (some a), s2) =>
          parseArgs env pe ident (s2.toks.length + 1) 1 (.func ident) a s2
        | (.ok none, s2) => (.ok (), .func ident, 0, s2)
        | (.throw e, s2) => (.throw e, .func ident, 0, s2)
        | (.nullDeref, s2) => (.nullDeref, .func ident, 0, s2)
        | (.outOfFuel, s2) => (.outOfFuel, .func ident, 0, s2)
      match r with
      | (.ok _, call, n, s2) => afterArgs env ident call n s2
      | (.throw _, call, n, s2) =>
        andThen (recover .RParen) (fun _ => afterArgs env ident call n) s2
      | (.nullDeref, _, _, s2) => (.nullDeref, s2)
      | (.outOfFuel, _, _, s2) => (.outOfFuel, s2)

/-- The function `Parser::parseIdentFactor`; `pe` is `parseExpr`.  The conversion
`charToInt` at the end is applied to a node; what it does to the null pointer that the
recovery from a bad subscript leaves is not in the sources, and the null pointer is
returned. -/
def parseIdentFactor (env : ParseEnv) (pe : ExprParser) : ExprParser :=
  fun s =>
    if peekToken s = .Identifier ∨ s.mUnusedIdent.isSome = true ∨
        s.mUnusedArray.isSome = true then
      match s.mUnusedArray with
      | some a => (.ok (some (.array a.1 a.2)), { s with mUnusedArray := none })
      | none =>
        let v : String × ParserState :=
          match s.mUnusedIdent with
          | some i => (i, { s with mUnusedIdent := none })
          | none => ((getVariable env (getTokenTxt s) s).1,
              consumeToken (getVariable env (getTokenTxt s) s).2)
        let r : PResult (Option ASTExpr) :=
          if peekToken v.2 = .LBracket then identIndex env pe v.1 v.2
          else if peekToken v.2 = .LParen then identCall env pe v.1 v.2
          else (.ok (some (.ident v.1)), v.2)
        match r with
        | (.ok e, s1) => (.ok (e.map env.charToInt), s1)
        | other => other
    else (.ok none, s)

/-- The function `Parser::parseFactor`; `pe` is `parseExpr`. -/
def parseFactor (env : ParseEnv) (pe : ExprParser) : ExprParser :=
  orElse (parseIdentFactor env pe)
    (orElse parseConstantFactor
      (orElse parseStringFactor
        (orElse (parseParenFactor pe)
          (orElse (parseIncFactor env)
            (orElse (parseDecFactor env) (parseAddrOfArrayFactor env pe))))))

/-- The function `Parser::parseValue`; `pe` is `parseExpr`. -/
def parseValue (env : ParseEnv) (pe : ExprParser) : ExprParser :=
  fun s =>
    if peekToken s = .Not then
      match parseFactor env pe (consumeToken s) with
      | (.ok (some f), s1) => (.ok (some (.notExpr f)), s1)
      | (.ok none, s1) => (.throw (.ParseExceptMsg "! must be followed by an expression."), s1)
      | r => r
    else parseFactor env pe s

/-- The test `if (!retVal->finalizeOp())` of the functions for the binary operators: an
error is reported when the operand types do not fit. -/
def finalize (env : ParseEnv) (node : ASTExpr) (s : ParserState) : ParserState :=
  if env.finalizeOp node then s else reportError "Cannot perform op between types" s

/-- The function `Parser::parseTermPrime`; `pe` is `parseExpr`.  The first argument bounds
the depth of the recursion. -/
def parseTermPrime (env : ParseEnv) (pe : ExprParser) : Nat → ASTExpr → ExprParser
  | 0, _ => fun s => (.outOfFuel, s)
  | fuel + 1, lhs => fun s =>
    if peekToken s ∈ [Token.Mult, Token.Div, Token.Mod] then
      match parseValue env pe (consumeToken s) with
      | (.ok (some rhs), s1) =>
        match parseTermPrime env pe fuel (.binaryMath (peekToken s) lhs rhs)
            (finalize env (.binaryMath (peekToken s) lhs rhs) s1) with
        | (.ok none, s2) => (.ok (some (.binaryMath (peekToken s) lhs rhs)), s2)
        | r => r
      | (.ok none, s1) => (.throw (.OperandMissing (peekToken s)), s1)
      | r => r
    else (.ok none, s)

/-- The function `Parser::parseTerm`; `pe` is `parseExpr`. -/
def parseTerm (env : ParseEnv) (pe : ExprParser) : ExprParser :=
  fun s =>
    match parseValue env pe s with
    | (.ok (some v), s1) =>
      match parseTermPrime env pe (s1.toks.length + 1) v s1 with
      | (.ok none, s2) => (.ok (some v), s2)
      | r => r
    | r => r

/-- The function `Parser::parseNumExprPrime`; `pe` is `parseExpr`. -/
def parseNumExprPrime (env : ParseEnv) (pe : ExprParser) : Nat → ASTExpr → ExprParser
  | 0, _ => fun s => (.outOfFuel, s)
  | fuel + 1, lhs => fun s =>
    if peekToken s ∈ [Token.Plus, Token.Minus] then
      match parseTerm env pe (consumeToken s) with
      | (.ok (some rhs), s1) =>
        match parseNumExprPrime env pe fuel (.binaryMath (peekToken s) lhs rhs)
            (finalize env (.binaryMath (peekToken s) lhs rhs) s1) with
        | (.ok none, s2) => (.ok (some (.binaryMath (peekToken s) lhs rhs)), s2)
        | r => r
      | (.ok none, s1) => (.throw (.OperandMissing (peekToken s)), s1)
      | r => r
    else (.ok none, s)

/-- The function `Parser::parseNumExpr`; `pe` is `parseExpr`. -/
def parseNumExpr (env : ParseEnv) (pe : ExprParser) : ExprParser :=
  fun s =>
    match parseTerm env pe s with
    | (.ok (some v), s1) =>
      match parseNumExprPrime env pe (s1.toks.length + 1) v s1 with
      | (.ok none, s2) => (.ok (some v), s2)
      | r => r
    | r => r

/-- The function `Parser::parseRelExprPrime`; `pe` is `parseExpr`. -/
def parseRelExprPrime (env : ParseEnv) (pe : ExprParser) : Nat → ASTExpr → ExprParser
  | 0, _ => fun s => (.outOfFuel, s)
  | fuel + 1, lhs => fun s =>
    if peekToken s ∈ [Token.EqualTo, Token.NotEqual, Token.LessThan, Token.GreaterThan] then
      match parseNumExpr env pe (consumeToken s) with
      | (.ok (some rhs), s1) =>
        match parseRelExprPrime env pe fuel (.binaryCmp (peekToken s) lhs rhs)
            (finalize env (.binaryCmp (peekToken s) lhs rhs) s1) with
        | (.ok none, s2) => (.ok (some (.binaryCmp (peekToken s) lhs rhs)), s2)
        | r => r
      | (.ok none, s1) => (.throw (.OperandMissing (peekToken s)), s1)
      | r => r
    else (.ok none, s)

/-- The function `Parser::parseRelExpr`; `pe` is `parseExpr`. -/
def parseRelExpr (env : ParseEnv) (pe : ExprParser) : ExprParser :=
  fun s =>
    match parseNumExpr env pe s with
    | (.ok (some v), s1) =>
      match parseRelExprPrime env pe (s1.toks.length + 1) v s1 with
      | (.ok none, s2) => (.ok (some v), s2)
      | r => r
    | r => r

/-- The function `Parser::parseAndTermPrime`; `pe` is `parseExpr`. -/
def parseAndTermPrime (env : ParseEnv) (pe : ExprParser) : Nat → ASTExpr → ExprParser
  | 0, _ => fun s => (.outOfFuel, s)
  | fuel + 1, lhs => fun s =>
    if peekToken s = .And then
      match parseRelExpr env pe (consumeToken s) with
      | (.ok (some rhs), s1) =>
        match parseAndTermPrime env pe fuel (.logicalAnd lhs rhs)
            (finalize env (.logicalAnd lhs rhs) s1) with
        | (.ok none, s2) => (.ok (some (.logicalAnd lhs rhs)), s2)
        | r => r
      | (.ok none, s1) => (.throw (.OperandMissing .And), s1)
      | r => r
    else (.ok none, s)

/-- The function `Parser::parseAndTerm`; `pe` is `parseExpr`. -/
def parseAndTerm (env : ParseEnv) (pe : ExprParser) : ExprParser :=
  fun s =>
    match parseRelExpr env pe s with
    | (.ok (some v), s1) =>
      match parseAndTermPrime env pe (s1.toks.length + 1) v s1 with
      | (.ok none, s2) => (.ok (some v), s2)
      | r => r
    | r => r

/-- The function `Parser::parseExprPrime`; `pe` is `parseExpr`. -/
def parseExprPrime (env : ParseEnv) (pe : ExprParser) : Nat → ASTExpr → ExprParser
  | 0, _ => fun s => (.outOfFuel, s)
  | fuel + 1, lhs => fun s =>
    if peekToken s = .Or then
      match parseAndTerm env pe (consumeToken s) with
      | (.ok (some rhs), s1) =>
        match parseExprPrime env pe fuel (.logicalOr lhs rhs)
            (finalize env (.logicalOr lhs rhs) s1) with
        | (.ok none, s2) => (.ok (some (.logicalOr lhs rhs)), s2)
        | r => r
      | (.ok none, s1) => (.throw (.OperandMissing (peekToken s)), s1)
      | r => r
    else (.ok none, s)

/-- The function `Parser::parseExpr`.  The first argument bounds the nesting of
expressions in parentheses, subscripts and arguments. -/
def parseExpr (env : ParseEnv) : Nat → ExprParser
  | 0 => fun s => (.outOfFuel, s)
  | n + 1 => fun s =>
    match parseAndTerm env (parseExpr env n) s with
    | (.ok (some andTerm), s1) =>
      match parseExprPrime env (parseExpr env n) (s1.toks.length + 1) andTerm s1 with
      | (.ok none, s2) => (.ok (some andTerm), s2)
      | r => r
    | r => r

/-- The function `Parser::parseReturnStmt`; the first argument is the bound given to
`parseExpr`.  The call `expr->getType()` on the null pointer that `parseExpr` returns when
no expression starts at the current token is the outcome `nullDeref`. -/
def parseReturnStmt (env : ParseEnv) (n : Nat) : ParserState → PResult (Option ASTReturnStmt) :=
  fun s =>
    if peekToken s = .Key_return then
      let s1 := consumeToken s
      if peekToken s1 = .SemiColon then
        let s2 :=
          if env.mCurrReturnType ≠ .Void then
            reportError "Invalid empty return in non-void function" s1
          else s1
        (.ok (some ⟨none⟩), consumeToken s2)
      else
        match parseExpr env n s1 with
        | (.ok (some expr), s2) =>
          let r : ASTExpr × ParserState :=
            if env.mCurrReturnType = .Char ∧ env.getType expr = .Int then
              (env.intToChar expr, s2)
            else if ¬ ((env.mCurrReturnType = .Char ∧ env.getType expr = .Char) ∨
                (env.mCurrReturnType = .Int ∧ env.getType expr = .Int) ∨
                (env.mCurrReturnType = .Int ∧ env.getType expr = .Char)) then
              (expr, reportError "unexpected type in return statement" s2)
            else (expr, s2)
          andThen (matchToken .SemiColon) (fun _ s3 => (.ok (some ⟨some r.1⟩), s3)) r.2
        | (.ok none, s2) => (.nullDeref, s2)
        | (.throw e, s2) => (.throw e, s2)
        | (.nullDeref, s2) => (.nullDeref, s2)
        | (.outOfFuel, s2) => (.outOfFuel, s2)
    else (.ok none, s)

/-- The common shape of the five functions `parseExprPrime`, `parseAndTermPrime`,
`parseRelExprPrime`, `parseNumExprPrime` and `parseTermPrime`: `ops` are the operators of
the level, `mk` builds the node of an operator and its two operands, and `sub` parses an
operand. -/
def parsePrime (env : ParseEnv) (ops : List Token) (mk : Token → ASTExpr → ASTExpr → ASTExpr)
    (sub : ExprParser) : Nat → ASTExpr → ExprParser
  | 0, _ => fun s => (.outOfFuel, s)
  | fuel + 1, lhs => fun s =>
    if peekToken s ∈ ops then
      match sub (consumeToken s) with
      | (.ok (some rhs), s1) =>
        match parsePrime env ops mk sub fuel (mk (peekToken s) lhs rhs)
            (finalize env (mk (peekToken s) lhs rhs) s1) with
        | (.ok none, s2) => (.ok (some (mk (peekToken s) lhs rhs)), s2)
        | r => r
      | (.ok none, s1) => (.throw (.OperandMissing (peekToken s)), s1)
      | r => r
    else (.ok none, s)

/-- The common shape of the five functions `parseExpr`, `parseAndTerm`, `parseRelExpr`,
`parseNumExpr` and `parseTerm`: the first operand, then the function for the operators of
the level. -/
def parseLevel (env : ParseEnv) (ops : List Token) (mk : Token → ASTExpr → ASTExpr → ASTExpr)
    (sub : ExprParser) : ExprParser :=
  fun s =>
    match sub s with
    | (.ok (some v), s1) =>
      match parsePrime env ops mk sub (s1.toks.length + 1) v s1 with
      | (.ok none, s2) => (.ok (some v), s2)
      | r => r
    | r => r

/-- The tree of the operators `ops` applied from the left to `v0`: for the pairs
`(op1, v1), ..., (opn, vn)` the tree `opn(...op2(op1(v0, v1), v2)..., vn)`. -/
def leftNested (mk : Token → ASTExpr → ASTExpr → ASTExpr) (v0 : ASTExpr)
    (rest : List (Token × ASTExpr)) : ASTExpr :=
  rest.foldl (fun acc p => mk p.1 acc p.2) v0

/-- An environment in which every name is a declared variable of type `int`, no semantic
check is made and the conversions leave a node as it is. -/
def envPlain : ParseEnv :=
  ⟨false, .Int, fun _ => true, fun _ => .Int, fun _ => false, fun _ => 0, fun _ _ _ => true,
    fun _ _ => .Int, fun _ => .Int, fun _ => true, fun e => e, fun e => e⟩

/-- The parser at the tokens `toks`, with no unused identifier and no error. -/
def startAt (toks : List (Token × String)) : ParserState := ⟨toks, none, none, [], false⟩

/-- No expression starts at the current token: it is none of the tokens at which a factor
or the operator `!` starts, and the parser holds no unused identifier or array. -/
def NoExprStart (s : ParserState) : Prop :=
  peekToken s ∉ [Token.Identifier, Token.Constant, Token.String, Token.LParen, Token.Inc,
    Token.Dec, Token.Addr, Token.Not] ∧ s.mUnusedIdent = none ∧ s.mUnusedArray = none

/-- The tokens from the state `s` on are `op1 v1 ... opn vn` followed by the tokens of
`s2`: each `opi` is an operator of `ops`, and after it the operand parser `sub` consumes
the tokens `vi` and returns the node of the second component of the `i`-th pair.  The
state is threaded as the functions for the operators do, with the report of
`finalizeOp` on the node built from the operands so far, starting from `lhs`. -/
inductive OperandRun (env : ParseEnv) (ops : List Token)
    (mk : Token → ASTExpr → ASTExpr → ASTExpr) (sub : ExprParser) :
    ASTExpr → ParserState → List (Token × ASTExpr) → ParserState → Prop where
  | done (lhs : ASTExpr) (s : ParserState) : OperandRun env ops mk sub lhs s [] s
  | step (lhs : ASTExpr) (s : ParserState) (op : Token) (txt : String)
      (vi : List (Token × String)) (rhs : ASTExpr) (s1 : ParserState)
      (rest : List (Token × ASTExpr)) (s2 : ParserState) :
      op ∈ ops → s.toks = (op, txt) :: (vi ++ s1.toks) →
      sub (consumeToken s) = (.ok (some rhs), s1) →
      OperandRun env ops mk sub (mk op lhs rhs) (finalize env (mk op lhs rhs) s1) rest s2 →
      OperandRun env ops mk sub lhs s ((op, rhs) :: rest) s2

/-- The parser `level` of a level of binary operators is left associative: on tokens
`v0 op1 v1 ... opn vn` whose operands the parser `sub` of the next level accepts, it
returns the tree nested to the left when no operator of the level follows, and throws
`OperandMissing` when an operator follows after which `sub` finds no operand. -/
def LeftAssoc (env : ParseEnv) (ops : List Token) (mk : Token → ASTExpr → ASTExpr → ASTExpr)
    (sub level : ExprParser) : Prop :=
  ∀ (s : ParserState) (v0 : ASTExpr) (s0 : ParserState) (rest : List (Token × ASTExpr))
    (s2 : ParserState),
    sub s = (.ok (some v0), s0) → OperandRun env ops mk sub v0 s0 rest s2 →
    (peekToken s2 ∉ ops → level s = (.ok (some (leftNested mk v0 rest)), s2)) ∧
      (peekToken s2 ∈ ops → ∀ s3, sub (consumeToken s2) = (.ok none, s3) →
        level s = (.throw (.OperandMissing (peekToken s2)), s3))

/-! ### Lemmas -/

theorem getSet_setSet_same (m : Nat → Option LiveSet) (k : Nat) (v : LiveSet) :
    getSet (setSet m k v) k = v := by
  simp [getSet, setSet]

theorem getSet_setSet_ne (m : Nat → Option LiveSet) (k j : Nat) (v : LiveSet) (h : j ≠ k) :
    getSet (setSet m k v) j = getSet m j := by
  simp [getSet, setSet, h]

theorem getSet_touch (m : Nat → Option LiveSet) (k j : Nat) :
    getSet (setSet m k (getSet m k)) j = getSet m j := by
  by_cases h : j = k
  · subst h; exact getSet_setSet_same _ _ _
  · exact getSet_setSet_ne _ _ _ _ h

theorem getSet_clearAll (m : Nat → Option LiveSet) (j : Nat) : getSet (clearAll m) j = ∅ := by
  unfold getSet clearAll
  cases m j <;> rfl

theorem addSuccs_fst (ss : List Nat) (acc : (Nat → Option LiveSet) × LiveSet) (j : Nat) :
    getSet (addSuccs ss acc).1 j = getSet acc.1 j := by
  induction ss generalizing acc with
  | nil => rfl
  | cons s ss ih =>
    show getSet (addSuccs ss _).1 j = _
    rw [ih]; exact getSet_touch _ _ _

theorem addSuccs_snd (ss : List Nat) (acc : (Nat → Option LiveSet) × LiveSet) :
    (addSuccs ss acc).2 = acc.2 ∪ ss.toFinset.biUnion (getSet acc.1) := by
  induction ss generalizing acc with
  | nil => simp [addSuccs]
  | cons s ss ih =>
    show (addSuccs ss _).2 = _
    rw [ih]
    ext x
    simp only [Finset.mem_union, Finset.mem_biUnion, List.mem_toFinset, List.mem_cons,
      getSet_touch]
    constructor
    · rintro ((h | h) | ⟨t, ht, h⟩)
      · exact Or.inl h
      · exact Or.inr ⟨s, Or.inl rfl, h⟩
      · exact Or.inr ⟨t, Or.inr ht, h⟩
    · rintro (h | ⟨t, rfl | ht, h⟩)
      · exact Or.inl (Or.inl h)
      · exact Or.inl (Or.inr h)
      · exact Or.inr ⟨t, ht, h⟩

theorem visitBlock_named (F : Func) (st : Liveness) (bb : Nat) :
    (visitBlock F st bb).named = st.named := rfl

theorem visitBlock_out_same (F : Func) (st : Liveness) (bb : Nat) :
    getSet (visitBlock F st bb).bb2Out bb = getSet st.bb2Out bb ∪ succIn F st bb := by
  simp only [visitBlock, getSet_setSet_same, addSuccs_snd, succIn]
  congr 1
  apply Finset.biUnion_congr rfl
  intro s _
  exact getSet_touch _ _ _

theorem visitBlock_out_ne (F : Func) (st : Liveness) (bb j : Nat) (h : j ≠ bb) :
    (visitBlock F st bb).bb2Out j = st.bb2Out j := by
  simp [visitBlock, setSet, h]

theorem visitBlock_out_key (F : Func) (st : Liveness) (bb : Nat) :
    ((visitBlock F st bb).bb2Out bb).isNone = false := by
  simp [visitBlock, setSet]

theorem visitBlock_in_same (F : Func) (st : Liveness) (bb : Nat) :
    getSet (visitBlock F st bb).bb2In bb =
      bb2Use F st.named bb ∪
        (getSet (visitBlock F st bb).bb2Out bb \ bb2Def F st.named bb) := by
  simp only [visitBlock, getSet_setSet_same]

theorem visitBlock_in_ne (F : Func) (st : Liveness) (bb j : Nat) (h : j ≠ bb) :
    getSet (visitBlock F st bb).bb2In j = getSet st.bb2In j := by
  simp only [visitBlock]
  rw [getSet_setSet_ne _ _ _ _ h, addSuccs_fst, getSet_touch]

theorem scanInst_transfer (F : Func) (N : LiveSet) (i : Instruction) (ud : LiveSet × LiveSet)
    (x : Name) (E : Prop) (hx : x ∈ N) :
    (x ∈ (scanInst F N i ud).1 ∨ (x ∉ (scanInst F N i ud).2 ∧ E)) ↔
      (isLoadOf F x i = true ∨
        (isStoreTo F x i = false ∧ (x ∈ ud.1 ∨ (x ∉ ud.2 ∧ E)))) := by
  unfold scanInst isLoadOf isStoreTo
  cases hk : i.kind with
  | store v p =>
    by_cases hn : F.valueName p = x
    · subst hn; simp [hx]
    · have hn' : ¬ x = F.valueName p := fun h => hn h.symm
      by_cases hp : F.valueName p ∈ N <;> simp [hp, hn, hn']
  | load p =>
    by_cases hn : F.valueName p = x
    · subst hn; simp [hx]
    · have hn' : ¬ x = F.valueName p := fun h => hn h.symm
      by_cases hp : F.valueName p ∈ N <;> simp [hp, hn, hn']
  | alloca _ => simp
  | call _ => simp
  | other _ _ => simp

theorem useDef_cons (F : Func) (N : LiveSet) (i : Instruction) (l : List Instruction) :
    useDef F N (i :: l) = scanInst F N i (useDef F N l) := rfl

theorem useDef_nil (F : Func) (N : LiveSet) : useDef F N [] = (∅, ∅) := rfl

theorem scanInst_subset (F : Func) (N : LiveSet) (i : Instruction) (ud : LiveSet × LiveSet)
    (h : ud.1 ⊆ N ∧ ud.2 ⊆ N) : (scanInst F N i ud).1 ⊆ N ∧ (scanInst F N i ud).2 ⊆ N := by
  unfold scanInst
  cases hk : i.kind with
  | store v p =>
    by_cases hp : F.valueName p ∈ N
    · simp only [hp, if_true]
      exact ⟨(Finset.erase_subset _ _).trans h.1, Finset.insert_subset hp h.2⟩
    · simpa [hp] using h
  | load p =>
    by_cases hp : F.valueName p ∈ N
    · simp only [hp, if_true]
      exact ⟨Finset.insert_subset hp h.1, (Finset.erase_subset _ _).trans h.2⟩
    · simpa [hp] using h
  | alloca _ => simpa using h
  | call _ => simpa using h
  | other _ _ => simpa using h

theorem useDef_subset (F : Func) (N : LiveSet) (l : List Instruction) :
    (useDef F N l).1 ⊆ N ∧ (useDef F N l).2 ⊆ N := by
  induction l with
  | nil => simp [useDef_nil]
  | cons i l ih => rw [useDef_cons]; exact scanInst_subset F N i _ ih

theorem scanUse_cons (F : Func) (x : Name) (i : Instruction) (l : List Instruction) :
    scanUse F x (i :: l) = (isLoadOf F x i || (!isStoreTo F x i && scanUse F x l)) := by
  unfold isLoadOf isStoreTo
  rw [scanUse]
  cases hk : i.kind with
  | store v p => by_cases hn : F.valueName p = x <;> simp [hn]
  | load p => by_cases hn : F.valueName p = x <;> simp [hn]
  | alloca _ => simp
  | call _ => simp
  | other _ _ => simp

theorem scanUse_iff_use (F : Func) (N : LiveSet) (x : Name) (hx : x ∈ N)
    (l : List Instruction) : scanUse F x l = true ↔ x ∈ (useDef F N l).1 := by
  induction l with
  | nil => simp [scanUse, useDef_nil]
  | cons i l ih =>
    have h := scanInst_transfer F N i (useDef F N l) x False hx
    simp only [and_false, or_false] at h
    rw [useDef_cons, h, scanUse_cons, ← ih]
    simp

theorem scanUse_false_iff (F : Func) (x : Name) (l : List Instruction) :
    scanUse F x l = false ↔
      ∀ (j : Nat) (i : Instruction), l[j]? = some i → isLoadOf F x i = true →
        ∃ (m : Nat) (i' : Instruction), m < j ∧ l[m]? = some i' ∧ isStoreTo F x i' = true := by
  induction l with
  | nil => simp [scanUse]
  | cons a l ih =>
    have h0 : (a :: l)[0]? = some a := by simp
    have hsucc : ∀ j, (a :: l)[j + 1]? = l[j]? := fun j => by simp
    rw [scanUse_cons]
    constructor
    · intro h j i hj hi
      simp only [Bool.or_eq_false_iff, Bool.and_eq_false_iff, Bool.not_eq_false'] at h
      obtain ⟨hla, hs | hl⟩ := h
      · cases j with
        | zero =>
          rw [h0] at hj; cases hj; rw [hla] at hi; cases hi
        | succ j => exact ⟨0, a, Nat.succ_pos _, h0, hs⟩
      · cases j with
        | zero =>
          rw [h0] at hj; cases hj; rw [hla] at hi; cases hi
        | succ j =>
          rw [hsucc] at hj
          obtain ⟨m, i', hm, hm', hs⟩ := (ih.1 hl) j i hj hi
          exact ⟨m + 1, i', Nat.succ_lt_succ hm, (hsucc m).trans hm', hs⟩
    · intro h
      simp only [Bool.or_eq_false_iff, Bool.and_eq_false_iff, Bool.not_eq_false']
      refine ⟨?_, ?_⟩
      · by_contra hla
        simp only [Bool.not_eq_false] at hla
        obtain ⟨m, _, hm, _, _⟩ := h 0 a h0 hla
        exact Nat.not_lt_zero _ hm
      · by_cases hs : isStoreTo F x a = true
        · exact Or.inl hs
        · right
          rw [ih]
          intro j i hj hi
          obtain ⟨m, i', hm, hm', hs'⟩ := h (j + 1) i ((hsucc j).trans hj) hi
          cases m with
          | zero =>
            rw [h0] at hm'; cases hm'; exact absurd hs' hs
          | succ m =>
            rw [hsucc] at hm'
            exact ⟨m, i', Nat.lt_of_succ_lt_succ hm, hm', hs'⟩

theorem liveFrom_of_load (F : Func) (x : Name) (p : Nat × Nat) (h : loadAt F x p) :
    LiveFrom F x p := ⟨p, Relation.ReflTransGen.refl, h⟩

theorem liveFrom_step (F : Func) (x : Name) (p q : Nat × Nat) (hs : ¬ storeAt F x p)
    (hpq : Step F p q) (h : LiveFrom F x q) : LiveFrom F x p := by
  obtain ⟨r, hr, hl⟩ := h
  exact ⟨r, Relation.ReflTransGen.head ⟨hs, hpq⟩ hr, hl⟩

theorem instAt_append (F : Func) (b : Nat) (pre suf : List Instruction) (i : Instruction)
    (h : F.block b = pre ++ i :: suf) : F.instAt (b, pre.length) = some i := by
  show (F.block b)[pre.length]? = some i
  rw [h, List.getElem?_append_right (le_refl _)]
  simp

theorem not_storeAt (F : Func) (x : Name) (p : Nat × Nat) (i : Instruction)
    (h : F.instAt p = some i) (hs : isStoreTo F x i = false) : ¬ storeAt F x p := by
  rintro ⟨i', hi', hs'⟩
  rw [h] at hi'; cases hi'; rw [hs] at hs'; cases hs'

/-- Soundness of the local scan: when the scan of a suffix of a block reports a slot
live, given what is live at the end of the block, a path to a load exists. -/
theorem liveFrom_of_scan (F : Func) (N : LiveSet) (x : Name) (b : Nat) (hx : x ∈ N)
    (E : Prop) (hE : E → ∃ s ∈ F.succs b, LiveFrom F x (s, 0)) :
    ∀ (suf : List Instruction) (i : Instruction) (pre : List Instruction),
      F.block b = pre ++ i :: suf →
      (x ∈ (useDef F N (i :: suf)).1 ∨ (x ∉ (useDef F N (i :: suf)).2 ∧ E)) →
      LiveFrom F x (b, pre.length) := by
  intro suf
  induction suf with
  | nil =>
    intro i pre hb h
    rw [useDef_cons, scanInst_transfer F N i _ x E hx] at h
    have hi := instAt_append F b pre [] i hb
    rcases h with h | ⟨hs, h⟩
    · exact liveFrom_of_load F x _ ⟨i, hi, h⟩
    · simp only [useDef_nil, Finset.not_mem_empty, not_false_eq_true, true_and,
        false_or] at h
      obtain ⟨s, hs', hl⟩ := hE h
      refine liveFrom_step F x _ _ (not_storeAt F x _ i hi hs) ?_ hl
      exact Step.jump b pre.length s (by simp [hb]) hs'
  | cons j suf ih =>
    intro i pre hb h
    rw [useDef_cons, scanInst_transfer F N i _ x E hx] at h
    have hi := instAt_append F b pre (j :: suf) i hb
    rcases h with h | ⟨hs, h⟩
    · exact liveFrom_of_load F x _ ⟨i, hi, h⟩
    · have h' := ih j (pre ++ [i]) (by simp [hb]) h
      refine liveFrom_step F x _ (b, pre.length + 1) (not_storeAt F x _ i hi hs) ?_ ?_
      · exact Step.next b pre.length (by simp [hb])
      · simpa using h'

theorem succIn_mono (F : Func) (a c : Liveness) (b : Nat)
    (h : ∀ j, getSet a.bb2In j ⊆ getSet c.bb2In j) : succIn F a b ⊆ succIn F c b := by
  intro x hx
  simp only [succIn, Finset.mem_biUnion, List.mem_toFinset] at hx ⊢
  obtain ⟨s, hs, hxs⟩ := hx
  exact ⟨s, hs, h s hxs⟩

theorem getSet_congr {m m' : Nat → Option LiveSet} {j : Nat} (h : m' j = m j) :
    getSet m' j = getSet m j := by
  simp [getSet, h]

theorem visitBlock_in_mono (F : Func) (N : LiveSet) (st : Liveness) (bb : Nat)
    (h : LoopInv F N st) (j : Nat) :
    getSet st.bb2In j ⊆ getSet (visitBlock F st bb).bb2In j := by
  by_cases hj : j = bb
  · subst hj
    rw [visitBlock_in_same, visitBlock_out_same, h.named]
    intro x hx
    have := h.in_le j hx
    simp only [Finset.mem_union, Finset.mem_sdiff] at this ⊢
    tauto
  · rw [visitBlock_in_ne F st bb j hj]

theorem visitBlock_out_mono (F : Func) (st : Liveness) (bb : Nat) (j : Nat) :
    getSet st.bb2Out j ⊆ getSet (visitBlock F st bb).bb2Out j := by
  by_cases hj : j = bb
  · subst hj
    rw [visitBlock_out_same]
    exact Finset.subset_union_left
  · rw [getSet_congr (visitBlock_out_ne F st bb j hj)]

theorem succs_nil_of_block_nil (F : Func) (b : Nat) (h : F.block b = []) : F.succs b = [] := by
  simp [Func.succs, h]

theorem visitBlock_inv (F : Func) (N : LiveSet) (st : Liveness) (bb : Nat)
    (h : LoopInv F N st) : LoopInv F N (visitBlock F st bb) := by
  have hmono := visitBlock_in_mono F N st bb h
  have hout : getSet (visitBlock F st bb).bb2Out bb ⊆ succIn F st bb := by
    rw [visitBlock_out_same]
    exact Finset.union_subset (h.out_le bb) (le_refl _)
  have hsuccN : ∀ b, succIn F st b ⊆ N := by
    intro b x hx
    simp only [succIn, Finset.mem_biUnion, List.mem_toFinset] at hx
    obtain ⟨s, _, hxs⟩ := hx
    exact h.in_named s hxs
  have hinN : ∀ b, getSet (visitBlock F st bb).bb2In b ⊆ N := by
    intro b
    by_cases hb : b = bb
    · subst hb
      rw [visitBlock_in_same, h.named]
      refine Finset.union_subset (useDef_subset F N _).1 ?_
      exact (Finset.sdiff_subset).trans (hout.trans (hsuccN b))
    · rw [visitBlock_in_ne F st bb b hb]; exact h.in_named b
  refine ⟨h.named, ?_, ?_, hinN, ?_⟩
  · intro b
    by_cases hb : b = bb
    · subst hb; rw [visitBlock_in_same, h.named]
    · rw [visitBlock_in_ne F st bb b hb, getSet_congr (visitBlock_out_ne F st bb b hb)]
      exact h.in_le b
  · intro b
    by_cases hb : b = bb
    · subst hb; exact hout.trans (succIn_mono F _ _ b hmono)
    · rw [getSet_congr (visitBlock_out_ne F st bb b hb)]
      exact (h.out_le b).trans (succIn_mono F _ _ b hmono)
  · intro b x hx
    by_cases hb : b = bb
    · subst hb
      have hxN := hinN b hx
      rw [visitBlock_in_same, h.named] at hx
      have hE : x ∈ getSet (visitBlock F st b).bb2Out b →
          ∃ s ∈ F.succs b, LiveFrom F x (s, 0) := by
        intro hxo
        have := hout hxo
        simp only [succIn, Finset.mem_biUnion, List.mem_toFinset] at this
        obtain ⟨s, hs, hxs⟩ := this
        exact ⟨s, hs, h.in_sound s x hxs⟩
      cases hblk : F.block b with
      | nil =>
        exfalso
        have hs := succs_nil_of_block_nil F b hblk
        have ho := hout
        simp only [succIn, hs, List.toFinset_nil, Finset.biUnion_empty,
          Finset.subset_empty] at ho
        simp [bb2Use, bb2Def, hblk, useDef_nil, ho] at hx
      | cons i suf =>
        have := liveFrom_of_scan F N x b hxN _ hE suf i [] (by simpa using hblk)
        apply this
        simp only [bb2Use, bb2Def, hblk, Finset.mem_union, Finset.mem_sdiff] at hx
        tauto
    · rw [visitBlock_in_ne F st bb b hb] at hx
      exact h.in_sound b x hx

theorem passStep_fst (F : Func) (s : Liveness × Bool) (bb : Nat) :
    (passStep F s bb).1 = visitBlock F s.1 bb := rfl

theorem foldl_passStep_fst (F : Func) (l : List Nat) (s : Liveness × Bool) :
    (l.foldl (passStep F) s).1 = l.foldl (visitBlock F) s.1 := by
  induction l generalizing s with
  | nil => rfl
  | cons b l ih => simp only [List.foldl_cons]; rw [ih]; rfl

/-- A sequence of block visits keeps the loop invariant and only enlarges the sets. -/
theorem visits_inv (F : Func) (N : LiveSet) (l : List Nat) (st : Liveness)
    (h : LoopInv F N st) :
    LoopInv F N (l.foldl (visitBlock F) st) ∧
      (∀ j, getSet st.bb2In j ⊆ getSet (l.foldl (visitBlock F) st).bb2In j) ∧
      (∀ j, getSet st.bb2Out j ⊆ getSet (l.foldl (visitBlock F) st).bb2Out j) := by
  induction l generalizing st with
  | nil => exact ⟨h, fun _ => Finset.Subset.refl _, fun _ => Finset.Subset.refl _⟩
  | cons b l ih =>
    simp only [List.foldl_cons]
    obtain ⟨h1, h2, h3⟩ := ih (visitBlock F st b) (visitBlock_inv F N st b h)
    exact ⟨h1, fun j => (visitBlock_in_mono F N st b h j).trans (h2 j),
      fun j => (visitBlock_out_mono F st b j).trans (h3 j)⟩

theorem visits_out_not_mem (F : Func) (l : List Nat) (st : Liveness) (j : Nat)
    (hj : j ∉ l) : (l.foldl (visitBlock F) st).bb2Out j = st.bb2Out j := by
  induction l generalizing st with
  | nil => rfl
  | cons b l ih =>
    simp only [List.foldl_cons]
    rw [ih _ (fun h => hj (List.mem_cons_of_mem _ h))]
    exact visitBlock_out_ne F st b j (fun h => hj (h ▸ List.mem_cons_self _ _))

theorem visits_in_not_mem (F : Func) (l : List Nat) (st : Liveness) (j : Nat)
    (hj : j ∉ l) : getSet (l.foldl (visitBlock F) st).bb2In j = getSet st.bb2In j := by
  induction l generalizing st with
  | nil => rfl
  | cons b l ih =>
    simp only [List.foldl_cons]
    rw [ih _ (fun h => hj (List.mem_cons_of_mem _ h))]
    exact visitBlock_in_ne F st b j (fun h => hj (h ▸ List.mem_cons_self _ _))

theorem visits_out_key (F : Func) (l : List Nat) (st : Liveness) (j : Nat)
    (hj : j ∈ l ∨ (st.bb2Out j).isNone = false) :
    ((l.foldl (visitBlock F) st).bb2Out j).isNone = false := by
  induction l generalizing st with
  | nil =>
    rcases hj with hj | hj
    · cases hj
    · exact hj
  | cons b l ih =>
    simp only [List.foldl_cons]
    apply ih
    by_cases hb : j = b
    · subst hb; exact Or.inr (visitBlock_out_key F st j)
    · rcases hj with hj | hj
      · rcases List.mem_cons.1 hj with h | h
        · exact absurd h hb
        · exact Or.inl h
      · right; rw [visitBlock_out_ne F st b j hb]; exact hj

/-- A pass that sets the flag has strictly enlarged the `In` set of a worklist block. -/
theorem pass_change (F : Func) (N : LiveSet) (l : List Nat) (s : Liveness × Bool)
    (h : LoopInv F N s.1) (hc : (l.foldl (passStep F) s).2 = true) :
    s.2 = true ∨ ∃ b ∈ l, getSet s.1.bb2In b ⊂ getSet (l.foldl (passStep F) s).1.bb2In b := by
  induction l generalizing s with
  | nil => exact Or.inl hc
  | cons b l ih =>
    simp only [List.foldl_cons] at hc ⊢
    have hinv : LoopInv F N (passStep F s b).1 := visitBlock_inv F N s.1 b h
    have hm := (visits_inv F N l _ hinv).2.1
    rw [← foldl_passStep_fst] at hm
    rcases ih (passStep F s b) hinv hc with h1 | ⟨b', hb', hlt⟩
    · simp only [passStep, Bool.or_eq_true, decide_eq_true_eq] at h1
      rcases h1 with h1 | h1
      · exact Or.inl h1
      · right
        refine ⟨b, List.mem_cons_self _ _, ?_⟩
        have h2 := visitBlock_in_mono F N s.1 b h b
        exact lt_of_lt_of_le (lt_of_le_of_ne h2 h1) (hm b)
    · right
      refine ⟨b', List.mem_cons_of_mem _ hb', ?_⟩
      exact lt_of_le_of_lt (visitBlock_in_mono F N s.1 b h b') hlt

/-- A pass that leaves the flag unset has changed no `In` set, and leaves both dataflow
equations true of every block of the worklist. -/
theorem pass_stable (F : Func) (N : LiveSet) (l : List Nat) (s : Liveness × Bool)
    (h : LoopInv F N s.1) (hc : (l.foldl (passStep F) s).2 = false) :
    s.2 = false ∧
      (∀ j, getSet (l.foldl (passStep F) s).1.bb2In j = getSet s.1.bb2In j) ∧
      ∀ b ∈ l,
        getSet (l.foldl (passStep F) s).1.bb2In b =
            bb2Use F N b ∪ (getSet (l.foldl (passStep F) s).1.bb2Out b \ bb2Def F N b) ∧
          getSet (l.foldl (passStep F) s).1.bb2Out b = succIn F (l.foldl (passStep F) s).1 b := by
  induction l generalizing s with
  | nil => exact ⟨hc, fun _ => rfl, fun b hb => by cases hb⟩
  | cons b l ih =>
    simp only [List.foldl_cons] at hc ⊢
    have hinv : LoopInv F N (passStep F s b).1 := visitBlock_inv F N s.1 b h
    obtain ⟨h1, h2, h3⟩ := ih (passStep F s b) hinv hc
    simp only [passStep, Bool.or_eq_false_iff, decide_eq_false_iff_not, not_not] at h1
    obtain ⟨hs, hb⟩ := h1
    have hin : ∀ j, getSet (passStep F s b).1.bb2In j = getSet s.1.bb2In j := by
      intro j
      by_cases hj : j = b
      · subst hj; exact hb.symm
      · exact visitBlock_in_ne F s.1 b j hj
    have hin' : ∀ j, getSet (l.foldl (passStep F) (passStep F s b)).1.bb2In j =
        getSet s.1.bb2In j := fun j => (h2 j).trans (hin j)
    refine ⟨hs, hin', ?_⟩
    intro b' hb'
    by_cases hmem : b' ∈ l
    · exact h3 b' hmem
    · have hbb : b' = b := by
        rcases List.mem_cons.1 hb' with h | h
        · exact h
        · exact absurd h hmem
      subst hbb
      have hsucc : ∀ (a : Liveness), (∀ j, getSet a.bb2In j = getSet s.1.bb2In j) →
          succIn F a b' = succIn F s.1 b' := by
        intro a ha
        simp only [succIn]
        exact Finset.biUnion_congr rfl (fun j _ => ha j)
      have hout : getSet (l.foldl (passStep F) (passStep F s b')).1.bb2Out b' =
          getSet (visitBlock F s.1 b').bb2Out b' := by
        rw [foldl_passStep_fst]
        exact getSet_congr (visits_out_not_mem F l _ b' hmem)
      have hout2 : getSet (visitBlock F s.1 b').bb2Out b' = succIn F s.1 b' := by
        rw [visitBlock_out_same]
        exact Finset.union_eq_right.2 (h.out_le b')
      refine ⟨?_, ?_⟩
      · rw [h2 b', hout]
        show getSet (visitBlock F s.1 b').bb2In b' = _
        rw [visitBlock_in_same, h.named]
      · rw [hout, hout2, hsucc _ hin']

theorem inSize_le (N : LiveSet) (W : List Nat) (st : Liveness)
    (h : ∀ b, getSet st.bb2In b ⊆ N) : inSize W st ≤ W.length * N.card := by
  unfold inSize
  induction W with
  | nil => simp
  | cons b W ih =>
    simp only [List.map_cons, List.sum_cons, List.length_cons]
    have := Finset.card_le_card (h b)
    nlinarith

/-- A pass over the worklist that sets the flag strictly increases the total size of the
`In` sets. -/
theorem pass_inSize (F : Func) (N : LiveSet) (W : List Nat) (st : Liveness)
    (h : LoopInv F N st) (hc : (pass F W st).2 = true) :
    inSize W st < inSize W (pass F W st).1 := by
  unfold pass at hc ⊢
  rcases pass_change F N W (st, false) h hc with h1 | ⟨b, hb, hlt⟩
  · cases h1
  · have hm := (visits_inv F N W st h).2.1
    rw [← foldl_passStep_fst F W (st, false)] at hm
    unfold inSize
    apply List.sum_lt_sum
    · intro j _
      exact Finset.card_le_card (hm j)
    · exact ⟨b, hb, Finset.card_lt_card hlt⟩

theorem pass_inv (F : Func) (N : LiveSet) (W : List Nat) (st : Liveness)
    (h : LoopInv F N st) : LoopInv F N (pass F W st).1 := by
  unfold pass
  rw [foldl_passStep_fst]
  exact (visits_inv F N W st h).1

/-- The `while` loop ends within the bound, in a state where a full pass changed
nothing. -/
theorem fixpoint_spec (F : Func) (N : LiveSet) (W : List Nat) :
    ∀ (fuel : Nat) (st : Liveness) (cnt : Nat), LoopInv F N st →
      W.length * N.card < fuel + inSize W st →
      ∃ st0 cnt1, fixpoint F W fuel st cnt = some ((pass F W st0).1, cnt1) ∧
        LoopInv F N st0 ∧ (pass F W st0).2 = false ∧
        cnt1 + inSize W st ≤ cnt + 1 + W.length * N.card ∧ cnt < cnt1 ∧
        (∀ j, getSet st.bb2In j ⊆ getSet st0.bb2In j) ∧
        (∀ j, getSet st.bb2Out j ⊆ getSet st0.bb2Out j) ∧
        (∀ j, (st.bb2Out j).isNone = false → (st0.bb2Out j).isNone = false) ∧
        (∀ j, j ∉ W → st0.bb2Out j = st.bb2Out j ∧
          getSet st0.bb2In j = getSet st.bb2In j) := by
  intro fuel
  induction fuel with
  | zero =>
    intro st cnt h hlt
    have := inSize_le N W st h.in_named
    omega
  | succ fuel ih =>
    intro st cnt h hlt
    rw [fixpoint]
    by_cases hc : (pass F W st).2 = true
    · simp only [hc, if_true]
      have hgrow := pass_inSize F N W st h hc
      have hinv := pass_inv F N W st h
      obtain ⟨st0, cnt1, e, i0, s0, hb, hcnt, m1, m2, k, nw⟩ :=
        ih (pass F W st).1 (cnt + 1) hinv (by omega)
      have hv := visits_inv F N W st h
      have hp : (pass F W st).1 = W.foldl (visitBlock F) st := by
        unfold pass; rw [foldl_passStep_fst]
      refine ⟨st0, cnt1, e, i0, s0, by omega, by omega, ?_, ?_, ?_, ?_⟩
      · intro j; refine subset_trans ?_ (m1 j); rw [hp]; exact hv.2.1 j
      · intro j; refine subset_trans ?_ (m2 j); rw [hp]; exact hv.2.2 j
      · intro j hj; apply k; rw [hp]; exact visits_out_key F W st j (Or.inr hj)
      · intro j hj
        obtain ⟨a, c⟩ := nw j hj
        rw [hp] at a c
        exact ⟨a.trans (visits_out_not_mem F W st j hj),
          c.trans (visits_in_not_mem F W st j hj)⟩
    · simp only [hc]
      simp only [Bool.not_eq_true] at hc
      have hle := inSize_le N W st h.in_named
      refine ⟨st, cnt + 1, by simp, h, hc, by omega, by omega, fun _ => Finset.Subset.refl _,
        fun _ => Finset.Subset.refl _, fun _ hj => hj, fun _ _ => ⟨rfl, rfl⟩⟩

theorem computePostOrder_succ (F : Func) (fuel e : Nat) (s : Dfs) :
    computePostOrder F (fuel + 1) e s =
      (visitSuccs F fuel (F.succs e) { s with visited := e :: s.visited }).map
        (fun s => { s with order := s.order ++ [e] }) := rfl

theorem visitSuccs_nil (F : Func) (fuel : Nat) (s : Dfs) : visitSuccs F fuel [] s = some s := rfl

theorem visitSuccs_cons (F : Func) (fuel t : Nat) (ss : List Nat) (s : Dfs) :
    visitSuccs F fuel (t :: ss) s =
      if t ∈ s.visited then visitSuccs F fuel ss s
      else (computePostOrder F fuel t s).bind (visitSuccs F fuel ss) := by
  unfold visitSuccs
  rw [List.foldlM_cons]
  by_cases h : t ∈ s.visited
  · simp [h]
  · simp only [h, if_false]; rfl

theorem DfsPost.refl (F : Func) (P : Nat → Prop) (s : Dfs) : DfsPost F P s s :=
  ⟨fun _ h => h, ⟨[], by simp, List.nodup_nil, by simp⟩, fun v h h' => absurd h h'⟩

theorem DfsPost.trans {F : Func} {P : Nat → Prop} {a b c : Dfs} (h1 : DfsPost F P a b)
    (h2 : DfsPost F P b c) : DfsPost F P a c := by
  obtain ⟨l1, e1, n1, m1⟩ := h1.order
  obtain ⟨l2, e2, n2, m2⟩ := h2.order
  refine ⟨fun v h => h2.mono v (h1.mono v h), ⟨l1 ++ l2, ?_, ?_, ?_⟩, ?_⟩
  · rw [e2, e1, List.append_assoc]
  · rw [List.nodup_append]
    refine ⟨n1, n2, ?_⟩
    intro v hv1 hv2
    exact ((m2 v).1 hv2).2 ((m1 v).1 hv1).1
  · intro v
    rw [List.mem_append, m1, m2]
    constructor
    · rintro (⟨h, h'⟩ | ⟨h, h'⟩)
      · exact ⟨h2.mono v h, h'⟩
      · exact ⟨h, fun hv => h' (h1.mono v hv)⟩
    · rintro ⟨h, h'⟩
      by_cases hb : v ∈ b.visited
      · exact Or.inl ⟨hb, h'⟩
      · exact Or.inr ⟨h, hb⟩
  · intro v hv hv'
    by_cases hb : v ∈ b.visited
    · obtain ⟨p, q⟩ := h1.closed v hb hv'
      exact ⟨p, fun u hu => h2.mono u (q u hu)⟩
    · exact h2.closed v hv hb

/-- Partial correctness of `computePostOrder`. -/
theorem computePostOrder_post (F : Func) (P : Nat → Prop)
    (hP : ∀ v, P v → ∀ u ∈ F.succs v, P u) :
    ∀ (fuel e : Nat) (s t : Dfs), P e → computePostOrder F fuel e s = some t →
      e ∉ s.visited → DfsPost F P s t ∧ e ∈ t.visited := by
  intro fuel
  induction fuel with
  | zero => intro e s t _ h; simp [computePostOrder] at h
  | succ fuel ih =>
    have hloop : ∀ (ss : List Nat) (s t : Dfs), (∀ u ∈ ss, P u) →
        visitSuccs F fuel ss s = some t →
        DfsPost F P s t ∧ ∀ u ∈ ss, u ∈ t.visited := by
      intro ss
      induction ss with
      | nil =>
        intro s t _ h
        rw [visitSuccs_nil] at h
        cases h
        exact ⟨DfsPost.refl F P s, fun u hu => by cases hu⟩
      | cons u ss ihs =>
        intro s t hss h
        rw [visitSuccs_cons] at h
        have hss' : ∀ w ∈ ss, P w := fun w hw => hss w (List.mem_cons_of_mem _ hw)
        by_cases hu : u ∈ s.visited
        · simp only [hu, if_true] at h
          obtain ⟨p, q⟩ := ihs s t hss' h
          refine ⟨p, fun w hw => ?_⟩
          rcases List.mem_cons.1 hw with rfl | hw
          · exact p.mono _ hu
          · exact q w hw
        · simp only [hu, if_false] at h
          obtain ⟨m, hm, hm'⟩ := Option.bind_eq_some.1 h
          obtain ⟨p1, q1⟩ := ih u s m (hss u (List.mem_cons_self _ _)) hm hu
          obtain ⟨p2, q2⟩ := ihs m t hss' hm'
          refine ⟨p1.trans p2, fun w hw => ?_⟩
          rcases List.mem_cons.1 hw with rfl | hw
          · exact p2.mono _ q1
          · exact q2 w hw
    intro e s t he h hes
    rw [computePostOrder_succ] at h
    obtain ⟨m, hm, rfl⟩ := Option.map_eq_some'.1 h
    obtain ⟨p, q⟩ := hloop (F.succs e) _ m (hP e he) hm
    obtain ⟨l, el, nl, ml⟩ := p.order
    have hem : e ∈ m.visited := p.mono e (List.mem_cons_self _ _)
    refine ⟨⟨?_, ⟨l ++ [e], ?_, ?_, ?_⟩, ?_⟩, hem⟩
    · intro v hv
      exact p.mono v (List.mem_cons_of_mem _ hv)
    · show m.order ++ [e] = s.order ++ (l ++ [e])
      rw [el, List.append_assoc]
    · rw [List.nodup_append]
      refine ⟨nl, List.nodup_singleton e, ?_⟩
      intro v hv hv'
      rw [List.mem_singleton] at hv'
      subst hv'
      exact ((ml v).1 hv).2 (List.mem_cons_self _ _)
    · intro v
      show v ∈ l ++ [e] ↔ v ∈ m.visited ∧ v ∉ s.visited
      rw [List.mem_append, ml, List.mem_singleton]
      constructor
      · rintro (⟨h1, h2⟩ | rfl)
        · exact ⟨h1, fun hv => h2 (List.mem_cons_of_mem _ hv)⟩
        · exact ⟨hem, hes⟩
      · rintro ⟨h1, h2⟩
        by_cases hve : v = e
        · exact Or.inr hve
        · refine Or.inl ⟨h1, ?_⟩
          intro hv
          rcases List.mem_cons.1 hv with h | h
          · exact hve h
          · exact h2 h
    · intro v hv hv'
      by_cases hve : v = e
      · subst hve; exact ⟨he, q⟩
      · apply p.closed v hv
        intro h
        rcases List.mem_cons.1 h with h | h
        · exact hve h
        · exact hv' h

theorem unvisited_mono (F : Func) (s t : Dfs) (h : ∀ v ∈ s.visited, v ∈ t.visited) :
    unvisited F t ≤ unvisited F s := by
  unfold unvisited
  apply Finset.card_le_card
  intro v hv
  simp only [Finset.mem_filter, Finset.mem_range] at hv ⊢
  exact ⟨hv.1, fun hs => hv.2 (h v hs)⟩

theorem unvisited_cons (F : Func) (s : Dfs) (e : Nat) (he : e < F.length)
    (hes : e ∉ s.visited) :
    unvisited F { s with visited := e :: s.visited } < unvisited F s := by
  unfold unvisited
  apply Finset.card_lt_card
  rw [Finset.ssubset_iff_of_subset]
  · refine ⟨e, ?_, ?_⟩
    · simp [he, hes]
    · simp
  · intro v hv
    simp only [Finset.mem_filter, Finset.mem_range, List.mem_cons, not_or] at hv ⊢
    exact ⟨hv.1, hv.2.2⟩

theorem wf_succs (F : Func) (h : F.WF) (b : Nat) (hb : b < F.length) :
    ∀ s ∈ F.succs b, s < F.length := h b (List.mem_range.2 hb)

/-- Totality of `computePostOrder` on a well-formed function, with as much fuel as there
are unvisited blocks. -/
theorem computePostOrder_total (F : Func) (hwf : F.WF) :
    ∀ (fuel e : Nat) (s : Dfs), e < F.length → e ∉ s.visited → unvisited F s ≤ fuel →
      ∃ t, computePostOrder F fuel e s = some t := by
  intro fuel
  induction fuel with
  | zero =>
    intro e s he hes hu
    have := unvisited_cons F s e he hes
    omega
  | succ fuel ih =>
    have hloop : ∀ (ss : List Nat) (s : Dfs), (∀ u ∈ ss, u < F.length) →
        unvisited F s ≤ fuel → ∃ t, visitSuccs F fuel ss s = some t := by
      intro ss
      induction ss with
      | nil => intro s _ _; exact ⟨s, rfl⟩
      | cons u ss ihs =>
        intro s hss hu
        rw [visitSuccs_cons]
        have hss' : ∀ w ∈ ss, w < F.length := fun w hw => hss w (List.mem_cons_of_mem _ hw)
        by_cases huv : u ∈ s.visited
        · simp only [huv, if_true]
          exact ihs s hss' hu
        · simp only [huv, if_false]
          obtain ⟨m, hm⟩ := ih u s (hss u (List.mem_cons_self _ _)) huv hu
          have hpost := (computePostOrder_post F (fun _ => True) (fun _ _ _ _ => trivial)
            fuel u s m trivial hm huv).1
          obtain ⟨t, ht⟩ := ihs m hss' ((unvisited_mono F s m hpost.mono).trans hu)
          exact ⟨t, by rw [hm]; exact ht⟩
    intro e s he hes hu
    rw [computePostOrder_succ]
    have := unvisited_cons F s e he hes
    obtain ⟨t, ht⟩ := hloop (F.succs e) { s with visited := e :: s.visited }
      (wf_succs F hwf e he) (by omega)
    exact ⟨_, by rw [ht]; rfl⟩

/-- The worklist, when computed, is duplicate-free, contains the entry block and is
closed under successors; its blocks satisfy every property of the entry block that
successor edges preserve. -/
theorem worklist_post (F : Func) (W : List Nat) (P : Nat → Prop) (h0 : P 0)
    (hP : ∀ v, P v → ∀ u ∈ F.succs v, P u) (h : worklist F = some W) :
    W.Nodup ∧ 0 ∈ W ∧ ∀ v ∈ W, P v ∧ ∀ u ∈ F.succs v, u ∈ W := by
  unfold worklist at h
  obtain ⟨t, ht, rfl⟩ := Option.map_eq_some'.1 h
  obtain ⟨p, q⟩ := computePostOrder_post F P hP F.length 0 ⟨[], []⟩ t h0 ht (by simp)
  obtain ⟨l, el, nl, ml⟩ := p.order
  simp only [List.nil_append] at el
  simp only [List.not_mem_nil, not_false_eq_true, and_true] at ml
  rw [el]
  refine ⟨nl, (ml 0).2 q, ?_⟩
  intro v hv
  obtain ⟨a, c⟩ := p.closed v ((ml v).1 hv) (by simp)
  exact ⟨a, fun u hu => (ml u).2 (c u hu)⟩

theorem worklist_total (F : Func) (hne : F ≠ []) (hwf : F.WF) : ∃ W, worklist F = some W := by
  have hlen : 0 < F.length := List.length_pos.2 hne
  obtain ⟨t, ht⟩ := computePostOrder_total F hwf F.length 0 ⟨[], []⟩ hlen (by simp)
    (by unfold unvisited; exact (Finset.card_filter_le _ _).trans (by simp))
  exact ⟨t.order, by unfold worklist; rw [ht]; rfl⟩

theorem worklist_length_le (F : Func) (W : List Nat) (hne : F ≠ []) (hwf : F.WF)
    (h : worklist F = some W) : W.length ≤ F.length := by
  have hlen : 0 < F.length := List.length_pos.2 hne
  obtain ⟨nd, _, hW⟩ := worklist_post F W (fun v => v < F.length) hlen
    (fun v hv => wf_succs F hwf v hv) h
  rw [← List.toFinset_card_of_nodup nd]
  have : W.toFinset ⊆ Finset.range F.length := by
    intro v hv
    rw [List.mem_toFinset] at hv
    exact Finset.mem_range.2 (hW v hv).1
  simpa using Finset.card_le_card this

theorem reachable_mem_worklist (F : Func) (W : List Nat) (h : worklist F = some W)
    (b : Nat) (hb : F.Reachable b) : b ∈ W := by
  obtain ⟨_, h0, hW⟩ := worklist_post F W (fun _ => True) trivial (fun _ _ _ _ => trivial) h
  unfold Func.Reachable at hb
  induction hb with
  | refl => exact h0
  | tail _ hbc ih => exact (hW _ ih).2 _ hbc

theorem drop_of_getElem? {α : Type} (l : List α) (k : Nat) (i : α) (h : l[k]? = some i) :
    l.drop k = i :: l.drop (k + 1) := by
  obtain ⟨hk, rfl⟩ := List.getElem?_eq_some.1 h
  exact List.drop_eq_getElem_cons hk

theorem liveAtPoint_cons (F : Func) (lv : Liveness) (x : Name) (b k : Nat) (i : Instruction)
    (hx : x ∈ lv.named) (hi : F.instAt (b, k) = some i) :
    liveAtPoint F lv x (b, k) ↔
      (isLoadOf F x i = true ∨ (isStoreTo F x i = false ∧ liveAtPoint F lv x (b, k + 1))) := by
  unfold liveAtPoint
  simp only
  rw [drop_of_getElem? _ _ _ hi, useDef_cons]
  exact scanInst_transfer F lv.named i _ x _ hx

theorem liveAtPoint_end (F : Func) (lv : Liveness) (x : Name) (b k : Nat)
    (hk : (F.block b).length ≤ k) :
    liveAtPoint F lv x (b, k) ↔ x ∈ getSet lv.bb2Out b := by
  unfold liveAtPoint
  simp [List.drop_of_length_le hk, useDef_nil]

theorem liveAtPoint_zero (F : Func) (lv : Liveness) (x : Name) (b : Nat)
    (h : inEquation F lv b) : liveAtPoint F lv x (b, 0) ↔ x ∈ getSet lv.bb2In b := by
  unfold liveAtPoint
  rw [h]
  simp only [bb2Use, bb2Def, List.drop_zero, Finset.mem_union, Finset.mem_sdiff]
  tauto

theorem isStoreTo_false_of_not_storeAt (F : Func) (x : Name) (p : Nat × Nat)
    (i : Instruction) (hi : F.instAt p = some i) (h : ¬ storeAt F x p) :
    isStoreTo F x i = false := by
  by_contra hs
  simp only [Bool.not_eq_false] at hs
  exact h ⟨i, hi, hs⟩

theorem instAt_of_step (F : Func) (p q : Nat × Nat) (h : Step F p q) :
    ∃ i, F.instAt p = some i := by
  cases h with
  | next b k hk =>
    exact ⟨(F.block b)[k], by
      show (F.block b)[k]? = _
      exact List.getElem?_eq_getElem (by omega)⟩
  | jump b k s hk _ =>
    exact ⟨(F.block b)[k], by
      show (F.block b)[k]? = _
      exact List.getElem?_eq_getElem (by omega)⟩

/-- Completeness of the analysis on a set of blocks closed under successors where both
equations hold: a slot with a path to a load at a program point is reported live there. -/
theorem liveAtPoint_of_liveFrom (F : Func) (lv : Liveness) (x : Name) (W : List Nat)
    (hx : x ∈ lv.named) (hW : ∀ v ∈ W, ∀ u ∈ F.succs v, u ∈ W)
    (hIn : ∀ b ∈ W, inEquation F lv b) (hOut : ∀ b ∈ W, outEquation F lv b)
    (p : Nat × Nat) (hp : p.1 ∈ W) (h : LiveFrom F x p) : liveAtPoint F lv x p := by
  obtain ⟨q, hpq, hq⟩ := h
  induction hpq using Relation.ReflTransGen.head_induction_on with
  | refl =>
    obtain ⟨i, hi, hl⟩ := hq
    exact (liveAtPoint_cons F lv x q.1 q.2 i hx hi).2 (Or.inl hl)
  | head hac _ ih =>
    obtain ⟨hns, hst⟩ := hac
    obtain ⟨i, hi⟩ := instAt_of_step F _ _ hst
    have hs := isStoreTo_false_of_not_storeAt F x _ i hi hns
    cases hst with
    | next b k hk =>
      exact (liveAtPoint_cons F lv x b k i hx hi).2 (Or.inr ⟨hs, ih hp⟩)
    | jump b k s hk hsucc =>
      have hsW : s ∈ W := hW b hp s hsucc
      have h1 := (liveAtPoint_zero F lv x s (hIn s hsW)).1 (ih hsW)
      have h2 : x ∈ getSet lv.bb2Out b := by
        rw [hOut b hp]
        simp only [succIn, Finset.mem_biUnion, List.mem_toFinset]
        exact ⟨s, hsucc, h1⟩
      refine (liveAtPoint_cons F lv x b k i hx hi).2 (Or.inr ⟨hs, ?_⟩)
      exact (liveAtPoint_end F lv x b (k + 1) (by omega)).2 h2

theorem startState_inv (lv : Liveness) (F : Func) :
    LoopInv F (identifyNamed F lv.named) (startState lv F) := by
  refine ⟨rfl, ?_, ?_, ?_, ?_⟩
  · intro b; simp [startState, getSet_clearAll]
  · intro b; simp [startState, getSet_clearAll]
  · intro b; simp [startState, getSet_clearAll]
  · intro b x hx; simp [startState, getSet_clearAll] at hx

theorem runOnFunctionCnt_eq (lv : Liveness) (F : Func) (r : Liveness × Nat) (hne : F ≠ [])
    (h : lv.runOnFunctionCnt F = some r) :
    (F.block 0 ≠ [] ∧ F.block (F.length - 1) ≠ []) ∧
      ∃ W, worklist F = some W ∧
        fixpoint F W (1 + W.length * (identifyNamed F lv.named).card) (startState lv F) 0 =
          some r := by
  unfold Liveness.runOnFunctionCnt at h
  simp only [hne, if_false] at h
  by_cases ha : F.block 0 = [] ∨ F.block (F.length - 1) = []
  · simp [ha] at h
  · simp only [ha, if_false] at h
    refine ⟨by tauto, ?_⟩
    cases hw : worklist F with
    | none => simp [hw] at h
    | some W => simp only [hw] at h; exact ⟨W, rfl, h⟩

/-- What `runOnFunctionCnt` establishes on a non-empty function. -/
theorem run_spec (lv : Liveness) (F : Func) (lv1 : Liveness) (cnt : Nat) (hne : F ≠ [])
    (h : lv.runOnFunctionCnt F = some (lv1, cnt)) :
    ∃ W, worklist F = some W ∧ LoopInv F (identifyNamed F lv.named) lv1 ∧
      (∀ b ∈ W, inEquation F lv1 b ∧ outEquation F lv1 b ∧ (lv1.bb2Out b).isNone = false) ∧
      (lv1.bb2Out (F.length - 1)).isNone = false ∧
      (∀ j, j ∉ W → getSet lv1.bb2Out j = ∅ ∧ getSet lv1.bb2In j = ∅) ∧
      1 ≤ cnt ∧ cnt ≤ 1 + W.length * (identifyNamed F lv.named).card := by
  obtain ⟨_, W, hW, hfix⟩ := runOnFunctionCnt_eq lv F _ hne h
  have hinv := startState_inv lv F
  obtain ⟨st0, cnt1, e, i0, s0, hb, hcnt, _, _, k, nw⟩ :=
    fixpoint_spec F (identifyNamed F lv.named) W
      (1 + W.length * (identifyNamed F lv.named).card) (startState lv F) 0 hinv (by omega)
  rw [hfix] at e
  simp only [Option.some.injEq, Prod.mk.injEq] at e
  obtain ⟨e1, e2⟩ := e
  subst e2
  have hst := pass_stable F (identifyNamed F lv.named) W (st0, false) i0 s0
  have hp : (pass F W st0).1 = W.foldl (visitBlock F) st0 := by
    unfold pass; rw [foldl_passStep_fst]
  have hinv1 : LoopInv F (identifyNamed F lv.named) lv1 := e1 ▸ pass_inv F _ W st0 i0
  refine ⟨W, hW, hinv1, ?_, ?_, ?_, by omega, by omega⟩
  · intro b hbW
    obtain ⟨a, c⟩ := hst.2.2 b hbW
    refine ⟨?_, ?_, ?_⟩
    · unfold inEquation; rw [hinv1.named, e1]; exact a
    · unfold outEquation; rw [e1]; exact c
    · rw [e1, hp]; exact visits_out_key F W st0 b (Or.inl hbW)
  · rw [e1, hp]
    apply visits_out_key F W st0 _ (Or.inr _)
    apply k
    simp [startState, clearAll, setSet]
  · intro j hj
    obtain ⟨a, c⟩ := nw j hj
    rw [e1, hp]
    refine ⟨?_, ?_⟩
    · rw [getSet_congr (visits_out_not_mem F W st0 j hj), getSet_congr a]
      simp [startState, getSet_clearAll]
    · rw [visits_in_not_mem F W st0 j hj, c]
      simp [startState, getSet_clearAll]

theorem run_total (lv : Liveness) (F : Func) (hwf : F.WF)
    (ha : F ≠ [] → F.block 0 ≠ [] ∧ F.block (F.length - 1) ≠ []) :
    ∃ r, lv.runOnFunctionCnt F = some r := by
  by_cases hne : F = []
  · exact ⟨(lv, 0), by simp [Liveness.runOnFunctionCnt, hne]⟩
  · obtain ⟨W, hW⟩ := worklist_total F hne hwf
    obtain ⟨st0, cnt1, e, _⟩ :=
      fixpoint_spec F (identifyNamed F lv.named) W (1 + W.length * (identifyNamed F lv.named).card)
        (startState lv F) 0 (startState_inv lv F) (by omega)
    refine ⟨((pass F W st0).1, cnt1), ?_⟩
    unfold Liveness.runOnFunctionCnt
    have := ha hne
    simp only [hne, if_false, this.1, this.2, or_self, hW]
    exact e

theorem runOnFunction_eq (lv : Liveness) (F : Func) (lv1 : Liveness)
    (h : lv.runOnFunction F = some lv1) : ∃ cnt, lv.runOnFunctionCnt F = some (lv1, cnt) := by
  unfold Liveness.runOnFunction at h
  obtain ⟨r, hr, rfl⟩ := Option.map_eq_some'.1 h
  exact ⟨r.2, hr⟩

theorem ne_nil_of_instAt (F : Func) (p : Nat × Nat) (i : Instruction)
    (h : F.instAt p = some i) : F ≠ [] := by
  rintro rfl
  simp [Func.instAt, Func.block] at h

theorem liveOf_eq (F : Func) (h : (Liveness.init.runOnFunction F).isSome = true) :
    Liveness.init.runOnFunction F = some (liveOf F) := by
  unfold liveOf
  cases hx : Liveness.init.runOnFunction F with
  | none => rw [hx] at h; cases h
  | some v => rfl

theorem ex3Live_eq : Liveness.init.runOnFunction ex3 = some ex3Live :=
  liveOf_eq ex3 (by decide)

theorem reachable_entry (F : Func) : F.Reachable 0 := Relation.ReflTransGen.refl

theorem ex3_reachable_one : ex3.Reachable 1 :=
  Relation.ReflTransGen.single (by decide : 1 ∈ ex3.succs 0)

/-- What `runOnFunction` establishes for a block reachable from the entry. -/
theorem run_reachable (lv : Liveness) (F : Func) (lv1 : Liveness) (hne : F ≠ [])
    (h : lv.runOnFunction F = some lv1) :
    ∃ W : List Nat, LoopInv F lv1.named lv1 ∧ (∀ v ∈ W, ∀ u ∈ F.succs v, u ∈ W) ∧
      (∀ b, F.Reachable b → b ∈ W) ∧
      (∀ b ∈ W, inEquation F lv1 b ∧ outEquation F lv1 b ∧ (lv1.bb2Out b).isNone = false) ∧
      (lv1.bb2Out (F.length - 1)).isNone = false ∧
      (∀ j, j ∉ W → getSet lv1.bb2Out j = ∅ ∧ getSet lv1.bb2In j = ∅) := by
  obtain ⟨cnt, hc⟩ := runOnFunction_eq lv F lv1 h
  obtain ⟨W, hW, hinv, heq, hlast, hnw, _, _⟩ := run_spec lv F lv1 cnt hne hc
  have hcl := worklist_post F W (fun _ => True) trivial (fun _ _ _ _ => trivial) hW
  refine ⟨W, ?_, fun v hv u hu => (hcl.2.2 v hv).2 u hu, fun b hb => reachable_mem_worklist F W hW b hb,
    heq, hlast, hnw⟩
  rw [hinv.named]; exact hinv

theorem scanUse_drop_false_iff (F : Func) (x : Name) (b k : Nat) :
    scanUse F x ((F.block b).drop (k + 1)) = false ↔
      ∀ j, k < j → loadAt F x (b, j) →
        ∃ m, k < m ∧ m < j ∧ storeAt F x (b, m) := by
  rw [scanUse_false_iff]
  constructor
  · intro h j hj ⟨i, hi, hl⟩
    obtain ⟨d, rfl⟩ : ∃ d, j = k + 1 + d := ⟨j - (k + 1), by omega⟩
    have hget : ((F.block b).drop (k + 1))[d]? = some i := by
      rw [List.getElem?_drop]; exact hi
    obtain ⟨m, i', hm, hm', hs⟩ := h d i hget hl
    refine ⟨k + 1 + m, by omega, by omega, i', ?_, hs⟩
    rw [List.getElem?_drop] at hm'; exact hm'
  · intro h j i hj hl
    rw [List.getElem?_drop] at hj
    obtain ⟨m, hm1, hm2, i', hi', hs⟩ := h (k + 1 + j) (by omega) ⟨i, hj, hl⟩
    obtain ⟨d, rfl⟩ : ∃ d, m = k + 1 + d := ⟨m - (k + 1), by omega⟩
    refine ⟨d, i', by omega, ?_, hs⟩
    rw [List.getElem?_drop]; exact hi'

theorem isDead_store (lv : Liveness) (F : Func) (b k : Nat) (i : Instruction) (v p : Value)
    (hi : F.instAt (b, k) = some i) (hk : i.kind = .store v p)
    (hkey : (lv.bb2Out b).isNone = false) :
    lv.isDead F b k =
      (decide (F.valueName p ∈ lv.named) && (!decide (F.valueName p ∈ getSet lv.bb2Out b) &&
        !scanUse F (F.valueName p) ((F.block b).drop (k + 1)))) := by
  unfold Liveness.isDead
  have hi' : (F.block b)[k]? = some i := hi
  rw [hi']
  simp only [hkey, hk]
  by_cases hn : F.valueName p ∈ lv.named <;> simp [hn]

theorem isDead_not_store (lv : Liveness) (F : Func) (b k : Nat) (i : Instruction)
    (hi : F.instAt (b, k) = some i) (hk : i.isStore = false)
    (hkey : (lv.bb2Out b).isNone = false) : lv.isDead F b k = false := by
  unfold Liveness.isDead
  have hi' : (F.block b)[k]? = some i := hi
  rw [hi']
  simp only [hkey]
  unfold Instruction.isStore at hk
  cases hkind : i.kind <;> simp_all

/-! ### The claims -/

/-- C1 (as stated, refuted): on `exUnreachLoad` the analysis finishes, and block 1, which
no path from the entry reaches, has the recorded set `In = ∅` although `Use = {x}`, so
the first dataflow equation fails at that block. -/
theorem c1_counterexample :
    ∃ lv1, Liveness.init.runOnFunction exUnreachLoad = some lv1 ∧ exUnreachLoad ≠ [] ∧
      1 < exUnreachLoad.length ∧ ¬ inEquation exUnreachLoad lv1 1 := by
  have h : (Liveness.init.runOnFunction exUnreachLoad).map
      (fun lv => decide (inEquation exUnreachLoad lv 1)) = some false := by decide
  obtain ⟨lv1, h1, h2⟩ := Option.map_eq_some'.1 h
  exact ⟨lv1, h1, by decide, by decide, by simpa using h2⟩

/-- C1 (amended): when `Liveness::runOnFunction` finishes on a non-empty function, for
every basic block `b` reachable from the entry block the stored sets satisfy both
dataflow equations at once: `In[b] = Use[b] ∪ (Out[b] − Def[b])` and `Out[b]` is the
union of `In[s]` over all successors `s` of `b` (an unrecorded set counting as empty). -/
theorem c1_equations_reachable (lv : Liveness) (F : Func) (lv1 : Liveness) (hne : F ≠ [])
    (h : lv.runOnFunction F = some lv1) (b : Nat) (hb : F.Reachable b) :
    getSet lv1.bb2In b = bb2Use F lv1.named b ∪ (getSet lv1.bb2Out b \ bb2Def F lv1.named b) ∧
      getSet lv1.bb2Out b = (F.succs b).toFinset.biUnion (getSet lv1.bb2In) := by
  obtain ⟨W, _, _, hr, heq, _⟩ := run_reachable lv F lv1 hne h
  exact ⟨(heq b (hr b hb)).1, (heq b (hr b hb)).2.1⟩

/-- C1 (amended) at block 1 of `ex3`. -/
theorem c1_equations_reachable_witness :
    (ex3 ≠ [] ∧ Liveness.init.runOnFunction ex3 = some ex3Live ∧ ex3.Reachable 1) ∧
      (getSet ex3Live.bb2In 1 =
          bb2Use ex3 ex3Live.named 1 ∪ (getSet ex3Live.bb2Out 1 \ bb2Def ex3 ex3Live.named 1) ∧
        getSet ex3Live.bb2Out 1 = (ex3.succs 1).toFinset.biUnion (getSet ex3Live.bb2In)) :=
  ⟨⟨by decide, ex3Live_eq, ex3_reachable_one⟩,
    c1_equations_reachable Liveness.init ex3 ex3Live (by decide) ex3Live_eq 1
      ex3_reachable_one⟩

/-- C2: after the analysis, for every block `b` reachable from the entry block and every
named slot `x`, `x` is in `In[b]` if and only if there is a control-flow path that starts
at the first instruction of `b` and reaches a load of `x` with no store to `x` before
that load on the path. -/
theorem c2_live_in_meaning (lv : Liveness) (F : Func) (lv1 : Liveness) (hne : F ≠ [])
    (h : lv.runOnFunction F = some lv1) (b : Nat) (hb : F.Reachable b) (x : Name)
    (hx : x ∈ lv1.named) :
    x ∈ getSet lv1.bb2In b ↔
      ∃ q, Relation.ReflTransGen (fun a c => ¬ storeAt F x a ∧ Step F a c) (b, 0) q ∧
        loadAt F x q := by
  obtain ⟨W, hinv, hcl, hr, heq, _⟩ := run_reachable lv F lv1 hne h
  constructor
  · exact hinv.in_sound b x
  · intro hl
    have := liveAtPoint_of_liveFrom F lv1 x W hx hcl (fun b hb => (heq b hb).1)
      (fun b hb => (heq b hb).2.1) (b, 0) (hr b hb) hl
    exact (liveAtPoint_zero F lv1 x b (heq b (hr b hb)).1).1 this

/-- C2 at block 1 of `ex3` and the slot `a`. -/
theorem c2_live_in_meaning_witness :
    (ex3 ≠ [] ∧ Liveness.init.runOnFunction ex3 = some ex3Live ∧ ex3.Reachable 1 ∧
        "a" ∈ ex3Live.named) ∧
      ("a" ∈ getSet ex3Live.bb2In 1 ↔
        ∃ q, Relation.ReflTransGen (fun a c => ¬ storeAt ex3 "a" a ∧ Step ex3 a c) (1, 0) q ∧
          loadAt ex3 "a" q) :=
  ⟨⟨by decide, ex3Live_eq, ex3_reachable_one, by decide⟩,
    c2_live_in_meaning Liveness.init ex3 ex3Live (by decide) ex3Live_eq 1 ex3_reachable_one
      "a" (by decide)⟩

/-- C3: after the analysis, for every instruction `i` at position `k` of a block `b`
reachable from the entry block, `isDead(i)` returns true if and only if `i` is a store
whose pointer operand is a named slot `x`, `x` is not in `Out[b]`, and every load of `x`
later in the block is preceded, after `i`, by a store to `x` (the first later access to
`x`, if any, is a store); in particular it returns false for every non-store instruction
and for every store to a pointer that is not a named slot. -/
theorem c3_isDead_iff (lv : Liveness) (F : Func) (lv1 : Liveness)
    (h : lv.runOnFunction F = some lv1) (b : Nat) (hb : F.Reachable b) (k : Nat)
    (i : Instruction) (hi : F.instAt (b, k) = some i) :
    (lv1.isDead F b k = true ↔
        ∃ v p, i.kind = .store v p ∧ F.valueName p ∈ lv1.named ∧
          F.valueName p ∉ getSet lv1.bb2Out b ∧
          ∀ j, k < j → loadAt F (F.valueName p) (b, j) →
            ∃ m, k < m ∧ m < j ∧ storeAt F (F.valueName p) (b, m)) ∧
      (i.isStore = false → lv1.isDead F b k = false) ∧
      (∀ v p, i.kind = .store v p → F.valueName p ∉ lv1.named → lv1.isDead F b k = false) := by
  obtain ⟨W, _, _, hr, heq, _⟩ := run_reachable lv F lv1 (ne_nil_of_instAt F _ i hi) h
  have hkey := (heq b (hr b hb)).2.2
  refine ⟨?_, fun hs => isDead_not_store lv1 F b k i hi hs hkey, ?_⟩
  · by_cases hs : i.isStore = true
    · unfold Instruction.isStore at hs
      cases hk : i.kind with
      | store v p =>
        rw [isDead_store lv1 F b k i v p hi hk hkey]
        simp only [Bool.and_eq_true, decide_eq_true_eq, Bool.not_eq_true', decide_eq_false_iff_not,
          scanUse_drop_false_iff]
        constructor
        · rintro ⟨h1, h2, h3⟩
          exact ⟨v, p, rfl, h1, h2, h3⟩
        · rintro ⟨v', p', e, h1, h2, h3⟩
          cases e
          exact ⟨h1, h2, h3⟩
      | alloca _ => simp [hk] at hs
      | load _ => simp [hk] at hs
      | call _ => simp [hk] at hs
      | other _ _ => simp [hk] at hs
    · simp only [Bool.not_eq_true] at hs
      rw [isDead_not_store lv1 F b k i hi hs hkey]
      simp only [Bool.false_eq_true, false_iff, not_exists, not_and]
      intro v p hk
      simp [Instruction.isStore, hk] at hs
  · intro v p hk hn
    rw [isDead_store lv1 F b k i v p hi hk hkey]
    simp [hn]

/-- C3 at the store to `b` in block 1 of `ex3`. -/
theorem c3_isDead_iff_witness :
    (Liveness.init.runOnFunction ex3 = some ex3Live ∧ ex3.Reachable 1 ∧
        ex3.instAt (1, 1) = some ⟨5, "", .store (.inst 4) (.inst 1)⟩) ∧
      ((ex3Live.isDead ex3 1 1 = true ↔
          ∃ v p, (⟨5, "", .store (.inst 4) (.inst 1)⟩ : Instruction).kind = .store v p ∧
            ex3.valueName p ∈ ex3Live.named ∧
            ex3.valueName p ∉ getSet ex3Live.bb2Out 1 ∧
            ∀ j, 1 < j → loadAt ex3 (ex3.valueName p) (1, j) →
              ∃ m, 1 < m ∧ m < j ∧ storeAt ex3 (ex3.valueName p) (1, m)) ∧
        ((⟨5, "", .store (.inst 4) (.inst 1)⟩ : Instruction).isStore = false →
          ex3Live.isDead ex3 1 1 = false) ∧
        (∀ v p, (⟨5, "", .store (.inst 4) (.inst 1)⟩ : Instruction).kind = .store v p →
          ex3.valueName p ∉ ex3Live.named → ex3Live.isDead ex3 1 1 = false)) :=
  ⟨⟨ex3Live_eq, ex3_reachable_one, by decide⟩,
    c3_isDead_iff Liveness.init ex3 ex3Live ex3Live_eq 1 ex3_reachable_one 1 _ (by decide)⟩

/-- C4: after the analysis, for every store `s` to a named slot `x` in a block reachable
from the entry block, if `isDead(s)` returns true then no control-flow path that starts
just after `s` reaches a load of `x` without first passing another store to `x`. -/
theorem c4_isDead_sound (lv : Liveness) (F : Func) (lv1 : Liveness)
    (h : lv.runOnFunction F = some lv1) (b : Nat) (hb : F.Reachable b) (k : Nat)
    (i : Instruction) (v p : Value) (hi : F.instAt (b, k) = some i)
    (hk : i.kind = .store v p) (hn : F.valueName p ∈ lv1.named)
    (hd : lv1.isDead F b k = true) :
    ¬ ∃ q r, Step F (b, k) q ∧
        Relation.ReflTransGen
          (fun a c => ¬ storeAt F (F.valueName p) a ∧ Step F a c) q r ∧
        loadAt F (F.valueName p) r := by
  obtain ⟨W, hinv, hcl, hr, heq, _⟩ := run_reachable lv F lv1 (ne_nil_of_instAt F _ i hi) h
  have hbW := hr b hb
  rw [isDead_store lv1 F b k i v p hi hk (heq b hbW).2.2] at hd
  simp only [Bool.and_eq_true, decide_eq_true_eq, Bool.not_eq_true',
    decide_eq_false_iff_not] at hd
  obtain ⟨_, hout, hscan⟩ := hd
  rintro ⟨q, r, hst, hpath, hload⟩
  have hlive : ∀ q, q.1 ∈ W → LiveFrom F (F.valueName p) q →
      liveAtPoint F lv1 (F.valueName p) q := fun q hq hl =>
    liveAtPoint_of_liveFrom F lv1 _ W hn hcl (fun b hb => (heq b hb).1)
      (fun b hb => (heq b hb).2.1) q hq hl
  cases hst with
  | next _ _ hk1 =>
    have h1 := hlive (b, k + 1) hbW ⟨r, hpath, hload⟩
    unfold liveAtPoint at h1
    rcases h1 with h1 | ⟨_, h1⟩
    · have := (scanUse_iff_use F lv1.named _ hn _).2 h1
      rw [hscan] at this; cases this
    · exact hout h1
  | jump _ _ s hk1 hs =>
    have hsW := hcl b hbW s hs
    have h1 := (liveAtPoint_zero F lv1 _ s (heq s hsW).1).1 (hlive (s, 0) hsW ⟨r, hpath, hload⟩)
    apply hout
    rw [(heq b hbW).2.1]
    simp only [succIn, Finset.mem_biUnion, List.mem_toFinset]
    exact ⟨s, hs, h1⟩

/-- C4 at the store to `b` in block 1 of `ex3`. -/
theorem c4_isDead_sound_witness :
    (Liveness.init.runOnFunction ex3 = some ex3Live ∧ ex3.Reachable 1 ∧
        ex3.instAt (1, 1) = some ⟨5, "", .store (.inst 4) (.inst 1)⟩ ∧
        ex3.valueName (.inst 1) ∈ ex3Live.named ∧ ex3Live.isDead ex3 1 1 = true) ∧
      ¬ ∃ q r, Step ex3 (1, 1) q ∧
          Relation.ReflTransGen
            (fun a c => ¬ storeAt ex3 (ex3.valueName (.inst 1)) a ∧ Step ex3 a c) q r ∧
          loadAt ex3 (ex3.valueName (.inst 1)) r :=
  ⟨⟨ex3Live_eq, ex3_reachable_one, by decide, by decide, by decide⟩,
    c4_isDead_sound Liveness.init ex3 ex3Live ex3Live_eq 1 ex3_reachable_one 1
      ⟨5, "", .store (.inst 4) (.inst 1)⟩ (.inst 4) (.inst 1) (by decide) rfl (by decide)
      (by decide)⟩

/-- C5 (as stated, refuted): in `exUnreachStore`, block 1 holds a store to the named slot
`x` directly followed by a load of `x`, and `isDead` on that store returns true, because
the block is not reachable from the entry and so has no recorded `Out` set. -/
theorem c5_counterexample :
    ∃ lv1, Liveness.init.runOnFunction exUnreachStore = some lv1 ∧
      storeAt exUnreachStore "x" (1, 0) ∧ "x" ∈ lv1.named ∧
      loadAt exUnreachStore "x" (1, 1) ∧ lv1.isDead exUnreachStore 1 0 = true := by
  have h : (Liveness.init.runOnFunction exUnreachStore).map
      (fun lv => (decide ("x" ∈ lv.named), lv.isDead exUnreachStore 1 0)) =
        some (true, true) := by decide
  obtain ⟨lv1, h1, h2⟩ := Option.map_eq_some'.1 h
  simp only [Prod.mk.injEq, decide_eq_true_eq] at h2
  exact ⟨lv1, h1, ⟨_, rfl, by decide⟩, h2.1, ⟨_, rfl, by decide⟩, h2.2⟩

/-- C5 (amended): after the analysis of a function, for every basic block that is
reachable from the entry block or is the last block of the function, if the block
contains a store to a slot followed later in the same block by a load of that slot, with
no other store to the slot between them, then `isDead` on that store returns false. -/
theorem c5_store_then_load (lv : Liveness) (F : Func) (lv1 : Liveness)
    (h : lv.runOnFunction F = some lv1) (b : Nat) (hb : F.Reachable b ∨ b = F.length - 1)
    (x : Name) (k j : Nat) (hk : storeAt F x (b, k)) (hkj : k < j) (hj : loadAt F x (b, j))
    (hno : ∀ m, k < m → m < j → ¬ storeAt F x (b, m)) :
    lv1.isDead F b k = false := by
  have hne : F ≠ [] := by
    obtain ⟨i, hi, _⟩ := hk
    exact ne_nil_of_instAt F _ i hi
  obtain ⟨W, _, _, hr, heq, hlast, _⟩ := run_reachable lv F lv1 hne h
  have hkey : (lv1.bb2Out b).isNone = false := by
    rcases hb with hb | hb
    · exact (heq b (hr b hb)).2.2
    · rw [hb]; exact hlast
  obtain ⟨i, hi, hs⟩ := hk
  unfold isStoreTo at hs
  cases hkind : i.kind with
  | store v p =>
    simp only [hkind, beq_iff_eq] at hs
    subst hs
    rw [isDead_store lv1 F b k i v p hi hkind hkey]
    have hscan : scanUse F (F.valueName p) ((F.block b).drop (k + 1)) = true := by
      by_contra hc
      simp only [Bool.not_eq_true] at hc
      obtain ⟨m, h1, h2, h3⟩ := (scanUse_drop_false_iff F _ b k).1 hc j hkj hj
      exact hno m h1 h2 h3
    simp [hscan]
  | alloca _ => simp [hkind] at hs
  | load _ => simp [hkind] at hs
  | call _ => simp [hkind] at hs
  | other _ _ => simp [hkind] at hs

/-- C5 at the store of the one-block function `exStoreLoad`. -/
theorem c5_store_then_load_witness :
    (Liveness.init.runOnFunction exStoreLoad = some (liveOf exStoreLoad) ∧
        (exStoreLoad.Reachable 0 ∨ 0 = exStoreLoad.length - 1) ∧
        storeAt exStoreLoad "x" (0, 1) ∧ 1 < 2 ∧ loadAt exStoreLoad "x" (0, 2) ∧
        ∀ m, 1 < m → m < 2 → ¬ storeAt exStoreLoad "x" (0, m)) ∧
      (liveOf exStoreLoad).isDead exStoreLoad 0 1 = false :=
  ⟨⟨liveOf_eq exStoreLoad (by decide), Or.inl (reachable_entry _),
      ⟨_, rfl, by decide⟩, by decide, ⟨_, rfl, by decide⟩, fun m h1 h2 => by omega⟩,
    c5_store_then_load Liveness.init exStoreLoad (liveOf exStoreLoad)
      (liveOf_eq exStoreLoad (by decide)) 0 (Or.inl (reachable_entry _)) "x" 1 2
      ⟨_, rfl, by decide⟩ (by decide) ⟨_, rfl, by decide⟩ (fun m h1 h2 => by omega)⟩

/-- C7 (as stated, refuted): on `exLoop` the analysis finishes and the `Out` set of the
last block of the function, which branches to itself, is not empty. -/
theorem c7_counterexample :
    ∃ lv1, Liveness.init.runOnFunction exLoop = some lv1 ∧ exLoop ≠ [] ∧
      getSet lv1.bb2Out (exLoop.length - 1) ≠ ∅ := by
  have h : (Liveness.init.runOnFunction exLoop).map
      (fun lv => decide (getSet lv.bb2Out (exLoop.length - 1) = ∅)) = some false := by decide
  obtain ⟨lv1, h1, h2⟩ := Option.map_eq_some'.1 h
  exact ⟨lv1, h1, by decide, by simpa using h2⟩

/-- C7 (amended): for every non-empty function in which no successor of the last block
`F.back()` has a slot in its `In` set, in particular whenever the last block has no
successor at all, after `Liveness::runOnFunction` converges the `Out` set of the last
block is recorded and empty. -/
theorem c7_out_last_empty (lv : Liveness) (F : Func) (lv1 : Liveness) (hne : F ≠ [])
    (h : lv.runOnFunction F = some lv1)
    (hs : ∀ s ∈ F.succs (F.length - 1), getSet lv1.bb2In s = ∅) :
    lv1.bb2Out (F.length - 1) = some ∅ := by
  obtain ⟨W, _, _, _, heq, hlast, hnw⟩ := run_reachable lv F lv1 hne h
  have hempty : getSet lv1.bb2Out (F.length - 1) = ∅ := by
    by_cases hW : F.length - 1 ∈ W
    · have := (heq _ hW).2.1
      unfold outEquation succIn at this
      rw [this]
      apply Finset.eq_empty_of_forall_not_mem
      intro x hx
      simp only [Finset.mem_biUnion, List.mem_toFinset] at hx
      obtain ⟨s, hs1, hs2⟩ := hx
      rw [hs s hs1] at hs2
      exact Finset.not_mem_empty x hs2
    · exact (hnw _ hW).1
  unfold getSet at hempty
  cases hv : lv1.bb2Out (F.length - 1) with
  | none => rw [hv] at hlast; cases hlast
  | some v => rw [hv] at hempty; simpa using hempty

/-- C7 on `ex3`, whose last block returns. -/
theorem c7_out_last_empty_witness :
    (ex3 ≠ [] ∧ Liveness.init.runOnFunction ex3 = some ex3Live ∧
        ∀ s ∈ ex3.succs (ex3.length - 1), getSet ex3Live.bb2In s = ∅) ∧
      ex3Live.bb2Out (ex3.length - 1) = some ∅ :=
  ⟨⟨by decide, ex3Live_eq, by decide⟩,
    c7_out_last_empty Liveness.init ex3 ex3Live (by decide) ex3Live_eq (by decide)⟩

theorem fixpoint_fuel_mono (F : Func) (W : List Nat) (r : Liveness × Nat) :
    ∀ (fuel : Nat) (st : Liveness) (cnt : Nat), fixpoint F W fuel st cnt = some r →
      ∀ fuel1, fuel ≤ fuel1 → fixpoint F W fuel1 st cnt = some r := by
  intro fuel
  induction fuel with
  | zero => intro st cnt h; simp [fixpoint] at h
  | succ fuel ih =>
    intro st cnt h fuel1 hle
    obtain ⟨f, rfl⟩ : ∃ f, fuel1 = f + 1 := ⟨fuel1 - 1, by omega⟩
    rw [fixpoint] at h ⊢
    by_cases hc : (pass F W st).2 = true
    · simp only [hc, if_true] at h ⊢
      exact ih _ _ h f (by omega)
    · simp only [hc] at h ⊢
      exact h

/-- The result of the `while` loop is the state reached by visiting the worklist as many
times as the counter advanced. -/
theorem fixpoint_trace (F : Func) (W : List Nat) (st1 : Liveness) (cnt1 : Nat) :
    ∀ (fuel : Nat) (st : Liveness) (cnt : Nat), fixpoint F W fuel st cnt = some (st1, cnt1) →
      cnt ≤ cnt1 ∧ st1 = (List.replicate (cnt1 - cnt) W).flatten.foldl (visitBlock F) st := by
  intro fuel
  induction fuel with
  | zero => intro st cnt h; simp [fixpoint] at h
  | succ fuel ih =>
    intro st cnt h
    have hp : (pass F W st).1 = W.foldl (visitBlock F) st := by
      unfold pass; rw [foldl_passStep_fst]
    rw [fixpoint] at h
    by_cases hc : (pass F W st).2 = true
    · simp only [hc, if_true] at h
      obtain ⟨h1, h2⟩ := ih _ _ h
      refine ⟨by omega, ?_⟩
      have e : cnt1 - cnt = (cnt1 - (cnt + 1)) + 1 := by omega
      rw [e, List.replicate_succ, List.flatten_cons, List.foldl_append, ← hp]
      exact h2
    · simp only [hc] at h
      simp only [Bool.false_eq_true, if_false, Option.some.injEq, Prod.mk.injEq] at h
      obtain ⟨h1, h2⟩ := h
      subst h2
      refine ⟨by omega, ?_⟩
      have e : cnt + 1 - cnt = 1 := by omega
      rw [e, ← h1, hp]
      simp

theorem identifyNamed_card (l : List Instruction) (N : LiveSet) :
    (l.foldl (fun acc i => if i.isAlloca then insert i.name acc else acc) N).card ≤
      N.card + (l.filter (fun i => i.isAlloca)).length := by
  induction l generalizing N with
  | nil => simp
  | cons i l ih =>
    simp only [List.foldl_cons]
    refine (ih _).trans ?_
    by_cases hi : i.isAlloca = true
    · simp only [hi, if_true, List.filter_cons_of_pos, List.length_cons]
      have := Finset.card_insert_le i.name N
      omega
    · simp only [Bool.not_eq_true] at hi
      simp [hi]

/-- C8: on every function whose successor edges stay inside the function and whose first
and last blocks are not empty (the `assert` of the source), from any state of the pass
object, `Liveness::runOnFunction` returns, and the number `cnt` of full passes of its
fixed-point loop, also as the `unsigned` value reported, is at most
1 + (number of blocks) × (number of named slots); on a fresh pass object the named slots
are at most the `alloca` instructions of the function.  The bound on the passes that the
embedding gives to the loop is not what ends it: every larger bound gives the same
result. -/
theorem c8_terminates (lv : Liveness) (F : Func) (hwf : F.WF)
    (ha : F ≠ [] → F.block 0 ≠ [] ∧ F.block (F.length - 1) ≠ []) :
    ∃ lv1 cnt, lv.runOnFunctionCnt F = some (lv1, cnt) ∧
      cnt ≤ 1 + F.length * lv1.named.card ∧
      cnt % 2 ^ 32 ≤ 1 + F.length * lv1.named.card ∧
      (lv.named = ∅ → lv1.named.card ≤ (F.insts.filter (fun i => i.isAlloca)).length) ∧
      (F ≠ [] → ∀ W, worklist F = some W → ∀ fuel, 1 + W.length * lv1.named.card ≤ fuel →
        fixpoint F W fuel (startState lv F) 0 = some (lv1, cnt)) := by
  by_cases hne : F = []
  · refine ⟨lv, 0, by simp [Liveness.runOnFunctionCnt, hne], by omega, by omega, ?_, ?_⟩
    · intro h; simp [h]
    · intro h; exact absurd hne h
  · obtain ⟨⟨lv1, cnt⟩, hr⟩ := run_total lv F hwf ha
    obtain ⟨W, hW, hinv, _, _, _, _, hcnt⟩ := run_spec lv F lv1 cnt hne hr
    have hlen := worklist_length_le F W hne hwf hW
    have hbound : cnt ≤ 1 + F.length * lv1.named.card := by
      rw [hinv.named]
      have := Nat.mul_le_mul_right (identifyNamed F lv.named).card hlen
      omega
    refine ⟨lv1, cnt, hr, hbound, (Nat.mod_le _ _).trans hbound, ?_, ?_⟩
    · intro h0
      rw [hinv.named, h0]
      simpa using identifyNamed_card F.insts ∅
    · intro _ W1 hW1 fuel hfuel
      obtain ⟨_, W2, hW2, hfix⟩ := runOnFunctionCnt_eq lv F _ hne hr
      rw [hW1] at hW2
      cases hW2
      rw [hinv.named] at hfuel
      exact fixpoint_fuel_mono F W1 _ _ _ _ hfix fuel hfuel

/-- C8 on `ex3` from a fresh pass object. -/
theorem c8_terminates_witness :
    (ex3.WF ∧ (ex3 ≠ [] → ex3.block 0 ≠ [] ∧ ex3.block (ex3.length - 1) ≠ [])) ∧
      ∃ lv1 cnt, Liveness.init.runOnFunctionCnt ex3 = some (lv1, cnt) ∧
        cnt ≤ 1 + ex3.length * lv1.named.card ∧
        cnt % 2 ^ 32 ≤ 1 + ex3.length * lv1.named.card ∧
        (Liveness.init.named = ∅ →
          lv1.named.card ≤ (ex3.insts.filter (fun i => i.isAlloca)).length) ∧
        (ex3 ≠ [] → ∀ W, worklist ex3 = some W → ∀ fuel, 1 + W.length * lv1.named.card ≤ fuel →
          fixpoint ex3 W fuel (startState Liveness.init ex3) 0 = some (lv1, cnt)) :=
  ⟨⟨by decide, by decide⟩, c8_terminates Liveness.init ex3 (by decide) (by decide)⟩

/-- C9: within one run of the analysis, the state it returns is reached from the state at
the start of the loop by visiting the worklist `cnt` times in order, and every single
block visit of that sequence leaves, for every block `b`, `In[b]` and `Out[b]` supersets
of their values before the visit: no update ever removes a slot from any set. -/
theorem c9_monotone (lv : Liveness) (F : Func) (lv1 : Liveness) (cnt : Nat) (hne : F ≠ [])
    (h : lv.runOnFunctionCnt F = some (lv1, cnt)) :
    ∃ W, worklist F = some W ∧
      lv1 = (List.replicate cnt W).flatten.foldl (visitBlock F) (startState lv F) ∧
      ∀ pre bb suf, (List.replicate cnt W).flatten = pre ++ bb :: suf →
        ∀ b,
          getSet (pre.foldl (visitBlock F) (startState lv F)).bb2In b ⊆
              getSet ((pre ++ [bb]).foldl (visitBlock F) (startState lv F)).bb2In b ∧
            getSet (pre.foldl (visitBlock F) (startState lv F)).bb2Out b ⊆
              getSet ((pre ++ [bb]).foldl (visitBlock F) (startState lv F)).bb2Out b := by
  obtain ⟨_, W, hW, hfix⟩ := runOnFunctionCnt_eq lv F _ hne h
  obtain ⟨_, htr⟩ := fixpoint_trace F W lv1 cnt _ _ _ hfix
  refine ⟨W, hW, by simpa using htr, ?_⟩
  intro pre bb suf _ b
  have hinv := (visits_inv F _ pre _ (startState_inv lv F)).1
  rw [List.foldl_append]
  exact ⟨visitBlock_in_mono F _ _ bb hinv b, visitBlock_out_mono F _ bb b⟩

/-- C9 on `ex3` from a fresh pass object. -/
theorem c9_monotone_witness :
    (ex3 ≠ [] ∧
        Liveness.init.runOnFunctionCnt ex3 =
          some ((Liveness.init.runOnFunctionCnt ex3).getD (Liveness.init, 0))) ∧
      ∃ W, worklist ex3 = some W ∧
        ((Liveness.init.runOnFunctionCnt ex3).getD (Liveness.init, 0)).1 =
          (List.replicate ((Liveness.init.runOnFunctionCnt ex3).getD (Liveness.init, 0)).2
            W).flatten.foldl (visitBlock ex3) (startState Liveness.init ex3) ∧
        ∀ pre bb suf,
          (List.replicate ((Liveness.init.runOnFunctionCnt ex3).getD (Liveness.init, 0)).2
            W).flatten = pre ++ bb :: suf →
          ∀ b,
            getSet (pre.foldl (visitBlock ex3) (startState Liveness.init ex3)).bb2In b ⊆
                getSet ((pre ++ [bb]).foldl (visitBlock ex3)
                  (startState Liveness.init ex3)).bb2In b ∧
              getSet (pre.foldl (visitBlock ex3) (startState Liveness.init ex3)).bb2Out b ⊆
                getSet ((pre ++ [bb]).foldl (visitBlock ex3)
                  (startState Liveness.init ex3)).bb2Out b :=
  have e : Liveness.init.runOnFunctionCnt ex3 =
      some ((Liveness.init.runOnFunctionCnt ex3).getD (Liveness.init, 0)) := by
    have h : (Liveness.init.runOnFunctionCnt ex3).isSome = true := by decide
    cases hx : Liveness.init.runOnFunctionCnt ex3 with
    | none => rw [hx] at h; cases h
    | some v => rfl
  ⟨⟨by decide, e⟩, c9_monotone Liveness.init ex3 _ _ (by decide) e⟩

/-- C6: on the three-block function `ex3` (`entry -> body -> exit`, `entry` stores into
slot `a`, `body` loads `a` and then stores into slot `b`, `exit` touches neither) the
analysis yields `In[exit] = ∅`, `Out[body] = ∅`, `In[body] = {a}`, `Out[entry] = {a}`;
`isDead` is true for the store to `b` in `body` and false for the store to `a` in
`entry`, and the first elimination round of the eliminator puts the store to `b` in its
dead set and erases it, while the store to `a` is still in the function. -/
theorem c6_three_block_scenario :
    ∃ lv, Liveness.init.runOnFunction ex3 = some lv ∧
      getSet lv.bb2In 2 = ∅ ∧ getSet lv.bb2Out 1 = ∅ ∧ getSet lv.bb2In 1 = {"a"} ∧
      getSet lv.bb2Out 0 = {"a"} ∧
      ex3.instAt (1, 1) = some ⟨5, "", .store (.inst 4) (.inst 1)⟩ ∧
      lv.isDead ex3 1 1 = true ∧
      ex3.instAt (0, 2) = some ⟨2, "", .store (.other "7") (.inst 0)⟩ ∧
      lv.isDead ex3 0 2 = false ∧
      ∃ dead F1, dceRound lv ex3 = some (dead, F1) ∧ 5 ∈ dead ∧
        (∀ i ∈ F1.insts, i.id ≠ 5) ∧
        (⟨2, "", .store (.other "7") (.inst 0)⟩ : Instruction) ∈ F1.insts := by
  refine ⟨ex3Live, ex3Live_eq, by decide, by decide, by decide, by decide, by decide,
    by decide, by decide, by decide, ?_⟩
  have h : (dceRound ex3Live ex3).isSome = true := by decide
  cases hx : dceRound ex3Live ex3 with
  | none => rw [hx] at h; cases h
  | some r =>
    have h1 : (dceRound ex3Live ex3).map
        (fun r => decide (5 ∈ r.1 ∧ (∀ i ∈ r.2.insts, i.id ≠ 5) ∧
          (⟨2, "", .store (.other "7") (.inst 0)⟩ : Instruction) ∈ r.2.insts)) = some true := by
      decide
    rw [hx] at h1
    simp only [Option.map_some', Option.some.injEq, decide_eq_true_eq] at h1
    exact ⟨r.1, r.2, rfl, h1⟩

/-- C10 (the code at the failing input): in `exCall` the result of a call is stored into a
slot that is never read.  The call instruction is in the function before
`DeadCodeElimination::runOnFunction`, the pass reports a change, and no call instruction
is left afterwards. -/
theorem c10_call_erased :
    (⟨1, "r", .call [.other "f"]⟩ : Instruction) ∈ exCall.insts ∧
      ∃ lv F1, runDCE exCall = some (lv, F1, true) ∧ ∀ i ∈ F1.insts, i.isCall = false := by
  refine ⟨by decide, ?_⟩
  have h1 : (runDCE exCall).map
      (fun r => (r.2.2, decide (∀ i ∈ r.2.1.insts, i.isCall = false))) = some (true, true) := by
    decide
  obtain ⟨r, hr, h2⟩ := Option.map_eq_some'.1 h1
  simp only [Prod.mk.injEq, decide_eq_true_eq] at h2
  refine ⟨r.1, r.2.1, ?_, h2.2⟩
  rw [hr, ← h2.1]

/-! ### The select phase of the register allocator -/

theorem scanOrder_inl (env : RegEnv) (st : RAUSCC) (v : LiveInterval) (p : Nat) :
    ∀ (l cands : List Nat), scanOrder env st v l cands = .inl p →
      p ∈ l ∧ st.checkInterference env v p = .IK_Free := by
  intro l
  induction l with
  | nil => intro cands h; simp [scanOrder] at h
  | cons q rest ih =>
    intro cands h
    rw [scanOrder] at h
    cases hq : st.checkInterference env v q with
    | IK_Free =>
      simp only [hq, Sum.inl.injEq] at h
      subst h
      exact ⟨List.mem_cons_self _ _, hq⟩
    | IK_VirtReg =>
      simp only [hq] at h
      exact ⟨List.mem_cons_of_mem _ (ih _ h).1, (ih _ h).2⟩
    | IK_RegUnit =>
      simp only [hq] at h
      exact ⟨List.mem_cons_of_mem _ (ih _ h).1, (ih _ h).2⟩

theorem scanOrder_inr (env : RegEnv) (st : RAUSCC) (v : LiveInterval) (c : List Nat) :
    ∀ (l cands : List Nat), scanOrder env st v l cands = .inr c →
      (∀ p ∈ l, st.checkInterference env v p ≠ .IK_Free) ∧
        c = cands ++ l.filter (fun p => decide (st.checkInterference env v p = .IK_VirtReg)) := by
  intro l
  induction l with
  | nil => intro cands h; simp [scanOrder] at h; simp [h]
  | cons q rest ih =>
    intro cands h
    rw [scanOrder] at h
    cases hq : st.checkInterference env v q with
    | IK_Free => simp [hq] at h
    | IK_VirtReg =>
      simp only [hq] at h
      obtain ⟨h1, h2⟩ := ih _ h
      refine ⟨?_, ?_⟩
      · intro p hp
        rcases List.mem_cons.1 hp with rfl | hp
        · rw [hq]; simp
        · exact h1 p hp
      · rw [h2]; simp [hq]
    | IK_RegUnit =>
      simp only [hq] at h
      obtain ⟨h1, h2⟩ := ih _ h
      refine ⟨?_, ?_⟩
      · intro p hp
        rcases List.mem_cons.1 hp with rfl | hp
        · rw [hq]; simp
        · exact h1 p hp
      · rw [h2]; simp [hq]

theorem scanOrder_of_no_free (env : RegEnv) (st : RAUSCC) (v : LiveInterval) :
    ∀ (l cands : List Nat), (∀ p ∈ l, st.checkInterference env v p ≠ .IK_Free) →
      scanOrder env st v l cands =
        .inr (cands ++ l.filter (fun p => decide (st.checkInterference env v p = .IK_VirtReg))) := by
  intro l
  induction l with
  | nil => intro cands _; simp [scanOrder]
  | cons q rest ih =>
    intro cands h
    have hrest : ∀ p ∈ rest, st.checkInterference env v p ≠ .IK_Free :=
      fun p hp => h p (List.mem_cons_of_mem _ hp)
    rw [scanOrder]
    cases hq : st.checkInterference env v q with
    | IK_Free => exact absurd hq (h q (List.mem_cons_self _ _))
    | IK_VirtReg => simp only [hq]; rw [ih _ hrest]; simp [hq]
    | IK_RegUnit => simp only [hq]; rw [ih _ hrest]; simp [hq]

theorem trySpill_none (env : RegEnv) (st : RAUSCC) (v : LiveInterval)
    (splits : List LiveInterval) :
    ∀ (c : List Nat), trySpill env st v splits c = some none ↔
      ∀ p ∈ c, st.spillInterferences env v p splits = some none := by
  intro c
  induction c with
  | nil => simp [trySpill]
  | cons p rest ih =>
    rw [trySpill]
    cases hp : st.spillInterferences env v p splits with
    | none => simp [hp]
    | some o =>
      cases o with
      | none => simp only [ih]; simp [hp]
      | some r =>
        by_cases hc : r.1.checkInterference env v p = .IK_Free <;> simp [hc, hp]

theorem trySpill_some (env : RegEnv) (st : RAUSCC) (v : LiveInterval)
    (splits : List LiveInterval) (r : Nat × RAUSCC × List LiveInterval) :
    ∀ (c : List Nat), trySpill env st v splits c = some (some r) →
      r.1 ∈ c ∧ st.spillInterferences env v r.1 splits = some (some r.2) ∧
        r.2.1.checkInterference env v r.1 = .IK_Free := by
  intro c
  induction c with
  | nil => intro h; simp [trySpill] at h
  | cons p rest ih =>
    intro h
    rw [trySpill] at h
    cases hp : st.spillInterferences env v p splits with
    | none => simp [hp] at h
    | some o =>
      cases o with
      | none =>
        simp only [hp] at h
        obtain ⟨h1, h2, h3⟩ := ih h
        exact ⟨List.mem_cons_of_mem _ h1, h2, h3⟩
      | some q =>
        simp only [hp] at h
        by_cases hc : q.1.checkInterference env v p = .IK_Free
        · simp only [hc, if_true, Option.some.injEq] at h
          subst h
          exact ⟨List.mem_cons_self _ _, hp, hc⟩
        · simp [hc] at h

/-- C19: whenever `RAUSCC::selectOrSplit` returns (physical register numbers being
different from `~0u`), it returns the failure value `~0u` exactly when the register is
not spillable, no register of its allocation order is free, and `spillInterferences`
fails for every candidate physical register; in that case the state is unchanged, so the
spiller is not invoked, and nothing is appended to `SplitVRegs`; a spillable register in
the same situation is handed to the spiller, what the spiller creates is appended to
`SplitVRegs`, and `0` is returned. -/
theorem c19_selectOrSplit_failure (env : RegEnv) (st : RAUSCC) (v : LiveInterval)
    (splits : List LiveInterval) (r : Nat) (st1 : RAUSCC) (sp : List LiveInterval)
    (hord : ∀ p ∈ env.order v, p ≠ UINT32_MAX)
    (h : st.selectOrSplit env v splits = some (r, st1, sp)) :
    (r = UINT32_MAX ↔
        (v.spillable = false ∧
          (∀ p ∈ env.order v, st.checkInterference env v p ≠ .IK_Free) ∧
          ∀ p ∈ env.order v, st.checkInterference env v p = .IK_VirtReg →
            st.spillInterferences env v p splits = some none)) ∧
      (r = UINT32_MAX → st1 = st ∧ sp = splits) ∧
      (v.spillable = true →
        (∀ p ∈ env.order v, st.checkInterference env v p ≠ .IK_Free) →
        (∀ p ∈ env.order v, st.checkInterference env v p = .IK_VirtReg →
          st.spillInterferences env v p splits = some none) →
        r = 0 ∧ st1.spilled = st.spilled ++ [v] ∧ st1.assigned = st.assigned ∧
          sp = splits ++ env.spillNew v) := by
  unfold RAUSCC.selectOrSplit at h
  cases hs : scanOrder env st v (env.order v) [] with
  | inl p =>
    simp only [hs, Option.some.injEq, Prod.mk.injEq] at h
    obtain ⟨rfl, rfl, rfl⟩ := h
    obtain ⟨hp, hfree⟩ := scanOrder_inl env st v p _ _ hs
    refine ⟨⟨fun e => absurd e (hord p hp), fun hh => absurd hfree (hh.2.1 p hp)⟩,
      fun e => absurd e (hord p hp), fun _ hh _ => absurd hfree (hh p hp)⟩
  | inr cands =>
    simp only [hs] at h
    obtain ⟨hnofree, hc⟩ := scanOrder_inr env st v cands _ _ hs
    simp only [List.nil_append] at hc
    have hmem : ∀ p, p ∈ cands ↔
        p ∈ env.order v ∧ st.checkInterference env v p = .IK_VirtReg := by
      intro p; rw [hc]; simp
    cases ht : trySpill env st v splits cands with
    | none => simp [ht] at h
    | some o =>
      cases o with
      | some q =>
        simp only [ht, Option.some.injEq] at h
        subst h
        obtain ⟨h1, h2, _⟩ := trySpill_some env st v splits _ cands ht
        have hne : r ≠ UINT32_MAX := hord r ((hmem r).1 h1).1
        have hfail : ¬ ∀ p ∈ env.order v, st.checkInterference env v p = .IK_VirtReg →
            st.spillInterferences env v p splits = some none := by
          intro hh
          have := hh r ((hmem r).1 h1).1 ((hmem r).1 h1).2
          rw [this] at h2; cases h2
        exact ⟨⟨fun e => absurd e hne, fun hh => absurd hh.2.2 hfail⟩,
          fun e => absurd e hne, fun _ _ hh => absurd hh hfail⟩
      | none =>
        simp only [ht] at h
        have hall := (trySpill_none env st v splits cands).1 ht
        have hall' : ∀ p ∈ env.order v, st.checkInterference env v p = .IK_VirtReg →
            st.spillInterferences env v p splits = some none :=
          fun p hp hk => hall p ((hmem p).2 ⟨hp, hk⟩)
        by_cases hsp : v.spillable = true
        · simp only [hsp, Bool.not_true, Bool.false_eq_true, if_false, Option.some.injEq,
            Prod.mk.injEq] at h
          obtain ⟨rfl, rfl, rfl⟩ := h
          refine ⟨⟨fun e => by simp [UINT32_MAX] at e, fun hh => by simp [hsp] at hh⟩,
            fun e => by simp [UINT32_MAX] at e, fun _ _ _ => ⟨rfl, rfl, rfl, rfl⟩⟩
        · simp only [Bool.not_eq_true] at hsp
          simp only [hsp, Bool.not_false, if_true, Option.some.injEq, Prod.mk.injEq] at h
          obtain ⟨rfl, rfl, rfl⟩ := h
          exact ⟨⟨fun _ => ⟨hsp, hnofree, hall'⟩, fun _ => rfl⟩, fun _ => ⟨rfl, rfl⟩,
            fun hh => by simp [hsp] at hh⟩

/-- C19 on a register that is not spillable while the only physical register is held by a
heavier overlapping register. -/
theorem c19_selectOrSplit_failure_witness :
    ((∀ p ∈ env1.order ⟨2147483649, 2, false, [(0, 10)]⟩, p ≠ UINT32_MAX) ∧
        stHeld.selectOrSplit env1 ⟨2147483649, 2, false, [(0, 10)]⟩ [] =
          some (UINT32_MAX, stHeld, [])) ∧
      ((UINT32_MAX = UINT32_MAX ↔
          ((⟨2147483649, 2, false, [(0, 10)]⟩ : LiveInterval).spillable = false ∧
            (∀ p ∈ env1.order ⟨2147483649, 2, false, [(0, 10)]⟩,
              stHeld.checkInterference env1 ⟨2147483649, 2, false, [(0, 10)]⟩ p ≠ .IK_Free) ∧
            ∀ p ∈ env1.order ⟨2147483649, 2, false, [(0, 10)]⟩,
              stHeld.checkInterference env1 ⟨2147483649, 2, false, [(0, 10)]⟩ p = .IK_VirtReg →
                stHeld.spillInterferences env1 ⟨2147483649, 2, false, [(0, 10)]⟩ p [] =
                  some none)) ∧
        (UINT32_MAX = UINT32_MAX → stHeld = stHeld ∧ ([] : List LiveInterval) = []) ∧
        ((⟨2147483649, 2, false, [(0, 10)]⟩ : LiveInterval).spillable = true →
          (∀ p ∈ env1.order ⟨2147483649, 2, false, [(0, 10)]⟩,
            stHeld.checkInterference env1 ⟨2147483649, 2, false, [(0, 10)]⟩ p ≠ .IK_Free) →
          (∀ p ∈ env1.order ⟨2147483649, 2, false, [(0, 10)]⟩,
            stHeld.checkInterference env1 ⟨2147483649, 2, false, [(0, 10)]⟩ p = .IK_VirtReg →
              stHeld.spillInterferences env1 ⟨2147483649, 2, false, [(0, 10)]⟩ p [] =
                some none) →
          UINT32_MAX = 0 ∧ stHeld.spilled = stHeld.spilled ++ [⟨2147483649, 2, false, [(0, 10)]⟩] ∧
            stHeld.assigned = stHeld.assigned ∧
            ([] : List LiveInterval) = [] ++ env1.spillNew ⟨2147483649, 2, false, [(0, 10)]⟩)) :=
  ⟨⟨by decide, by decide⟩,
    c19_selectOrSplit_failure env1 stHeld ⟨2147483649, 2, false, [(0, 10)]⟩ [] UINT32_MAX stHeld []
      (by decide) (by decide)⟩

theorem overlaps_comm (a b : LiveInterval) : a.overlaps b = b.overlaps a := by
  rw [Bool.eq_iff_iff]
  simp only [LiveInterval.overlaps, List.any_eq_true, decide_eq_true_eq]
  constructor
  · rintro ⟨s, hs, t, ht, h⟩
    exact ⟨t, ht, s, hs, by rwa [max_comm, min_comm]⟩
  · rintro ⟨s, hs, t, ht, h⟩
    exact ⟨t, ht, s, hs, by rwa [max_comm, min_comm]⟩

theorem overlaps_segs_nil (a b : LiveInterval) (h : a.segs = []) : a.overlaps b = false := by
  simp [LiveInterval.overlaps, h]

theorem mem_interferingVRegs (st : RAUSCC) (v u : LiveInterval) (p : Nat) :
    u ∈ st.interferingVRegs v p ↔ (u, p) ∈ st.assigned ∧ v.overlaps u = true := by
  unfold RAUSCC.interferingVRegs
  simp only [List.mem_map, List.mem_filter, Bool.and_eq_true, decide_eq_true_eq]
  constructor
  · rintro ⟨a, ⟨ha, rfl, ho⟩, rfl⟩
    exact ⟨ha, ho⟩
  · rintro ⟨ha, ho⟩
    exact ⟨(u, p), ⟨ha, rfl, ho⟩, rfl⟩

/-- A register reported free for `v` is held by no register that overlaps `v`. -/
theorem free_no_overlap (env : RegEnv) (st : RAUSCC) (v u : LiveInterval) (p : Nat)
    (h : st.checkInterference env v p = .IK_Free) (hu : (u, p) ∈ st.assigned) :
    v.overlaps u = false := by
  unfold RAUSCC.checkInterference at h
  by_cases hs : v.segs = []
  · exact overlaps_segs_nil v u hs
  · simp only [hs, if_false] at h
    by_cases hf : env.fixedIntf v p = true
    · simp [hf] at h
    · simp only [hf] at h
      by_cases hi : st.interferingVRegs v p ≠ []
      · simp [hi] at h
      · simp only [ne_eq, not_not] at hi
        by_contra ho
        simp only [Bool.not_eq_false] at ho
        have := (mem_interferingVRegs st v u p).2 ⟨hu, ho⟩
        rw [hi] at this
        cases this

theorem noConflict_sub (a b : List (LiveInterval × Nat)) (h : ∀ x ∈ b, x ∈ a)
    (ha : NoConflict a) : NoConflict b :=
  fun x hx y hy => ha x (h x hx) y (h y hy)

theorem noConflict_assign (env : RegEnv) (st : RAUSCC) (v : LiveInterval) (p : Nat)
    (h : NoConflict st.assigned) (hf : st.checkInterference env v p = .IK_Free) :
    NoConflict (st.assign v p).assigned := by
  intro x hx y hy hne ho
  simp only [RAUSCC.assign, List.mem_append, List.mem_singleton] at hx hy
  rcases hx with hx | rfl
  · rcases hy with hy | rfl
    · exact h x hx y hy hne ho
    · intro e
      have hxa : (x.1, p) ∈ st.assigned := by
        have : x = (x.1, p) := Prod.ext rfl e
        rw [← this]; exact hx
      have := free_no_overlap env st v x.1 p hf hxa
      rw [overlaps_comm] at this
      simp only at ho
      rw [this] at ho; cases ho
  · rcases hy with hy | rfl
    · intro e
      have hya : (y.1, p) ∈ st.assigned := by
        have : y = (y.1, p) := Prod.ext rfl e.symm
        rw [← this]; exact hy
      have := free_no_overlap env st v y.1 p hf hya
      simp only at ho
      rw [this] at ho; cases ho
    · exact absurd rfl hne

theorem spillFold_assigned (env : RegEnv) (l : List LiveInterval) :
    ∀ (acc : RAUSCC × List LiveInterval),
      ∀ x ∈ (l.foldl
          (fun (acc : RAUSCC × List LiveInterval) u =>
            if acc.1.hasPhys u then (acc.1.unassign u).spill env u acc.2 else acc)
          acc).1.assigned, x ∈ acc.1.assigned := by
  induction l with
  | nil => intro acc x hx; exact hx
  | cons u l ih =>
    intro acc x hx
    simp only [List.foldl_cons] at hx
    have := ih _ x hx
    by_cases hp : acc.1.hasPhys u = true
    · simp only [hp, if_true, RAUSCC.spill, RAUSCC.unassign, List.mem_filter] at this
      exact this.1
    · simp only [hp] at this
      exact this

theorem spillInterferences_assigned (env : RegEnv) (st : RAUSCC) (v : LiveInterval) (p : Nat)
    (splits : List LiveInterval) (r : RAUSCC × List LiveInterval)
    (h : st.spillInterferences env v p splits = some (some r)) :
    ∀ x ∈ r.1.assigned, x ∈ st.assigned := by
  unfold RAUSCC.spillInterferences at h
  by_cases h1 : (st.interferingVRegs v p).any (fun u => !u.spillable) = true
  · simp [h1] at h
  · simp only [h1] at h
    by_cases h2 : (st.interferingVRegs v p).reverse.any
        (fun u => !u.spillable || decide (u.weight > v.weight)) = true
    · simp [h2] at h
    · simp only [h2] at h
      by_cases h3 : (st.interferingVRegs v p).reverse = []
      · simp [h3] at h
      · simp only [h3, if_false, Bool.false_eq_true, Option.some.injEq] at h
        rw [← h]
        exact spillFold_assigned env _ (st, splits)

/-- What `selectOrSplit` leaves: no new assignment, and a returned register other than
`0` and `~0u` is free for the register in the state returned. -/
theorem selectOrSplit_free (env : RegEnv) (st : RAUSCC) (v : LiveInterval)
    (splits : List LiveInterval) (r : Nat) (st1 : RAUSCC) (sp : List LiveInterval)
    (h : st.selectOrSplit env v splits = some (r, st1, sp)) :
    (∀ x ∈ st1.assigned, x ∈ st.assigned) ∧
      (r ≠ 0 → r ≠ UINT32_MAX → st1.checkInterference env v r = .IK_Free) := by
  unfold RAUSCC.selectOrSplit at h
  cases hs : scanOrder env st v (env.order v) [] with
  | inl p =>
    simp only [hs, Option.some.injEq, Prod.mk.injEq] at h
    obtain ⟨rfl, rfl, rfl⟩ := h
    exact ⟨fun x hx => hx, fun _ _ => (scanOrder_inl env st v p _ _ hs).2⟩
  | inr cands =>
    simp only [hs] at h
    cases ht : trySpill env st v splits cands with
    | none => simp [ht] at h
    | some o =>
      cases o with
      | some q =>
        simp only [ht, Option.some.injEq] at h
        subst h
        obtain ⟨_, h2, h3⟩ := trySpill_some env st v splits _ cands ht
        exact ⟨spillInterferences_assigned env st v _ splits _ h2, fun _ _ => h3⟩
      | none =>
        simp only [ht] at h
        by_cases hsp : v.spillable = true
        · simp only [hsp, Bool.not_true, Bool.false_eq_true, if_false, Option.some.injEq,
            Prod.mk.injEq] at h
          obtain ⟨rfl, rfl, rfl⟩ := h
          exact ⟨fun x hx => hx, fun e => absurd rfl e⟩
        · simp only [Bool.not_eq_true] at hsp
          simp only [hsp, Bool.not_false, if_true, Option.some.injEq, Prod.mk.injEq] at h
          obtain ⟨rfl, rfl, rfl⟩ := h
          exact ⟨fun x hx => hx, fun _ e => absurd rfl e⟩

theorem enqueueFold_assigned (l : List LiveInterval) (st : RAUSCC) :
    (l.foldl RAUSCC.enqueue st).assigned = st.assigned ∧
      (l.foldl RAUSCC.enqueue st).spilled = st.spilled ∧
      (l.foldl RAUSCC.enqueue st).stack = st.stack ∧
      (l.foldl RAUSCC.enqueue st).queue = st.queue ++ l := by
  induction l generalizing st with
  | nil => simp
  | cons u l ih =>
    simp only [List.foldl_cons]
    obtain ⟨a, b, c, d⟩ := ih (st.enqueue u)
    exact ⟨a, b, c, by rw [d]; simp [RAUSCC.enqueue]⟩

theorem allocStep_noConflict (env : RegEnv) (st : RAUSCC) (v : LiveInterval) (st1 : RAUSCC)
    (h0 : NoConflict st.assigned) (h : st.allocStep env v = some st1) :
    NoConflict st1.assigned := by
  unfold RAUSCC.allocStep at h
  by_cases hp : st.hasPhys v = true
  · simp [hp] at h
  · simp only [hp] at h
    cases hs : st.selectOrSplit env v [] with
    | none => simp [hs] at h
    | some q =>
      obtain ⟨r, st2, sp⟩ := q
      simp only [hs] at h
      obtain ⟨hsub, hfree⟩ := selectOrSplit_free env st v [] r st2 sp hs
      have h2 : NoConflict st2.assigned := noConflict_sub _ _ hsub h0
      by_cases hr : r = UINT32_MAX
      · simp [hr] at h
      · simp only [hr, if_false, Bool.false_eq_true, Option.some.injEq] at h
        rw [← h, (enqueueFold_assigned sp _).1]
        by_cases hz : r = 0
        · simpa [hz] using h2
        · simp only [ne_eq, hz, not_false_eq_true, if_true]
          exact noConflict_assign env st2 v r h2 (hfree hz hr)

theorem allocLoop_noConflict (env : RegEnv) :
    ∀ (fuel : Nat) (st st1 : RAUSCC), NoConflict st.assigned →
      RAUSCC.allocLoop env fuel st = some st1 → NoConflict st1.assigned := by
  intro fuel
  induction fuel with
  | zero => intro st st1 _ h; simp [RAUSCC.allocLoop] at h
  | succ fuel ih =>
    intro st st1 h0 h
    rw [RAUSCC.allocLoop] at h
    unfold RAUSCC.dequeue at h
    cases hst : st.stack with
    | nil =>
      simp only [hst, Option.some.injEq] at h
      rw [← h]; exact h0
    | cons v rest =>
      simp only [hst] at h
      cases hs : RAUSCC.allocStep env { st with stack := rest } v with
      | none => simp [hs] at h
      | some st2 =>
        simp only [hs] at h
        exact ih st2 st1
          (allocStep_noConflict env { st with stack := rest } v st2 h0 hs) h

theorem allocationRound_noConflict (K : Nat) (env : RegEnv) (mri : List VirtRegInfo)
    (st : RAUSCC) (h : RAUSCC.allocationRound K env mri = some st) :
    NoConflict st.assigned := by
  unfold RAUSCC.allocationRound at h
  cases hs : (RAUSCC.empty.initGraph mri).simplifyGraph K with
  | none => simp [hs] at h
  | some st1 =>
    simp only [hs] at h
    unfold RAUSCC.allocatePhysRegs at h
    have ha : st1.assigned = [] := by
      unfold RAUSCC.simplifyGraph at hs
      obtain ⟨s, _, rfl⟩ := Option.map_eq_some'.1 hs
      rfl
    refine allocLoop_noConflict env _ _ st ?_ h
    rw [(enqueueFold_assigned _ st1).1, ha]
    intro x hx
    cases hx

/-- C15: the property that no two different registers with overlapping live intervals
hold the same physical register is kept by every step of the select phase, from any
state that has it: by `selectOrSplit` (also while interfering registers are unassigned,
and when the register it returns is then assigned), by one iteration of the select loop
and by the whole loop; an allocation round starts the loop with no assignment, so the
property holds at every moment of its select phase and at its end. -/
theorem c15_no_shared_register (env : RegEnv) (st : RAUSCC) (h0 : NoConflict st.assigned) :
    (∀ v splits r st1 sp, st.selectOrSplit env v splits = some (r, st1, sp) →
        NoConflict st1.assigned ∧
          (r ≠ 0 → r ≠ UINT32_MAX → NoConflict (st1.assign v r).assigned)) ∧
      (∀ v st1, st.allocStep env v = some st1 → NoConflict st1.assigned) ∧
      (∀ fuel st1, RAUSCC.allocLoop env fuel st = some st1 → NoConflict st1.assigned) ∧
      (∀ K mri st1, RAUSCC.allocationRound K env mri = some st1 →
        NoConflict st1.assigned) := by
  refine ⟨?_, ?_, ?_, ?_⟩
  · intro v splits r st1 sp h
    obtain ⟨hsub, hfree⟩ := selectOrSplit_free env st v splits r st1 sp h
    have h1 : NoConflict st1.assigned := noConflict_sub _ _ hsub h0
    exact ⟨h1, fun hz hr => noConflict_assign env st1 v r h1 (hfree hz hr)⟩
  · intro v st1 h
    exact allocStep_noConflict env st v st1 h0 h
  · intro fuel st1 h
    exact allocLoop_noConflict env fuel st st1 h0 h
  · intro K mri st1 h
    exact allocationRound_noConflict K env mri st1 h

theorem noConflict_stHeld : NoConflict stHeld.assigned := by
  intro x hx y hy hne
  simp only [stHeld, RAUSCC.empty, List.mem_singleton] at hx hy
  subst hx; subst hy
  exact absurd rfl hne

/-- C15 from the state in which one register holds the physical register `1`. -/
theorem c15_no_shared_register_witness :
    NoConflict stHeld.assigned ∧
      ((∀ v splits r st1 sp, stHeld.selectOrSplit env1 v splits = some (r, st1, sp) →
          NoConflict st1.assigned ∧
            (r ≠ 0 → r ≠ UINT32_MAX → NoConflict (st1.assign v r).assigned)) ∧
        (∀ v st1, stHeld.allocStep env1 v = some st1 → NoConflict st1.assigned) ∧
        (∀ fuel st1, RAUSCC.allocLoop env1 fuel stHeld = some st1 →
          NoConflict st1.assigned) ∧
        (∀ K mri st1, RAUSCC.allocationRound K env1 mri = some st1 →
          NoConflict st1.assigned)) :=
  ⟨noConflict_stHeld, c15_no_shared_register env1 stHeld noConflict_stHeld⟩

/-- C18 (as stated, refuted): register 1, spillable and of weight 5, is popped while the
only physical register is held by the overlapping register 0 of weight 3.  No register
of the palette is free, yet the register handed to the spiller is register 0, which is
unassigned, and register 1 receives the physical register. -/
theorem c18_counterexample :
    (mkReg 1 5 [(0, 10)]).spillable = true ∧
      (∀ p ∈ env1.order (mkReg 1 5 [(0, 10)]),
        stHeld.checkInterference env1 (mkReg 1 5 [(0, 10)]) p ≠ .IK_Free) ∧
      stHeld.hasPhys (mkReg 0 3 [(0, 10)]) = true ∧
      ∃ st1, stHeld.allocStep env1 (mkReg 1 5 [(0, 10)]) = some st1 ∧
        st1.spilled = [mkReg 0 3 [(0, 10)]] ∧
        st1.hasPhys (mkReg 0 3 [(0, 10)]) = false ∧
        st1.assigned = [(mkReg 1 5 [(0, 10)], 1)] := by
  refine ⟨by decide, by decide, by decide, ?_⟩
  have h : (stHeld.allocStep env1 (mkReg 1 5 [(0, 10)])).isSome = true := by decide
  cases hx : stHeld.allocStep env1 (mkReg 1 5 [(0, 10)]) with
  | none => rw [hx] at h; cases h
  | some st1 =>
    have h1 : (stHeld.allocStep env1 (mkReg 1 5 [(0, 10)])).map
        (fun s => (s.spilled, s.hasPhys (mkReg 0 3 [(0, 10)]), s.assigned)) =
        some ([mkReg 0 3 [(0, 10)]], false, [(mkReg 1 5 [(0, 10)], 1)]) := by decide
    rw [hx] at h1
    simp only [Option.map_some', Option.some.injEq, Prod.mk.injEq] at h1
    exact ⟨st1, rfl, h1.1, h1.2.1, h1.2.2⟩

theorem spillInterferences_fail (env : RegEnv) (st : RAUSCC) (v u : LiveInterval) (p : Nat)
    (splits : List LiveInterval) (hu : u ∈ st.interferingVRegs v p)
    (hw : u.spillable = false ∨ v.weight < u.weight) :
    st.spillInterferences env v p splits = some none := by
  unfold RAUSCC.spillInterferences
  by_cases h1 : (st.interferingVRegs v p).any (fun u => !u.spillable) = true
  · simp [h1]
  · simp only [h1]
    have h2 : (st.interferingVRegs v p).reverse.any
        (fun u => !u.spillable || decide (u.weight > v.weight)) = true := by
      rw [List.any_eq_true]
      refine ⟨u, List.mem_reverse.2 hu, ?_⟩
      rcases hw with hw | hw
      · simp [hw]
      · simp [hw]
    simp [h2]

/-- C18 (amended): in the select phase, for every popped spillable register `v` for which
no register of the palette is free and every candidate register is held by an
overlapping register that is not spillable or has a larger spill weight than `v`,
`selectOrSplit` returns `0`, the register handed to the spiller is `v` itself, and no
register that holds a physical register is unassigned or spilled in its place; the
iteration of the select loop then leaves the assignment as it was. -/
theorem c18_spills_itself (env : RegEnv) (st : RAUSCC) (v : LiveInterval)
    (splits : List LiveInterval) (hsp : v.spillable = true)
    (hno : ∀ p ∈ env.order v, st.checkInterference env v p ≠ .IK_Free)
    (hheavy : ∀ p ∈ env.order v, st.checkInterference env v p = .IK_VirtReg →
      ∃ u ∈ st.interferingVRegs v p, u.spillable = false ∨ v.weight < u.weight) :
    (∃ st1, st.selectOrSplit env v splits = some (0, st1, splits ++ env.spillNew v) ∧
        st1.spilled = st.spilled ++ [v] ∧ st1.assigned = st.assigned) ∧
      (st.hasPhys v = false →
        ∃ st2, st.allocStep env v = some st2 ∧ st2.spilled = st.spilled ++ [v] ∧
          st2.assigned = st.assigned) := by
  have hsel : st.selectOrSplit env v splits =
      some (0, (st.spill env v splits).1, splits ++ env.spillNew v) ∧
      ∀ sp, st.selectOrSplit env v sp = some (0, (st.spill env v sp).1, sp ++ env.spillNew v) := by
    have key : ∀ sp, st.selectOrSplit env v sp =
        some (0, (st.spill env v sp).1, sp ++ env.spillNew v) := by
      intro sp
      unfold RAUSCC.selectOrSplit
      rw [scanOrder_of_no_free env st v _ _ hno]
      have ht : trySpill env st v sp
          ([] ++ (env.order v).filter
            (fun p => decide (st.checkInterference env v p = .IK_VirtReg))) = some none := by
        rw [trySpill_none]
        intro p hp
        simp only [List.nil_append, List.mem_filter, decide_eq_true_eq] at hp
        obtain ⟨u, hu, hw⟩ := hheavy p hp.1 hp.2
        exact spillInterferences_fail env st v u p sp hu hw
      simp only [ht, hsp, Bool.not_true, Bool.false_eq_true, if_false]
      rfl
    exact ⟨key splits, key⟩
  refine ⟨⟨_, hsel.1, rfl, rfl⟩, ?_⟩
  intro hp
  refine ⟨(env.spillNew v).foldl RAUSCC.enqueue (st.spill env v []).1, ?_, ?_, ?_⟩
  · unfold RAUSCC.allocStep
    simp only [hp, Bool.false_eq_true, if_false, hsel.2 []]
    simp [UINT32_MAX]
  · rw [(enqueueFold_assigned _ _).2.1]; rfl
  · rw [(enqueueFold_assigned _ _).1]; rfl

/-- C18 (amended) on a register of weight 2 popped while the only physical register is
held by an overlapping register of weight 3. -/
theorem c18_spills_itself_witness :
    ((mkReg 1 2 [(0, 10)]).spillable = true ∧
        (∀ p ∈ env1.order (mkReg 1 2 [(0, 10)]),
          stHeld.checkInterference env1 (mkReg 1 2 [(0, 10)]) p ≠ .IK_Free) ∧
        (∀ p ∈ env1.order (mkReg 1 2 [(0, 10)]),
          stHeld.checkInterference env1 (mkReg 1 2 [(0, 10)]) p = .IK_VirtReg →
          ∃ u ∈ stHeld.interferingVRegs (mkReg 1 2 [(0, 10)]) p,
            u.spillable = false ∨ (mkReg 1 2 [(0, 10)]).weight < u.weight)) ∧
      ((∃ st1, stHeld.selectOrSplit env1 (mkReg 1 2 [(0, 10)]) [] =
            some (0, st1, [] ++ env1.spillNew (mkReg 1 2 [(0, 10)])) ∧
          st1.spilled = stHeld.spilled ++ [mkReg 1 2 [(0, 10)]] ∧
          st1.assigned = stHeld.assigned) ∧
        (stHeld.hasPhys (mkReg 1 2 [(0, 10)]) = false →
          ∃ st2, stHeld.allocStep env1 (mkReg 1 2 [(0, 10)]) = some st2 ∧
            st2.spilled = stHeld.spilled ++ [mkReg 1 2 [(0, 10)]] ∧
            st2.assigned = stHeld.assigned)) :=
  ⟨⟨by decide, by decide, by decide⟩,
    c18_spills_itself env1 stHeld (mkReg 1 2 [(0, 10)]) [] (by decide) (by decide) (by decide)⟩

/-- C20 (the code at the failing input): `enqueue` pushes on `Queue` while `dequeue` pops
`stack`, so for every state a call of `enqueue` changes nothing in what `dequeue`
returns, and the interval stays in `Queue`.  In the allocation round on `twoRegs` with
one colour, the spiller creates a replacement register, the driver hands it to
`enqueue`, and at the end of the round it holds no physical register, was never given to
`selectOrSplit` (it is not spilled either), and `dequeue` returns null. -/
theorem c20_enqueue_not_dequeued :
    (∀ (st : RAUSCC) (li : LiveInterval),
        (st.enqueue li).dequeue.1 = st.dequeue.1 ∧
          (st.enqueue li).dequeue.2.stack = st.dequeue.2.stack ∧
          li ∈ (st.enqueue li).dequeue.2.queue) ∧
      ∃ st, RAUSCC.allocationRound 1 env1 twoRegs = some st ∧
        st.spilled = [mkReg 0 3 [(0, 10)]] ∧
        env1.spillNew (mkReg 0 3 [(0, 10)]) = [⟨2147483748, FLT_MAX + 1, false, [(0, 1)]⟩] ∧
        (⟨2147483748, FLT_MAX + 1, false, [(0, 1)]⟩ : LiveInterval) ∈ st.queue ∧
        st.hasPhys ⟨2147483748, FLT_MAX + 1, false, [(0, 1)]⟩ = false ∧
        st.dequeue.1 = none := by
  refine ⟨?_, ?_⟩
  · intro st li
    unfold RAUSCC.enqueue RAUSCC.dequeue
    cases h : st.stack <;> simp [h]
  · have h : (RAUSCC.allocationRound 1 env1 twoRegs).isSome = true := by decide
    cases hx : RAUSCC.allocationRound 1 env1 twoRegs with
    | none => rw [hx] at h; cases h
    | some st =>
      have h1 : (RAUSCC.allocationRound 1 env1 twoRegs).map
          (fun s => (s.spilled,
            decide ((⟨2147483748, FLT_MAX + 1, false, [(0, 1)]⟩ : LiveInterval) ∈ s.queue),
            s.hasPhys ⟨2147483748, FLT_MAX + 1, false, [(0, 1)]⟩, s.dequeue.1)) =
          some ([mkReg 0 3 [(0, 10)]], true, false, none) := by decide
      rw [hx] at h1
      simp only [Option.map_some', Option.some.injEq, Prod.mk.injEq, decide_eq_true_eq] at h1
      exact ⟨st, rfl, h1.1, by decide, h1.2.1, h1.2.2.1, h1.2.2.2⟩

/-! ### The eliminator -/

/-- C12 (the code at the failing inputs): in `exRetInc` the value returned is also stored
into a slot that is never read again; the eliminator puts the producer of the stored
value in its dead set although the `ret` still uses it, and the terminator `ret inc` of
the block is altered into `ret undef`.  In `exInvoke` the stored value is the result of
the terminator of the entry block: the terminator is erased and the entry block loses
its successors. -/
theorem c12_terminator_altered :
    ((exRetInc.block 0).getLast? = some ⟨4, "", .other [.inst 2] (some [])⟩ ∧
        ∃ lv F1, runDCE exRetInc = some (lv, F1, true) ∧
          (F1.block 0).getLast? = some ⟨4, "", .other [.undef] (some [])⟩) ∧
      ((exInvoke.block 0).getLast? = some ⟨2, "r", .other [.other "f"] (some [1, 2])⟩ ∧
        exInvoke.succs 0 = [1, 2] ∧
        ∃ lv F1, runDCE exInvoke = some (lv, F1, true) ∧ (∀ i ∈ F1.insts, i.id ≠ 2) ∧
          F1.succs 0 = []) := by
  refine ⟨⟨by decide, ?_⟩, by decide, by decide, ?_⟩
  · have h1 : (runDCE exRetInc).map (fun r => (r.2.2, (r.2.1.block 0).getLast?)) =
        some (true, some ⟨4, "", .other [.undef] (some [])⟩) := by decide
    obtain ⟨r, hr, h2⟩ := Option.map_eq_some'.1 h1
    simp only [Prod.mk.injEq] at h2
    refine ⟨r.1, r.2.1, ?_, h2.2⟩
    rw [hr, ← h2.1]
  · have h1 : (runDCE exInvoke).map
        (fun r => (r.2.2, decide (∀ i ∈ r.2.1.insts, i.id ≠ 2), r.2.1.succs 0)) =
        some (true, true, []) := by decide
    obtain ⟨r, hr, h2⟩ := Option.map_eq_some'.1 h1
    simp only [Prod.mk.injEq, decide_eq_true_eq] at h2
    refine ⟨r.1, r.2.1, ?_, h2.2.1, h2.2.2⟩
    rw [hr, ← h2.1]

theorem substDead_nil (v : Value) : substDead [] v = v := by
  cases v <;> simp [substDead]

theorem mapOperands_id (f : Value → Value) (hf : ∀ v, f v = v) (i : Instruction) :
    Instruction.mapOperands f i = i := by
  have hm : ∀ l : List Value, l.map f = l := fun l => by
    rw [show f = id from funext hf]; exact List.map_id l
  obtain ⟨id, name, kind⟩ := i
  cases kind <;> simp [Instruction.mapOperands, hf, hm]

theorem mapOperands_comp (f g : Value → Value) (i : Instruction) :
    Instruction.mapOperands f (Instruction.mapOperands g i) =
      Instruction.mapOperands (fun v => f (g v)) i := by
  obtain ⟨id, name, kind⟩ := i
  cases kind <;> simp [Instruction.mapOperands, Function.comp_def]

theorem mapOperands_id_eq (f : Value → Value) (i : Instruction) :
    (Instruction.mapOperands f i).id = i.id := rfl

theorem mapOperands_name (f : Value → Value) (i : Instruction) :
    (Instruction.mapOperands f i).name = i.name := rfl

theorem mapOperands_operands (f : Value → Value) (i : Instruction) :
    (Instruction.mapOperands f i).operands = i.operands.map f := by
  obtain ⟨id, name, kind⟩ := i
  cases kind <;> simp [Instruction.mapOperands, Instruction.operands]

theorem mapOperands_successors (f : Value → Value) (i : Instruction) :
    (Instruction.mapOperands f i).successors = i.successors := by
  obtain ⟨id, name, kind⟩ := i
  cases kind with
  | other ops t => cases t <;> simp [Instruction.mapOperands, Instruction.successors]
  | _ => simp [Instruction.mapOperands, Instruction.successors]

theorem mapOperands_isTerminator (f : Value → Value) (i : Instruction) :
    (Instruction.mapOperands f i).isTerminator = i.isTerminator := by
  obtain ⟨id, name, kind⟩ := i
  cases kind with
  | other ops t => cases t <;> simp [Instruction.mapOperands, Instruction.isTerminator]
  | _ => simp [Instruction.mapOperands, Instruction.isTerminator]

theorem mapOperands_isStore (f : Value → Value) (i : Instruction) :
    (Instruction.mapOperands f i).isStore = i.isStore := by
  obtain ⟨id, name, kind⟩ := i
  cases kind <;> simp [Instruction.mapOperands, Instruction.isStore]

theorem substDead_cons (d : Nat) (ds : DeadSet) (v : Value) :
    substDead ds (if v = Value.inst d then Value.undef else v) = substDead (d :: ds) v := by
  cases v with
  | inst j =>
    by_cases hj : j = d
    · subst hj; simp [substDead]
    · have : ¬ Value.inst j = Value.inst d := fun h => hj (Value.inst.inj h)
      simp [substDead, this, hj]
  | other n => simp [substDead]
  | undef => simp [substDead]

theorem eraseAll_nil (F : Func) : eraseAll [] F = F := by
  unfold eraseAll
  have : (fun bb : BasicBlock =>
      (bb.filter (fun i => decide (i.id ∉ ([] : DeadSet)))).map
        (Instruction.mapOperands (substDead []))) = id := by
    funext bb
    simp only [List.not_mem_nil, not_false_eq_true, decide_True, List.filter_true, id]
    have : Instruction.mapOperands (substDead []) = id :=
      funext (fun i => mapOperands_id _ substDead_nil i)
    rw [this, List.map_id]
  rw [this, List.map_id]

theorem filter_map_id (f : Instruction → Instruction) (hf : ∀ i, (f i).id = i.id)
    (p : Nat → Bool) (bb : BasicBlock) :
    (bb.map f).filter (fun i => p i.id) = (bb.filter (fun i => p i.id)).map f := by
  induction bb with
  | nil => rfl
  | cons i bb ih =>
    simp only [List.map_cons, List.filter_cons, hf]
    by_cases h : p i.id = true
    · simp [h, ih]
    · simp [h, ih]

/-- The erasure one instruction at a time is the erasure of all of them at once. -/
theorem eraseDead_eq (dead : DeadSet) (F : Func) : eraseDead dead F = eraseAll dead F := by
  induction dead generalizing F with
  | nil => rw [eraseAll_nil]; rfl
  | cons d ds ih =>
    show eraseDead ds (eraseFromParent d (replaceAllUsesWithUndef d F)) = _
    rw [ih]
    unfold eraseAll eraseFromParent replaceAllUsesWithUndef
    simp only [List.map_map]
    congr 1
    funext bb
    simp only [Function.comp]
    have h1 := filter_map_id
      (Instruction.mapOperands (fun v => if v = Value.inst d then Value.undef else v))
      (fun _ => rfl) (fun j => j != d) bb
    rw [h1, List.filter_map, List.filter_filter, List.map_map]
    have h2 : (fun i : Instruction => decide (i.id ∉ ds)) ∘
        Instruction.mapOperands (fun v => if v = Value.inst d then Value.undef else v) =
        (fun i : Instruction => decide (i.id ∉ ds)) := by
      funext i; rfl
    rw [h2]
    congr 1
    · funext i
      simp only [Function.comp, mapOperands_comp, substDead_cons]
    · congr 1
      funext i
      simp only [List.mem_cons, not_or, bne_iff_ne, ne_eq]
      by_cases h : i.id = d <;> by_cases h' : i.id ∈ ds <;> simp [h, h']

theorem eraseAll_length (dead : DeadSet) (F : Func) : (eraseAll dead F).length = F.length := by
  simp [eraseAll]

theorem eraseAll_block (dead : DeadSet) (F : Func) (b : Nat) :
    (eraseAll dead F).block b =
      ((F.block b).filter (fun i => decide (i.id ∉ dead))).map
        (Instruction.mapOperands (substDead dead)) := by
  unfold Func.block eraseAll
  rw [List.getD_eq_getElem?_getD, List.getD_eq_getElem?_getD, List.getElem?_map]
  cases F[b]? <;> simp

theorem eraseAll_insts (dead : DeadSet) (F : Func) :
    (eraseAll dead F).insts =
      (F.insts.filter (fun i => decide (i.id ∉ dead))).map
        (Instruction.mapOperands (substDead dead)) := by
  unfold Func.insts eraseAll
  induction F with
  | nil => rfl
  | cons bb F ih =>
    simp only [List.map_cons, List.flatten_cons, List.filter_append, List.map_append]
    rw [ih]

theorem substDead_eq_inst (dead : DeadSet) (v : Value) (j : Nat)
    (h : substDead dead v = Value.inst j) : v = Value.inst j := by
  cases v with
  | inst k =>
    by_cases hk : k ∈ dead
    · simp [substDead, hk] at h
    · simpa [substDead, hk] using h
  | other n => simp [substDead] at h
  | undef => simp [substDead] at h

theorem count_substDead_le (dead : DeadSet) (j : Nat) (l : List Value) :
    (l.map (substDead dead)).count (Value.inst j) ≤ l.count (Value.inst j) := by
  induction l with
  | nil => simp
  | cons v l ih =>
    simp only [List.map_cons, List.count_cons]
    by_cases h : substDead dead v = Value.inst j
    · have hv := substDead_eq_inst dead v j h
      rw [h, hv]
      simp only [beq_self_eq_true, if_true]
      omega
    · have h' : (substDead dead v == Value.inst j) = false := by simpa using h
      rw [h']
      simp only [Bool.false_eq_true, if_false, add_zero]
      exact ih.trans (Nat.le_add_right _ _)

theorem numUses_eq_sum (F : Func) (j : Nat) :
    F.numUses j = (F.insts.map (fun i => i.operands.count (Value.inst j))).sum := rfl

theorem sum_map_filter_le (l : List Instruction) (p : Instruction → Bool)
    (f : Instruction → Nat) : ((l.filter p).map f).sum ≤ (l.map f).sum := by
  induction l with
  | nil => simp
  | cons i l ih =>
    simp only [List.filter_cons, List.map_cons, List.sum_cons]
    by_cases h : p i = true
    · simp only [h, if_true, List.map_cons, List.sum_cons]; omega
    · simp only [h]; simp only [Bool.false_eq_true, if_false]; omega

theorem numUses_eraseAll_le (dead : DeadSet) (F : Func) (j : Nat) :
    (eraseAll dead F).numUses j ≤ F.numUses j := by
  rw [numUses_eq_sum, numUses_eq_sum, eraseAll_insts, List.map_map]
  refine le_trans ?_ (sum_map_filter_le F.insts (fun i => decide (i.id ∉ dead)) _)
  apply List.sum_le_sum
  intro i _
  simp only [Function.comp, mapOperands_operands]
  exact count_substDead_le dead j _

theorem getLast?_filter (bb : BasicBlock) (p : Instruction → Bool) (t : Instruction)
    (h : bb.getLast? = some t) (hp : p t = true) : (bb.filter p).getLast? = some t := by
  obtain ⟨l, rfl⟩ : ∃ l, bb = l ++ [t] := by
    rw [List.getLast?_eq_some_iff] at h
    exact h
  rw [List.filter_append]
  simp [hp]

theorem getLast?_map (bb : BasicBlock) (f : Instruction → Instruction) :
    (bb.map f).getLast? = bb.getLast?.map f := by
  rw [List.getLast?_eq_head?_reverse, List.getLast?_eq_head?_reverse, ← List.map_reverse,
    List.head?_map]

theorem eraseAll_getLast (dead : DeadSet) (F : Func) (b : Nat) (t : Instruction)
    (h : (F.block b).getLast? = some t) (ht : t.id ∉ dead) :
    ((eraseAll dead F).block b).getLast? =
      some (Instruction.mapOperands (substDead dead) t) := by
  rw [eraseAll_block, getLast?_map,
    getLast?_filter _ (fun i => decide (i.id ∉ dead)) t h (by simpa using ht)]
  rfl

theorem eraseAll_succs (dead : DeadSet) (F : Func) (b : Nat) (t : Instruction)
    (h : (F.block b).getLast? = some t) (ht : t.id ∉ dead) :
    (eraseAll dead F).succs b = F.succs b := by
  unfold Func.succs
  rw [eraseAll_getLast dead F b t h ht, h]
  exact mapOperands_successors _ t

theorem block_mem_or_nil (F : Func) (b : Nat) : F.block b ∈ F ∨ F.block b = [] := by
  unfold Func.block
  rw [List.getD_eq_getElem?_getD]
  cases h : F[b]? with
  | none => right; rfl
  | some bb => left; exact List.getElem?_mem h

theorem termOK_iff (F : Func) :
    F.termOK = true ↔
      ∀ bb ∈ F, ∃ t, bb.getLast? = some t ∧ t.isTerminator = true ∧ F.numUses t.id = 0 := by
  unfold Func.termOK
  rw [List.all_eq_true]
  constructor
  · intro h bb hbb
    have := h bb hbb
    cases hl : bb.getLast? with
    | none => simp [hl] at this
    | some t =>
      simp only [hl, Bool.and_eq_true, beq_iff_eq] at this
      exact ⟨t, rfl, this.1, this.2⟩
  · intro h bb hbb
    obtain ⟨t, h1, h2, h3⟩ := h bb hbb
    simp [h1, h2, h3]

theorem mem_insts_of_mem_block (F : Func) (bb : BasicBlock) (i : Instruction) (hbb : bb ∈ F)
    (hi : i ∈ bb) : i ∈ F.insts := by
  unfold Func.insts
  exact List.mem_flatten.2 ⟨bb, hbb, hi⟩

theorem uniqueIds_inj (F : Func) (hu : F.UniqueIds) (i j : Instruction) (hi : i ∈ F.insts)
    (hj : j ∈ F.insts) (h : i.id = j.id) : i = j :=
  List.inj_on_of_nodup_map hu hi hj h

theorem foldlM_inv {α β : Type} (f : β → α → Option β) (P : β → Prop) (l : List α) :
    ∀ (init r : β), P init → (∀ b a b1, a ∈ l → P b → f b a = some b1 → P b1) →
      l.foldlM f init = some r → P r := by
  induction l with
  | nil =>
    intro init r h0 _ h
    simp only [List.foldlM, pure, Option.some.injEq] at h
    rw [← h]; exact h0
  | cons a l ih =>
    intro init r h0 hstep h
    rw [List.foldlM_cons] at h
    obtain ⟨m, hm, hm'⟩ := Option.bind_eq_some.1 h
    exact ih m r (hstep init a m (List.mem_cons_self _ _) h0 hm)
      (fun b x b1 hx => hstep b x b1 (List.mem_cons_of_mem _ hx)) hm'

theorem foldlM_const {α β : Type} (f : β → α → Option β) (l : List α) (init : β)
    (h : ∀ a ∈ l, f init a = some init) : l.foldlM f init = some init := by
  induction l with
  | nil => rfl
  | cons a l ih =>
    rw [List.foldlM_cons, h a (List.mem_cons_self _ _)]
    exact ih (fun x hx => h x (List.mem_cons_of_mem _ hx))

theorem foldlM_nil_of_mono {α γ : Type} (f : List γ → α → Option (List γ)) (l : List α)
    (hmono : ∀ b a b1, f b a = some b1 → b1 = [] → b = []) :
    ∀ (init : List γ), l.foldlM f init = some [] →
      init = [] ∧ ∀ a ∈ l, f [] a = some [] := by
  induction l with
  | nil =>
    intro init h
    simp only [List.foldlM, pure, Option.some.injEq] at h
    exact ⟨h, fun a ha => by cases ha⟩
  | cons a l ih =>
    intro init h
    rw [List.foldlM_cons] at h
    obtain ⟨m, hm, hm'⟩ := Option.bind_eq_some.1 h
    obtain ⟨h1, h2⟩ := ih m hm'
    subst h1
    have h0 := hmono init a [] hm rfl
    subst h0
    refine ⟨rfl, ?_⟩
    intro x hx
    rcases List.mem_cons.1 hx with rfl | hx
    · exact hm
    · exact h2 x hx

theorem findDeadDefinitions_succ (F : Func) (fuel : Nat) (inst : Instruction) (dead : DeadSet) :
    findDeadDefinitions F (fuel + 1) inst dead =
      inst.operands.foldlM
        (fun (dead : DeadSet) (val : Value) =>
          match val with
          | .inst id =>
            match F.findInst id with
            | some src =>
              if F.hasOneUse id && !src.isCall then
                findDeadDefinitions F fuel src (dead.insert id)
              else some dead
            | none => some dead
          | _ => some dead)
        dead := rfl

/-- The walk only adds to the dead set, and what it adds has exactly one use. -/
theorem findDeadDefinitions_post (F : Func) :
    ∀ (fuel : Nat) (inst : Instruction) (dead d : DeadSet),
      findDeadDefinitions F fuel inst dead = some d →
      (∀ x ∈ dead, x ∈ d) ∧ ∀ x ∈ d, x ∈ dead ∨ F.numUses x = 1 := by
  intro fuel
  induction fuel with
  | zero => intro inst dead d h; simp [findDeadDefinitions] at h
  | succ fuel ih =>
    intro inst dead d h
    rw [findDeadDefinitions_succ] at h
    refine foldlM_inv _ (fun d1 => (∀ x ∈ dead, x ∈ d1) ∧ ∀ x ∈ d1, x ∈ dead ∨ F.numUses x = 1)
      inst.operands dead d ⟨fun x hx => hx, fun x hx => Or.inl hx⟩ ?_ h
    intro b v b1 _ hb hv
    cases v with
    | inst id =>
      simp only at hv
      cases hf : F.findInst id with
      | none =>
        simp only [hf, Option.some.injEq] at hv
        rw [← hv]; exact hb
      | some src =>
        simp only [hf] at hv
        by_cases hc : (F.hasOneUse id && !src.isCall) = true
        · simp only [hc, if_true] at hv
          obtain ⟨h1, h2⟩ := ih src _ b1 hv
          have hone : F.numUses id = 1 := by
            simp only [Bool.and_eq_true] at hc
            simpa [Func.hasOneUse] using hc.1
          refine ⟨fun x hx => h1 x (List.mem_insert_of_mem (hb.1 x hx)), ?_⟩
          intro x hx
          rcases h2 x hx with h3 | h3
          · rcases List.mem_insert_iff.1 h3 with rfl | h4
            · exact Or.inr hone
            · exact hb.2 x h4
          · exact Or.inr h3
        · simp only [hc, Bool.false_eq_true, if_false, Option.some.injEq] at hv
          rw [← hv]; exact hb
    | other n =>
      simp only [Option.some.injEq] at hv
      rw [← hv]; exact hb
    | undef =>
      simp only [Option.some.injEq] at hv
      rw [← hv]; exact hb

theorem instAt_mem (F : Func) (p : Nat × Nat) (i : Instruction) (h : F.instAt p = some i) :
    i ∈ F.insts := by
  unfold Func.instAt at h
  have hi : i ∈ F.block p.1 := List.getElem?_mem h
  rcases block_mem_or_nil F p.1 with hb | hb
  · exact mem_insts_of_mem_block F _ i hb hi
  · rw [hb] at hi; cases hi

theorem le_sum_of_mem_nat (l : List Nat) (x : Nat) (h : x ∈ l) : x ≤ l.sum := by
  induction l with
  | nil => cases h
  | cons a l ih =>
    simp only [List.sum_cons]
    rcases List.mem_cons.1 h with rfl | h
    · omega
    · have := ih h; omega

theorem numUses_pos_of_operand (F : Func) (i : Instruction) (j : Nat) (hi : i ∈ F.insts)
    (hj : Value.inst j ∈ i.operands) : 1 ≤ F.numUses j := by
  have h1 : 1 ≤ i.operands.count (Value.inst j) := List.count_pos_iff.2 hj
  have h2 : i.operands.count (Value.inst j) ≤ F.numUses j := by
    rw [numUses_eq_sum]
    exact le_sum_of_mem_nat _ _ (List.mem_map.2 ⟨i, hi, rfl⟩)
  omega

/-- What one step of the collection adds to the dead set. -/
theorem collectInst_post (lv : Liveness) (F : Func) (b k : Nat) (dead d : DeadSet)
    (h : collectInst lv F b k dead = some d) :
    (∀ x ∈ dead, x ∈ d) ∧
      (∀ x ∈ d, x ∈ dead ∨ (∃ s ∈ F.insts, s.isStore = true ∧ s.id = x) ∨ 1 ≤ F.numUses x) ∧
      (d = dead ∨ ∃ s ∈ F.insts, s.id ∈ d) ∧
      (∀ i, F.instAt (b, k) = some i → i.isStore = true → lv.isDead F b k = true →
        i.id ∈ d) := by
  unfold collectInst at h
  cases hi : (F.block b)[k]? with
  | none =>
    simp only [hi, Option.some.injEq] at h
    subst h
    refine ⟨fun x hx => hx, fun x hx => Or.inl hx, Or.inl rfl, ?_⟩
    intro i hi'
    unfold Func.instAt at hi'
    simp only at hi'
    rw [hi] at hi'; cases hi'
  | some ins =>
    have hmem : ins ∈ F.insts := instAt_mem F (b, k) ins hi
    simp only [hi] at h
    have hget : ∀ i, F.instAt (b, k) = some i → i = ins := by
      intro i hi'
      unfold Func.instAt at hi'
      simp only at hi'
      rw [hi] at hi'
      exact (Option.some.inj hi').symm
    cases hk : ins.kind with
    | store v p =>
      simp only [hk] at h
      have hst : ins.isStore = true := by simp [Instruction.isStore, hk]
      by_cases hd : lv.isDead F b k = true
      · simp only [hd, if_true] at h
        cases v with
        | inst src =>
          simp only at h
          obtain ⟨h1, h2⟩ := findDeadDefinitions_post F _ ins _ d h
          have hsrc : 1 ≤ F.numUses src :=
            numUses_pos_of_operand F ins src hmem (by simp [Instruction.operands, hk])
          have hin : ins.id ∈ d :=
            h1 _ (List.mem_insert_of_mem (List.mem_insert_self _ _))
          refine ⟨fun x hx => h1 x (List.mem_insert_of_mem (List.mem_insert_of_mem hx)), ?_,
            Or.inr ⟨ins, hmem, hin⟩, fun i hi' _ _ => by rw [hget i hi']; exact hin⟩
          intro x hx
          rcases h2 x hx with h3 | h3
          · rcases List.mem_insert_iff.1 h3 with rfl | h4
            · exact Or.inr (Or.inr hsrc)
            · rcases List.mem_insert_iff.1 h4 with rfl | h5
              · exact Or.inr (Or.inl ⟨ins, hmem, hst, rfl⟩)
              · exact Or.inl h5
          · exact Or.inr (Or.inr (by omega))
        | other n =>
          simp only [Option.some.injEq] at h
          subst h
          refine ⟨fun x hx => List.mem_insert_of_mem hx, ?_,
            Or.inr ⟨ins, hmem, List.mem_insert_self _ _⟩,
            fun i hi' _ _ => by rw [hget i hi']; exact List.mem_insert_self _ _⟩
          intro x hx
          rcases List.mem_insert_iff.1 hx with rfl | h5
          · exact Or.inr (Or.inl ⟨ins, hmem, hst, rfl⟩)
          · exact Or.inl h5
        | undef =>
          simp only [Option.some.injEq] at h
          subst h
          refine ⟨fun x hx => List.mem_insert_of_mem hx, ?_,
            Or.inr ⟨ins, hmem, List.mem_insert_self _ _⟩,
            fun i hi' _ _ => by rw [hget i hi']; exact List.mem_insert_self _ _⟩
          intro x hx
          rcases List.mem_insert_iff.1 hx with rfl | h5
          · exact Or.inr (Or.inl ⟨ins, hmem, hst, rfl⟩)
          · exact Or.inl h5
      · simp only [hd, Bool.false_eq_true, if_false, Option.some.injEq] at h
        subst h
        exact ⟨fun x hx => hx, fun x hx => Or.inl hx, Or.inl rfl,
          fun i _ _ hd' => absurd hd' hd⟩
    | alloca _ =>
      simp only [hk, Option.some.injEq] at h
      subst h
      refine ⟨fun x hx => hx, fun x hx => Or.inl hx, Or.inl rfl, ?_⟩
      intro i hi' hs
      rw [hget i hi'] at hs
      simp [Instruction.isStore, hk] at hs
    | load _ =>
      simp only [hk, Option.some.injEq] at h
      subst h
      refine ⟨fun x hx => hx, fun x hx => Or.inl hx, Or.inl rfl, ?_⟩
      intro i hi' hs
      rw [hget i hi'] at hs
      simp [Instruction.isStore, hk] at hs
    | call _ =>
      simp only [hk, Option.some.injEq] at h
      subst h
      refine ⟨fun x hx => hx, fun x hx => Or.inl hx, Or.inl rfl, ?_⟩
      intro i hi' hs
      rw [hget i hi'] at hs
      simp [Instruction.isStore, hk] at hs
    | other _ _ =>
      simp only [hk, Option.some.injEq] at h
      subst h
      refine ⟨fun x hx => hx, fun x hx => Or.inl hx, Or.inl rfl, ?_⟩
      intro i hi' hs
      rw [hget i hi'] at hs
      simp [Instruction.isStore, hk] at hs

theorem collectInst_mono (lv : Liveness) (F : Func) (b k : Nat) (dead d : DeadSet)
    (h : collectInst lv F b k dead = some d) (hd : d = []) : dead = [] := by
  have := (collectInst_post lv F b k dead d h).1
  subst hd
  cases dead with
  | nil => rfl
  | cons x l => exact absurd (this x (List.mem_cons_self _ _)) (List.not_mem_nil _)

theorem collectBlock_mono (lv : Liveness) (F : Func) (b : Nat) (dead d : DeadSet)
    (h : (List.range (F.block b).length).foldlM
      (fun (dead : DeadSet) (k : Nat) => collectInst lv F b k dead) dead = some d)
    (hd : d = []) : dead = [] :=
  (foldlM_nil_of_mono _ _ (fun b1 a b2 h1 h2 => collectInst_mono lv F b a b1 b2 h1 h2) dead
    (hd ▸ h)).1

/-- What a round collects: identities of stores of the function and of values that an
instruction uses; and when it collects something, an instruction of the function. -/
theorem collectDead_post (lv : Liveness) (F : Func) (dead : DeadSet)
    (h : collectDead lv F = some dead) :
    (∀ x ∈ dead, (∃ s ∈ F.insts, s.isStore = true ∧ s.id = x) ∨ 1 ≤ F.numUses x) ∧
      (dead = [] ∨ ∃ s ∈ F.insts, s.id ∈ dead) := by
  unfold collectDead at h
  refine foldlM_inv _
    (fun d => (∀ x ∈ d, (∃ s ∈ F.insts, s.isStore = true ∧ s.id = x) ∨ 1 ≤ F.numUses x) ∧
      (d = [] ∨ ∃ s ∈ F.insts, s.id ∈ d)) _ [] dead
    ⟨fun x hx => (by cases hx), Or.inl rfl⟩ ?_ h
  intro d0 b d1 _ hd0 hb
  refine foldlM_inv _
    (fun d => (∀ x ∈ d, (∃ s ∈ F.insts, s.isStore = true ∧ s.id = x) ∨ 1 ≤ F.numUses x) ∧
      (d = [] ∨ ∃ s ∈ F.insts, s.id ∈ d)) _ d0 d1 hd0 ?_ hb
  intro d2 k d3 _ hd2 hk
  obtain ⟨_, h2, h3, _⟩ := collectInst_post lv F b k d2 d3 hk
  refine ⟨?_, ?_⟩
  · intro x hx
    rcases h2 x hx with h4 | h4
    · exact hd2.1 x h4
    · exact h4
  · rcases h3 with h4 | h4
    · rw [h4]; exact hd2.2
    · exact Or.inr h4

theorem instAt_lt (F : Func) (b k : Nat) (i : Instruction) (h : F.instAt (b, k) = some i) :
    b < F.length ∧ k < (F.block b).length := by
  unfold Func.instAt at h
  simp only at h
  have hk : k < (F.block b).length := (List.getElem?_eq_some.1 h).1
  refine ⟨?_, hk⟩
  by_contra hb
  have : F.block b = [] := by
    unfold Func.block
    rw [List.getD_eq_getElem?_getD, List.getElem?_eq_none (by omega)]
    rfl
  rw [this] at hk
  cases hk

/-- When a round collects nothing, no store of the function is reported dead. -/
theorem collectDead_nil (lv : Liveness) (F : Func) (h : collectDead lv F = some [])
    (b k : Nat) (i : Instruction) (hi : F.instAt (b, k) = some i) (hs : i.isStore = true) :
    lv.isDead F b k = false := by
  unfold collectDead at h
  obtain ⟨hb, hk⟩ := instAt_lt F b k i hi
  have h1 := (foldlM_nil_of_mono _ _
    (fun b1 a b2 h1 h2 => collectBlock_mono lv F a b1 b2 h1 h2) [] h).2 b (List.mem_range.2 hb)
  have h2 := (foldlM_nil_of_mono _ _
    (fun b1 a b2 h1 h2 => collectInst_mono lv F b a b1 b2 h1 h2) [] h1).2 k (List.mem_range.2 hk)
  by_contra hd
  simp only [Bool.not_eq_false] at hd
  have := (collectInst_post lv F b k [] [] h2).2.2.2 i hi hs hd
  cases this

theorem opEdge_lt_of_opsOrdered (F : Func) (h : F.opsOrdered = true) (a b : Nat)
    (e : F.opEdge a b) : b < a := by
  obtain ⟨i, hi, hia, hb⟩ := e
  unfold Func.opsOrdered at h
  have h1 := List.all_eq_true.1 h i hi
  have h2 := List.all_eq_true.1 h1 _ hb
  simp only [decide_eq_true_eq] at h2
  omega

theorem transGen_lt_of_opsOrdered (F : Func) (h : F.opsOrdered = true) (a b : Nat)
    (e : Relation.TransGen F.opEdge a b) : b < a := by
  induction e with
  | single e => exact opEdge_lt_of_opsOrdered F h _ _ e
  | tail _ e ih => exact lt_trans (opEdge_lt_of_opsOrdered F h _ _ e) ih

theorem acyclic_of_opsOrdered (F : Func) (h : F.opsOrdered = true) : F.Acyclic := by
  intro a e
  exact lt_irrefl _ (transGen_lt_of_opsOrdered F h a a e)

theorem foldlM_total {α β : Type} (f : β → α → Option β) (l : List α)
    (h : ∀ a ∈ l, ∀ b, ∃ b1, f b a = some b1) : ∀ init, ∃ r, l.foldlM f init = some r := by
  induction l with
  | nil => intro init; exact ⟨init, rfl⟩
  | cons a l ih =>
    intro init
    obtain ⟨m, hm⟩ := h a (List.mem_cons_self _ _) init
    obtain ⟨r, hr⟩ := ih (fun x hx => h x (List.mem_cons_of_mem _ hx)) m
    exact ⟨r, by rw [List.foldlM_cons, hm]; exact hr⟩

theorem findInst_some (F : Func) (id : Nat) (src : Instruction) (h : F.findInst id = some src) :
    src ∈ F.insts ∧ src.id = id := by
  unfold Func.findInst at h
  refine ⟨List.mem_of_find?_eq_some h, ?_⟩
  have := List.find?_some h
  simpa using this

/-- The recursive walk returns when the operand graph has no cycle: the identities on
the recursion stack are pairwise different, so the depth is at most the number of
instructions. -/
theorem findDeadDefinitions_total (F : Func) (hac : F.Acyclic) :
    ∀ (fuel : Nat) (inst : Instruction) (anc : Finset Nat) (dead : DeadSet),
      inst ∈ F.insts →
      (∀ a ∈ anc, Relation.TransGen F.opEdge a inst.id) →
      (∀ a ∈ anc, a ∈ F.insts.map (fun i => i.id)) →
      F.insts.length + 1 ≤ fuel + anc.card →
      ∃ d, findDeadDefinitions F fuel inst dead = some d := by
  intro fuel
  induction fuel with
  | zero =>
    intro inst anc dead _ _ hsub hc
    exfalso
    have h1 : anc ⊆ (F.insts.map (fun i => i.id)).toFinset := by
      intro a ha
      exact List.mem_toFinset.2 (hsub a ha)
    have h2 := Finset.card_le_card h1
    have h3 := List.toFinset_card_le (F.insts.map (fun i => i.id))
    rw [List.length_map] at h3
    omega
  | succ fuel ih =>
    intro inst anc dead hin hanc hsub hc
    rw [findDeadDefinitions_succ]
    apply foldlM_total
    intro v hv d
    cases v with
    | inst id =>
      simp only
      cases hf : F.findInst id with
      | none => exact ⟨d, rfl⟩
      | some src =>
        simp only
        split
        · obtain ⟨hs, hid⟩ := findInst_some F id src hf
          have hnot : inst.id ∉ anc := fun hm => hac _ (hanc _ hm)
          have hedge : F.opEdge inst.id src.id := ⟨inst, hin, rfl, by rw [hid]; exact hv⟩
          apply ih src (insert inst.id anc) (d.insert id) hs
          · intro a ha
            rcases Finset.mem_insert.1 ha with e | e
            · rw [e]; exact Relation.TransGen.single hedge
            · exact Relation.TransGen.tail (hanc a e) hedge
          · intro a ha
            rcases Finset.mem_insert.1 ha with e | e
            · rw [e]; exact List.mem_map.2 ⟨inst, hin, rfl⟩
            · exact hsub a e
          · rw [Finset.card_insert_of_not_mem hnot]; omega
        · exact ⟨d, rfl⟩
    | other n => exact ⟨d, rfl⟩
    | undef => exact ⟨d, rfl⟩

theorem collectInst_total (lv : Liveness) (F : Func) (hac : F.Acyclic) (b k : Nat)
    (dead : DeadSet) : ∃ d, collectInst lv F b k dead = some d := by
  unfold collectInst
  cases hi : (F.block b)[k]? with
  | none => exact ⟨dead, rfl⟩
  | some ins =>
    simp only
    cases hk : ins.kind with
    | store v p =>
      simp only
      split
      · cases v with
        | inst src =>
          simp only
          exact findDeadDefinitions_total F hac _ ins ∅ _ (instAt_mem F (b, k) ins hi)
            (fun a ha => by simp at ha) (fun a ha => by simp at ha) (by simp)
        | other n => exact ⟨_, rfl⟩
        | undef => exact ⟨_, rfl⟩
      · exact ⟨dead, rfl⟩
    | alloca _ => exact ⟨dead, rfl⟩
    | load _ => exact ⟨dead, rfl⟩
    | call _ => exact ⟨dead, rfl⟩
    | other _ _ => exact ⟨dead, rfl⟩

theorem collectDead_total (lv : Liveness) (F : Func) (hac : F.Acyclic) :
    ∃ dead, collectDead lv F = some dead := by
  unfold collectDead
  apply foldlM_total
  intro b _ d
  apply foldlM_total
  intro k _ d1
  exact collectInst_total lv F hac b k d1

theorem opEdge_eraseAll (dead : DeadSet) (F : Func) (a b : Nat)
    (e : (eraseAll dead F).opEdge a b) : F.opEdge a b := by
  obtain ⟨i, hi, hia, hb⟩ := e
  rw [eraseAll_insts] at hi
  obtain ⟨j, hj, rfl⟩ := List.mem_map.1 hi
  have hj1 := (List.mem_filter.1 hj).1
  refine ⟨j, hj1, ?_, ?_⟩
  · simpa [Instruction.mapOperands] using hia
  · rw [mapOperands_operands] at hb
    obtain ⟨v, hv, hvb⟩ := List.mem_map.1 hb
    rw [substDead_eq_inst dead v b hvb] at hv
    exact hv

theorem acyclic_eraseAll (dead : DeadSet) (F : Func) (hac : F.Acyclic) :
    (eraseAll dead F).Acyclic := by
  intro a e
  exact hac a (Relation.TransGen.mono (opEdge_eraseAll dead F) e)

theorem uniqueIds_eraseAll (dead : DeadSet) (F : Func) (hu : F.UniqueIds) :
    (eraseAll dead F).UniqueIds := by
  unfold Func.UniqueIds at *
  rw [eraseAll_insts, List.map_map]
  have : ((fun i => i.id) ∘ Instruction.mapOperands (substDead dead)) =
      (fun i : Instruction => i.id) := by
    funext i; rfl
  rw [this]
  exact (List.Sublist.map _ (List.filter_sublist _)).nodup hu

theorem isTerminator_not_store (t : Instruction) (h : t.isTerminator = true) :
    t.isStore = false := by
  unfold Instruction.isTerminator at h
  unfold Instruction.isStore
  cases hk : t.kind <;> simp [hk] at h ⊢

/-- No terminator is collected when terminators have no uses. -/
theorem term_not_dead (lv : Liveness) (F : Func) (hu : F.UniqueIds)
    (dead : DeadSet) (h : collectDead lv F = some dead) (t : Instruction) (htin : t ∈ F.insts)
    (htt : t.isTerminator = true) (hno : F.numUses t.id = 0) : t.id ∉ dead := by
  intro hm
  rcases (collectDead_post lv F dead h).1 _ hm with ⟨s, hs, hst, hid⟩ | h1
  · have := uniqueIds_inj F hu s t hs htin hid
    rw [this, isTerminator_not_store t htt] at hst
    cases hst
  · omega

theorem last_not_dead (lv : Liveness) (F : Func) (hu : F.UniqueIds) (ht : F.termOK = true)
    (dead : DeadSet) (h : collectDead lv F = some dead) (bb : BasicBlock) (hbb : bb ∈ F) :
    ∃ t, bb.getLast? = some t ∧ t.isTerminator = true ∧ F.numUses t.id = 0 ∧ t.id ∉ dead := by
  obtain ⟨t, h1, h2, h3⟩ := (termOK_iff F).1 ht bb hbb
  refine ⟨t, h1, h2, h3, ?_⟩
  exact term_not_dead lv F hu dead h t
    (mem_insts_of_mem_block F bb t hbb (List.mem_of_mem_getLast? h1)) h2 h3

theorem block_mem_of_lt (F : Func) (b : Nat) (hb : b < F.length) : F.block b ∈ F := by
  unfold Func.block
  rw [List.getD_eq_getElem?_getD, List.getElem?_eq_getElem hb]
  exact List.getElem_mem hb

theorem block_of_mem (F : Func) (bb : BasicBlock) (h : bb ∈ F) :
    ∃ b, b < F.length ∧ F.block b = bb := by
  obtain ⟨b, hb, e⟩ := List.getElem_of_mem h
  refine ⟨b, hb, ?_⟩
  unfold Func.block
  rw [List.getD_eq_getElem?_getD, List.getElem?_eq_getElem hb]
  exact e

theorem termOK_eraseAll (lv : Liveness) (F : Func) (hu : F.UniqueIds) (ht : F.termOK = true)
    (dead : DeadSet) (h : collectDead lv F = some dead) : (eraseAll dead F).termOK = true := by
  rw [termOK_iff]
  intro bb hbb
  obtain ⟨b, hb, e⟩ := block_of_mem _ bb hbb
  rw [eraseAll_length] at hb
  obtain ⟨t, h1, h2, h3, h4⟩ := last_not_dead lv F hu ht dead h _ (block_mem_of_lt F b hb)
  refine ⟨Instruction.mapOperands (substDead dead) t, ?_, ?_, ?_⟩
  · rw [← e]; exact eraseAll_getLast dead F b t h1 h4
  · rw [mapOperands_isTerminator]; exact h2
  · have := numUses_eraseAll_le dead F t.id
    have e1 : (Instruction.mapOperands (substDead dead) t).id = t.id := rfl
    rw [e1]; omega

theorem wf_eraseAll (lv : Liveness) (F : Func) (hwf : F.WF) (hu : F.UniqueIds)
    (ht : F.termOK = true) (dead : DeadSet) (h : collectDead lv F = some dead) :
    (eraseAll dead F).WF := by
  intro b hb s hs
  rw [eraseAll_length] at hb ⊢
  have hb1 := List.mem_range.1 hb
  obtain ⟨t, h1, _, _, h4⟩ := last_not_dead lv F hu ht dead h _ (block_mem_of_lt F b hb1)
  rw [eraseAll_succs dead F b t h1 h4] at hs
  exact hwf b hb s hs

theorem termOK_block_ne_nil (F : Func) (ht : F.termOK = true) (b : Nat) (hb : b < F.length) :
    F.block b ≠ [] := by
  obtain ⟨t, h1, _⟩ := (termOK_iff F).1 ht _ (block_mem_of_lt F b hb)
  intro e
  rw [e] at h1
  cases h1

/-- A round that collects something erases at least one instruction. -/
theorem eraseAll_insts_lt (lv : Liveness) (F : Func) (dead : DeadSet)
    (h : collectDead lv F = some dead) (hne : dead ≠ []) :
    (eraseAll dead F).insts.length < F.insts.length := by
  rcases (collectDead_post lv F dead h).2 with e | ⟨s, hs, hd⟩
  · exact absurd e hne
  · rw [eraseAll_insts, List.length_map]
    apply lt_of_le_of_ne (List.length_filter_le _ _)
    intro e
    have := List.filter_eq_self.1 ((List.filter_sublist _).eq_of_length e) s hs
    simp only [decide_eq_true_eq] at this
    exact this hd

theorem liveness_total_of_termOK (lv : Liveness) (F : Func) (hwf : F.WF)
    (ht : F.termOK = true) : ∃ lv1, lv.runOnFunction F = some lv1 := by
  obtain ⟨r, hr⟩ := run_total lv F hwf (fun hne => by
    have hlen : 0 < F.length := List.length_pos.2 hne
    exact ⟨termOK_block_ne_nil F ht 0 hlen, termOK_block_ne_nil F ht _ (by omega)⟩)
  exact ⟨r.1, by unfold Liveness.runOnFunction; rw [hr]; rfl⟩

theorem dceLoop_succ (n : Nat) (lv : Liveness) (F : Func) (c : Bool) :
    dceLoop (n + 1) lv F c =
      match dceRound lv F with
      | none => none
      | some (dead, F1) =>
        if dead ≠ [] then
          match lv.runOnFunction F1 with
          | none => none
          | some lv1 => dceLoop n lv1 F1 true
        else some (lv, F, c) := rfl

theorem dceRound_eq (lv : Liveness) (F : Func) :
    dceRound lv F = (collectDead lv F).map (fun dead => (dead, eraseAll dead F)) := by
  unfold dceRound
  cases collectDead lv F with
  | none => rfl
  | some d => simp [eraseDead_eq]

/-- The loop of the eliminator returns within as many rounds as the function has
instructions, plus one. -/
theorem dceLoop_total :
    ∀ (n : Nat) (lv : Liveness) (F : Func) (c : Bool), F.insts.length < n → F.WF →
      F.UniqueIds → F.termOK = true → F.Acyclic → ∃ r, dceLoop n lv F c = some r := by
  intro n
  induction n with
  | zero => intro lv F c h; omega
  | succ n ih =>
    intro lv F c hn hwf hu ht hac
    obtain ⟨dead, hd⟩ := collectDead_total lv F hac
    rw [dceLoop_succ, dceRound_eq, hd]
    simp only [Option.map_some']
    by_cases hne : dead = []
    · exact ⟨(lv, F, c), by simp [hne]⟩
    · simp only [ne_eq, hne, not_false_eq_true, if_true]
      obtain ⟨lv1, h1⟩ := liveness_total_of_termOK lv (eraseAll dead F)
        (wf_eraseAll lv F hwf hu ht dead hd) (termOK_eraseAll lv F hu ht dead hd)
      rw [h1]
      exact ih lv1 (eraseAll dead F) true
        (by have := eraseAll_insts_lt lv F dead hd hne; omega)
        (wf_eraseAll lv F hwf hu ht dead hd) (uniqueIds_eraseAll dead F hu)
        (termOK_eraseAll lv F hu ht dead hd) (acyclic_eraseAll dead F hac)

theorem dceLoop_fuel_mono :
    ∀ (n : Nat) (lv : Liveness) (F : Func) (c : Bool) (r : Liveness × Func × Bool),
      dceLoop n lv F c = some r → ∀ m, n ≤ m → dceLoop m lv F c = some r := by
  intro n
  induction n with
  | zero => intro lv F c r h; simp [dceLoop] at h
  | succ n ih =>
    intro lv F c r h m hm
    obtain ⟨m, rfl⟩ : ∃ k, m = k + 1 := ⟨m - 1, by omega⟩
    rw [dceLoop_succ] at h ⊢
    cases hr : dceRound lv F with
    | none => rw [hr] at h; cases h
    | some p =>
      obtain ⟨dead, F1⟩ := p
      rw [hr] at h
      simp only at h ⊢
      by_cases hne : dead = []
      · simpa [hne] using h
      · simp only [ne_eq, hne, not_false_eq_true, if_true] at h ⊢
        cases hl : lv.runOnFunction F1 with
        | none => rw [hl] at h; cases h
        | some lv1 =>
          rw [hl] at h
          exact ih lv1 F1 true r h m (by omega)

/-- No bound on the number of rounds above the number of instructions plus one changes
what the loop does. -/
theorem dceLoop_bound :
    ∀ (n : Nat) (lv : Liveness) (F : Func) (c : Bool), F.Acyclic → F.insts.length < n →
      ∀ m, F.insts.length < m → dceLoop m lv F c = dceLoop n lv F c := by
  intro n
  induction n with
  | zero => intro lv F c _ h; omega
  | succ n ih =>
    intro lv F c hac hn m hm
    obtain ⟨m, rfl⟩ : ∃ k, m = k + 1 := ⟨m - 1, by omega⟩
    obtain ⟨dead, hd⟩ := collectDead_total lv F hac
    rw [dceLoop_succ, dceLoop_succ, dceRound_eq, hd]
    simp only [Option.map_some']
    by_cases hne : dead = []
    · simp [hne]
    · simp only [ne_eq, hne, not_false_eq_true, if_true]
      cases hl : lv.runOnFunction (eraseAll dead F) with
      | none => rfl
      | some lv1 =>
        simp only
        have := eraseAll_insts_lt lv F dead hd hne
        exact ih lv1 (eraseAll dead F) true (acyclic_eraseAll dead F hac) (by omega) m (by omega)

theorem dce_total (lv : Liveness) (F : Func) (hwf : F.WF) (hu : F.UniqueIds)
    (ht : F.termOK = true) (hac : F.Acyclic) :
    ∃ r, DeadCodeElimination.runOnFunction lv F = some r := by
  unfold DeadCodeElimination.runOnFunction
  by_cases hne : F = []
  · exact ⟨(lv, F, false), by simp [hne]⟩
  · obtain ⟨r, hr⟩ := dceLoop_total (F.insts.length + 1) lv F false (by omega) hwf hu ht hac
    exact ⟨(r.1, removeUnusedAllocas r.2.1, r.2.2), by simp [hne, hr]⟩

/-- Claim C14. `DeadCodeElimination::runOnFunction` terminates on every function whose
operand graph has no cycle.  The recursive walk `findDeadDefinitions` started at any
instruction of the function returns (its depth never exceeds the number of instructions
plus one); the collection step of a round returns; a round that collects something
leaves strictly fewer instructions, so only the last round erases nothing; the loop
makes at most as many rounds as there are instructions, plus one: any larger bound gives
the same outcome.  When moreover successors are blocks of the function, identities are
unique and every block ends with a terminator that has no use (so that the recomputed
liveness meets its `assert`), the method returns a result. -/
theorem c14_dce_terminates (lv : Liveness) (F : Func) (hac : F.Acyclic) :
    (∀ inst ∈ F.insts, ∀ dead,
        ∃ d, findDeadDefinitions F (F.insts.length + 1) inst dead = some d) ∧
      (∃ dead, collectDead lv F = some dead) ∧
      (∀ dead F1, dceRound lv F = some (dead, F1) → dead ≠ [] →
        F1.insts.length < F.insts.length) ∧
      (∀ m c, F.insts.length + 1 ≤ m →
        dceLoop m lv F c = dceLoop (F.insts.length + 1) lv F c) ∧
      (F.WF → F.UniqueIds → F.termOK = true →
        ∃ r, DeadCodeElimination.runOnFunction lv F = some r) := by
  refine ⟨?_, collectDead_total lv F hac, ?_, ?_, ?_⟩
  · intro inst hin dead
    exact findDeadDefinitions_total F hac _ inst ∅ dead hin (fun a ha => by simp at ha)
      (fun a ha => by simp at ha) (by simp)
  · intro dead F1 h hne
    rw [dceRound_eq] at h
    obtain ⟨d, hd, e⟩ := Option.map_eq_some'.1 h
    simp only [Prod.mk.injEq] at e
    obtain ⟨rfl, rfl⟩ := e
    exact eraseAll_insts_lt lv F d hd hne
  · intro m c hm
    exact dceLoop_bound _ lv F c hac (by omega) m (by omega)
  · intro hwf hu ht
    exact dce_total lv F hwf hu ht hac

/-- Witness of C14 on the three-block function `ex3`, whose first round erases three
instructions. -/
theorem c14_dce_terminates_witness :
    ex3.Acyclic ∧ ex3.WF ∧ ex3.UniqueIds ∧ ex3.termOK = true ∧
      (∃ dead F1, dceRound ex3Live ex3 = some (dead, F1) ∧ dead ≠ [] ∧
        F1.insts.length < ex3.insts.length) ∧
      ∃ r, DeadCodeElimination.runOnFunction ex3Live ex3 = some r := by
  have hac : ex3.Acyclic := acyclic_of_opsOrdered ex3 (by decide)
  have h := c14_dce_terminates ex3Live ex3 hac
  refine ⟨hac, by decide, by decide, by decide, ?_, h.2.2.2.2 (by decide) (by decide) (by decide)⟩
  obtain ⟨dead, hd⟩ := h.2.1
  have hne : dead ≠ [] := by
    intro e
    rw [e] at hd
    have h3 := collectDead_nil ex3Live ex3 hd 1 1 ⟨5, "", .store (.inst 4) (.inst 1)⟩ rfl rfl
    revert h3
    decide
  refine ⟨dead, eraseAll dead ex3, by rw [dceRound_eq, hd]; rfl, hne, ?_⟩
  exact h.2.2.1 dead (eraseAll dead ex3) (by rw [dceRound_eq, hd]; rfl) hne

/-! ### The state of the eliminator at the end of its loop -/

theorem mem_worklist_reachable (F : Func) (W : List Nat) (h : worklist F = some W) (b : Nat)
    (hb : b ∈ W) : F.Reachable b :=
  ((worklist_post F W F.Reachable (reachable_entry F)
    (fun _ hv _ hu => Relation.ReflTransGen.tail hv hu) h).2.2 b hb).1

theorem filterBlocks_insts (F : Func) (keep : Instruction → Bool) :
    (filterBlocks keep F).insts = F.insts.filter keep := by
  unfold Func.insts filterBlocks
  rw [List.filter_flatten]

/-- A slot with a store-free path from the head of a block to a load is live there in the
block-by-block sense. -/
theorem blockLive_of_liveFrom (F : Func) (hwf : F.WF) (N : LiveSet) (x : Name) (hx : x ∈ N)
    (s : Nat) (hs : s < F.length) (h : LiveFrom F x (s, 0)) : BlockLive F N x s := by
  classical
  let inS : Nat → LiveSet := fun b => N.filter (fun y => BlockLive F N y b)
  let lv : Liveness := ⟨fun b => some (inS b), fun b => some ((F.succs b).toFinset.biUnion inS), N⟩
  have hget : getSet lv.bb2In = inS := by
    funext b; rfl
  have hIn : ∀ b ∈ List.range F.length, inEquation F lv b := by
    intro b _
    unfold inEquation
    show inS b = bb2Use F N b ∪ ((F.succs b).toFinset.biUnion inS \ bb2Def F N b)
    ext y
    simp only [inS, Finset.mem_filter, Finset.mem_union, Finset.mem_sdiff, Finset.mem_biUnion,
      List.mem_toFinset]
    constructor
    · rintro ⟨hy, hbl⟩
      cases hbl with
      | use _ hu => exact Or.inl hu
      | through _ s1 hd hs1 hb1 => exact Or.inr ⟨⟨s1, hs1, hy, hb1⟩, hd⟩
    · rintro (hu | ⟨⟨s1, hs1, hy, hb1⟩, hd⟩)
      · exact ⟨(useDef_subset F N _).1 hu, BlockLive.use b hu⟩
      · exact ⟨hy, BlockLive.through b s1 hd hs1 hb1⟩
  have hOut : ∀ b ∈ List.range F.length, outEquation F lv b := by
    intro b _
    unfold outEquation succIn
    rw [hget]
    rfl
  have hW : ∀ v ∈ List.range F.length, ∀ u ∈ F.succs v, u ∈ List.range F.length := by
    intro v hv u hu
    exact List.mem_range.2 (hwf v hv u hu)
  have hs1 : s ∈ List.range F.length := List.mem_range.2 hs
  have h1 := liveAtPoint_of_liveFrom F lv x (List.range F.length) hx hW hIn hOut (s, 0) hs1 h
  rw [liveAtPoint_zero F lv x s (hIn s hs1), hget] at h1
  exact (Finset.mem_filter.1 h1).2

theorem hasKey_iff (g : Graph) (k : LiveInterval) : g.hasKey k = true ↔ k ∈ g.keys := by
  unfold Graph.hasKey Graph.keys
  simp only [List.any_eq_true, decide_eq_true_eq, List.mem_map]

theorem keys_modify (g : Graph) (k : LiveInterval) (f : NodeSet → NodeSet) (h : k ∈ g.keys) :
    (g.modify k f).keys = g.keys := by
  unfold Graph.modify
  rw [if_pos ((hasKey_iff g k).2 h)]
  unfold Graph.keys
  rw [List.map_map]
  apply List.map_congr_left
  intro e _
  by_cases h1 : e.1 = k <;> simp [h1]

theorem keys_modify_absent (g : Graph) (k : LiveInterval) (f : NodeSet → NodeSet)
    (h : k ∉ g.keys) : g.modify k f = g ++ [(k, f [])] := by
  unfold Graph.modify
  rw [if_neg (fun hc => h ((hasKey_iff g k).1 hc))]

theorem neighbours_cons (e : LiveInterval × NodeSet) (g : Graph) (k : LiveInterval) :
    Graph.neighbours (e :: g) k = if e.1 = k then e.2 else Graph.neighbours g k := by
  unfold Graph.neighbours
  rw [List.find?_cons]
  by_cases h : e.1 = k <;> simp [h]

theorem neighbours_map_modify (k : LiveInterval) (f : NodeSet → NodeSet) (k1 : LiveInterval) :
    ∀ (g : Graph),
      Graph.neighbours (g.map (fun e => if e.1 = k then (e.1, f e.2) else e)) k1 =
        if k1 = k ∧ k ∈ g.keys then f (Graph.neighbours g k) else Graph.neighbours g k1 := by
  intro g
  induction g with
  | nil => simp [Graph.neighbours, Graph.keys]
  | cons e g ih =>
    rw [List.map_cons, neighbours_cons, neighbours_cons, neighbours_cons, ih]
    by_cases h1 : e.1 = k
    · by_cases h2 : k1 = k
      · simp [h1, h2, Graph.keys]
      · have h3 : ¬ k = k1 := fun e => h2 e.symm
        simp [h1, h2, h3]
    · by_cases h2 : e.1 = k1
      · have h3 : ¬ k1 = k := fun e1 => h1 (h2.trans e1)
        simp [h1, h2, h3]
      · have h3 : ¬ k = e.1 := fun e1 => h1 e1.symm
        have hm : k ∈ Graph.keys (e :: g) ↔ k ∈ Graph.keys g := by
          unfold Graph.keys
          rw [List.map_cons, List.mem_cons]
          exact ⟨fun h => h.resolve_left h3, Or.inr⟩
        simp only [h1, h2, if_false, hm]

theorem neighbours_modify (g : Graph) (k : LiveInterval) (f : NodeSet → NodeSet)
    (k1 : LiveInterval) (h : k ∈ g.keys) :
    (g.modify k f).neighbours k1 = if k1 = k then f (g.neighbours k) else g.neighbours k1 := by
  unfold Graph.modify
  rw [if_pos ((hasKey_iff g k).2 h), neighbours_map_modify]
  simp [h]

theorem keys_eraseKey (g : Graph) (k : LiveInterval) :
    (g.eraseKey k).keys = g.keys.filter (fun v => decide (v ≠ k)) := by
  unfold Graph.eraseKey Graph.keys
  rw [List.filter_map]
  rfl

theorem neighbours_eraseKey (g : Graph) (k k1 : LiveInterval) (h : k1 ≠ k) :
    (g.eraseKey k).neighbours k1 = g.neighbours k1 := by
  unfold Graph.eraseKey
  induction g with
  | nil => rfl
  | cons e g ih =>
    by_cases h1 : e.1 = k
    · have h2 : ¬ e.1 = k1 := fun e1 => h (e1.symm.trans h1)
      rw [List.filter_cons_of_neg (by simp [h1]), ih, neighbours_cons, if_neg h2]
    · rw [List.filter_cons_of_pos (by simp [h1]), neighbours_cons, neighbours_cons, ih]

theorem neighbours_of_mem (g : Graph) (hn : g.keys.Nodup) (e : LiveInterval × NodeSet)
    (he : e ∈ g) : g.neighbours e.1 = e.2 := by
  induction g with
  | nil => cases he
  | cons a g ih =>
    rw [neighbours_cons]
    unfold Graph.keys at hn
    rw [List.map_cons, List.nodup_cons] at hn
    rcases List.mem_cons.1 he with h | h
    · rw [h]; simp
    · have : ¬ a.1 = e.1 := by
        intro e1
        apply hn.1
        rw [e1]
        exact List.mem_map.2 ⟨e, h, rfl⟩
      rw [if_neg this]
      exact ih hn.2 h

theorem mem_keys_of_mem (g : Graph) (e : LiveInterval × NodeSet) (he : e ∈ g) :
    e.1 ∈ g.keys := List.mem_map.2 ⟨e, he, rfl⟩

theorem length_keys (g : Graph) : g.keys.length = g.length := by
  unfold Graph.keys; simp

theorem foldl_append_singleton (l init : List LiveInterval) :
    l.foldl (fun acc v => acc ++ [v]) init = init ++ l := by
  induction l generalizing init with
  | nil => simp
  | cons a l ih => rw [List.foldl_cons, ih]; simp

theorem initKeys (l : List LiveInterval) :
    ∀ g : Graph, l.Nodup → (∀ v ∈ l, v ∉ g.keys) →
      l.foldl (fun g v => g.modify v (fun _ => [])) g = g ++ l.map (fun v => (v, [])) := by
  induction l with
  | nil => intro g _ _; simp
  | cons a l ih =>
    intro g hn hd
    rw [List.nodup_cons] at hn
    rw [List.foldl_cons, keys_modify_absent g a _ (hd a (List.mem_cons_self _ _)), ih _ hn.2]
    · simp
    · intro v hv
      unfold Graph.keys
      rw [List.map_append, List.mem_append]
      rintro (h | h)
      · exact hd v (List.mem_cons_of_mem _ hv) h
      · simp only [List.map_cons, List.map_nil, List.mem_singleton] at h
        rw [h] at hv
        exact hn.1 hv

theorem foldl_preserve {α β : Type} (f : β → α → β) (P : β → Prop) (l : List α)
    (h : ∀ g a, a ∈ l → P g → P (f g a)) : ∀ g, P g → P (l.foldl f g) := by
  induction l with
  | nil => intro g hg; exact hg
  | cons a l ih =>
    intro g hg
    rw [List.foldl_cons]
    exact ih (fun g1 a1 ha1 => h g1 a1 (List.mem_cons_of_mem _ ha1)) _
      (h g a (List.mem_cons_self _ _) hg)

theorem foldl_establish {α β : Type} (f : β → α → β) (J R : β → Prop) (l : List α) (a0 : α)
    (ha0 : a0 ∈ l) (hJ : ∀ g a, a ∈ l → J g → J (f g a))
    (hR : ∀ g a, a ∈ l → J g → R g → R (f g a)) (h0 : ∀ g, J g → R (f g a0)) :
    ∀ g, J g → R (l.foldl f g) := by
  induction l with
  | nil => cases ha0
  | cons a l ih =>
    intro g hg
    rw [List.foldl_cons]
    have hJa := hJ g a (List.mem_cons_self _ _) hg
    rcases List.mem_cons.1 ha0 with e | e
    · have := foldl_preserve f (fun g => J g ∧ R g) l
        (fun g1 a1 ha1 hp => ⟨hJ g1 a1 (List.mem_cons_of_mem _ ha1) hp.1,
          hR g1 a1 (List.mem_cons_of_mem _ ha1) hp.1 hp.2⟩) (f g a)
        ⟨hJa, by rw [← e]; exact h0 g hg⟩
      exact this.2
    · exact ih e (fun g1 a1 ha1 => hJ g1 a1 (List.mem_cons_of_mem _ ha1))
        (fun g1 a1 ha1 => hR g1 a1 (List.mem_cons_of_mem _ ha1)) _ hJa

theorem mem_emplace (x u : LiveInterval) (s : NodeSet) :
    u ∈ NodeSet.emplace x s ↔ u = x ∨ u ∈ s := by
  unfold NodeSet.emplace
  by_cases h : x ∈ s
  · rw [if_pos h]
    constructor
    · exact Or.inr
    · rintro (e | e)
      · rw [e]; exact h
      · exact e
  · rw [if_neg h, List.mem_append, List.mem_singleton]
    exact Or.comm

theorem nodup_emplace (x : LiveInterval) (s : NodeSet) (h : s.Nodup) :
    (NodeSet.emplace x s).Nodup := by
  unfold NodeSet.emplace
  by_cases hx : x ∈ s
  · rw [if_pos hx]; exact h
  · rw [if_neg hx]
    exact List.Nodup.append h (List.nodup_singleton x)
      (fun a ha hb => hx (by rw [← List.mem_singleton.1 hb]; exact ha))

/-- The neighbour sets after the body of the inner loop of `initGraph` has added an
edge. -/
theorem neighbours_addEdge (g : Graph) (x y v : LiveInterval) (hx : x ∈ g.keys)
    (hy : y ∈ g.keys) (hxy : x ≠ y) :
    ((g.modify x (NodeSet.emplace y)).modify y (NodeSet.emplace x)).neighbours v =
      if v = y then NodeSet.emplace x (g.neighbours y)
      else if v = x then NodeSet.emplace y (g.neighbours x) else g.neighbours v := by
  rw [neighbours_modify _ y _ v (by rw [keys_modify g x _ hx]; exact hy)]
  by_cases h1 : v = y
  · rw [if_pos h1, if_pos h1, neighbours_modify g x _ y hx, if_neg (fun e => hxy e.symm)]
  · rw [if_neg h1, if_neg h1, neighbours_modify g x _ v hx]

theorem enum_ne (ivs : List LiveInterval) (hn : ivs.Nodup) (a b : Nat × LiveInterval)
    (ha : a ∈ ivs.enum) (hb : b ∈ ivs.enum) (h : b.1 ≠ a.1) : a.2 ≠ b.2 := by
  rw [List.mem_enum_iff_getElem?] at ha hb
  intro e
  apply h
  have hlt : b.1 < ivs.length := (List.getElem?_eq_some.1 hb).1
  exact List.getElem?_inj hlt hn (by rw [hb, ha, e])

theorem enum_mem (ivs : List LiveInterval) (a : Nat × LiveInterval) (ha : a ∈ ivs.enum) :
    a.2 ∈ ivs := by
  rw [List.mem_enum_iff_getElem?] at ha
  exact List.getElem?_mem ha

theorem initEdge_sound (ivs : List LiveInterval) (hn : ivs.Nodup) (g : Graph)
    (a b : Nat × LiveInterval) (ha : a ∈ ivs.enum) (hb : b ∈ ivs.enum)
    (h : g.SoundFor ivs) : (initEdge g a b).SoundFor ivs := by
  unfold initEdge
  by_cases h1 : b.1 = a.1
  · rw [if_pos h1]; exact h
  · rw [if_neg h1]
    by_cases h2 : a.2.overlaps b.2 = true
    · rw [if_pos h2]
      have hab := enum_ne ivs hn a b ha hb h1
      have ha1 : a.2 ∈ g.keys := by rw [h.1]; exact enum_mem ivs a ha
      have hb1 : b.2 ∈ g.keys := by rw [h.1]; exact enum_mem ivs b hb
      refine ⟨?_, ?_⟩
      · rw [keys_modify _ _ _ (by rw [keys_modify g _ _ ha1]; exact hb1),
          keys_modify g _ _ ha1]
        exact h.1
      · intro v hv
        rw [neighbours_addEdge g a.2 b.2 v ha1 hb1 hab]
        by_cases e1 : v = b.2
        · rw [if_pos e1]
          refine ⟨nodup_emplace _ _ (h.2 _ (enum_mem ivs b hb)).1, ?_⟩
          intro u hu
          rcases (mem_emplace _ _ _).1 hu with e | e
          · rw [e, e1]
            exact ⟨enum_mem ivs a ha, hab, by rw [overlaps_comm]; exact h2⟩
          · rw [e1]; exact (h.2 _ (enum_mem ivs b hb)).2 u e
        · rw [if_neg e1]
          by_cases e2 : v = a.2
          · rw [if_pos e2]
            refine ⟨nodup_emplace _ _ (h.2 _ (enum_mem ivs a ha)).1, ?_⟩
            intro u hu
            rcases (mem_emplace _ _ _).1 hu with e | e
            · rw [e, e2]
              exact ⟨enum_mem ivs b hb, fun e3 => hab e3.symm, h2⟩
            · rw [e2]; exact (h.2 _ (enum_mem ivs a ha)).2 u e
          · rw [if_neg e2]; exact h.2 v hv
    · rw [if_neg h2]; exact h

theorem initEdge_mono (ivs : List LiveInterval) (hn : ivs.Nodup) (g : Graph)
    (a b : Nat × LiveInterval) (ha : a ∈ ivs.enum) (hb : b ∈ ivs.enum)
    (h : g.SoundFor ivs) (v u : LiveInterval) (hu : u ∈ g.neighbours v) :
    u ∈ (initEdge g a b).neighbours v := by
  unfold initEdge
  by_cases h1 : b.1 = a.1
  · rw [if_pos h1]; exact hu
  · rw [if_neg h1]
    by_cases h2 : a.2.overlaps b.2 = true
    · rw [if_pos h2]
      have hab := enum_ne ivs hn a b ha hb h1
      have ha1 : a.2 ∈ g.keys := by rw [h.1]; exact enum_mem ivs a ha
      have hb1 : b.2 ∈ g.keys := by rw [h.1]; exact enum_mem ivs b hb
      rw [neighbours_addEdge g a.2 b.2 v ha1 hb1 hab]
      by_cases e1 : v = b.2
      · rw [if_pos e1, mem_emplace]; right; rw [← e1]; exact hu
      · rw [if_neg e1]
        by_cases e2 : v = a.2
        · rw [if_pos e2, mem_emplace]; right; rw [← e2]; exact hu
        · rw [if_neg e2]; exact hu
    · rw [if_neg h2]; exact hu

theorem initEdge_adds (ivs : List LiveInterval) (g : Graph)
    (a b : Nat × LiveInterval) (ha : a ∈ ivs.enum) (hb : b ∈ ivs.enum)
    (h : g.SoundFor ivs) (hne : a.2 ≠ b.2) (ho : a.2.overlaps b.2 = true) :
    b.2 ∈ (initEdge g a b).neighbours a.2 := by
  unfold initEdge
  have h1 : ¬ b.1 = a.1 := by
    intro e
    apply hne
    rw [List.mem_enum_iff_getElem?] at ha hb
    rw [e, ha] at hb
    exact Option.some.inj hb
  rw [if_neg h1, if_pos ho]
  have ha1 : a.2 ∈ g.keys := by rw [h.1]; exact enum_mem ivs a ha
  have hb1 : b.2 ∈ g.keys := by rw [h.1]; exact enum_mem ivs b hb
  rw [neighbours_addEdge g a.2 b.2 a.2 ha1 hb1 hne, if_neg hne, if_pos rfl, mem_emplace]
  exact Or.inl rfl

/-- The second loop of `initGraph` turns a map with the keys `ivs` and empty neighbour
sets into the interference graph of `ivs`. -/
theorem edgeLoop_spec (ivs : List LiveInterval) (hn : ivs.Nodup) (g : Graph)
    (h : g.SoundFor ivs) :
    (ivs.enum.foldl (fun g a => ivs.enum.foldl (fun g b => initEdge g a b) g) g).IsOverlapGraph ∧
      (ivs.enum.foldl (fun g a => ivs.enum.foldl (fun g b => initEdge g a b) g) g).keys =
        ivs := by
  have hinner : ∀ (g1 : Graph) (a : Nat × LiveInterval), a ∈ ivs.enum → g1.SoundFor ivs →
      (ivs.enum.foldl (fun g b => initEdge g a b) g1).SoundFor ivs := by
    intro g1 a ha h1
    exact foldl_preserve _ (fun g => g.SoundFor ivs) _
      (fun g2 b hb h2 => initEdge_sound ivs hn g2 a b ha hb h2) g1 h1
  have hsound := foldl_preserve (fun g a => ivs.enum.foldl (fun g b => initEdge g a b) g)
    (fun g => g.SoundFor ivs) ivs.enum hinner g h
  refine ⟨⟨by rw [hsound.1]; exact hn, ?_⟩, hsound.1⟩
  intro v hv
  rw [hsound.1] at hv
  refine ⟨(hsound.2 v hv).1, ?_⟩
  intro u
  constructor
  · intro hu
    rw [hsound.1]
    exact (hsound.2 v hv).2 u hu
  · rintro ⟨hu, huv, ho⟩
    rw [hsound.1] at hu
    obtain ⟨i, hi, hiv⟩ := List.getElem_of_mem hv
    obtain ⟨j, hj, hju⟩ := List.getElem_of_mem hu
    have ha : (i, v) ∈ ivs.enum := by
      rw [List.mk_mem_enum_iff_getElem?, List.getElem?_eq_getElem hi, hiv]
    have hb : (j, u) ∈ ivs.enum := by
      rw [List.mk_mem_enum_iff_getElem?, List.getElem?_eq_getElem hj, hju]
    have hmono : ∀ (g1 : Graph) (a : Nat × LiveInterval), a ∈ ivs.enum → g1.SoundFor ivs →
        u ∈ g1.neighbours v →
        u ∈ (ivs.enum.foldl (fun g b => initEdge g a b) g1).neighbours v := by
      intro g1 a ha1 h1 h2
      exact (foldl_preserve _ (fun g => g.SoundFor ivs ∧ u ∈ g.neighbours v) _
        (fun g2 b hb1 h3 => ⟨initEdge_sound ivs hn g2 a b ha1 hb1 h3.1,
          initEdge_mono ivs hn g2 a b ha1 hb1 h3.1 v u h3.2⟩) g1 ⟨h1, h2⟩).2
    apply foldl_establish (fun g a => ivs.enum.foldl (fun g b => initEdge g a b) g)
      (fun g => g.SoundFor ivs) (fun g => u ∈ g.neighbours v) ivs.enum (i, v) ha hinner hmono
      _ g h
    intro g1 h1
    exact foldl_establish (fun g b => initEdge g (i, v) b) (fun g => g.SoundFor ivs)
      (fun g => u ∈ g.neighbours v) ivs.enum (j, u) hb
      (fun g2 b hb1 h2 => initEdge_sound ivs hn g2 (i, v) b ha hb1 h2)
      (fun g2 b hb1 h2 h3 => initEdge_mono ivs hn g2 (i, v) b ha hb1 h2 v u h3)
      (fun g2 h2 => initEdge_adds ivs g2 (i, v) (j, u) ha hb h2
        (fun e => huv e.symm) ho) g1 h1

theorem neighbours_init (l : List LiveInterval) (v : LiveInterval) :
    Graph.neighbours (l.map (fun v => (v, ([] : NodeSet)))) v = [] := by
  induction l with
  | nil => rfl
  | cons a l ih =>
    rw [List.map_cons, neighbours_cons, ih]
    simp

/-- What `initGraph` builds on a new allocator: the interference graph of the registers
with a non-debug use. -/
theorem initGraph_spec (mri : List VirtRegInfo) (hn : (liveIntervalsOf mri).Nodup) :
    (RAUSCC.empty.initGraph mri).interferenceGraph.IsOverlapGraph ∧
      (RAUSCC.empty.initGraph mri).interferenceGraph.keys = liveIntervalsOf mri ∧
      (RAUSCC.empty.initGraph mri).stack = [] ∧
      (RAUSCC.empty.initGraph mri).queue = [] ∧
      (RAUSCC.empty.initGraph mri).assigned = [] ∧
      (RAUSCC.empty.initGraph mri).spilled = [] := by
  have hg0 := initKeys (liveIntervalsOf mri) [] hn (fun v _ h => by cases h)
  have hivs := foldl_append_singleton (liveIntervalsOf mri) []
  rw [List.nil_append] at hg0 hivs
  have hs : Graph.SoundFor (liveIntervalsOf mri)
      ((liveIntervalsOf mri).map (fun v => (v, ([] : NodeSet)))) := by
    refine ⟨by unfold Graph.keys; rw [List.map_map]; exact List.map_id _, ?_⟩
    intro v _
    rw [neighbours_init]
    exact ⟨List.nodup_nil, fun u hu => by cases hu⟩
  have := edgeLoop_spec (liveIntervalsOf mri) hn _ hs
  simp only [RAUSCC.initGraph, RAUSCC.empty, hg0, hivs]
  exact ⟨this.1, this.2, trivial, trivial, trivial, trivial⟩

/-! ### The simplify step -/

theorem foldl_prefix_inv {α β : Type} (f : β → α → β) (P : β → List α → Prop)
    (hstep : ∀ b pre a, P b pre → P (f b a) (pre ++ [a])) :
    ∀ (l pre : List α) (init : β), P init pre → P (l.foldl f init) (pre ++ l) := by
  intro l
  induction l with
  | nil => intro pre init h; simpa using h
  | cons a l ih =>
    intro pre init h
    rw [List.foldl_cons]
    have := ih (pre ++ [a]) (f init a) (hstep init pre a h)
    simpa using this

/-- The entry chosen by the `for` loop of the simplify step has fewer than `K`
neighbours, and an entry is chosen whenever one with fewer than `K` neighbours and a
register number below `UINT32_MAX` exists. -/
theorem findLowest_spec (K : Nat) (g : Graph) :
    (∀ e, (findLowest K g).1 = some e → e ∈ g ∧ e.2.length < K) ∧
      ((findLowest K g).1 = none →
        ∀ e ∈ g, ¬ (e.2.length < K ∧ e.1.reg < UINT32_MAX)) := by
  have h := foldl_prefix_inv
    (fun (acc : Option (LiveInterval × NodeSet) × Nat) (e : LiveInterval × NodeSet) =>
      if e.2.length < K then
        if e.1.reg < acc.2 then (some e, e.1.reg) else acc
      else acc)
    (fun acc pre =>
      (∀ e, acc.1 = some e → e ∈ pre ∧ e.2.length < K) ∧
        (acc.1 = none → acc.2 = UINT32_MAX ∧
          ∀ e ∈ pre, ¬ (e.2.length < K ∧ e.1.reg < UINT32_MAX)))
    (by
      intro acc pre a hP
      by_cases h1 : a.2.length < K
      · by_cases h2 : a.1.reg < acc.2
        · simp only [h1, h2, if_true]
          refine ⟨?_, fun hc => by cases hc⟩
          intro e he
          simp only [Option.some.injEq] at he
          rw [← he]
          exact ⟨List.mem_append_right _ (List.mem_singleton_self _), h1⟩
        · simp only [h1, h2, if_true, if_false]
          refine ⟨fun e he => ⟨List.mem_append_left _ (hP.1 e he).1, (hP.1 e he).2⟩, ?_⟩
          intro hn
          obtain ⟨h3, h4⟩ := hP.2 hn
          refine ⟨h3, ?_⟩
          intro e he
          rcases List.mem_append.1 he with h5 | h5
          · exact h4 e h5
          · rw [List.mem_singleton.1 h5]
            intro hc
            rw [h3] at h2
            exact h2 hc.2
      · simp only [h1, if_false]
        refine ⟨fun e he => ⟨List.mem_append_left _ (hP.1 e he).1, (hP.1 e he).2⟩, ?_⟩
        intro hn
        obtain ⟨h3, h4⟩ := hP.2 hn
        refine ⟨h3, ?_⟩
        intro e he
        rcases List.mem_append.1 he with h5 | h5
        · exact h4 e h5
        · rw [List.mem_singleton.1 h5]
          exact fun hc => h1 hc.1)
    g [] (none, UINT32_MAX)
    ⟨fun e he => (by cases he), fun _ => ⟨rfl, fun e he => (by cases he)⟩⟩
  rw [List.nil_append] at h
  exact ⟨h.1, fun hn => (h.2 hn).2⟩

theorem remove_idem (x : LiveInterval) (s : NodeSet) :
    NodeSet.remove x (NodeSet.remove x s) = NodeSet.remove x s := by
  unfold NodeSet.remove
  rw [List.filter_filter]
  simp

theorem mem_remove (x u : LiveInterval) (s : NodeSet) :
    u ∈ NodeSet.remove x s ↔ u ∈ s ∧ u ≠ x := by
  unfold NodeSet.remove
  simp [List.mem_filter]

theorem remove_of_not_mem (x : LiveInterval) (s : NodeSet) (h : x ∉ s) :
    NodeSet.remove x s = s := by
  unfold NodeSet.remove
  apply List.filter_eq_self.2
  intro a ha
  simp only [ne_eq, decide_not, Bool.not_eq_eq_eq_not, Bool.not_true, decide_eq_false_iff_not]
  intro e
  exact h (e ▸ ha)

/-- The loop of a node removal that erases the node from the neighbour sets of its
neighbours. -/
theorem eraseFromNeighbours_spec (x : LiveInterval) (g : Graph) (l : List LiveInterval)
    (hl : ∀ j ∈ l, j ∈ g.keys) :
    (l.foldl (fun g j => g.modify j (NodeSet.remove x)) g).keys = g.keys ∧
      ∀ v, (l.foldl (fun g j => g.modify j (NodeSet.remove x)) g).neighbours v =
        if v ∈ l then NodeSet.remove x (g.neighbours v) else g.neighbours v := by
  have h := foldl_prefix_inv (fun (g : Graph) j => g.modify j (NodeSet.remove x))
    (fun g1 pre => (∀ j ∈ pre, j ∈ g.keys) → g1.keys = g.keys ∧
      ∀ v, g1.neighbours v =
        if v ∈ pre then NodeSet.remove x (g.neighbours v) else g.neighbours v)
    (by
      intro g1 pre a hP hpre
      obtain ⟨h1, h2⟩ := hP (fun j hj => hpre j (List.mem_append_left _ hj))
      have ha : a ∈ g1.keys := by
        rw [h1]; exact hpre a (List.mem_append_right _ (List.mem_singleton_self _))
      refine ⟨by rw [keys_modify g1 a _ ha]; exact h1, ?_⟩
      intro v
      rw [neighbours_modify g1 a _ v ha]
      by_cases hva : v = a
      · subst hva
        rw [if_pos rfl, h2 v,
          if_pos (List.mem_append_right _ (List.mem_singleton_self _))]
        by_cases hp : v ∈ pre
        · rw [if_pos hp, remove_idem]
        · rw [if_neg hp]
      · rw [if_neg hva, h2 v]
        by_cases hp : v ∈ pre
        · rw [if_pos hp, if_pos (List.mem_append_left _ hp)]
        · rw [if_neg hp, if_neg]
          rw [List.mem_append, List.mem_singleton]
          exact fun hc => hc.elim hp hva)
    l [] g (fun _ => ⟨rfl, fun v => by simp⟩)
  rw [List.nil_append] at h
  exact h hl

/-- The removal of a node of an interference graph leaves the interference graph of the
other keys. -/
theorem removeNode_spec (g : Graph) (hg : g.IsOverlapGraph) (e : LiveInterval × NodeSet)
    (he : e ∈ g) :
    (removeNode g e).IsOverlapGraph ∧
      (removeNode g e).keys = g.keys.filter (fun v => decide (v ≠ e.1)) := by
  have hk := mem_keys_of_mem g e he
  have he2 : e.2 = g.neighbours e.1 := (neighbours_of_mem g hg.1 e he).symm
  have hsub : ∀ j ∈ e.2, j ∈ g.keys := by
    intro j hj
    rw [he2] at hj
    exact (((hg.2 e.1 hk).2 j).1 hj).1
  obtain ⟨h1, h2⟩ := eraseFromNeighbours_spec e.1 g e.2 hsub
  have hkeys : (removeNode g e).keys = g.keys.filter (fun v => decide (v ≠ e.1)) := by
    unfold removeNode
    rw [keys_eraseKey, h1]
  have hnb : ∀ v ∈ g.keys, v ≠ e.1 →
      (removeNode g e).neighbours v = NodeSet.remove e.1 (g.neighbours v) := by
    intro v hv hne
    unfold removeNode
    rw [neighbours_eraseKey _ _ _ hne, h2]
    by_cases hm : v ∈ e.2
    · rw [if_pos hm]
    · rw [if_neg hm, remove_of_not_mem]
      intro hc
      apply hm
      rw [he2]
      obtain ⟨_, _, ho⟩ := ((hg.2 v hv).2 e.1).1 hc
      exact ((hg.2 e.1 hk).2 v).2 ⟨hv, hne, by rw [overlaps_comm]; exact ho⟩
  refine ⟨⟨?_, ?_⟩, hkeys⟩
  · rw [hkeys]; exact hg.1.filter _
  · intro v hv
    rw [hkeys, List.mem_filter] at hv
    have hne : v ≠ e.1 := by simpa using hv.2
    rw [hnb v hv.1 hne]
    refine ⟨?_, ?_⟩
    · unfold NodeSet.remove
      exact (hg.2 v hv.1).1.filter _
    · intro u
      rw [mem_remove, (hg.2 v hv.1).2 u, hkeys, List.mem_filter]
      simp only [ne_eq, decide_not, Bool.not_eq_eq_eq_not, Bool.not_true,
        decide_eq_false_iff_not]
      tauto

theorem perm_cons_filter_ne (l : List LiveInterval) (a : LiveInterval) (hn : l.Nodup)
    (ha : a ∈ l) : l.Perm (a :: l.filter (fun v => decide (v ≠ a))) := by
  rw [List.perm_ext_iff_of_nodup hn]
  · intro x
    rw [List.mem_cons, List.mem_filter]
    simp only [ne_eq, decide_not, Bool.not_eq_eq_eq_not, Bool.not_true,
      decide_eq_false_iff_not]
    constructor
    · intro hx
      by_cases e : x = a
      · exact Or.inl e
      · exact Or.inr ⟨hx, e⟩
    · rintro (e | e)
      · rw [e]; exact ha
      · exact e.1
  · rw [List.nodup_cons]
    refine ⟨?_, hn.filter _⟩
    rw [List.mem_filter]
    simp

theorem simplifyLoop_succ (K fuel : Nat) (s : Graph × List LiveInterval) :
    simplifyLoop K (fuel + 1) s =
      match (findLowest K s.1).1 with
      | some e =>
        if s.1.length ≠ (removeNode s.1 e).length then
          simplifyLoop K fuel (removeNode s.1 e, e.1 :: s.2)
        else some (removeNode s.1 e, e.1 :: s.2)
      | none => some s := rfl

/-- On a graph in which every set of keys has a node with fewer than `K` neighbours, the
simplify loop removes every node, and each register that it pushes overlaps fewer than
`K` of the registers pushed after it; what was on the stack before (`base`, with `stk`
above it) stays below. -/
theorem simplifyLoop_spec (K : Nat) (ivs : List LiveInterval) (hdeg : Degenerate K ivs)
    (base : List LiveInterval) :
    ∀ (fuel : Nat) (g : Graph) (stk : List LiveInterval), g.IsOverlapGraph →
      (∀ v ∈ g.keys, v ∈ ivs) → g.length < fuel → StackInv K g.keys stk →
      ∃ stk1, simplifyLoop K fuel (g, stk ++ base) = some ([], stk1 ++ base) ∧
        StackInv K [] stk1 ∧ stk1.Perm (g.keys ++ stk) := by
  intro fuel
  induction fuel with
  | zero => intro g stk _ _ h; omega
  | succ fuel ih =>
    intro g stk hg hsub hlen hstk
    rw [simplifyLoop_succ]
    by_cases hnil : g = []
    · subst hnil
      exact ⟨stk, rfl, hstk, by simp [Graph.keys]⟩
    · have hkne : g.keys ≠ [] := by
        intro e
        apply hnil
        have := length_keys g
        rw [e] at this
        exact List.length_eq_zero.1 this.symm
      obtain ⟨v, hv, hvdeg, hvreg⟩ := hdeg g.keys hkne hg.1 hsub
      have hcount : ∀ x ∈ g.keys,
          (g.keys.filter (fun u => decide (u ≠ x) && x.overlaps u)).Perm (g.neighbours x) := by
        intro x hx
        rw [List.perm_ext_iff_of_nodup (hg.1.filter _) (hg.2 x hx).1]
        intro u
        rw [(hg.2 x hx).2 u, List.mem_filter]
        simp only [ne_eq, Bool.and_eq_true, decide_eq_true_eq, decide_not,
          Bool.not_eq_eq_eq_not, Bool.not_true, decide_eq_false_iff_not]
      cases hf : (findLowest K g).1 with
      | none =>
        exfalso
        obtain ⟨ev, hev, hev1⟩ := List.mem_map.1 hv
        apply (findLowest_spec K g).2 hf ev hev
        rw [hev1, ← neighbours_of_mem g hg.1 ev hev, hev1, ← (hcount v hv).length_eq]
        exact ⟨hvdeg, hvreg⟩
      | some e =>
        simp only
        obtain ⟨he, hedeg⟩ := (findLowest_spec K g).1 e hf
        obtain ⟨hg1, hk1⟩ := removeNode_spec g hg e he
        have hek := mem_keys_of_mem g e he
        have hperm := perm_cons_filter_ne g.keys e.1 hg.1 hek
        rw [← hk1] at hperm
        have hlen1 : (removeNode g e).length + 1 = g.length := by
          have := hperm.length_eq
          rw [List.length_cons, length_keys, length_keys] at this
          omega
        rw [if_pos (by omega)]
        have hstk1 : StackInv K (removeNode g e).keys (e.1 :: stk) := by
          intro pre x suf hdec
          cases pre with
          | nil =>
            simp only [List.nil_append, List.cons.injEq] at hdec
            rw [← hdec.1, List.countP_nil, Nat.zero_add, List.countP_eq_length_filter]
            have h3 : ((removeNode g e).keys.filter (fun u => e.1.overlaps u)).Perm
                (g.neighbours e.1) := by
              rw [List.perm_ext_iff_of_nodup (hg1.1.filter _) (hg.2 e.1 hek).1]
              intro u
              rw [(hg.2 e.1 hek).2 u, hk1, List.mem_filter, List.mem_filter]
              simp only [ne_eq, decide_not, Bool.not_eq_eq_eq_not, Bool.not_true,
                decide_eq_false_iff_not]
              tauto
            rw [h3.length_eq, neighbours_of_mem g hg.1 e he]
            exact hedeg
          | cons a pre =>
            simp only [List.cons_append, List.cons.injEq] at hdec
            have h4 := hstk pre x suf hdec.2
            rw [hperm.countP_eq, List.countP_cons] at h4
            rw [← hdec.1, List.countP_cons]
            omega
        obtain ⟨stk1, h5, h6, h7⟩ := ih (removeNode g e) (e.1 :: stk) hg1
          (fun v hv => hsub v (by rw [hk1] at hv; exact (List.mem_filter.1 hv).1))
          (by omega) hstk1
        refine ⟨stk1, h5, h6, ?_⟩
        refine h7.trans ?_
        refine List.Perm.trans ?_ (List.Perm.append_right stk hperm.symm)
        simp only [List.cons_append]
        exact List.perm_middle

theorem simplifyOuter_nil (K fuel : Nat) (stk : List LiveInterval) :
    simplifyOuter K (fuel + 1) ([], stk) = some ([], stk) := by
  simp [simplifyOuter]

theorem spillLoop_nil (K fuel : Nat) (stk : List LiveInterval) :
    spillLoop K (fuel + 1) ([], stk) = some ([], stk) := by
  simp [spillLoop]

/-- On the interference graph of registers among which every set has a node with fewer
than `K` neighbours, `simplifyGraph` empties the graph without choosing a spill
candidate, and pushes every register once. -/
theorem simplifyGraph_spec (K : Nat) (ivs : List LiveInterval) (hdeg : Degenerate K ivs)
    (st : RAUSCC) (hg : st.interferenceGraph.IsOverlapGraph)
    (hsub : ∀ v ∈ st.interferenceGraph.keys, v ∈ ivs) (hstk : st.stack = []) :
    ∃ stk1, st.simplifyGraph K = some { st with interferenceGraph := [], stack := stk1 } ∧
      StackInv K [] stk1 ∧ stk1.Perm st.interferenceGraph.keys := by
  obtain ⟨stk1, h1, h2, h3⟩ := simplifyLoop_spec K ivs hdeg []
    (st.interferenceGraph.length + 1) st.interferenceGraph [] hg hsub (by omega)
    (fun pre x suf h => by cases pre <;> cases h)
  rw [List.append_nil] at h3
  simp only [List.append_nil] at h1
  by_cases hlen : st.interferenceGraph.length > 0
  · refine ⟨stk1, ?_, h2, h3⟩
    unfold RAUSCC.simplifyGraph
    rw [hstk]
    obtain ⟨n, hn⟩ : ∃ n, st.interferenceGraph.length = n + 1 :=
      ⟨st.interferenceGraph.length - 1, by omega⟩
    have : simplifyOuter K (st.interferenceGraph.length + 1) (st.interferenceGraph, []) =
        some ([], stk1) := by
      rw [simplifyOuter]
      simp only [hlen, if_true, h1]
      simp only [List.length_nil, Nat.zero_add, spillLoop_nil]
      rw [hn]
      exact simplifyOuter_nil K n stk1
    rw [this]
    rfl
  · have hnil : st.interferenceGraph = [] := List.length_eq_zero.1 (by omega)
    have hk : st.interferenceGraph.keys = [] := by rw [hnil]; rfl
    rw [hk] at h3
    have hs : stk1 = [] := List.Perm.eq_nil h3
    subst hs
    refine ⟨[], ?_, h2, by rw [hk]⟩
    unfold RAUSCC.simplifyGraph
    rw [hstk, hnil]
    rfl

/-! ### The select phase without interference -/

theorem scanOrder_of_free (env : RegEnv) (st : RAUSCC) (v : LiveInterval) :
    ∀ (l cands : List Nat), (∃ p ∈ l, st.checkInterference env v p = .IK_Free) →
      ∃ p ∈ l, scanOrder env st v l cands = .inl p := by
  intro l cands h
  cases hs : scanOrder env st v l cands with
  | inl p => exact ⟨p, (scanOrder_inl env st v p l cands hs).1, rfl⟩
  | inr c =>
    exfalso
    obtain ⟨p, hp, hf⟩ := h
    exact (scanOrder_inr env st v c l cands hs).1 p hp hf

/-- A popped register that overlaps fewer assigned registers than the palette has
registers finds a free one. -/
theorem exists_free (env : RegEnv) (st : RAUSCC) (v : LiveInterval) (palette : List Nat)
    (hpal : palette.Nodup) (hfix : ∀ p, env.fixedIntf v p = false)
    (hcount : st.assigned.countP (fun a => v.overlaps a.1) < palette.length) :
    ∃ p ∈ palette, st.checkInterference env v p = .IK_Free := by
  by_contra hc
  have hall : ∀ p ∈ palette, p ∈ (st.assigned.filter (fun a => v.overlaps a.1)).map Prod.snd := by
    intro p hp
    have h1 : st.checkInterference env v p ≠ .IK_Free := fun e => hc ⟨p, hp, e⟩
    unfold RAUSCC.checkInterference at h1
    by_cases hs : v.segs = []
    · simp [hs] at h1
    · simp only [hs, if_false, hfix p, Bool.false_eq_true] at h1
      by_cases hi : st.interferingVRegs v p ≠ []
      · obtain ⟨u, hu⟩ := List.exists_mem_of_ne_nil _ hi
        obtain ⟨h2, h3⟩ := (mem_interferingVRegs st v u p).1 hu
        exact List.mem_map.2 ⟨(u, p), List.mem_filter.2 ⟨h2, h3⟩, rfl⟩
      · simp [hi] at h1
  have := (List.subperm_of_subset hpal hall).length_le
  rw [List.length_map, ← List.countP_eq_length_filter] at this
  omega

theorem allocLoop_succ (env : RegEnv) (fuel : Nat) (st : RAUSCC) :
    RAUSCC.allocLoop env (fuel + 1) st =
      match st.dequeue with
      | (none, st1) => some st1
      | (some v, st1) =>
        match st1.allocStep env v with
        | none => none
        | some st2 => RAUSCC.allocLoop env fuel st2 := rfl

/-- The select loop on a stack whose registers each overlap fewer than `K` of those above
them: every register receives a register of the palette and none is spilled. -/
theorem allocLoop_spec (K : Nat) (env : RegEnv) (palette : List Nat) (hpal : palette.Nodup)
    (hK : palette.length = K) (h0 : 0 ∉ palette) (hmax : UINT32_MAX ∉ palette)
    (hfix : ∀ v p, env.fixedIntf v p = false) :
    ∀ (fuel : Nat) (st : RAUSCC), st.stack.length < fuel →
      (∀ v ∈ st.stack, env.order v = palette) →
      (st.assigned.map Prod.fst ++ st.stack).Nodup →
      (∀ a ∈ st.assigned, a.2 ∈ palette) → st.spilled = [] →
      (∀ pre x suf, st.stack = pre ++ x :: suf →
        (st.assigned.map Prod.fst).countP (fun u => x.overlaps u) +
          pre.countP (fun u => x.overlaps u) < K) →
      ∃ st1, RAUSCC.allocLoop env fuel st = some st1 ∧ st1.spilled = [] ∧
        st1.queue = st.queue ∧
        (∀ a ∈ st1.assigned, a.2 ∈ palette) ∧
        ∀ v, v ∈ st1.assigned.map Prod.fst ↔ (v ∈ st.assigned.map Prod.fst ∨ v ∈ st.stack) := by
  intro fuel
  induction fuel with
  | zero => intro st h; omega
  | succ fuel ih =>
    intro st hlen hord hnd hin hsp hcnt
    rw [allocLoop_succ]
    cases hstk : st.stack with
    | nil =>
      simp only [RAUSCC.dequeue, hstk]
      exact ⟨st, rfl, hsp, rfl, hin, fun v => by simp⟩
    | cons x rest =>
      simp only [RAUSCC.dequeue, hstk]
      rw [hstk] at hlen hord hnd hcnt
      have hx : x ∉ st.assigned.map Prod.fst := by
        intro hc
        have := (List.nodup_append.1 hnd).2.2
        exact this hc (List.mem_cons_self _ _)
      have hphys : RAUSCC.hasPhys { st with stack := rest } x = false := by
        unfold RAUSCC.hasPhys
        rw [Bool.eq_false_iff]
        intro hc
        rw [List.any_eq_true] at hc
        obtain ⟨a, ha, hax⟩ := hc
        simp only [decide_eq_true_eq] at hax
        exact hx (List.mem_map.2 ⟨a, ha, hax⟩)
      have hc0 := hcnt [] x rest rfl
      rw [List.countP_nil, Nat.add_zero, List.countP_map] at hc0
      have hfree := exists_free env { st with stack := rest } x palette hpal (hfix x)
        (by rw [hK]; exact hc0)
      rw [← hord x (List.mem_cons_self _ _)] at hfree
      obtain ⟨p, hp, hscan⟩ := scanOrder_of_free env { st with stack := rest } x
        (env.order x) [] hfree
      rw [hord x (List.mem_cons_self _ _)] at hp
      have hp0 : p ≠ 0 := fun e => h0 (e ▸ hp)
      have hpm : p ≠ UINT32_MAX := fun e => hmax (e ▸ hp)
      have hstep : RAUSCC.allocStep env { st with stack := rest } x =
          some (RAUSCC.assign { st with stack := rest } x p) := by
        unfold RAUSCC.allocStep
        rw [hphys]
        simp only [Bool.false_eq_true, if_false, RAUSCC.selectOrSplit, hscan, hpm, hp0, ne_eq,
          not_false_eq_true, if_true, List.foldl_nil]
      rw [hstep]
      simp only
      have hass : (RAUSCC.assign { st with stack := rest } x p).assigned =
          st.assigned ++ [(x, p)] := rfl
      have hstk1 : (RAUSCC.assign { st with stack := rest } x p).stack = rest := rfl
      obtain ⟨st1, h1, h2, h3, h4, h5⟩ := ih (RAUSCC.assign { st with stack := rest } x p)
        (by rw [hstk1]; simp only [List.length_cons] at hlen; omega)
        (by rw [hstk1]; exact fun v hv => hord v (List.mem_cons_of_mem _ hv))
        (by
          rw [hass, hstk1, List.map_append]
          simpa using hnd)
        (by
          rw [hass]
          intro a ha
          rcases List.mem_append.1 ha with e | e
          · exact hin a e
          · rw [List.mem_singleton.1 e]; exact hp)
        hsp
        (by
          rw [hass, hstk1]
          intro pre y suf hdec
          have := hcnt (x :: pre) y suf (by rw [hdec]; rfl)
          rw [List.map_append, List.countP_append]
          rw [List.countP_cons] at this
          simp only [List.map_cons, List.map_nil, List.countP_cons, List.countP_nil]
          omega)
      refine ⟨st1, h1, h2, h3, h4, ?_⟩
      intro v
      rw [h5 v, hass, hstk1, List.map_append]
      simp only [List.mem_append, List.map_cons, List.map_nil, List.mem_singleton,
        List.mem_cons]
      tauto

/-! ### Single-range intervals with bounded register pressure -/

theorem isRange_iff (v : LiveInterval) :
    v.isRange = true ↔ ∃ s e, v.segs = [(s, e)] ∧ s < e := by
  unfold LiveInterval.isRange
  constructor
  · intro h
    split at h
    · rename_i s e hs
      exact ⟨s, e, hs, by simpa using h⟩
    · cases h
  · rintro ⟨s, e, hs, hlt⟩
    rw [hs]
    simpa using hlt

/-- Among single-range intervals, the one that ends first is live, just before its end,
together with every interval that overlaps it. -/
theorem overlap_liveAt_end (v u : LiveInterval) (s e s1 e1 : Nat) (hv : v.segs = [(s, e)])
    (hu : u.segs = [(s1, e1)]) (hse : s < e) (hle : e ≤ e1) (ho : v.overlaps u = true) :
    v.liveAt (e - 1) = true ∧ u.liveAt (e - 1) = true := by
  unfold LiveInterval.overlaps at ho
  unfold LiveInterval.liveAt
  rw [hv, hu] at *
  simp only [List.any_cons, List.any_nil, Bool.or_false, decide_eq_true_eq, lt_min_iff,
    max_lt_iff, Bool.and_eq_true] at ho ⊢
  omega

/-- Single-range intervals of which at most `K` are live at any program point: every set of
them has an interval that overlaps fewer than `K` others. -/
theorem degenerate_of_pressure (K : Nat) (ivs : List LiveInterval)
    (hrange : ∀ v ∈ ivs, v.isRange = true) (hreg : ∀ v ∈ ivs, v.reg < UINT32_MAX)
    (hpress : ∀ p, (ivs.filter (fun v => v.liveAt p)).length ≤ K) : Degenerate K ivs := by
  intro l hne hnd hsub
  have hne1 : l.toFinset.Nonempty := by
    obtain ⟨a, ha⟩ := List.exists_mem_of_ne_nil l hne
    exact ⟨a, List.mem_toFinset.2 ha⟩
  obtain ⟨v, hv, hmin⟩ := l.toFinset.exists_min_image (fun v => (v.segs.headD (0, 0)).2) hne1
  have hvl : v ∈ l := List.mem_toFinset.1 hv
  refine ⟨v, hvl, ?_, hreg v (hsub v hvl)⟩
  obtain ⟨s, e, hvs, hse⟩ := (isRange_iff v).1 (hrange v (hsub v hvl))
  have hsubset : ∀ u ∈ v :: l.filter (fun u => decide (u ≠ v) && v.overlaps u),
      u ∈ ivs.filter (fun w => w.liveAt (e - 1)) := by
    intro u hu
    rw [List.mem_filter]
    rcases List.mem_cons.1 hu with h | h
    · rw [h]
      refine ⟨hsub v hvl, ?_⟩
      unfold LiveInterval.liveAt
      rw [hvs]
      simp only [List.any_cons, List.any_nil, Bool.or_false, Bool.and_eq_true,
        decide_eq_true_eq]
      omega
    · obtain ⟨hul, hcond⟩ := List.mem_filter.1 h
      simp only [Bool.and_eq_true, decide_eq_true_eq] at hcond
      obtain ⟨s1, e1, hus, _⟩ := (isRange_iff u).1 (hrange u (hsub u hul))
      have hle := hmin u (List.mem_toFinset.2 hul)
      simp only [hvs, hus, List.headD_cons] at hle
      exact ⟨hsub u hul, (overlap_liveAt_end v u s e s1 e1 hvs hus hse hle hcond.2).2⟩
  have hnd1 : (v :: l.filter (fun u => decide (u ≠ v) && v.overlaps u)).Nodup := by
    rw [List.nodup_cons]
    refine ⟨?_, hnd.filter _⟩
    rw [List.mem_filter]
    simp
  have := (List.subperm_of_subset hnd1 hsubset).length_le
  rw [List.length_cons] at this
  have := hpress (e - 1)
  omega

/-- The pressure bound holds at every program point when it holds below a bound on the
ends of all ranges. -/
theorem pressure_of_bounded (K B : Nat) (ivs : List LiveInterval)
    (hB : ∀ v ∈ ivs, ∀ s ∈ v.segs, s.2 ≤ B)
    (h : ∀ p, p < B → (ivs.filter (fun v => v.liveAt p)).length ≤ K) :
    ∀ p, (ivs.filter (fun v => v.liveAt p)).length ≤ K := by
  intro p
  by_cases hp : p < B
  · exact h p hp
  · have : ivs.filter (fun v => v.liveAt p) = [] := by
      rw [List.filter_eq_nil_iff]
      intro v hv
      unfold LiveInterval.liveAt
      rw [Bool.not_eq_true, List.any_eq_false]
      intro s hs
      have := hB v hv s hs
      simp only [Bool.and_eq_true, decide_eq_true_eq, not_and, not_lt]
      intro _
      omega
    rw [this]
    exact Nat.zero_le _

/-- One allocation round on registers among which every set has a register that overlaps
fewer than `K` others, with a palette of `K` registers: every register receives a
register of the palette and none is spilled. -/
theorem allocationRound_no_spill (K : Nat) (env : RegEnv) (mri : List VirtRegInfo)
    (palette : List Nat) (hn : (liveIntervalsOf mri).Nodup)
    (hdeg : Degenerate K (liveIntervalsOf mri))
    (hpal : palette.Nodup) (hK : palette.length = K) (h0 : 0 ∉ palette)
    (hmax : UINT32_MAX ∉ palette) (hord : ∀ v ∈ liveIntervalsOf mri, env.order v = palette)
    (hfix : ∀ v p, env.fixedIntf v p = false) :
    ∃ st, RAUSCC.allocationRound K env mri = some st ∧ st.spilled = [] ∧
      (∀ a ∈ st.assigned, a.2 ∈ palette) ∧
      ∀ v, v ∈ st.assigned.map Prod.fst ↔ v ∈ liveIntervalsOf mri := by
  obtain ⟨hg, hkeys, hstk, _, hass, hsp⟩ := initGraph_spec mri hn
  obtain ⟨stk1, h1, h2, h3⟩ := simplifyGraph_spec K (liveIntervalsOf mri) hdeg
    (RAUSCC.empty.initGraph mri) hg (by rw [hkeys]; exact fun v hv => hv) hstk
  rw [hkeys] at h3
  obtain ⟨st2, hs2, hstack2, hass2, hsp2⟩ : ∃ st2,
      (RAUSCC.empty.initGraph mri).simplifyGraph K = some st2 ∧ st2.stack = stk1 ∧
        st2.assigned = [] ∧ st2.spilled = [] := ⟨_, h1, rfl, hass, hsp⟩
  unfold RAUSCC.allocationRound
  rw [hs2]
  simp only [RAUSCC.allocatePhysRegs]
  obtain ⟨e1, e2, e3, _⟩ := enqueueFold_assigned (liveIntervalsOf mri) st2
  rw [hass2] at e1
  rw [hsp2] at e2
  rw [hstack2] at e3
  obtain ⟨st1, h4, h5, _, h6, h7⟩ := allocLoop_spec K env palette hpal hK h0 hmax hfix
    (stk1.length + 1) ((liveIntervalsOf mri).foldl RAUSCC.enqueue st2)
    (by rw [e3]; omega)
    (by rw [e3]; exact fun v hv => hord v (h3.subset hv))
    (by rw [e1, e3]; simpa using h3.nodup_iff.2 hn)
    (by rw [e1]; exact fun a ha => by cases ha)
    e2
    (by
      rw [e1, e3]
      intro pre x suf hdec
      have := h2 pre x suf hdec
      simpa using this)
  rw [e3]
  refine ⟨st1, h4, h5, h6, ?_⟩
  intro v
  rw [h7 v, e1, e3]
  simp only [List.map_nil, List.not_mem_nil, false_or]
  exact ⟨fun hv => h3.subset hv, fun hv => h3.symm.subset hv⟩

/-- Claim C16, for live intervals that are single ranges.  For every set of virtual
registers with pairwise different register numbers below `UINT32_MAX`, whose live
intervals are single non-empty ranges of which at most `K` contain any program point, one
allocation round (`initGraph`, `simplifyGraph`, then the select loop in stack order) with a
palette of `K` different physical registers and no fixed interference assigns a register
of the palette to every virtual register and hands none to the spiller. -/
theorem c16_colours_without_spill (K : Nat) (env : RegEnv) (mri : List VirtRegInfo)
    (palette : List Nat)
    (hreg : ((liveIntervalsOf mri).map (fun v => v.reg)).Nodup)
    (hmaxr : ∀ v ∈ liveIntervalsOf mri, v.reg < UINT32_MAX)
    (hrange : ∀ v ∈ liveIntervalsOf mri, v.isRange = true)
    (hpress : ∀ p, ((liveIntervalsOf mri).filter (fun v => v.liveAt p)).length ≤ K)
    (hpal : palette.Nodup) (hK : palette.length = K) (h0 : 0 ∉ palette)
    (hmax : UINT32_MAX ∉ palette) (hord : ∀ v ∈ liveIntervalsOf mri, env.order v = palette)
    (hfix : ∀ v p, env.fixedIntf v p = false) :
    ∃ st, RAUSCC.allocationRound K env mri = some st ∧ st.spilled = [] ∧
      ∀ v ∈ liveIntervalsOf mri, ∃ p ∈ palette, (v, p) ∈ st.assigned := by
  obtain ⟨st, h1, h2, h3, h4⟩ := allocationRound_no_spill K env mri palette
    (List.Nodup.of_map _ hreg)
    (degenerate_of_pressure K _ hrange hmaxr hpress) hpal hK h0 hmax hord hfix
  refine ⟨st, h1, h2, ?_⟩
  intro v hv
  obtain ⟨a, ha, hav⟩ := List.mem_map.1 ((h4 v).2 hv)
  exact ⟨a.2, h3 a ha, by rw [← hav]; exact ha⟩

/-- Witness of C16 on three registers with the ranges `[0, 4)`, `[2, 6)`, `[5, 8)`, two
colours and the palette `1, 2`. -/
theorem c16_colours_without_spill_witness :
    (∀ p, ((liveIntervalsOf exChain3).filter (fun v => v.liveAt p)).length ≤ 2) ∧
      ∃ st, RAUSCC.allocationRound 2 env2 exChain3 = some st ∧ st.spilled = [] ∧
        ∀ v ∈ liveIntervalsOf exChain3, ∃ p ∈ [1, 2], (v, p) ∈ st.assigned := by
  have hp : ∀ p, ((liveIntervalsOf exChain3).filter (fun v => v.liveAt p)).length ≤ 2 :=
    pressure_of_bounded 2 8 _ (by decide) (by decide)
  exact ⟨hp, c16_colours_without_spill 2 env2 exChain3 [1, 2] (by decide) (by decide)
    (by decide) hp (by decide) rfl (by decide) (by decide) (fun _ _ => rfl) (fun _ _ => rfl)⟩

/-- C16 fails when a live interval has more than one range: in `exCycle5` at most two
registers are live at any program point, but the interference graph is a cycle of length
five, which two colours cannot colour: with `K = 2` and the palette `1, 2` the round hands
register 4 to the spiller. -/
theorem c16_counterexample :
    (∀ p, ((liveIntervalsOf exCycle5).filter (fun v => v.liveAt p)).length ≤ 2) ∧
      ∃ st, RAUSCC.allocationRound 2 env2 exCycle5 = some st ∧
        st.spilled = [mkReg 4 1 [(6, 9)]] := by
  refine ⟨pressure_of_bounded 2 10 _ (by decide) (by decide), ?_⟩
  have h1 : (RAUSCC.allocationRound 2 env2 exCycle5).map (fun s => s.spilled) =
      some [mkReg 4 1 [(6, 9)]] := by decide
  obtain ⟨st, hst, h2⟩ := Option.map_eq_some'.1 h1
  exact ⟨st, hst, h2⟩

/-! ### The spill step -/

theorem foldlM_prefix_total {α β : Type} (f : β → α → Option β) (P : β → List α → Prop)
    (l : List α)
    (hstep : ∀ b pre a, a ∈ l → P b pre → ∃ b1, f b a = some b1 ∧ P b1 (pre ++ [a])) :
    ∀ (l1 pre : List α) (init : β), (∀ a ∈ l1, a ∈ l) → P init pre →
      ∃ r, l1.foldlM f init = some r ∧ P r (pre ++ l1) := by
  intro l1
  induction l1 with
  | nil => intro pre init _ h; exact ⟨init, rfl, by simpa using h⟩
  | cons a l1 ih =>
    intro pre init hl h
    obtain ⟨b1, hb1, hP⟩ := hstep init pre a (hl a (List.mem_cons_self _ _)) h
    obtain ⟨r, hr, hPr⟩ := ih (pre ++ [a]) b1 (fun x hx => hl x (List.mem_cons_of_mem _ hx)) hP
    refine ⟨r, ?_, by simpa using hPr⟩
    rw [List.foldlM_cons, hb1]
    exact hr

/-- The `for` loop of the spill step on a non-empty graph whose weights are all below
`FLT_MAX`: the candidate is an entry of minimum weight. -/
theorem findMin_spec (g : Graph) (hw : ∀ e ∈ g, e.1.weight < FLT_MAX) (hne : g ≠ []) :
    ∃ e ∈ g, findMin g = some (e.1.weight, some e) ∧ ∀ x ∈ g, e.1.weight ≤ x.1.weight := by
  have h := foldlM_prefix_total
    (fun (acc : Nat × Option (LiveInterval × NodeSet)) (e : LiveInterval × NodeSet) =>
      if e.1.weight = acc.1 then
        match acc.2 with
        | none => none
        | some m => if e.1.reg < m.1.reg then some (e.1.weight, some e) else some acc
      else if e.1.weight < acc.1 then some (e.1.weight, some e)
      else some acc)
    (fun acc pre => (pre = [] → acc = (FLT_MAX, none)) ∧
      (pre ≠ [] → ∃ e ∈ pre, acc = (e.1.weight, some e) ∧ ∀ x ∈ pre, e.1.weight ≤ x.1.weight))
    g
    (by
      intro acc pre a ha hP
      have hwa := hw a ha
      have hne1 : pre ++ [a] ≠ [] := by simp
      by_cases hpre : pre = []
      · have hacc := hP.1 hpre
        subst hpre
        rw [hacc]
        refine ⟨(a.1.weight, some a), ?_, fun hc => absurd hc hne1, fun _ => ?_⟩
        · simp only [Nat.ne_of_lt hwa, if_false, hwa, if_true]
        · exact ⟨a, by simp, rfl, by simp⟩
      · obtain ⟨e, he, hacc, hmin⟩ := hP.2 hpre
        rw [hacc]
        by_cases h1 : a.1.weight = e.1.weight
        · by_cases h2 : a.1.reg < e.1.reg
          · refine ⟨(a.1.weight, some a), by simp [h1, h2], fun hc => absurd hc hne1, fun _ => ?_⟩
            refine ⟨a, by simp, rfl, ?_⟩
            intro x hx
            rcases List.mem_append.1 hx with h3 | h3
            · rw [h1]; exact hmin x h3
            · rw [List.mem_singleton.1 h3]
          · refine ⟨(e.1.weight, some e), by simp [h1, h2], fun hc => absurd hc hne1,
              fun _ => ?_⟩
            refine ⟨e, List.mem_append_left _ he, rfl, ?_⟩
            intro x hx
            rcases List.mem_append.1 hx with h3 | h3
            · exact hmin x h3
            · rw [List.mem_singleton.1 h3, h1]
        · by_cases h2 : a.1.weight < e.1.weight
          · refine ⟨(a.1.weight, some a), by simp [h1, h2], fun hc => absurd hc hne1,
              fun _ => ?_⟩
            refine ⟨a, by simp, rfl, ?_⟩
            intro x hx
            rcases List.mem_append.1 hx with h3 | h3
            · exact le_trans (le_of_lt h2) (hmin x h3)
            · rw [List.mem_singleton.1 h3]
          · refine ⟨(e.1.weight, some e), by simp [h1, h2], fun hc => absurd hc hne1,
              fun _ => ?_⟩
            refine ⟨e, List.mem_append_left _ he, rfl, ?_⟩
            intro x hx
            rcases List.mem_append.1 hx with h3 | h3
            · exact hmin x h3
            · rw [List.mem_singleton.1 h3]
              omega)
    g [] (FLT_MAX, none) (fun a ha => ha) ⟨fun _ => rfl, fun hc => absurd rfl hc⟩
  obtain ⟨r, hr, hP⟩ := h
  rw [List.nil_append] at hP
  obtain ⟨e, he, hacc, hmin⟩ := hP.2 hne
  refine ⟨e, he, ?_, hmin⟩
  unfold findMin
  rw [hr, hacc]

theorem removeSpill_fold_fst (K : Nat) (x : LiveInterval) (l : List LiveInterval) :
    ∀ (g : Graph) (b : Bool),
      (l.foldl
        (fun (acc : Graph × Bool) j =>
          ((acc.1.modify j (NodeSet.remove x)),
            if ((acc.1.modify j (NodeSet.remove x)).neighbours j).length < K then false
            else acc.2))
        (g, b)).1 = l.foldl (fun g j => g.modify j (NodeSet.remove x)) g := by
  induction l with
  | nil => intro g b; rfl
  | cons a l ih => intro g b; rw [List.foldl_cons, List.foldl_cons, ih]

theorem removeSpill_fst (K : Nat) (g : Graph) (e : LiveInterval × NodeSet) :
    (removeSpill K g e).1 = removeNode g e := by
  unfold removeSpill removeNode
  simp only
  rw [removeSpill_fold_fst]

/-- The flag `go` is cleared by the removal of a spill candidate one of whose neighbours
has at most `K` neighbours. -/
theorem removeSpill_flag (K : Nat) (g : Graph) (hg : g.IsOverlapGraph)
    (e : LiveInterval × NodeSet) (he : e ∈ g) (j : LiveInterval) (hj : j ∈ e.2)
    (hlen : (g.neighbours j).length ≤ K) : (removeSpill K g e).2 = false := by
  have hk := mem_keys_of_mem g e he
  have he2 : e.2 = g.neighbours e.1 := (neighbours_of_mem g hg.1 e he).symm
  have hsub : ∀ i ∈ e.2, i ∈ g.keys := by
    intro i hi
    rw [he2] at hi
    exact (((hg.2 e.1 hk).2 i).1 hi).1
  have hjk := hsub j hj
  have hej : e.1 ∈ g.neighbours j := by
    rw [he2] at hj
    obtain ⟨_, h1, h2⟩ := ((hg.2 e.1 hk).2 j).1 hj
    exact ((hg.2 j hjk).2 e.1).2 ⟨hk, fun e1 => h1 e1.symm, by rw [overlaps_comm]; exact h2⟩
  have hshort : (NodeSet.remove e.1 (g.neighbours j)).length < K := by
    unfold NodeSet.remove
    have : (List.filter (fun y => decide (y ≠ e.1)) (g.neighbours j)).length <
        (g.neighbours j).length := by
      apply lt_of_le_of_ne (List.length_filter_le _ _)
      intro e1
      have := List.filter_eq_self.1 ((List.filter_sublist _).eq_of_length e1) e.1 hej
      simp at this
    omega
  have h := foldl_prefix_inv
    (fun (acc : Graph × Bool) i =>
      ((acc.1.modify i (NodeSet.remove e.1)),
        if ((acc.1.modify i (NodeSet.remove e.1)).neighbours i).length < K then false
        else acc.2))
    (fun acc pre => (∀ i ∈ pre, i ∈ g.keys) →
      acc.1 = pre.foldl (fun g i => g.modify i (NodeSet.remove e.1)) g ∧
        (j ∈ pre → acc.2 = false))
    (by
      intro acc pre a hP hpre
      obtain ⟨h1, h2⟩ := hP (fun i hi => hpre i (List.mem_append_left _ hi))
      refine ⟨by simp only [List.foldl_append, List.foldl_cons, List.foldl_nil, h1], ?_⟩
      intro hjin
      by_cases haj : a = j
      · obtain ⟨h3, h4⟩ := eraseFromNeighbours_spec e.1 g pre
          (fun i hi => hpre i (List.mem_append_left _ hi))
        have : ((acc.1.modify a (NodeSet.remove e.1)).neighbours a).length < K := by
          rw [h1, neighbours_modify _ a _ a (by rw [h3, haj]; exact hjk), if_pos rfl, h4, haj]
          by_cases hp : j ∈ pre
          · rw [if_pos hp, remove_idem]; exact hshort
          · rw [if_neg hp]; exact hshort
        simp only [this, if_true]
      · have hjp : j ∈ pre := by
          rcases List.mem_append.1 hjin with h5 | h5
          · exact h5
          · exact absurd (List.mem_singleton.1 h5).symm haj
        simp only [h2 hjp]
        split <;> rfl)
    e.2 [] (g, true) (fun _ => ⟨rfl, fun hc => by cases hc⟩)
  rw [List.nil_append] at h
  unfold removeSpill
  exact (h hsub).2 hj

theorem spillLoop_succ (K fuel : Nat) (s : Graph × List LiveInterval) :
    spillLoop K (fuel + 1) s =
      if s.1 = [] then some s
      else
        match findMin s.1 with
        | none => none
        | some (_, none) => none
        | some (_, some e) =>
          if (removeSpill K s.1 e).2 then
            spillLoop K fuel ((removeSpill K s.1 e).1, e.1 :: s.2)
          else some ((removeSpill K s.1 e).1, e.1 :: s.2) := rfl

/-! ### The select phase on a stack with a spill candidate at the bottom -/

/-- The select loop on the upper part `top` of the stack, whose registers each overlap
fewer than `K` of those above them: every register of `top` receives a free register of
the palette, none is spilled, and the loop goes on with the rest of the stack. -/
theorem allocLoop_prefix (K : Nat) (env : RegEnv) (palette : List Nat) (hpal : palette.Nodup)
    (hK : palette.length = K) (h0 : 0 ∉ palette) (hmax : UINT32_MAX ∉ palette)
    (hfix : ∀ v p, env.fixedIntf v p = false) (base : List LiveInterval) :
    ∀ (top : List LiveInterval) (st : RAUSCC), st.stack = top ++ base →
      (∀ v ∈ top, env.order v = palette) →
      (st.assigned.map Prod.fst ++ top).Nodup →
      (∀ a ∈ st.assigned, a.2 ∈ palette) →
      (∀ pre x suf, top = pre ++ x :: suf →
        (st.assigned.map Prod.fst).countP (fun u => x.overlaps u) +
          pre.countP (fun u => x.overlaps u) < K) →
      ∃ st1, (∀ fuel, RAUSCC.allocLoop env (top.length + fuel) st =
          RAUSCC.allocLoop env fuel st1) ∧
        st1.stack = base ∧ st1.spilled = st.spilled ∧ st1.queue = st.queue ∧
        (∀ a ∈ st1.assigned, a.2 ∈ palette) ∧
        (∀ v, v ∈ st1.assigned.map Prod.fst ↔ (v ∈ st.assigned.map Prod.fst ∨ v ∈ top)) ∧
        (NoConflict st.assigned → NoConflict st1.assigned) ∧
        st1.assigned.length = st.assigned.length + top.length ∧
        (st1.assigned.map Prod.fst).Nodup := by
  intro top
  induction top with
  | nil =>
    intro st hstk _ hnd hin _
    refine ⟨st, fun fuel => by simp, by simpa using hstk, rfl, rfl, hin,
      fun v => by simp, fun h => h, by simp, by simpa using hnd⟩
  | cons x rest ih =>
    intro st hstk hord hnd hin hcnt
    have hx : x ∉ st.assigned.map Prod.fst := by
      intro hc
      exact (List.nodup_append.1 hnd).2.2 hc (List.mem_cons_self _ _)
    have hphys : RAUSCC.hasPhys { st with stack := rest ++ base } x = false := by
      unfold RAUSCC.hasPhys
      rw [Bool.eq_false_iff]
      intro hc
      rw [List.any_eq_true] at hc
      obtain ⟨a, ha, hax⟩ := hc
      simp only [decide_eq_true_eq] at hax
      exact hx (List.mem_map.2 ⟨a, ha, hax⟩)
    have hc0 := hcnt [] x rest rfl
    rw [List.countP_nil, Nat.add_zero, List.countP_map] at hc0
    have hfree := exists_free env { st with stack := rest ++ base } x palette hpal (hfix x)
      (by rw [hK]; exact hc0)
    rw [← hord x (List.mem_cons_self _ _)] at hfree
    obtain ⟨p, hp, hscan⟩ := scanOrder_of_free env { st with stack := rest ++ base } x
      (env.order x) [] hfree
    have hpfree := (scanOrder_inl env _ x p _ _ hscan).2
    rw [hord x (List.mem_cons_self _ _)] at hp
    have hp0 : p ≠ 0 := fun e => h0 (e ▸ hp)
    have hpm : p ≠ UINT32_MAX := fun e => hmax (e ▸ hp)
    have hstep : RAUSCC.allocStep env { st with stack := rest ++ base } x =
        some (RAUSCC.assign { st with stack := rest ++ base } x p) := by
      unfold RAUSCC.allocStep
      rw [hphys]
      simp only [Bool.false_eq_true, if_false, RAUSCC.selectOrSplit, hscan, hpm, hp0, ne_eq,
        not_false_eq_true, if_true, List.foldl_nil]
    have hass : (RAUSCC.assign { st with stack := rest ++ base } x p).assigned =
        st.assigned ++ [(x, p)] := rfl
    obtain ⟨st1, h1, h2, h3, h4, h5, h6, h7, h8, h9⟩ :=
      ih (RAUSCC.assign { st with stack := rest ++ base } x p) rfl
        (fun v hv => hord v (List.mem_cons_of_mem _ hv))
        (by
          rw [hass, List.map_append]
          simpa using hnd)
        (by
          rw [hass]
          intro a ha
          rcases List.mem_append.1 ha with e | e
          · exact hin a e
          · rw [List.mem_singleton.1 e]; exact hp)
        (by
          rw [hass]
          intro pre y suf hdec
          have := hcnt (x :: pre) y suf (by rw [hdec]; rfl)
          rw [List.map_append, List.countP_append]
          rw [List.countP_cons] at this
          simp only [List.map_cons, List.map_nil, List.countP_cons, List.countP_nil]
          omega)
    refine ⟨st1, ?_, h2, h3, h4, h5, ?_, ?_, ?_, h9⟩
    · intro fuel
      have e1 : (x :: rest).length + fuel = (rest.length + fuel) + 1 := by
        simp only [List.length_cons]; omega
      rw [e1, allocLoop_succ]
      simp only [RAUSCC.dequeue, hstk, List.cons_append, hstep]
      exact h1 fuel
    · intro v
      rw [h6 v, hass, List.map_append]
      simp only [List.mem_append, List.map_cons, List.map_nil, List.mem_singleton,
        List.mem_cons]
      tauto
    · intro hnc
      exact h7 (noConflict_assign env { st with stack := rest ++ base } x p hnc hpfree)
    · rw [h8, hass]
      simp only [List.length_append, List.length_cons, List.length_nil]
      omega

/-- A popped spillable register for which no register of its allocation order is free,
each being held by an overlapping register of larger weight, is handed to the spiller. -/
theorem allocStep_spill_self (env : RegEnv) (st : RAUSCC) (v : LiveInterval)
    (hsp : v.spillable = true) (hphys : st.hasPhys v = false)
    (hheavy : ∀ p ∈ env.order v, ∃ u ∈ st.interferingVRegs v p, v.weight < u.weight) :
    st.allocStep env v =
      some ((env.spillNew v).foldl RAUSCC.enqueue (st.spill env v []).1) := by
  have hno : ∀ p ∈ env.order v, st.checkInterference env v p ≠ .IK_Free := by
    intro p hp hf
    obtain ⟨u, hu, _⟩ := hheavy p hp
    obtain ⟨h1, h2⟩ := (mem_interferingVRegs st v u p).1 hu
    rw [free_no_overlap env st v u p hf h1] at h2
    cases h2
  have ht : trySpill env st v []
      ([] ++ (env.order v).filter
        (fun p => decide (st.checkInterference env v p = .IK_VirtReg))) = some none := by
    rw [trySpill_none]
    intro p hp
    simp only [List.nil_append, List.mem_filter, decide_eq_true_eq] at hp
    obtain ⟨u, hu, hw⟩ := hheavy p hp.1
    exact spillInterferences_fail env st v u p [] hu (Or.inr hw)
  unfold RAUSCC.allocStep
  simp only [hphys, Bool.false_eq_true, if_false, RAUSCC.selectOrSplit,
    scanOrder_of_no_free env st v _ _ hno, ht, hsp, Bool.not_true]
  simp [UINT32_MAX, RAUSCC.spill]

theorem degenerate_of_length (K : Nat) (ivs : List LiveInterval) (hlen : ivs.length ≤ K)
    (hreg : ∀ v ∈ ivs, v.reg < UINT32_MAX) : Degenerate K ivs := by
  intro l hne hnd hsub
  obtain ⟨v, hv⟩ := List.exists_mem_of_ne_nil l hne
  refine ⟨v, hv, ?_, hreg v (hsub v hv)⟩
  have h1 := (List.subperm_of_subset hnd hsub).length_le
  have h2 := (perm_cons_filter_ne l v hnd hv).length_eq
  rw [List.length_cons] at h2
  have h3 : (l.filter (fun u => decide (u ≠ v) && v.overlaps u)).length ≤
      (l.filter (fun u => decide (u ≠ v))).length := by
    apply List.Sublist.length_le
    apply List.monotone_filter_right
    intro u hu
    simp only [Bool.and_eq_true] at hu
    exact hu.1
  omega

theorem simplifyLoop_stuck (K fuel : Nat) (g : Graph) (stk : List LiveInterval)
    (h : ∀ e ∈ g, ¬ e.2.length < K) : simplifyLoop K (fuel + 1) (g, stk) = some (g, stk) := by
  rw [simplifyLoop_succ]
  cases hf : (findLowest K g).1 with
  | none => rfl
  | some e =>
    exfalso
    obtain ⟨h1, h2⟩ := (findLowest_spec K g).1 e hf
    exact h e h1 h2

theorem simplifyOuter_succ (K fuel : Nat) (s : Graph × List LiveInterval) :
    simplifyOuter K (fuel + 1) s =
      if s.1.length > 0 then
        match simplifyLoop K (s.1.length + 1) s with
        | none => none
        | some s1 =>
          match spillLoop K (s1.1.length + 1) s1 with
          | none => none
          | some s2 => simplifyOuter K fuel s2
      else some s := rfl

/-- In the interference graph of `K + 1` registers that all overlap each other, every
register has `K` neighbours. -/
theorem clique_neighbours (K : Nat) (ivs : List LiveInterval) (g : Graph)
    (hg : g.IsOverlapGraph) (hkeys : g.keys = ivs) (hlen : ivs.length = K + 1)
    (hov : ∀ u ∈ ivs, ∀ v ∈ ivs, u ≠ v → u.overlaps v = true) (v : LiveInterval)
    (hv : v ∈ ivs) :
    (g.neighbours v).Perm (ivs.filter (fun u => decide (u ≠ v))) ∧
      (g.neighbours v).length = K := by
  have hn : ivs.Nodup := hkeys ▸ hg.1
  have hvk : v ∈ g.keys := by rw [hkeys]; exact hv
  have hperm : (g.neighbours v).Perm (ivs.filter (fun u => decide (u ≠ v))) := by
    rw [List.perm_ext_iff_of_nodup (hg.2 v hvk).1 (hn.filter _)]
    intro u
    rw [(hg.2 v hvk).2 u, hkeys, List.mem_filter]
    simp only [ne_eq, decide_not, Bool.not_eq_eq_eq_not, Bool.not_true,
      decide_eq_false_iff_not]
    constructor
    · exact fun h => ⟨h.1, h.2.1⟩
    · exact fun h => ⟨h.1, h.2, hov v hv u h.1 (fun e => h.2 e.symm)⟩
  refine ⟨hperm, ?_⟩
  have h2 := (perm_cons_filter_ne ivs v hn hv).length_eq
  rw [List.length_cons] at h2
  rw [hperm.length_eq]
  omega

/-- The simplify step on `K + 1` registers that all overlap each other, one of which,
`m`, has a spill weight below those of the others: `m` is pushed first, as spill
candidate, then the `K` others. -/
theorem simplifyGraph_clique (K : Nat) (hK : 1 ≤ K) (ivs : List LiveInterval) (st : RAUSCC)
    (hg : st.interferenceGraph.IsOverlapGraph) (hkeys : st.interferenceGraph.keys = ivs)
    (hstk : st.stack = []) (hlen : ivs.length = K + 1)
    (hov : ∀ u ∈ ivs, ∀ v ∈ ivs, u ≠ v → u.overlaps v = true)
    (hreg : ∀ v ∈ ivs, v.reg < UINT32_MAX) (hw : ∀ v ∈ ivs, v.weight < FLT_MAX)
    (m : LiveInterval) (hm : m ∈ ivs) (hmin : ∀ v ∈ ivs, v ≠ m → m.weight < v.weight) :
    ∃ top, st.simplifyGraph K = some { st with interferenceGraph := [], stack := top ++ [m] } ∧
      StackInv K [] top ∧ top.Perm (ivs.filter (fun u => decide (u ≠ m))) := by
  have hn : ivs.Nodup := hkeys ▸ hg.1
  have hglen : st.interferenceGraph.length = K + 1 := by rw [← length_keys, hkeys, hlen]
  have hentry : ∀ e ∈ st.interferenceGraph, e.1 ∈ ivs ∧ e.2.length = K := by
    intro e he
    have h1 : e.1 ∈ ivs := by rw [← hkeys]; exact mem_keys_of_mem _ e he
    refine ⟨h1, ?_⟩
    rw [← neighbours_of_mem _ hg.1 e he]
    exact (clique_neighbours K ivs _ hg hkeys hlen hov e.1 h1).2
  have hgne : st.interferenceGraph ≠ [] := by
    intro e
    rw [e] at hglen
    cases hglen
  obtain ⟨e, he, hfind, hemin⟩ := findMin_spec st.interferenceGraph
    (fun x hx => hw x.1 (hentry x hx).1) hgne
  have hem : e.1 = m := by
    by_contra hc
    have hmk : m ∈ st.interferenceGraph.keys := by rw [hkeys]; exact hm
    obtain ⟨x, hx, hxm⟩ := List.mem_map.1 hmk
    have h1 := hemin x hx
    have h2 := hmin e.1 (hentry e he).1 hc
    rw [hxm] at h1
    omega
  obtain ⟨j, hj⟩ : ∃ j, j ∈ e.2 := by
    apply List.exists_mem_of_ne_nil
    intro hc
    have := (hentry e he).2
    rw [hc] at this
    simp at this
    omega
  have hjivs : j ∈ ivs := by
    rw [← neighbours_of_mem _ hg.1 e he] at hj
    have := ((hg.2 e.1 (mem_keys_of_mem _ e he)).2 j).1 hj
    rw [hkeys] at this
    exact this.1
  have hflag := removeSpill_flag K st.interferenceGraph hg e he j hj
    (le_of_eq (clique_neighbours K ivs _ hg hkeys hlen hov j hjivs).2)
  obtain ⟨hg1, hk1⟩ := removeNode_spec st.interferenceGraph hg e he
  rw [hkeys, hem] at hk1
  have hlen1 : (removeNode st.interferenceGraph e).length = K := by
    have h2 := (perm_cons_filter_ne ivs m hn hm).length_eq
    rw [List.length_cons, ← hk1, length_keys] at h2
    omega
  have hdeg : Degenerate K (ivs.filter (fun u => decide (u ≠ m))) := by
    apply degenerate_of_length
    · rw [← hk1, length_keys, hlen1]
    · exact fun v hv => hreg v (List.mem_filter.1 hv).1
  obtain ⟨top, h1, h2, h3⟩ := simplifyLoop_spec K _ hdeg [m] (K + 1)
    (removeNode st.interferenceGraph e) [] hg1 (by rw [hk1]; exact fun v hv => hv)
    (by omega) (fun pre x suf h => by cases pre <;> cases h)
  rw [List.append_nil, hk1] at h3
  simp only [List.nil_append] at h1
  refine ⟨top, ?_, h2, h3⟩
  obtain ⟨n, hKn⟩ : ∃ n, K = n + 1 := ⟨K - 1, by omega⟩
  have houter : simplifyOuter K (st.interferenceGraph.length + 1) (st.interferenceGraph, []) =
      some ([], top ++ [m]) := by
    rw [simplifyOuter_succ]
    simp only [hglen, Nat.succ_pos, gt_iff_lt, if_true,
      simplifyLoop_stuck K (K + 1) st.interferenceGraph []
        (fun x hx => by rw [(hentry x hx).2]; exact lt_irrefl K)]
    rw [spillLoop_succ]
    simp only [hgne, if_false, hfind, hflag, Bool.false_eq_true, removeSpill_fst, hem]
    rw [simplifyOuter_succ]
    simp only [hlen1, h1, List.length_nil, Nat.zero_add, spillLoop_nil]
    rw [if_pos (by omega), hKn]
    exact simplifyOuter_nil K n _
  unfold RAUSCC.simplifyGraph
  rw [hstk, houter]
  rfl

/-- One allocation round on `K + 1` registers that all overlap each other, one of which,
`m`, is spillable and has a spill weight below those of the others, with a palette of `K`
registers: `m` is the only register handed to the spiller and the `K` others receive the
`K` registers of the palette, one each. -/
theorem clique_round (K : Nat) (hK1 : 1 ≤ K) (env : RegEnv) (mri : List VirtRegInfo)
    (palette : List Nat) (m : LiveInterval)
    (hn : (liveIntervalsOf mri).Nodup) (hlen : (liveIntervalsOf mri).length = K + 1)
    (hov : ∀ u ∈ liveIntervalsOf mri, ∀ v ∈ liveIntervalsOf mri, u ≠ v → u.overlaps v = true)
    (hreg : ∀ v ∈ liveIntervalsOf mri, v.reg < UINT32_MAX)
    (hw : ∀ v ∈ liveIntervalsOf mri, v.weight < FLT_MAX)
    (hm : m ∈ liveIntervalsOf mri) (hsp : m.spillable = true)
    (hmin : ∀ v ∈ liveIntervalsOf mri, v ≠ m → m.weight < v.weight)
    (hpal : palette.Nodup) (hK : palette.length = K) (h0 : 0 ∉ palette)
    (hmax : UINT32_MAX ∉ palette) (hord : ∀ v ∈ liveIntervalsOf mri, env.order v = palette)
    (hfix : ∀ v p, env.fixedIntf v p = false) :
    ∃ st, RAUSCC.allocationRound K env mri = some st ∧ st.spilled = [m] ∧
      st.hasPhys m = false ∧
      (∀ v ∈ liveIntervalsOf mri, v ≠ m → ∃ p ∈ palette, (v, p) ∈ st.assigned) ∧
      (st.assigned.map Prod.snd).Nodup ∧ st.assigned.length = K := by
  obtain ⟨hg, hkeys, hstk, _, hass, hspl⟩ := initGraph_spec mri hn
  obtain ⟨top, h1, h2, h3⟩ := simplifyGraph_clique K hK1 (liveIntervalsOf mri)
    (RAUSCC.empty.initGraph mri) hg hkeys hstk hlen hov hreg hw m hm hmin
  obtain ⟨st2, hs2, hstack2, hass2, hsp2⟩ : ∃ st2,
      (RAUSCC.empty.initGraph mri).simplifyGraph K = some st2 ∧ st2.stack = top ++ [m] ∧
        st2.assigned = [] ∧ st2.spilled = [] := ⟨_, h1, rfl, hass, hspl⟩
  have htop : ∀ v, v ∈ top ↔ (v ∈ liveIntervalsOf mri ∧ v ≠ m) := by
    intro v
    rw [h3.mem_iff, List.mem_filter]
    simp
  have htoplen : top.length = K := by
    have := (perm_cons_filter_ne _ m hn hm).length_eq
    rw [List.length_cons, ← h3.length_eq] at this
    omega
  unfold RAUSCC.allocationRound
  rw [hs2]
  simp only [RAUSCC.allocatePhysRegs]
  obtain ⟨e1, e2, e3, _⟩ := enqueueFold_assigned (liveIntervalsOf mri) st2
  rw [hass2] at e1
  rw [hsp2] at e2
  rw [hstack2] at e3
  obtain ⟨st4, h4, h5, h6, _, h7, h8, h9, h10, h11⟩ :=
    allocLoop_prefix K env palette hpal hK h0 hmax hfix [m] top
      ((liveIntervalsOf mri).foldl RAUSCC.enqueue st2) e3
      (fun v hv => hord v ((htop v).1 hv).1)
      (by rw [e1]; simpa using h3.nodup_iff.2 (hn.filter _))
      (by rw [e1]; exact fun a ha => by cases ha)
      (by
        rw [e1]
        intro pre x suf hdec
        have := h2 pre x suf hdec
        simpa using this)
  rw [e1] at h8 h9 h10
  rw [e2] at h6
  simp only [List.map_nil, List.not_mem_nil, false_or, List.length_nil, Nat.zero_add] at h8 h10
  have hnc : NoConflict st4.assigned := h9 (fun x hx => by cases hx)
  rw [htoplen] at h10
  -- the assigned registers are the registers of the palette
  have hsnd : (st4.assigned.map Prod.snd).Nodup := by
    apply List.Nodup.map_on _ (List.Nodup.of_map _ h11)
    intro x hx y hy hxy
    by_contra hne
    have hfst : x.1 ≠ y.1 := by
      intro e
      exact hne (List.inj_on_of_nodup_map h11 hx hy e)
    have hx1 := (htop x.1).1 ((h8 x.1).1 (List.mem_map.2 ⟨x, hx, rfl⟩))
    have hy1 := (htop y.1).1 ((h8 y.1).1 (List.mem_map.2 ⟨y, hy, rfl⟩))
    exact hnc x hx y hy hfst (hov x.1 hx1.1 y.1 hy1.1 hfst) hxy
  have hall : ∀ p ∈ palette, p ∈ st4.assigned.map Prod.snd := by
    have hsub : ∀ p ∈ st4.assigned.map Prod.snd, p ∈ palette := by
      intro p hp
      obtain ⟨a, ha, rfl⟩ := List.mem_map.1 hp
      exact h7 a ha
    have hperm := (List.subperm_of_subset hsnd hsub).perm_of_length_le
      (by rw [List.length_map, h10, hK])
    exact fun p hp => hperm.symm.subset hp
  have hmtop : m ∉ top := fun hc => ((htop m).1 hc).2 rfl
  have hphys : RAUSCC.hasPhys { st4 with stack := [] } m = false := by
    unfold RAUSCC.hasPhys
    rw [Bool.eq_false_iff]
    intro hc
    rw [List.any_eq_true] at hc
    obtain ⟨a, ha, hax⟩ := hc
    simp only [decide_eq_true_eq] at hax
    exact hmtop ((h8 m).1 (List.mem_map.2 ⟨a, ha, hax⟩))
  have hheavy : ∀ p ∈ env.order m,
      ∃ u ∈ RAUSCC.interferingVRegs { st4 with stack := [] } m p, m.weight < u.weight := by
    intro p hp
    rw [hord m hm] at hp
    obtain ⟨a, ha, hap⟩ := List.mem_map.1 (hall p hp)
    have ha1 := (htop a.1).1 ((h8 a.1).1 (List.mem_map.2 ⟨a, ha, rfl⟩))
    refine ⟨a.1, ?_, hmin a.1 ha1.1 ha1.2⟩
    rw [mem_interferingVRegs]
    refine ⟨?_, hov m hm a.1 ha1.1 (fun e => ha1.2 e.symm)⟩
    show (a.1, p) ∈ st4.assigned
    rw [← hap]
    exact ha
  have hstep := allocStep_spill_self env { st4 with stack := [] } m hsp hphys hheavy
  obtain ⟨f1, f2, f3, _⟩ := enqueueFold_assigned (env.spillNew m)
    (RAUSCC.spill env { st4 with stack := [] } m []).1
  have hfinal : RAUSCC.allocLoop env ((top ++ [m]).length + 1)
      ((liveIntervalsOf mri).foldl RAUSCC.enqueue st2) =
      some ((env.spillNew m).foldl RAUSCC.enqueue
        (RAUSCC.spill env { st4 with stack := [] } m []).1) := by
    have e5 : (top ++ [m]).length + 1 = top.length + 2 := by simp
    rw [e5, h4 2, allocLoop_succ]
    simp only [RAUSCC.dequeue, h5, hstep]
    rw [allocLoop_succ]
    simp only [RAUSCC.dequeue, f3]
    rfl
  rw [e3]
  refine ⟨_, hfinal, ?_, ?_, ?_, ?_, ?_⟩
  · rw [f2]
    show st4.spilled ++ [m] = [m]
    rw [h6]; rfl
  · have : ((env.spillNew m).foldl RAUSCC.enqueue
        (RAUSCC.spill env { st4 with stack := [] } m []).1).assigned = st4.assigned := f1
    unfold RAUSCC.hasPhys at hphys ⊢
    rw [this]
    exact hphys
  · intro v hv hvm
    obtain ⟨a, ha, hav⟩ := List.mem_map.1 ((h8 v).2 ((htop v).2 ⟨hv, hvm⟩))
    refine ⟨a.2, h7 a ha, ?_⟩
    rw [f1]
    show (v, a.2) ∈ st4.assigned
    rw [← hav]
    exact ha
  · rw [f1]; exact hsnd
  · rw [f1]; exact h10

/-- Claim C17, when one register has the least spill weight.  For five virtual registers
(with pairwise different register numbers below `UINT32_MAX` and spill weights below
`FLT_MAX`) whose live intervals all pairwise overlap, one of which, `m`, is spillable and
has a spill weight below those of the four others, `K = 4` and a palette of four
different physical registers without fixed interference, one allocation round spills
exactly one register, `m`, and the other four receive four distinct physical
registers of the palette. -/
theorem c17_five_registers (env : RegEnv) (mri : List VirtRegInfo) (palette : List Nat)
    (m : LiveInterval)
    (hregs : ((liveIntervalsOf mri).map (fun v => v.reg)).Nodup)
    (hlen : (liveIntervalsOf mri).length = 5)
    (hov : ∀ u ∈ liveIntervalsOf mri, ∀ v ∈ liveIntervalsOf mri, u ≠ v → u.overlaps v = true)
    (hreg : ∀ v ∈ liveIntervalsOf mri, v.reg < UINT32_MAX)
    (hw : ∀ v ∈ liveIntervalsOf mri, v.weight < FLT_MAX)
    (hm : m ∈ liveIntervalsOf mri) (hsp : m.spillable = true)
    (hmin : ∀ v ∈ liveIntervalsOf mri, v ≠ m → m.weight < v.weight)
    (hpal : palette.Nodup) (hK : palette.length = 4) (h0 : 0 ∉ palette)
    (hmax : UINT32_MAX ∉ palette) (hord : ∀ v ∈ liveIntervalsOf mri, env.order v = palette)
    (hfix : ∀ v p, env.fixedIntf v p = false) :
    ∃ st, RAUSCC.allocationRound 4 env mri = some st ∧ st.spilled = [m] ∧
      st.hasPhys m = false ∧
      (∀ v ∈ liveIntervalsOf mri, v ≠ m → ∃ p ∈ palette, (v, p) ∈ st.assigned) ∧
      (st.assigned.map Prod.snd).Nodup ∧ st.assigned.length = 4 :=
  clique_round 4 (by decide) env mri palette m (List.Nodup.of_map _ hregs) hlen hov hreg hw hm
    hsp hmin hpal hK h0 hmax hord hfix

/-- Witness of C17 on five registers with the same range and the weights 5, 3, 1, 4, 2:
register 2 is spilled. -/
theorem c17_five_registers_witness :
    ∃ st, RAUSCC.allocationRound 4 env4 exFive = some st ∧
      st.spilled = [mkReg 2 1 [(0, 10)]] ∧ st.hasPhys (mkReg 2 1 [(0, 10)]) = false ∧
      (∀ v ∈ liveIntervalsOf exFive, v ≠ mkReg 2 1 [(0, 10)] →
        ∃ p ∈ [1, 2, 3, 4], (v, p) ∈ st.assigned) ∧
      (st.assigned.map Prod.snd).Nodup ∧ st.assigned.length = 4 :=
  c17_five_registers env4 exFive [1, 2, 3, 4] (mkReg 2 1 [(0, 10)]) (by decide) (by decide)
    (by decide) (by decide) (by decide) (by decide) (by decide) (by decide) (by decide)
    (by decide) (by decide) (by decide) (fun _ _ => rfl) (fun _ _ => rfl)

set_option maxRecDepth 20000 in
/-- C17 fails when spill weights tie: of five registers with the same range and the same
spill weight, register 0, the lowest ordinal, is pushed as spill candidate, but when it is
popped, last, `selectOrSplit` spills in its place register 4, which holds the first
register of the palette and is not heavier, and gives that register to register 0. -/
theorem c17_counterexample :
    (∀ v ∈ liveIntervalsOf exFiveTied, v.weight = 1) ∧
      ∃ st, RAUSCC.allocationRound 4 env4 exFiveTied = some st ∧
        st.spilled = [mkReg 4 1 [(0, 10)]] ∧ (mkReg 0 1 [(0, 10)], 1) ∈ st.assigned := by
  refine ⟨by decide, ?_⟩
  have h1 : (RAUSCC.allocationRound 4 env4 exFiveTied).map
      (fun s => (s.spilled, decide ((mkReg 0 1 [(0, 10)], 1) ∈ s.assigned))) =
      some ([mkReg 4 1 [(0, 10)]], true) := by decide
  obtain ⟨st, hst, h2⟩ := Option.map_eq_some'.1 h1
  simp only [Prod.mk.injEq, decide_eq_true_eq] at h2
  exact ⟨st, hst, h2.1, h2.2⟩


/-! ### The Use and Def sets of a block -/

theorem firstAccess_cons (F : Func) (x : Name) (i : Instruction) (l : List Instruction) :
    firstAccess F x (i :: l) =
      if isLoadOf F x i then some true
      else if isStoreTo F x i then some false
      else firstAccess F x l := rfl

/-- The reverse scan computes, for a named slot, the kind of its first access. -/
theorem useDef_firstAccess (F : Func) (N : LiveSet) (x : Name) :
    ∀ (l : List Instruction),
      (x ∈ (useDef F N l).1 ↔ (x ∈ N ∧ firstAccess F x l = some true)) ∧
        (x ∈ (useDef F N l).2 ↔ (x ∈ N ∧ firstAccess F x l = some false)) := by
  intro l
  induction l with
  | nil => simp [useDef_nil, firstAccess]
  | cons i l ih =>
    rw [useDef_cons, firstAccess_cons]
    obtain ⟨ih1, ih2⟩ := ih
    unfold scanInst isLoadOf isStoreTo
    cases hk : i.kind with
    | store v p =>
      by_cases hn : F.valueName p = x
      · subst hn
        by_cases hp : F.valueName p ∈ N <;> simp [hp, ih1, ih2]
      · have hn' : ¬ x = F.valueName p := fun h => hn h.symm
        by_cases hp : F.valueName p ∈ N <;> simp [hp, hn, hn', ih1, ih2]
    | load p =>
      by_cases hn : F.valueName p = x
      · subst hn
        by_cases hp : F.valueName p ∈ N <;> simp [hp, ih1, ih2]
      · have hn' : ¬ x = F.valueName p := fun h => hn h.symm
        by_cases hp : F.valueName p ∈ N <;> simp [hp, hn, hn', ih1, ih2]
    | alloca _ => simp [ih1, ih2]
    | call _ => simp [ih1, ih2]
    | other _ _ => simp [ih1, ih2]

/-- An instruction that is neither a load from nor a store to a named slot leaves the pair
of sets of the reverse scan as it is. -/
theorem scanInst_other (F : Func) (N : LiveSet) (i : Instruction) (ud : LiveSet × LiveSet)
    (h : ∀ x ∈ N, isLoadOf F x i = false ∧ isStoreTo F x i = false) :
    scanInst F N i ud = ud := by
  unfold scanInst
  cases hk : i.kind with
  | store v p =>
    by_cases hp : F.valueName p ∈ N
    · have := (h _ hp).2
      simp [isStoreTo, hk] at this
    · simp [hp]
  | load p =>
    by_cases hp : F.valueName p ∈ N
    · have := (h _ hp).1
      simp [isLoadOf, hk] at this
    · simp [hp]
  | alloca _ => rfl
  | call _ => rfl
  | other _ _ => rfl

theorem scanInst_call (F : Func) (N : LiveSet) (i : Instruction) (ud : LiveSet × LiveSet)
    (h : i.isCall = true) : scanInst F N i ud = ud := by
  unfold scanInst
  unfold Instruction.isCall at h
  cases hk : i.kind <;> simp [hk] at h ⊢

/-- Claim C24. For every block `b`, the reverse scan leaves `Use[b]` equal to the set of
named slots whose first access in the block, in forward order, is a load, and `Def[b]`
equal to the set of named slots whose first access is a store; the two sets are disjoint;
an instruction that is neither a load from nor a store to a named slot changes neither
set, and in particular a call changes neither. -/
theorem c24_use_def_first_access (F : Func) (N : LiveSet) (b : Nat) :
    (∀ x, x ∈ bb2Use F N b ↔ (x ∈ N ∧ firstAccess F x (F.block b) = some true)) ∧
      (∀ x, x ∈ bb2Def F N b ↔ (x ∈ N ∧ firstAccess F x (F.block b) = some false)) ∧
      Disjoint (bb2Use F N b) (bb2Def F N b) ∧
      (∀ (i : Instruction) (ud : LiveSet × LiveSet),
        (∀ x ∈ N, isLoadOf F x i = false ∧ isStoreTo F x i = false) →
          scanInst F N i ud = ud) ∧
      (∀ (i : Instruction) (ud : LiveSet × LiveSet), i.isCall = true →
        scanInst F N i ud = ud) := by
  refine ⟨fun x => (useDef_firstAccess F N x (F.block b)).1,
    fun x => (useDef_firstAccess F N x (F.block b)).2, ?_,
    fun i ud h => scanInst_other F N i ud h, fun i ud h => scanInst_call F N i ud h⟩
  rw [Finset.disjoint_left]
  intro x h1 h2
  have e1 := ((useDef_firstAccess F N x (F.block b)).1.1 h1).2
  have e2 := ((useDef_firstAccess F N x (F.block b)).2.1 h2).2
  rw [e1] at e2
  cases e2

/-! ### The post order -/

theorem postOrdered_nil (F : Func) : PostOrdered F [] := by
  intro pre v suf h
  cases pre <;> cases h

theorem postOrdered_concat (F : Func) (l : List Nat) (e : Nat) (h : PostOrdered F l)
    (he : ∀ u ∈ F.succs e, u ∈ l) : PostOrdered F (l ++ [e]) := by
  intro pre v suf hdec u hu
  rcases List.eq_nil_or_concat suf with hs | ⟨suf1, x, hs⟩
  · subst hs
    have := List.append_inj' hdec rfl
    have hv : e = v := by simpa using this.2
    rw [← this.1]
    rw [← hv] at hu
    exact he u hu
  · subst hs
    have e1 : pre ++ v :: suf1.concat x = (pre ++ v :: suf1) ++ [x] := by simp
    rw [e1] at hdec
    have := List.append_inj' hdec rfl
    exact h pre v suf1 this.1 u hu

theorem computePostOrder_last (F : Func) (fuel e : Nat) (s t : Dfs)
    (h : computePostOrder F fuel e s = some t) : t.order.getLast? = some e := by
  cases fuel with
  | zero => simp [computePostOrder] at h
  | succ fuel =>
    rw [computePostOrder_succ] at h
    obtain ⟨m, _, rfl⟩ := Option.map_eq_some'.1 h
    simp

theorem dfsPost_inprogress (F : Func) (s t : Dfs) (h : DfsPost F (fun _ => True) s t) (a : Nat)
    (ha : a ∈ t.visited) (hna : a ∉ t.order) : a ∈ s.visited ∧ a ∉ s.order := by
  obtain ⟨l, el, _, ml⟩ := h.order
  rw [el, List.mem_append] at hna
  refine ⟨?_, fun hc => hna (Or.inl hc)⟩
  by_contra hc
  exact hna (Or.inr ((ml a).2 ⟨ha, hc⟩))

theorem dfsPost_order_mono (F : Func) (s t : Dfs) (h : DfsPost F (fun _ => True) s t) (a : Nat)
    (ha : a ∈ s.order) : a ∈ t.order := by
  obtain ⟨l, el, _, _⟩ := h.order
  rw [el]
  exact List.mem_append_left _ ha

/-- In a control-flow graph without cycle, `computePostOrder` appends every block after
all of its successors. -/
theorem computePostOrder_acyclic (F : Func) (hac : F.CfgAcyclic) :
    ∀ (fuel e : Nat) (s t : Dfs), computePostOrder F fuel e s = some t → e ∉ s.visited →
      (∀ a ∈ s.visited, a ∉ s.order → Relation.ReflTransGen (fun a c => c ∈ F.succs a) a e) →
      PostOrdered F s.order → PostOrdered F t.order := by
  intro fuel
  induction fuel with
  | zero => intro e s t h; simp [computePostOrder] at h
  | succ fuel ih =>
    have hloop : ∀ (e : Nat) (ss : List Nat) (s t : Dfs), visitSuccs F fuel ss s = some t →
        (∀ u ∈ ss, u ∈ F.succs e) →
        (∀ a ∈ s.visited, a ∉ s.order →
          Relation.ReflTransGen (fun a c => c ∈ F.succs a) a e) →
        PostOrdered F s.order →
        PostOrdered F t.order ∧ (∀ u ∈ ss, u ∈ t.order) ∧
          DfsPost F (fun _ => True) s t := by
      intro e ss
      induction ss with
      | nil =>
        intro s t h _ _ hp
        rw [visitSuccs_nil] at h
        cases h
        exact ⟨hp, fun u hu => (by cases hu), DfsPost.refl F _ s⟩
      | cons u ss ihs =>
        intro s t h hss hin hp
        rw [visitSuccs_cons] at h
        have hss1 : ∀ w ∈ ss, w ∈ F.succs e := fun w hw => hss w (List.mem_cons_of_mem _ hw)
        have hue : u ∈ F.succs e := hss u (List.mem_cons_self _ _)
        by_cases hu : u ∈ s.visited
        · simp only [hu, if_true] at h
          obtain ⟨h1, h2, h3⟩ := ihs s t h hss1 hin hp
          refine ⟨h1, ?_, h3⟩
          intro w hw
          rcases List.mem_cons.1 hw with rfl | hw
          · by_cases hord : w ∈ s.order
            · exact dfsPost_order_mono F s t h3 w hord
            · exact absurd (Relation.TransGen.tail' (hin w hu hord) hue) (hac w)
          · exact h2 w hw
        · simp only [hu, if_false] at h
          obtain ⟨m, hm, hm1⟩ := Option.bind_eq_some.1 h
          obtain ⟨p1, q1⟩ := computePostOrder_post F (fun _ => True) (fun _ _ _ _ => trivial)
            fuel u s m trivial hm hu
          have hpm := ih u s m hm hu
            (fun a ha hna => Relation.ReflTransGen.tail (hin a ha hna) hue) hp
          obtain ⟨h1, h2, h3⟩ := ihs m t hm1 hss1
            (fun a ha hna => by
              obtain ⟨x, y⟩ := dfsPost_inprogress F s m p1 a ha hna
              exact hin a x y) hpm
          refine ⟨h1, ?_, p1.trans h3⟩
          intro w hw
          rcases List.mem_cons.1 hw with rfl | hw
          · obtain ⟨l, el, _, ml⟩ := p1.order
            apply dfsPost_order_mono F m t h3
            rw [el]
            exact List.mem_append_right _ ((ml w).2 ⟨q1, hu⟩)
          · exact h2 w hw
    intro e s t h hes hin hp
    rw [computePostOrder_succ] at h
    obtain ⟨m, hm, rfl⟩ := Option.map_eq_some'.1 h
    obtain ⟨h1, h2, _⟩ := hloop e (F.succs e) { s with visited := e :: s.visited } m hm
      (fun u hu => hu)
      (fun a ha hna => by
        rcases List.mem_cons.1 ha with e1 | e1
        · rw [e1]
        · exact hin a e1 hna)
      hp
    exact postOrdered_concat F m.order e h1 h2

/-- Claim C25. On a non-empty function whose successors are blocks of the function,
`computePostOrder` started at the entry block with an empty visited set returns a
sequence that contains every block reachable from the entry exactly once and no other
block, that ends with the entry block and in which, when the control-flow graph has no
cycle, every block appears after all of its successors. -/
theorem c25_post_order (F : Func) (hne : F ≠ []) (hwf : F.WF) :
    ∃ W, worklist F = some W ∧ W.Nodup ∧ (∀ b, b ∈ W ↔ F.Reachable b) ∧
      W.getLast? = some 0 ∧ (F.CfgAcyclic → PostOrdered F W) := by
  obtain ⟨W, hW⟩ := worklist_total F hne hwf
  refine ⟨W, hW, (worklist_post F W (fun _ => True) trivial (fun _ _ _ _ => trivial) hW).1,
    fun b => ⟨mem_worklist_reachable F W hW b, reachable_mem_worklist F W hW b⟩, ?_, ?_⟩
  · unfold worklist at hW
    obtain ⟨t, ht, rfl⟩ := Option.map_eq_some'.1 hW
    exact computePostOrder_last F _ 0 _ t ht
  · intro hac
    unfold worklist at hW
    obtain ⟨t, ht, rfl⟩ := Option.map_eq_some'.1 hW
    exact computePostOrder_acyclic F hac _ 0 _ t ht (by simp) (fun a ha => by cases ha)
      (postOrdered_nil F)

/-- Witness of C25 on the three-block function `ex3`, whose post order is `2, 1, 0`. -/
theorem c25_post_order_witness :
    worklist ex3 = some [2, 1, 0] ∧
      ∃ W, worklist ex3 = some W ∧ W.Nodup ∧ (∀ b, b ∈ W ↔ ex3.Reachable b) ∧
        W.getLast? = some 0 ∧ (ex3.CfgAcyclic → PostOrdered ex3 W) :=
  ⟨by decide, c25_post_order ex3 (by decide) (by decide)⟩

/-! ### Independence of the worklist order -/

/-- The `while (change)` loop run with any worklist ends, in a state that satisfies the
loop invariant and both dataflow equations at every block of the worklist. -/
theorem fixpoint_result (lv : Liveness) (F : Func) (W : List Nat) :
    ∃ lv1 cnt,
      fixpoint F W (1 + W.length * (identifyNamed F lv.named).card) (startState lv F) 0 =
        some (lv1, cnt) ∧
      LoopInv F (identifyNamed F lv.named) lv1 ∧
      ∀ b ∈ W, inEquation F lv1 b ∧ outEquation F lv1 b := by
  obtain ⟨st0, cnt1, e, i0, s0, _⟩ :=
    fixpoint_spec F (identifyNamed F lv.named) W
      (1 + W.length * (identifyNamed F lv.named).card) (startState lv F) 0
      (startState_inv lv F) (by omega)
  have hst := pass_stable F (identifyNamed F lv.named) W (st0, false) i0 s0
  have hinv1 : LoopInv F (identifyNamed F lv.named) (pass F W st0).1 := pass_inv F _ W st0 i0
  refine ⟨(pass F W st0).1, cnt1, e, hinv1, ?_⟩
  intro b hb
  obtain ⟨a, c⟩ := hst.2.2 b hb
  refine ⟨?_, ?_⟩
  · unfold inEquation; rw [hinv1.named]; exact a
  · unfold outEquation; exact c

theorem reachable_lt (F : Func) (hne : F ≠ []) (hwf : F.WF) (b : Nat) (hb : F.Reachable b) :
    b < F.length := by
  unfold Func.Reachable at hb
  induction hb with
  | refl => exact List.length_pos.2 hne
  | tail _ hbc ih => exact wf_succs F hwf _ ih _ hbc

/-- A slot that is live at the head of a reachable block in the block-by-block sense is in
the `In` set of every solution of the dataflow equations. -/
theorem blockLive_solution (F : Func) (N : LiveSet) (inS outS : Nat → LiveSet)
    (hsol : IsSolution F N inS outS) (x : Name) (s : Nat) (h : BlockLive F N x s) :
    F.Reachable s → x ∈ inS s := by
  induction h with
  | use b hu =>
    intro hb
    rw [(hsol b hb).1]
    exact Finset.mem_union_left _ hu
  | through b s1 hd hs1 _ ih =>
    intro hb
    have h1 := ih (Relation.ReflTransGen.tail hb hs1)
    rw [(hsol b hb).1, (hsol b hb).2]
    apply Finset.mem_union_right
    rw [Finset.mem_sdiff]
    exact ⟨Finset.mem_biUnion.2 ⟨s1, List.mem_toFinset.2 hs1, h1⟩, hd⟩

/-- The `while (change)` loop run with a worklist that holds every reachable block ends
with the least solution of the dataflow equations on the reachable blocks. -/
theorem fixpoint_least (lv : Liveness) (F : Func) (W : List Nat) (hne : F ≠ []) (hwf : F.WF)
    (hW : ∀ b, F.Reachable b → b ∈ W) :
    ∃ lv1 cnt,
      fixpoint F W (1 + W.length * (identifyNamed F lv.named).card) (startState lv F) 0 =
        some (lv1, cnt) ∧
      IsSolution F (identifyNamed F lv.named) (getSet lv1.bb2In) (getSet lv1.bb2Out) ∧
      ∀ inS outS, IsSolution F (identifyNamed F lv.named) inS outS →
        ∀ b, F.Reachable b → getSet lv1.bb2In b ⊆ inS b ∧ getSet lv1.bb2Out b ⊆ outS b := by
  obtain ⟨lv1, cnt, h1, hinv, heq⟩ := fixpoint_result lv F W
  have hsol : IsSolution F (identifyNamed F lv.named) (getSet lv1.bb2In) (getSet lv1.bb2Out) := by
    intro b hb
    obtain ⟨a, c⟩ := heq b (hW b hb)
    unfold inEquation at a
    unfold outEquation succIn at c
    rw [hinv.named] at a
    exact ⟨a, c⟩
  refine ⟨lv1, cnt, h1, hsol, ?_⟩
  intro inS outS hs
  have hin : ∀ b, F.Reachable b → getSet lv1.bb2In b ⊆ inS b := by
    intro b hb x hx
    exact blockLive_solution F _ inS outS hs x b
      (blockLive_of_liveFrom F hwf _ x (hinv.in_named b hx) b (reachable_lt F hne hwf b hb)
        (hinv.in_sound b x hx)) hb
  intro b hb
  refine ⟨hin b hb, ?_⟩
  rw [(hsol b hb).2, (hs b hb).2]
  intro x hx
  obtain ⟨s, hs1, hs2⟩ := Finset.mem_biUnion.1 hx
  exact Finset.mem_biUnion.2 ⟨s, hs1,
    hin s (Relation.ReflTransGen.tail hb (List.mem_toFinset.1 hs1)) hs2⟩

/-- Claim C23. Let `Liveness::runOnFunction` (which uses the post order as worklist) end
with the state `lv1` on a non-empty function whose successors are blocks of the function.
Then the `In` and `Out` sets of `lv1` are the least solution, on the blocks reachable from
the entry, of the equations `In[b] = Use[b] ∪ (Out[b] − Def[b])`, `Out[b] = ⋃ In[s]`; and
the loop run with any worklist `W` that holds every reachable block (the layout order of
the disabled variant, for instance) ends as well, with the same `In` and `Out` sets at
every reachable block. -/
theorem c23_worklist_order (lv : Liveness) (F : Func) (lv1 : Liveness) (W : List Nat)
    (hne : F ≠ []) (hwf : F.WF) (hrun : lv.runOnFunction F = some lv1)
    (hW : ∀ b, F.Reachable b → b ∈ W) :
    (∃ r, fixpoint F W (1 + W.length * (identifyNamed F lv.named).card) (startState lv F) 0 =
        some r ∧
      ∀ b, F.Reachable b →
        getSet r.1.bb2In b = getSet lv1.bb2In b ∧ getSet r.1.bb2Out b = getSet lv1.bb2Out b) ∧
      IsSolution F (identifyNamed F lv.named) (getSet lv1.bb2In) (getSet lv1.bb2Out) ∧
      ∀ inS outS, IsSolution F (identifyNamed F lv.named) inS outS →
        ∀ b, F.Reachable b → getSet lv1.bb2In b ⊆ inS b ∧ getSet lv1.bb2Out b ⊆ outS b := by
  obtain ⟨cnt, hc⟩ := runOnFunction_eq lv F lv1 hrun
  obtain ⟨_, W0, hW0, hfix⟩ := runOnFunctionCnt_eq lv F _ hne hc
  obtain ⟨a1, c1, e1, s1, l1⟩ := fixpoint_least lv F W0 hne hwf
    (fun b hb => reachable_mem_worklist F W0 hW0 b hb)
  rw [hfix] at e1
  simp only [Option.some.injEq, Prod.mk.injEq] at e1
  obtain ⟨e1, _⟩ := e1
  subst e1
  obtain ⟨a2, c2, e2, s2, l2⟩ := fixpoint_least lv F W hne hwf hW
  refine ⟨⟨(a2, c2), e2, ?_⟩, s1, l1⟩
  intro b hb
  exact ⟨Finset.Subset.antisymm (l2 _ _ s1 b hb).1 (l1 _ _ s2 b hb).1,
    Finset.Subset.antisymm (l2 _ _ s1 b hb).2 (l1 _ _ s2 b hb).2⟩

/-- Witness of C23 on the three-block function `ex3`, with the layout order `0, 1, 2` as
second worklist. -/
theorem c23_worklist_order_witness :
    (∃ r, fixpoint ex3 [0, 1, 2] (1 + 3 * (identifyNamed ex3 ∅).card)
        (startState Liveness.init ex3) 0 = some r ∧
      ∀ b, ex3.Reachable b →
        getSet r.1.bb2In b = getSet ex3Live.bb2In b ∧
          getSet r.1.bb2Out b = getSet ex3Live.bb2Out b) ∧
      IsSolution ex3 (identifyNamed ex3 ∅) (getSet ex3Live.bb2In) (getSet ex3Live.bb2Out) ∧
      ∀ inS outS, IsSolution ex3 (identifyNamed ex3 ∅) inS outS →
        ∀ b, ex3.Reachable b →
          getSet ex3Live.bb2In b ⊆ inS b ∧ getSet ex3Live.bb2Out b ⊆ outS b :=
  c23_worklist_order Liveness.init ex3 ex3Live [0, 1, 2] (by decide) (by decide) ex3Live_eq
    (fun b hb => by
      have := reachable_lt ex3 (by decide) (by decide) b hb
      have h3 : ex3.length = 3 := rfl
      rw [h3] at this
      interval_cases b <;> simp)

/-! ### The content of the dead set -/

theorem foldlM_establish {α β : Type} (f : β → α → Option β) (R : β → Prop) (l : List α)
    (a0 : α) (ha0 : a0 ∈ l) (hR : ∀ b a b1, a ∈ l → f b a = some b1 → R b → R b1)
    (h0 : ∀ b b1, f b a0 = some b1 → R b1) :
    ∀ (init r : β), l.foldlM f init = some r → R r := by
  induction l with
  | nil => cases ha0
  | cons a l ih =>
    intro init r h
    rw [List.foldlM_cons] at h
    obtain ⟨m, hm, hm1⟩ := Option.bind_eq_some.1 h
    rcases List.mem_cons.1 ha0 with e | e
    · have hRm : R m := h0 init m (by rw [e]; exact hm)
      exact foldlM_inv f R l m r hRm
        (fun b a1 b1 ha1 hb hf => hR b a1 b1 (List.mem_cons_of_mem _ ha1) hf hb) hm1
    · exact ih e (fun b a1 b1 ha1 => hR b a1 b1 (List.mem_cons_of_mem _ ha1)) m r hm1

/-- The set returned by `findDeadDefinitions` holds every instruction that its walk
reaches. -/
theorem findDeadDefinitions_chain (F : Func) :
    ∀ (fuel : Nat) (inst : Instruction) (dead d : DeadSet),
      findDeadDefinitions F fuel inst dead = some d → ∀ id, Chain F inst id → id ∈ d := by
  intro fuel
  induction fuel with
  | zero => intro inst dead d h; simp [findDeadDefinitions] at h
  | succ fuel ih =>
    intro inst dead d h id hc
    rw [findDeadDefinitions_succ] at h
    have hmono : ∀ (b : DeadSet) (a : Value) (b1 : DeadSet), a ∈ inst.operands →
        (match a with
          | .inst id =>
            match F.findInst id with
            | some src =>
              if F.hasOneUse id && !src.isCall then
                findDeadDefinitions F fuel src (b.insert id)
              else some b
            | none => some b
          | _ => some b) = some b1 → id ∈ b → id ∈ b1 := by
      intro b a b1 _ hf hb
      cases a with
      | inst j =>
        simp only at hf
        cases hfi : F.findInst j with
        | none => rw [hfi] at hf; simp only [Option.some.injEq] at hf; rw [← hf]; exact hb
        | some src =>
          rw [hfi] at hf
          simp only at hf
          split at hf
          · exact (findDeadDefinitions_post F fuel src _ b1 hf).1 id (List.mem_insert_of_mem hb)
          · simp only [Option.some.injEq] at hf; rw [← hf]; exact hb
      | other n => simp only [Option.some.injEq] at hf; rw [← hf]; exact hb
      | undef => simp only [Option.some.injEq] at hf; rw [← hf]; exact hb
    cases hc with
    | here _ src _ hop hfi hone hcall =>
      refine foldlM_establish _ (fun d1 => id ∈ d1) inst.operands (Value.inst id) hop hmono ?_
        dead d h
      intro b b1 hf
      simp only [hfi, hone, hcall, Bool.not_false, Bool.and_self, if_true] at hf
      exact (findDeadDefinitions_post F fuel src _ b1 hf).1 id (List.mem_insert_self _ _)
    | there _ src id1 _ hop hfi hone hcall hrest =>
      refine foldlM_establish _ (fun d1 => id ∈ d1) inst.operands (Value.inst id1) hop hmono ?_
        dead d h
      intro b b1 hf
      simp only [hfi, hone, hcall, Bool.not_false, Bool.and_self, if_true] at hf
      exact ih src _ b1 hf id hrest

/-- What the body of the collection loops adds for a dead store: the store, the producer
of the stored value, and every instruction that the walk from the store reaches. -/
theorem collectInst_chain (lv : Liveness) (F : Func) (b k : Nat) (dead d : DeadSet)
    (h : collectInst lv F b k dead = some d) (s : Instruction)
    (hs : F.instAt (b, k) = some s) (hd : lv.isDead F b k = true) (pid : Nat) (ptr : Value)
    (hk : s.kind = .store (.inst pid) ptr) :
    pid ∈ d ∧ ∀ id, Chain F s id → id ∈ d := by
  unfold collectInst at h
  unfold Func.instAt at hs
  simp only at hs
  simp only [hs, hk, hd, if_true] at h
  exact ⟨(findDeadDefinitions_post F _ s _ d h).1 pid (List.mem_insert_self _ _),
    findDeadDefinitions_chain F _ s _ d h⟩

theorem collectBlock_mono_mem (lv : Liveness) (F : Func) (b : Nat) (l : List Nat)
    (dead d : DeadSet)
    (h : l.foldlM (fun (dead : DeadSet) (k : Nat) => collectInst lv F b k dead) dead = some d)
    (x : Nat) (hx : x ∈ dead) : x ∈ d :=
  foldlM_inv _ (fun d1 => x ∈ d1) l dead d hx
    (fun b1 a b2 _ hb hf => (collectInst_post lv F b a b1 b2 hf).1 x hb) h

/-- The set collected by a round holds, for every dead store whose stored value is an
instruction, that instruction and every instruction that the walk from the store
reaches. -/
theorem collectDead_chain (lv : Liveness) (F : Func) (dead : DeadSet)
    (h : collectDead lv F = some dead) (b k : Nat) (s : Instruction)
    (hs : F.instAt (b, k) = some s) (hd : lv.isDead F b k = true) (pid : Nat) (ptr : Value)
    (hk : s.kind = .store (.inst pid) ptr) :
    pid ∈ dead ∧ ∀ id, Chain F s id → id ∈ dead := by
  obtain ⟨hb, hkl⟩ := instAt_lt F b k s hs
  unfold collectDead at h
  have key : ∀ id, (id = pid ∨ Chain F s id) → id ∈ dead := by
    intro id hid
    refine foldlM_establish _ (fun d1 => id ∈ d1) (List.range F.length) b
      (List.mem_range.2 hb) ?_ ?_ [] dead h
    · intro d0 a d1 _ hf h0
      exact collectBlock_mono_mem lv F a _ d0 d1 hf id h0
    · intro d0 d1 hf
      refine foldlM_establish _ (fun d2 => id ∈ d2) (List.range (F.block b).length) k
        (List.mem_range.2 hkl) ?_ ?_ d0 d1 hf
      · intro d2 a d3 _ hf2 h2
        exact (collectInst_post lv F b a d2 d3 hf2).1 id h2
      · intro d2 d3 hf2
        obtain ⟨h3, h4⟩ := collectInst_chain lv F b k d2 d3 hf2 s hs hd pid ptr hk
        rcases hid with e | e
        · rw [e]; exact h3
        · exact h4 id e
  exact ⟨key pid (Or.inl rfl), fun id hc => key id (Or.inr hc)⟩

theorem collectDead_store_mem (lv : Liveness) (F : Func) (dead : DeadSet)
    (h : collectDead lv F = some dead) (b k : Nat) (s : Instruction)
    (hs : F.instAt (b, k) = some s) (hst : s.isStore = true) (hd : lv.isDead F b k = true) :
    s.id ∈ dead := by
  obtain ⟨hb, hkl⟩ := instAt_lt F b k s hs
  unfold collectDead at h
  refine foldlM_establish _ (fun d1 => s.id ∈ d1) (List.range F.length) b
    (List.mem_range.2 hb) ?_ ?_ [] dead h
  · intro d0 a d1 _ hf h0
    exact collectBlock_mono_mem lv F a _ d0 d1 hf s.id h0
  · intro d0 d1 hf
    refine foldlM_establish _ (fun d2 => s.id ∈ d2) (List.range (F.block b).length) k
      (List.mem_range.2 hkl) ?_ ?_ d0 d1 hf
    · intro d2 a d3 _ hf2 h2
      exact (collectInst_post lv F b a d2 d3 hf2).1 s.id h2
    · intro d2 d3 hf2
      exact (collectInst_post lv F b k d2 d3 hf2).2.2.2 s hs hst hd

/-- Claim C26, with the walk started where the code starts it.  In an elimination round
that collects the set `dead`, for every store `s` reported dead the set holds `s`; when
the stored value is an instruction `P`, it holds `P` and every instruction that the walk
of `findDeadDefinitions` from `s` reaches; hence, when `P` has exactly one use and is not
a call, it holds every operand of `P` that is an instruction with exactly one use and is
not a call, and recursively the same for the operands of each instruction added this
way. -/
theorem c26_dead_set_content (lv : Liveness) (F : Func) (dead : DeadSet)
    (h : collectDead lv F = some dead) (b k : Nat) (s : Instruction)
    (hs : F.instAt (b, k) = some s) (hst : s.isStore = true) (hd : lv.isDead F b k = true) :
    s.id ∈ dead ∧
      ∀ pid ptr, s.kind = .store (.inst pid) ptr →
        pid ∈ dead ∧ (∀ id, Chain F s id → id ∈ dead) ∧
          ∀ P, F.findInst pid = some P → F.hasOneUse pid = true → P.isCall = false →
            ∀ id, Chain F P id → id ∈ dead := by
  refine ⟨collectDead_store_mem lv F dead h b k s hs hst hd, ?_⟩
  intro pid ptr hk
  obtain ⟨h1, h2⟩ := collectDead_chain lv F dead h b k s hs hd pid ptr hk
  refine ⟨h1, h2, ?_⟩
  intro P hP hone hcall id hc
  exact h2 id (Chain.there s P pid id (by simp [Instruction.operands, hk]) hP hone hcall hc)

/-- Witness of C26 on the three-block function `ex3`: the dead store `store t, b` of
block 1, whose stored value is the load `t`. -/
theorem c26_dead_set_content_witness :
    ∃ dead, collectDead ex3Live ex3 = some dead ∧
      (5 ∈ dead ∧
        ∀ pid ptr, (⟨5, "", .store (.inst 4) (.inst 1)⟩ : Instruction).kind =
            .store (.inst pid) ptr →
          pid ∈ dead ∧ (∀ id, Chain ex3 ⟨5, "", .store (.inst 4) (.inst 1)⟩ id → id ∈ dead) ∧
            ∀ P, ex3.findInst pid = some P → ex3.hasOneUse pid = true → P.isCall = false →
              ∀ id, Chain ex3 P id → id ∈ dead) := by
  have h : (collectDead ex3Live ex3).isSome = true := by decide
  cases hx : collectDead ex3Live ex3 with
  | none => rw [hx] at h; cases h
  | some dead =>
    exact ⟨dead, rfl, c26_dead_set_content ex3Live ex3 dead hx 1 1
      ⟨5, "", .store (.inst 4) (.inst 1)⟩ rfl rfl (by decide)⟩

/-- C26 fails when the producer of the stored value has another use: in `exRetInc` the
store `store inc, x` is dead and `inc` is put in the dead set, but the walk starts at the
store and stops at `inc`, which has two uses, so the operand `v` of `inc`, a load with
exactly one use, is not in the set. -/
theorem c26_counterexample :
    (liveOf exRetInc).isDead exRetInc 0 3 = true ∧
      exRetInc.instAt (0, 3) = some ⟨3, "", .store (.inst 2) (.inst 0)⟩ ∧
      exRetInc.findInst 2 = some ⟨2, "inc", .other [.inst 1, .other "1"] none⟩ ∧
      exRetInc.findInst 1 = some ⟨1, "v", .load (.inst 0)⟩ ∧
      exRetInc.hasOneUse 1 = true ∧
      collectDead (liveOf exRetInc) exRetInc = some [2, 3] ∧ 1 ∉ [2, 3] := by
  refine ⟨by decide, by decide, by decide, by decide, by decide, by decide, by decide⟩

/-! ### Uses of erased instructions -/

/-- Claim C27 fails on `exAssignCond`.  The store `store t, x` is dead, and the round
collects the slot, `t` and the store; the comparison `c`, which uses `t`, is not
collected.  The comparison survives the eliminator with its operand `t` replaced by the
undefined value, and the branch on it survives too. -/
theorem c27_user_survives_with_undef :
    collectDead (liveOf exAssignCond) exAssignCond = some [0, 1, 2] ∧
      exAssignCond.findInst 3 = some ⟨3, "c", .other [.inst 1, .other "0"] none⟩ ∧
      Value.inst 1 ∈ (⟨3, "c", .other [.inst 1, .other "0"] none⟩ : Instruction).operands ∧
      1 ∈ [0, 1, 2] ∧ 3 ∉ [0, 1, 2] ∧
      (runDCE exAssignCond).map (fun r => (r.2.1, r.2.2)) =
        some ([ [ ⟨3, "c", .other [.undef, .other "0"] none⟩,
                  ⟨4, "", .other [.inst 3] (some [1, 1])⟩ ],
                [ ⟨5, "", .other [] (some [])⟩ ] ], true) := by
  refine ⟨by decide, by decide, by decide, by decide, by decide, by decide⟩

/-! ### The returned flag -/

theorem eraseFromParent_insts_le (id : Nat) (G : Func) :
    (eraseFromParent id G).insts.length ≤ G.insts.length := by
  have e : eraseFromParent id G = filterBlocks (fun i => i.id != id) G := rfl
  rw [e, filterBlocks_insts]
  exact List.length_filter_le _ _

theorem allocaFold_insts_le (F : Func) : ∀ (l : List Instruction) (G : Func),
    G.insts.length ≤ F.insts.length →
    (l.foldl (fun (G : Func) (i : Instruction) =>
      if i.isAlloca && G.useEmpty i.id then eraseFromParent i.id G else G) G).insts.length
      ≤ F.insts.length := by
  intro l
  induction l with
  | nil => intro G h; exact h
  | cons a l ih =>
    intro G h
    rw [List.foldl_cons]
    apply ih
    split
    · exact le_trans (eraseFromParent_insts_le _ _) h
    · exact h

theorem removeUnusedAllocas_insts_le (F : Func) :
    (removeUnusedAllocas F).insts.length ≤ F.insts.length :=
  allocaFold_insts_le F F.insts F (le_refl _)

/-- The loop of the eliminator never adds an instruction, and it sets the flag only in a
round that erases one. -/
theorem dceLoop_flag :
    ∀ (n : Nat) (lv : Liveness) (F : Func) (c : Bool) (r : Liveness × Func × Bool),
      dceLoop n lv F c = some r →
        r.2.1.insts.length ≤ F.insts.length ∧
          (r.2.2 = true → c = true ∨ r.2.1.insts.length < F.insts.length) := by
  intro n
  induction n with
  | zero => intro lv F c r h; simp [dceLoop] at h
  | succ n ih =>
    intro lv F c r h
    rw [dceLoop_succ, dceRound_eq] at h
    cases hd : collectDead lv F with
    | none => rw [hd] at h; cases h
    | some dead =>
      rw [hd] at h
      simp only [Option.map_some'] at h
      by_cases hne : dead = []
      · simp only [hne, ne_eq, not_true_eq_false, if_false, Option.some.injEq] at h
        rw [← h]
        exact ⟨le_refl _, fun hc => Or.inl hc⟩
      · simp only [hne, ne_eq, not_false_eq_true, if_true] at h
        have hlt := eraseAll_insts_lt lv F dead hd hne
        cases hl : lv.runOnFunction (eraseAll dead F) with
        | none => rw [hl] at h; cases h
        | some lv1 =>
          rw [hl] at h
          have := ih lv1 (eraseAll dead F) true r h
          exact ⟨by omega, fun _ => Or.inr (by omega)⟩

theorem dce_flag_true (lv : Liveness) (F : Func) (r : Liveness × Func × Bool)
    (h : DeadCodeElimination.runOnFunction lv F = some r) (hf : r.2.2 = true) :
    r.2.1.insts.length < F.insts.length := by
  unfold DeadCodeElimination.runOnFunction at h
  by_cases hne : F = []
  · simp only [hne, if_true, Option.some.injEq] at h
    rw [← h] at hf
    cases hf
  · simp only [hne, if_false] at h
    obtain ⟨r1, h1, h2⟩ := Option.map_eq_some'.1 h
    rw [← h2] at hf ⊢
    have := dceLoop_flag _ lv F false r1 h1
    have h3 := removeUnusedAllocas_insts_le r1.2.1
    rcases this.2 hf with e | e
    · cases e
    · exact lt_of_le_of_lt h3 e

/-- Claim C28 holds in one direction only.  When `DeadCodeElimination::runOnFunction`
returns true, the function has lost an instruction.  The converse fails on
`exUnusedAlloca`, a function with an `alloca` without uses and no store: step #2 erases
the `alloca`, and the returned flag is false although the function has changed. -/
theorem c28_flag_false_after_erasure :
    (∀ (lv : Liveness) (F : Func) (r : Liveness × Func × Bool),
        DeadCodeElimination.runOnFunction lv F = some r → r.2.2 = true →
          r.2.1.insts.length < F.insts.length) ∧
      (runDCE exUnusedAlloca).map (fun r => (r.2.1, r.2.2)) =
        some ([ [ ⟨1, "", .other [] (some [])⟩ ] ], false) ∧
      ([ [ ⟨1, "", .other [] (some [])⟩ ] ] : Func) ≠ exUnusedAlloca ∧
      collectDead (liveOf exUnusedAlloca) exUnusedAlloca = some [] := by
  refine ⟨dce_flag_true, by decide, by decide, by decide⟩

/-- Witness of the first part of C28 on `exAssignCond`: the eliminator returns true and
the function has lost instructions. -/
theorem c28_flag_false_after_erasure_witness :
    ∃ r, DeadCodeElimination.runOnFunction (liveOf exAssignCond) exAssignCond = some r ∧
      r.2.2 = true ∧ r.2.1.insts.length < exAssignCond.insts.length := by
  have h : (DeadCodeElimination.runOnFunction (liveOf exAssignCond) exAssignCond).map
      (fun r => r.2.2) = some true := by decide
  obtain ⟨r, hr, hf⟩ := Option.map_eq_some'.1 h
  exact ⟨r, hr, hf, c28_flag_false_after_erasure.1 _ _ r hr hf⟩

/-! ### The graph built by `initGraph` -/

theorem mem_liveIntervalsOf (mri : List VirtRegInfo) (v : LiveInterval) :
    v ∈ liveIntervalsOf mri ↔ ∃ r ∈ mri, r.nodbgEmpty = false ∧ r.interval = v := by
  unfold liveIntervalsOf
  simp only [List.mem_map, List.mem_filter, Bool.not_eq_true']
  constructor
  · rintro ⟨r, ⟨h1, h2⟩, h3⟩; exact ⟨r, h1, h2, h3⟩
  · rintro ⟨r, h1, h2, h3⟩; exact ⟨r, ⟨h1, h2⟩, h3⟩

theorem mem_of_mem_keys (g : Graph) (hn : g.keys.Nodup) (v : LiveInterval) (hv : v ∈ g.keys) :
    (v, g.neighbours v) ∈ g := by
  obtain ⟨e, he, hev⟩ := List.mem_map.1 hv
  have := neighbours_of_mem g hn e he
  rw [hev] at this
  rw [this, ← hev]
  exact he

/-- Claim C29.  After `initGraph` on a new allocator, the keys of the interference graph
are the registers with a non-debug use, once each; the neighbour set of a key `v` holds,
once each, exactly the other keys whose live interval overlaps that of `v`; and a key
that overlaps no other key is an entry of the map with an empty neighbour set. -/
theorem c29_init_graph (mri : List VirtRegInfo) (hn : (liveIntervalsOf mri).Nodup) :
    (RAUSCC.empty.initGraph mri).interferenceGraph.keys = liveIntervalsOf mri ∧
      (RAUSCC.empty.initGraph mri).interferenceGraph.keys.Nodup ∧
      (∀ v, v ∈ (RAUSCC.empty.initGraph mri).interferenceGraph.keys ↔
        ∃ r ∈ mri, r.nodbgEmpty = false ∧ r.interval = v) ∧
      (∀ v ∈ (RAUSCC.empty.initGraph mri).interferenceGraph.keys,
        ((RAUSCC.empty.initGraph mri).interferenceGraph.neighbours v).Nodup ∧
          ∀ u, u ∈ (RAUSCC.empty.initGraph mri).interferenceGraph.neighbours v ↔
            (u ∈ (RAUSCC.empty.initGraph mri).interferenceGraph.keys ∧ u ≠ v ∧
              v.overlaps u = true)) ∧
      (∀ v ∈ (RAUSCC.empty.initGraph mri).interferenceGraph.keys,
        (∀ u ∈ (RAUSCC.empty.initGraph mri).interferenceGraph.keys, u ≠ v →
          v.overlaps u = false) →
        (v, []) ∈ (RAUSCC.empty.initGraph mri).interferenceGraph) := by
  obtain ⟨hg, hk, _⟩ := initGraph_spec mri hn
  refine ⟨hk, hg.1, ?_, hg.2, ?_⟩
  · intro v
    rw [hk]
    exact mem_liveIntervalsOf mri v
  · intro v hv hiso
    have hnil : (RAUSCC.empty.initGraph mri).interferenceGraph.neighbours v = [] := by
      apply List.eq_nil_iff_forall_not_mem.2
      intro u hu
      obtain ⟨h1, h2, h3⟩ := ((hg.2 v hv).2 u).1 hu
      rw [hiso u h1 h2] at h3
      cases h3
    have := mem_of_mem_keys _ hg.1 v hv
    rw [hnil] at this
    exact this

/-- Witness of C29 on the three registers of `exChain3`: the first overlaps the second,
the second overlaps the third. -/
theorem c29_init_graph_witness :
    (liveIntervalsOf exChain3).Nodup ∧
      (RAUSCC.empty.initGraph exChain3).interferenceGraph =
        [(mkReg 0 1 [(0, 4)], [mkReg 1 1 [(2, 6)]]),
          (mkReg 1 1 [(2, 6)], [mkReg 0 1 [(0, 4)], mkReg 2 1 [(5, 8)]]),
          (mkReg 2 1 [(5, 8)], [mkReg 1 1 [(2, 6)]])] ∧
      ((RAUSCC.empty.initGraph exChain3).interferenceGraph.keys = liveIntervalsOf exChain3 ∧
      (RAUSCC.empty.initGraph exChain3).interferenceGraph.keys.Nodup ∧
      (∀ v, v ∈ (RAUSCC.empty.initGraph exChain3).interferenceGraph.keys ↔
        ∃ r ∈ exChain3, r.nodbgEmpty = false ∧ r.interval = v) ∧
      (∀ v ∈ (RAUSCC.empty.initGraph exChain3).interferenceGraph.keys,
        ((RAUSCC.empty.initGraph exChain3).interferenceGraph.neighbours v).Nodup ∧
          ∀ u, u ∈ (RAUSCC.empty.initGraph exChain3).interferenceGraph.neighbours v ↔
            (u ∈ (RAUSCC.empty.initGraph exChain3).interferenceGraph.keys ∧ u ≠ v ∧
              v.overlaps u = true)) ∧
      (∀ v ∈ (RAUSCC.empty.initGraph exChain3).interferenceGraph.keys,
        (∀ u ∈ (RAUSCC.empty.initGraph exChain3).interferenceGraph.keys, u ≠ v →
          v.overlaps u = false) →
        (v, []) ∈ (RAUSCC.empty.initGraph exChain3).interferenceGraph)) :=
  ⟨by decide, by decide, c29_init_graph exChain3 (by decide)⟩

/-! ### The node removals of `simplifyGraph` -/

theorem wellFormed_of_overlap (g : Graph) (hg : g.IsOverlapGraph) : g.WellFormed := by
  intro v hv u hu
  obtain ⟨h1, h2, h3⟩ := ((hg.2 v hv).2 u).1 hu
  exact ⟨h1, h2, ((hg.2 u h1).2 v).2 ⟨hv, fun e => h2 e.symm, by rw [overlaps_comm]; exact h3⟩⟩

theorem findLowest_mem (K : Nat) (g : Graph) (e : LiveInterval × NodeSet)
    (h : (findLowest K g).1 = some e) : e ∈ g :=
  ((findLowest_spec K g).1 e h).1

theorem findMin_mem (g : Graph) (w : Nat) (e : LiveInterval × NodeSet)
    (h : findMin g = some (w, some e)) : e ∈ g := by
  unfold findMin at h
  have := foldlM_inv _ (fun (acc : Nat × Option (LiveInterval × NodeSet)) =>
    ∀ x, acc.2 = some x → x ∈ g) g (FLT_MAX, none) (w, some e)
    (fun x hx => by cases hx)
    (by
      intro b a b1 ha hb hf x hx
      split at hf
      · cases hb2 : b.2 with
        | none => rw [hb2] at hf; cases hf
        | some m =>
          rw [hb2] at hf
          simp only at hf
          split at hf
          · simp only [Option.some.injEq] at hf
            rw [← hf] at hx
            simp only [Option.some.injEq] at hx
            rw [← hx]; exact ha
          · simp only [Option.some.injEq] at hf
            rw [← hf] at hx
            exact hb x hx
      · split at hf
        · simp only [Option.some.injEq] at hf
          rw [← hf] at hx
          simp only [Option.some.injEq] at hx
          rw [← hx]; exact ha
        · simp only [Option.some.injEq] at hf
          rw [← hf] at hx
          exact hb x hx)
    h
  exact this e rfl

/-- What one node removal does to an interference graph: an entry is pushed, the graph
that is left is the interference graph of the other keys, it has one entry less, and the
erasures in the neighbour sets, made before the entry is erased, create no key. -/
theorem removal_spec (K : Nat) (s t : Graph × List LiveInterval) (h : Removal K s t)
    (hg : s.1.IsOverlapGraph) :
    ∃ e ∈ s.1, t.1 = removeNode s.1 e ∧ t.2 = e.1 :: s.2 ∧ t.1.IsOverlapGraph ∧
      t.1.keys = s.1.keys.filter (fun v => decide (v ≠ e.1)) ∧
      t.1.length + 1 = s.1.length ∧
      (e.2.foldl (fun g j => g.modify j (NodeSet.remove e.1)) s.1).keys = s.1.keys := by
  have key : ∀ (g : Graph) (e : LiveInterval × NodeSet), g.IsOverlapGraph → e ∈ g →
      (removeNode g e).IsOverlapGraph ∧
      (removeNode g e).keys = g.keys.filter (fun v => decide (v ≠ e.1)) ∧
      (removeNode g e).length + 1 = g.length ∧
      (e.2.foldl (fun g j => g.modify j (NodeSet.remove e.1)) g).keys = g.keys := by
    intro g e hg he
    obtain ⟨hg1, hk1⟩ := removeNode_spec g hg e he
    have hek := mem_keys_of_mem g e he
    have hperm := perm_cons_filter_ne g.keys e.1 hg.1 hek
    rw [← hk1] at hperm
    have hlen1 : (removeNode g e).length + 1 = g.length := by
      have := hperm.length_eq
      rw [List.length_cons, length_keys, length_keys] at this
      omega
    refine ⟨hg1, hk1, hlen1, ?_⟩
    have he2 : e.2 = g.neighbours e.1 := (neighbours_of_mem g hg.1 e he).symm
    apply (eraseFromNeighbours_spec e.1 g e.2 ?_).1
    intro j hj
    rw [he2] at hj
    exact (((hg.2 e.1 hek).2 j).1 hj).1
  cases h with
  | simplify g stk e hf =>
    have he := findLowest_mem K g e hf
    obtain ⟨h1, h2, h3, h4⟩ := key g e hg he
    exact ⟨e, he, rfl, rfl, h1, h2, h3, h4⟩
  | spill g stk w e hne hf =>
    have he := findMin_mem g w e hf
    obtain ⟨h1, h2, h3, h4⟩ := key g e hg he
    refine ⟨e, he, removeSpill_fst K g e, rfl, ?_, ?_, ?_, h4⟩
    · show ((removeSpill K g e).1).IsOverlapGraph
      rw [removeSpill_fst]; exact h1
    · show ((removeSpill K g e).1).keys = _
      rw [removeSpill_fst]; exact h2
    · show ((removeSpill K g e).1).length + 1 = _
      rw [removeSpill_fst]; exact h3

/-- Along a sequence of node removals from an interference graph, the graph stays the
interference graph of its keys, the keys and the stack together stay the same registers,
and no key is added. -/
theorem removals_spec (K : Nat) (s t : Graph × List LiveInterval)
    (h : Relation.ReflTransGen (Removal K) s t) (hg : s.1.IsOverlapGraph) :
    t.1.IsOverlapGraph ∧ (t.1.keys ++ t.2).Perm (s.1.keys ++ s.2) ∧
      (∀ v ∈ t.1.keys, v ∈ s.1.keys) ∧ t.1.length ≤ s.1.length := by
  induction h with
  | refl => exact ⟨hg, List.Perm.refl _, fun _ h => h, le_refl _⟩
  | tail _ hstep ih =>
    obtain ⟨h1, h2, h3, h4⟩ := ih
    obtain ⟨e, he, _, hstk, hg1, hk, hlen, _⟩ := removal_spec K _ _ hstep h1
    refine ⟨hg1, ?_, ?_, by omega⟩
    · refine List.Perm.trans ?_ h2
      rw [hstk, hk]
      have hp := perm_cons_filter_ne _ e.1 h1.1 (mem_keys_of_mem _ e he)
      refine List.Perm.trans List.perm_middle ?_
      exact List.Perm.append_right _ hp.symm
    · intro v hv
      rw [hk] at hv
      exact h3 v (List.mem_filter.1 hv).1

/-- The simplify loop is a sequence of node removals. -/
theorem simplifyLoop_removals (K : Nat) :
    ∀ (fuel : Nat) (s r : Graph × List LiveInterval), simplifyLoop K fuel s = some r →
      Relation.ReflTransGen (Removal K) s r := by
  intro fuel
  induction fuel with
  | zero => intro s r h; simp [simplifyLoop] at h
  | succ fuel ih =>
    intro s r h
    rw [simplifyLoop_succ] at h
    cases hf : (findLowest K s.1).1 with
    | none =>
      rw [hf] at h
      simp only [Option.some.injEq] at h
      rw [h]
    | some e =>
      rw [hf] at h
      simp only at h
      have hstep : Removal K s (removeNode s.1 e, e.1 :: s.2) :=
        Removal.simplify s.1 s.2 e hf
      split at h
      · exact Relation.ReflTransGen.head hstep (ih _ r h)
      · simp only [Option.some.injEq] at h
        rw [← h]
        exact Relation.ReflTransGen.single hstep

/-- The spill loop is a sequence of node removals. -/
theorem spillLoop_removals (K : Nat) :
    ∀ (fuel : Nat) (s r : Graph × List LiveInterval), spillLoop K fuel s = some r →
      Relation.ReflTransGen (Removal K) s r := by
  intro fuel
  induction fuel with
  | zero => intro s r h; simp [spillLoop] at h
  | succ fuel ih =>
    intro s r h
    rw [spillLoop_succ] at h
    by_cases hnil : s.1 = []
    · rw [if_pos hnil] at h
      simp only [Option.some.injEq] at h
      rw [h]
    · rw [if_neg hnil] at h
      cases hf : findMin s.1 with
      | none => rw [hf] at h; cases h
      | some p =>
        obtain ⟨w, c⟩ := p
        cases c with
        | none => rw [hf] at h; cases h
        | some e =>
          rw [hf] at h
          simp only at h
          have hstep : Removal K s ((removeSpill K s.1 e).1, e.1 :: s.2) :=
            Removal.spill s.1 s.2 w e hnil hf
          split at h
          · exact Relation.ReflTransGen.head hstep (ih _ r h)
          · simp only [Option.some.injEq] at h
            rw [← h]
            exact Relation.ReflTransGen.single hstep

/-- The reduction is a sequence of node removals. -/
theorem simplifyOuter_removals (K : Nat) :
    ∀ (fuel : Nat) (s r : Graph × List LiveInterval), simplifyOuter K fuel s = some r →
      Relation.ReflTransGen (Removal K) s r := by
  intro fuel
  induction fuel with
  | zero => intro s r h; simp [simplifyOuter] at h
  | succ fuel ih =>
    intro s r h
    rw [simplifyOuter_succ] at h
    split at h
    · cases h1 : simplifyLoop K (s.1.length + 1) s with
      | none => rw [h1] at h; cases h
      | some s1 =>
        rw [h1] at h
        simp only at h
        cases h2 : spillLoop K (s1.1.length + 1) s1 with
        | none => rw [h2] at h; cases h
        | some s2 =>
          rw [h2] at h
          simp only at h
          exact (simplifyLoop_removals K _ s s1 h1).trans
            ((spillLoop_removals K _ s1 s2 h2).trans (ih s2 r h))
    · simp only [Option.some.injEq] at h
      rw [h]

/-! ### Termination of the reduction -/

/-- The simplify loop on an interference graph returns within one iteration more than the
graph has nodes. -/
theorem simplifyLoop_total (K : Nat) :
    ∀ (fuel : Nat) (s : Graph × List LiveInterval), s.1.IsOverlapGraph → s.1.length < fuel →
      ∃ r, simplifyLoop K fuel s = some r := by
  intro fuel
  induction fuel with
  | zero => intro s _ h; omega
  | succ fuel ih =>
    intro s hg hlen
    rw [simplifyLoop_succ]
    cases hf : (findLowest K s.1).1 with
    | none => exact ⟨s, rfl⟩
    | some e =>
      simp only
      obtain ⟨e1, _, ht, _, hg1, _, hl, _⟩ := removal_spec K s _ (Removal.simplify s.1 s.2 e hf) hg
      simp only at hl hg1
      split
      · exact ih _ hg1 (by simp only; omega)
      · exact ⟨_, rfl⟩

/-- The spill loop on an interference graph whose weights are all below `FLT_MAX` returns
within one iteration more than the graph has nodes, and it removes a node when the graph
is not empty. -/
theorem spillLoop_total (K : Nat) :
    ∀ (fuel : Nat) (s : Graph × List LiveInterval), s.1.IsOverlapGraph →
      (∀ v ∈ s.1.keys, v.weight < FLT_MAX) → s.1.length < fuel →
      ∃ r, spillLoop K fuel s = some r ∧ (s.1 ≠ [] → r.1.length < s.1.length) := by
  intro fuel
  induction fuel with
  | zero => intro s _ _ h; omega
  | succ fuel ih =>
    intro s hg hw hlen
    rw [spillLoop_succ]
    by_cases hnil : s.1 = []
    · rw [if_pos hnil]
      exact ⟨s, rfl, fun hc => absurd hnil hc⟩
    · rw [if_neg hnil]
      obtain ⟨e, he, hf, _⟩ := findMin_spec s.1
        (fun x hx => hw x.1 (mem_keys_of_mem s.1 x hx)) hnil
      rw [hf]
      simp only
      obtain ⟨e1, _, _, _, hg1, hk, hl, _⟩ :=
        removal_spec K s _ (Removal.spill s.1 s.2 _ e hnil hf) hg
      simp only at hl hg1 hk
      split
      · by_cases hn1 : (removeSpill K s.1 e).1 = []
        · cases fuel with
          | zero => omega
          | succ n =>
            rw [hn1, spillLoop_nil]
            refine ⟨_, rfl, fun _ => ?_⟩
            simp only [List.length_nil]
            omega
        · obtain ⟨r, hr, hr1⟩ := ih ((removeSpill K s.1 e).1, e.1 :: s.2) hg1
            (by
              intro v hv
              simp only at hv
              have e2 := removeSpill_fst K s.1 e
              rw [e2] at hv
              have hk2 := (removeNode_spec s.1 hg e he).2
              rw [hk2] at hv
              exact hw v (List.mem_filter.1 hv).1)
            (by simp only; omega)
          refine ⟨r, hr, fun _ => ?_⟩
          have := hr1 hn1
          simp only at this
          omega
      · refine ⟨_, rfl, fun _ => ?_⟩
        simp only
        omega

/-- On an interference graph whose weights are all below `FLT_MAX`, the reduction returns
within one iteration more than the graph has nodes, with the graph empty. -/
theorem simplifyOuter_total (K : Nat) :
    ∀ (fuel : Nat) (s : Graph × List LiveInterval), s.1.IsOverlapGraph →
      (∀ v ∈ s.1.keys, v.weight < FLT_MAX) → s.1.length < fuel →
      ∃ stk, simplifyOuter K fuel s = some ([], stk) := by
  intro fuel
  induction fuel with
  | zero => intro s _ _ h; omega
  | succ fuel ih =>
    intro s hg hw hlen
    rw [simplifyOuter_succ]
    by_cases hpos : s.1.length > 0
    · rw [if_pos hpos]
      obtain ⟨s1, h1⟩ := simplifyLoop_total K (s.1.length + 1) s hg (by omega)
      rw [h1]
      simp only
      obtain ⟨hg1, _, hsub1, hlen1⟩ := removals_spec K s s1 (simplifyLoop_removals K _ s s1 h1) hg
      have hw1 : ∀ v ∈ s1.1.keys, v.weight < FLT_MAX := fun v hv => hw v (hsub1 v hv)
      obtain ⟨s2, h2, hdec⟩ := spillLoop_total K (s1.1.length + 1) s1 hg1 hw1 (by omega)
      rw [h2]
      simp only
      obtain ⟨hg2, _, hsub2, hlen2⟩ := removals_spec K s1 s2 (spillLoop_removals K _ s1 s2 h2) hg1
      have hlt : s2.1.length < s.1.length := by
        by_cases hn : s1.1 = []
        · rw [hn] at hlen2
          simp only [List.length_nil] at hlen2
          omega
        · have := hdec hn
          omega
      exact ih s2 hg2 (fun v hv => hw1 v (hsub2 v hv)) (by omega)
    · rw [if_neg hpos]
      have : s.1 = [] := List.length_eq_zero.1 (by omega)
      refine ⟨s.2, ?_⟩
      rw [← this]

theorem simplifyGraph_total (K : Nat) (st : RAUSCC) (hg : st.interferenceGraph.IsOverlapGraph)
    (hw : ∀ v ∈ st.interferenceGraph.keys, v.weight < FLT_MAX) :
    ∃ st1, st.simplifyGraph K = some st1 ∧ st1.interferenceGraph = [] ∧
      st1.stack.Perm (st.interferenceGraph.keys ++ st.stack) := by
  obtain ⟨stk, h⟩ := simplifyOuter_total K (st.interferenceGraph.length + 1)
    (st.interferenceGraph, st.stack) hg hw (by simp)
  have hp := (removals_spec K _ _ (simplifyOuter_removals K _ _ _ h) hg).2.1
  refine ⟨{ st with interferenceGraph := [], stack := stk }, ?_, rfl, ?_⟩
  · unfold RAUSCC.simplifyGraph
    rw [h]
    rfl
  · simpa [Graph.keys] using hp

/-- Claim C22.  On the interference graph that `initGraph` builds in a new allocator, when
every register has a spill weight below `FLT_MAX`, `simplifyGraph` returns (within the
bound on the iterations of its loops) with the graph empty, and the allocation stack then
holds every register of the original graph exactly once. -/
theorem c22_simplify_terminates (K : Nat) (mri : List VirtRegInfo)
    (hn : (liveIntervalsOf mri).Nodup) (hw : ∀ v ∈ liveIntervalsOf mri, v.weight < FLT_MAX) :
    ∃ st1, (RAUSCC.empty.initGraph mri).simplifyGraph K = some st1 ∧
      st1.interferenceGraph = [] ∧
      st1.stack.Perm (RAUSCC.empty.initGraph mri).interferenceGraph.keys ∧
      st1.stack.Nodup ∧
      ∀ v, v ∈ st1.stack ↔ v ∈ (RAUSCC.empty.initGraph mri).interferenceGraph.keys := by
  obtain ⟨hg, hk, hstk, _⟩ := initGraph_spec mri hn
  obtain ⟨st1, h1, h2, h3⟩ := simplifyGraph_total K (RAUSCC.empty.initGraph mri) hg
    (by rw [hk]; exact hw)
  rw [hstk, List.append_nil] at h3
  exact ⟨st1, h1, h2, h3, h3.nodup_iff.2 hg.1, fun v => h3.mem_iff⟩

/-- Witness of C22 on the five registers of `exFive`, which all overlap each other, with
two colours. -/
theorem c22_simplify_terminates_witness :
    (liveIntervalsOf exFive).Nodup ∧ (∀ v ∈ liveIntervalsOf exFive, v.weight < FLT_MAX) ∧
      ∃ st1, (RAUSCC.empty.initGraph exFive).simplifyGraph 2 = some st1 ∧
        st1.interferenceGraph = [] ∧
        st1.stack.Perm (RAUSCC.empty.initGraph exFive).interferenceGraph.keys ∧
        st1.stack.Nodup ∧
        ∀ v, v ∈ st1.stack ↔ v ∈ (RAUSCC.empty.initGraph exFive).interferenceGraph.keys :=
  ⟨by decide, by decide, c22_simplify_terminates 2 exFive (by decide) (by decide)⟩

/-- Claim C30.  The graph that `initGraph` builds in a new allocator is well formed: its
edges are symmetric, no register is its own neighbour, and every register of a neighbour
set is a key.  Every graph reached from it by node removals of `simplifyGraph` is well
formed, and in each further removal the erasures in the neighbour sets, made through
`operator[]` before the entry is erased, leave the keys as they are, so that the keys
after the removal are keys before it.  The loops of `simplifyGraph` are sequences of such
removals. -/
theorem c30_graph_well_formed (K : Nat) (mri : List VirtRegInfo)
    (hn : (liveIntervalsOf mri).Nodup) :
    (RAUSCC.empty.initGraph mri).interferenceGraph.WellFormed ∧
      (∀ stk s, Relation.ReflTransGen (Removal K)
          ((RAUSCC.empty.initGraph mri).interferenceGraph, stk) s →
        s.1.WellFormed ∧
          ∀ t, Removal K s t →
            t.1.WellFormed ∧ (∀ v ∈ t.1.keys, v ∈ s.1.keys) ∧
              ∃ e ∈ s.1,
                (e.2.foldl (fun g j => g.modify j (NodeSet.remove e.1)) s.1).keys = s.1.keys ∧
                t.1 = (e.2.foldl (fun g j => g.modify j (NodeSet.remove e.1)) s.1).eraseKey
                  e.1) ∧
      (∀ fuel s r, simplifyLoop K fuel s = some r → Relation.ReflTransGen (Removal K) s r) ∧
      (∀ fuel s r, spillLoop K fuel s = some r → Relation.ReflTransGen (Removal K) s r) ∧
      (∀ fuel s r, simplifyOuter K fuel s = some r →
        Relation.ReflTransGen (Removal K) s r) := by
  obtain ⟨hg, _⟩ := initGraph_spec mri hn
  refine ⟨wellFormed_of_overlap _ hg, ?_, simplifyLoop_removals K, spillLoop_removals K,
    simplifyOuter_removals K⟩
  intro stk s hs
  have hgs := (removals_spec K _ s hs hg).1
  refine ⟨wellFormed_of_overlap _ hgs, ?_⟩
  intro t ht
  obtain ⟨e, he, ht1, _, hgt, hk, _, hkeys⟩ := removal_spec K s t ht hgs
  refine ⟨wellFormed_of_overlap _ hgt, ?_, e, he, hkeys, ht1⟩
  intro v hv
  rw [hk] at hv
  exact (List.mem_filter.1 hv).1

/-- Witness of C30 on the three registers of `exChain3` with two colours. -/
theorem c30_graph_well_formed_witness :
    (liveIntervalsOf exChain3).Nodup ∧
      (RAUSCC.empty.initGraph exChain3).interferenceGraph.WellFormed ∧
      (∀ fuel s r, simplifyOuter 2 fuel s = some r →
        Relation.ReflTransGen (Removal 2) s r) :=
  ⟨by decide, (c30_graph_well_formed 2 exChain3 (by decide)).1,
    (c30_graph_well_formed 2 exChain3 (by decide)).2.2.2.2⟩

/-! ### Independence of the iteration order -/

/-- The entry chosen by the `for` loop of the simplify step has the lowest register number
among the entries with fewer than `K` neighbours. -/
theorem findLowest_least (K : Nat) (g : Graph) (e : LiveInterval × NodeSet)
    (h : (findLowest K g).1 = some e) :
    e.1.reg < UINT32_MAX ∧ ∀ x ∈ g, x.2.length < K → e.1.reg ≤ x.1.reg := by
  have h1 := foldl_prefix_inv
    (fun (acc : Option (LiveInterval × NodeSet) × Nat) (e : LiveInterval × NodeSet) =>
      if e.2.length < K then
        if e.1.reg < acc.2 then (some e, e.1.reg) else acc
      else acc)
    (fun acc pre =>
      acc.2 ≤ UINT32_MAX ∧ (∀ e, acc.1 = some e → acc.2 = e.1.reg ∧ e.1.reg < UINT32_MAX) ∧
        ∀ x ∈ pre, x.2.length < K → acc.2 ≤ x.1.reg)
    (by
      intro acc pre a hP
      obtain ⟨hP1, hP2, hP3⟩ := hP
      by_cases hl : a.2.length < K
      · by_cases hr : a.1.reg < acc.2
        · simp only [hl, hr, if_true]
          refine ⟨by omega, ?_, ?_⟩
          · intro e1 he1
            simp only [Option.some.injEq] at he1
            rw [← he1]
            exact ⟨rfl, by omega⟩
          · intro x hx hxl
            rcases List.mem_append.1 hx with h3 | h3
            · have := hP3 x h3 hxl; omega
            · rw [List.mem_singleton.1 h3]
        · simp only [hl, hr, if_true, if_false]
          refine ⟨hP1, hP2, ?_⟩
          intro x hx hxl
          rcases List.mem_append.1 hx with h3 | h3
          · exact hP3 x h3 hxl
          · rw [List.mem_singleton.1 h3]; omega
      · simp only [hl, if_false]
        refine ⟨hP1, hP2, ?_⟩
        intro x hx hxl
        rcases List.mem_append.1 hx with h3 | h3
        · exact hP3 x h3 hxl
        · rw [List.mem_singleton.1 h3] at hxl; exact absurd hxl hl)
    g [] (none, UINT32_MAX)
    ⟨le_refl _, (fun e1 he1 => by cases he1), (fun x hx => by cases hx)⟩
  rw [List.nil_append] at h1
  obtain ⟨_, h2, h3⟩ := h1
  obtain ⟨h4, h5⟩ := h2 e h
  refine ⟨h5, ?_⟩
  intro x hx hxl
  have := h3 x hx hxl
  omega

theorem remove_length (x : LiveInterval) (s : NodeSet) (hn : s.Nodup) (hx : x ∈ s) :
    (NodeSet.remove x s).length + 1 = s.length := by
  have := (perm_cons_filter_ne s x hn hx).length_eq
  rw [List.length_cons] at this
  unfold NodeSet.remove
  omega

/-- The flag `go` after the removal of a spill candidate: it stays set exactly when every
neighbour of the candidate had more than `K` neighbours. -/
theorem removeSpill_flag_iff (K : Nat) (g : Graph) (hg : g.IsOverlapGraph)
    (e : LiveInterval × NodeSet) (he : e ∈ g) :
    (removeSpill K g e).2 = true ↔ ∀ j ∈ e.2, K < (g.neighbours j).length := by
  have hk := mem_keys_of_mem g e he
  have he2 : e.2 = g.neighbours e.1 := (neighbours_of_mem g hg.1 e he).symm
  have hsub : ∀ i ∈ e.2, i ∈ g.keys := by
    intro i hi
    rw [he2] at hi
    exact (((hg.2 e.1 hk).2 i).1 hi).1
  have hlen : ∀ i ∈ e.2,
      (NodeSet.remove e.1 (g.neighbours i)).length + 1 = (g.neighbours i).length := by
    intro i hi
    have hik := hsub i hi
    apply remove_length _ _ (hg.2 i hik).1
    rw [he2] at hi
    obtain ⟨_, h1, h2⟩ := ((hg.2 e.1 hk).2 i).1 hi
    exact ((hg.2 i hik).2 e.1).2 ⟨hk, fun e1 => h1 e1.symm, by rw [overlaps_comm]; exact h2⟩
  have h := foldl_prefix_inv
    (fun (acc : Graph × Bool) i =>
      ((acc.1.modify i (NodeSet.remove e.1)),
        if ((acc.1.modify i (NodeSet.remove e.1)).neighbours i).length < K then false
        else acc.2))
    (fun acc pre => (∀ i ∈ pre, i ∈ e.2) →
      acc.1 = pre.foldl (fun g i => g.modify i (NodeSet.remove e.1)) g ∧
        (acc.2 = true ↔ ∀ j ∈ pre, K < (g.neighbours j).length))
    (by
      intro acc pre a hP hpre
      obtain ⟨h1, h2⟩ := hP (fun i hi => hpre i (List.mem_append_left _ hi))
      refine ⟨by simp only [List.foldl_append, List.foldl_cons, List.foldl_nil, h1], ?_⟩
      have hae : a ∈ e.2 := hpre a (List.mem_append_right _ (List.mem_singleton_self _))
      obtain ⟨h3, h4⟩ := eraseFromNeighbours_spec e.1 g pre
        (fun i hi => hsub i (hpre i (List.mem_append_left _ hi)))
      have hnb : (acc.1.modify a (NodeSet.remove e.1)).neighbours a =
          NodeSet.remove e.1 (g.neighbours a) := by
        rw [h1, neighbours_modify _ a _ a (by rw [h3]; exact hsub a hae), if_pos rfl, h4]
        by_cases hp : a ∈ pre
        · rw [if_pos hp, remove_idem]
        · rw [if_neg hp]
      have hl := hlen a hae
      simp only [hnb]
      constructor
      · intro hflag j hj
        by_cases hlt : (NodeSet.remove e.1 (g.neighbours a)).length < K
        · rw [if_pos hlt] at hflag; cases hflag
        · rw [if_neg hlt] at hflag
          rcases List.mem_append.1 hj with h5 | h5
          · exact h2.1 hflag j h5
          · rw [List.mem_singleton.1 h5]; omega
      · intro hall
        have ha := hall a (List.mem_append_right _ (List.mem_singleton_self _))
        rw [if_neg (by omega)]
        exact h2.2 (fun j hj => hall j (List.mem_append_left _ hj)))
    e.2 [] (g, true) (fun _ => ⟨rfl, by simp⟩)
  rw [List.nil_append] at h
  unfold removeSpill
  exact (h (fun i hi => hi)).2

theorem removeNode_neighbours (g : Graph) (hg : g.IsOverlapGraph) (e : LiveInterval × NodeSet)
    (he : e ∈ g) (v : LiveInterval) (hv : v ∈ g.keys) (hne : v ≠ e.1) :
    (removeNode g e).neighbours v = NodeSet.remove e.1 (g.neighbours v) := by
  have hk := mem_keys_of_mem g e he
  have he2 : e.2 = g.neighbours e.1 := (neighbours_of_mem g hg.1 e he).symm
  have hsub : ∀ j ∈ e.2, j ∈ g.keys := by
    intro j hj
    rw [he2] at hj
    exact (((hg.2 e.1 hk).2 j).1 hj).1
  obtain ⟨_, h2⟩ := eraseFromNeighbours_spec e.1 g e.2 hsub
  unfold removeNode
  rw [neighbours_eraseKey _ _ _ hne, h2]
  by_cases hm : v ∈ e.2
  · rw [if_pos hm]
  · rw [if_neg hm, remove_of_not_mem]
    intro hc
    apply hm
    rw [he2]
    obtain ⟨_, _, ho⟩ := ((hg.2 v hv).2 e.1).1 hc
    exact ((hg.2 e.1 hk).2 v).2 ⟨hv, hne, by rw [overlaps_comm]; exact ho⟩

/-- The simplify loop returns only in a graph without an entry of fewer than `K`
neighbours. -/
theorem simplifyLoop_high (K : Nat) :
    ∀ (fuel : Nat) (s r : Graph × List LiveInterval), s.1.IsOverlapGraph →
      (∀ v ∈ s.1.keys, v.reg < UINT32_MAX) → simplifyLoop K fuel s = some r →
      ∀ x ∈ r.1, K ≤ x.2.length := by
  intro fuel
  induction fuel with
  | zero => intro s r _ _ h; simp [simplifyLoop] at h
  | succ fuel ih =>
    intro s r hg hreg h
    rw [simplifyLoop_succ] at h
    cases hf : (findLowest K s.1).1 with
    | none =>
      rw [hf] at h
      simp only [Option.some.injEq] at h
      rw [← h]
      intro x hx
      by_contra hc
      exact (findLowest_spec K s.1).2 hf x hx
        ⟨by omega, hreg x.1 (mem_keys_of_mem s.1 x hx)⟩
    | some e =>
      rw [hf] at h
      simp only at h
      obtain ⟨e1, _, _, _, hg1, hk, hl, _⟩ :=
        removal_spec K s _ (Removal.simplify s.1 s.2 e hf) hg
      simp only at hl hg1 hk
      rw [if_pos (by omega)] at h
      refine ih _ r hg1 ?_ h
      intro v hv
      simp only at hv
      have e2 := (removeNode_spec s.1 hg e (findLowest_mem K s.1 e hf)).2
      rw [e2] at hv
      exact hreg v (List.mem_filter.1 hv).1

/-- Claim C31.  In an interference graph whose register numbers are below `UINT32_MAX`,
when some entry has fewer than `K` neighbours, the simplify step finds the entry `e` that
has the smallest register number among the entries with fewer than `K` neighbours; the
iteration pushes its register, and goes on with the graph from which the entry is erased
and in which the register is erased from the neighbour set of every other key (it is in
the set of its neighbours only).  When no entry has fewer than `K` neighbours the loop
returns the state as it is, and whenever the loop returns, no entry of the graph left has
fewer than `K` neighbours; the loop returns within one iteration more than the graph has
nodes. -/
theorem c31_simplify_step (K : Nat) (g : Graph) (stk : List LiveInterval)
    (hg : g.IsOverlapGraph) (hreg : ∀ v ∈ g.keys, v.reg < UINT32_MAX) :
    ((∃ x ∈ g, x.2.length < K) →
        ∃ e ∈ g, (findLowest K g).1 = some e ∧ e.2.length < K ∧
          (∀ x ∈ g, x.2.length < K → e.1.reg ≤ x.1.reg) ∧
          (∀ fuel, simplifyLoop K (fuel + 1) (g, stk) =
            simplifyLoop K fuel (removeNode g e, e.1 :: stk)) ∧
          (removeNode g e).keys = g.keys.filter (fun v => decide (v ≠ e.1)) ∧
          (∀ v ∈ g.keys, v ≠ e.1 →
            (removeNode g e).neighbours v = NodeSet.remove e.1 (g.neighbours v)) ∧
          (∀ v ∈ (removeNode g e).keys, e.1 ∉ (removeNode g e).neighbours v)) ∧
      ((∀ x ∈ g, ¬ x.2.length < K) →
        ∀ fuel, simplifyLoop K (fuel + 1) (g, stk) = some (g, stk)) ∧
      (∀ fuel r, simplifyLoop K fuel (g, stk) = some r → ∀ x ∈ r.1, K ≤ x.2.length) ∧
      (∀ fuel, g.length < fuel → ∃ r, simplifyLoop K fuel (g, stk) = some r) := by
  refine ⟨?_, fun h fuel => simplifyLoop_stuck K fuel g stk h,
    fun fuel r h => simplifyLoop_high K fuel (g, stk) r hg hreg h,
    fun fuel h => simplifyLoop_total K fuel (g, stk) hg h⟩
  rintro ⟨x, hx, hxl⟩
  cases hf : (findLowest K g).1 with
  | none =>
    exact absurd ⟨hxl, hreg x.1 (mem_keys_of_mem g x hx)⟩ ((findLowest_spec K g).2 hf x hx)
  | some e =>
    obtain ⟨he, hel⟩ := (findLowest_spec K g).1 e hf
    obtain ⟨_, hmin⟩ := findLowest_least K g e hf
    obtain ⟨e1, _, _, _, hg1, hk, hl, _⟩ :=
      removal_spec K (g, stk) _ (Removal.simplify g stk e hf) hg
    simp only at hl hg1 hk
    have hk2 := (removeNode_spec g hg e he).2
    refine ⟨e, he, rfl, hel, hmin, ?_, hk2,
      fun v hv hne => removeNode_neighbours g hg e he v hv hne, ?_⟩
    · intro fuel
      rw [simplifyLoop_succ, hf]
      simp only
      rw [if_pos (by omega)]
    · intro v hv hc
      have := (((removeNode_spec g hg e he).1.2 v hv).2 e.1).1 hc
      rw [hk2] at this
      have h2 := (List.mem_filter.1 this.1).2
      simp at h2

/-- Witness of C31 on the graph of the three registers of `exChain3` with two colours:
register 0 has one neighbour and the lowest number. -/
theorem c31_simplify_step_witness :
    (RAUSCC.empty.initGraph exChain3).interferenceGraph.IsOverlapGraph ∧
      (∀ fuel r, simplifyLoop 2 fuel ((RAUSCC.empty.initGraph exChain3).interferenceGraph, []) =
        some r → ∀ x ∈ r.1, 2 ≤ x.2.length) ∧
      (findLowest 2 (RAUSCC.empty.initGraph exChain3).interferenceGraph).1 =
        some (mkReg 0 1 [(0, 4)], [mkReg 1 1 [(2, 6)]]) :=
  ⟨(initGraph_spec exChain3 (by decide)).1,
    (c31_simplify_step 2 (RAUSCC.empty.initGraph exChain3).interferenceGraph []
      (initGraph_spec exChain3 (by decide)).1 (by decide)).2.2.1,
    by decide⟩

/-! ### The spill step -/

theorem foldlM_prefix_inv {α β : Type} (f : β → α → Option β) (P : β → List α → Prop)
    (hstep : ∀ b pre a b1, P b pre → f b a = some b1 → P b1 (pre ++ [a])) :
    ∀ (l pre : List α) (init r : β), P init pre → l.foldlM f init = some r →
      P r (pre ++ l) := by
  intro l
  induction l with
  | nil =>
    intro pre init r h0 h
    simp only [List.foldlM, pure, Option.some.injEq] at h
    rw [← h]
    simpa using h0
  | cons a l ih =>
    intro pre init r h0 h
    rw [List.foldlM_cons] at h
    obtain ⟨m, hm, hm1⟩ := Option.bind_eq_some.1 h
    have := ih (pre ++ [a]) m r (hstep init pre a m h0 hm) hm1
    simpa using this

/-- Whenever the `for` loop of the spill step ends with a candidate, the candidate is an
entry of the graph with a weight below `FLT_MAX`, no entry has a smaller weight, and among
the entries of the same weight it has the smallest register number. -/
theorem findMin_least (g : Graph) (w : Nat) (e : LiveInterval × NodeSet)
    (h : findMin g = some (w, some e)) :
    e ∈ g ∧ w = e.1.weight ∧ e.1.weight < FLT_MAX ∧
      ∀ x ∈ g, e.1.weight < x.1.weight ∨ (e.1.weight = x.1.weight ∧ e.1.reg ≤ x.1.reg) := by
  have h1 := foldlM_prefix_inv
    (fun (acc : Nat × Option (LiveInterval × NodeSet)) (e : LiveInterval × NodeSet) =>
      if e.1.weight = acc.1 then
        match acc.2 with
        | none => none
        | some m => if e.1.reg < m.1.reg then some (e.1.weight, some e) else some acc
      else if e.1.weight < acc.1 then some (e.1.weight, some e)
      else some acc)
    (fun acc pre =>
      (acc.2 = none → acc.1 = FLT_MAX ∧ ∀ x ∈ pre, FLT_MAX < x.1.weight) ∧
      (∀ e, acc.2 = some e → e ∈ pre ∧ acc.1 = e.1.weight ∧ e.1.weight < FLT_MAX ∧
        ∀ x ∈ pre, e.1.weight < x.1.weight ∨ (e.1.weight = x.1.weight ∧ e.1.reg ≤ x.1.reg)))
    (by
      intro acc pre a b1 hP hf
      obtain ⟨hP1, hP2⟩ := hP
      obtain ⟨w, c⟩ := acc
      cases c with
      | none =>
        obtain ⟨hw0, hall⟩ := hP1 rfl
        simp only at hw0
        subst hw0
        simp only at hf
        by_cases h1 : a.1.weight = FLT_MAX
        · rw [if_pos h1] at hf; cases hf
        · rw [if_neg h1] at hf
          by_cases h2 : a.1.weight < FLT_MAX
          · rw [if_pos h2] at hf
            simp only [Option.some.injEq] at hf
            subst hf
            refine ⟨(fun hc => by cases hc), ?_⟩
            intro e he
            simp only [Option.some.injEq] at he
            subst he
            refine ⟨by simp, rfl, h2, ?_⟩
            intro x hx
            rcases List.mem_append.1 hx with h3 | h3
            · have := hall x h3; left; omega
            · rw [List.mem_singleton.1 h3]; right; exact ⟨rfl, le_refl _⟩
          · rw [if_neg h2] at hf
            simp only [Option.some.injEq] at hf
            subst hf
            refine ⟨fun _ => ⟨rfl, ?_⟩, fun e he => by cases he⟩
            intro x hx
            rcases List.mem_append.1 hx with h3 | h3
            · exact hall x h3
            · rw [List.mem_singleton.1 h3]; omega
      | some m =>
        obtain ⟨hm, hwm, hlt, hmin⟩ := hP2 m rfl
        simp only at hwm
        subst hwm
        simp only at hf
        by_cases h1 : a.1.weight = m.1.weight
        · rw [if_pos h1] at hf
          by_cases h2 : a.1.reg < m.1.reg
          · rw [if_pos h2] at hf
            simp only [Option.some.injEq] at hf
            subst hf
            refine ⟨(fun hc => by cases hc), ?_⟩
            intro e he
            simp only [Option.some.injEq] at he
            subst he
            refine ⟨by simp, rfl, by omega, ?_⟩
            intro x hx
            rcases List.mem_append.1 hx with h3 | h3
            · rcases hmin x h3 with h4 | h4
              · left; omega
              · right; exact ⟨by omega, by omega⟩
            · rw [List.mem_singleton.1 h3]; right; exact ⟨rfl, le_refl _⟩
          · rw [if_neg h2] at hf
            simp only [Option.some.injEq] at hf
            subst hf
            refine ⟨(fun hc => by cases hc), ?_⟩
            intro e he
            simp only [Option.some.injEq] at he
            subst he
            refine ⟨List.mem_append_left _ hm, rfl, hlt, ?_⟩
            intro x hx
            rcases List.mem_append.1 hx with h3 | h3
            · exact hmin x h3
            · rw [List.mem_singleton.1 h3]; right; exact ⟨h1.symm, by omega⟩
        · rw [if_neg h1] at hf
          by_cases h2 : a.1.weight < m.1.weight
          · rw [if_pos h2] at hf
            simp only [Option.some.injEq] at hf
            subst hf
            refine ⟨(fun hc => by cases hc), ?_⟩
            intro e he
            simp only [Option.some.injEq] at he
            subst he
            refine ⟨by simp, rfl, by omega, ?_⟩
            intro x hx
            rcases List.mem_append.1 hx with h3 | h3
            · rcases hmin x h3 with h4 | h4
              · left; omega
              · left; omega
            · rw [List.mem_singleton.1 h3]; right; exact ⟨rfl, le_refl _⟩
          · rw [if_neg h2] at hf
            simp only [Option.some.injEq] at hf
            subst hf
            refine ⟨(fun hc => by cases hc), ?_⟩
            intro e he
            simp only [Option.some.injEq] at he
            subst he
            refine ⟨List.mem_append_left _ hm, rfl, hlt, ?_⟩
            intro x hx
            rcases List.mem_append.1 hx with h3 | h3
            · exact hmin x h3
            · rw [List.mem_singleton.1 h3]; left; omega)
    g [] (FLT_MAX, none) (w, some e)
    ⟨fun _ => ⟨rfl, fun x hx => by cases hx⟩, fun e he => by cases he⟩ h
  rw [List.nil_append] at h1
  obtain ⟨h2, h3, h4, h5⟩ := h1.2 e rfl
  exact ⟨h2, h3, h4, h5⟩

/-- The flag `go` after the removal of a spill candidate: it stays set exactly when no
neighbour of the candidate is left with fewer than `K` neighbours. -/
theorem removeSpill_flag_after (K : Nat) (g : Graph) (hg : g.IsOverlapGraph)
    (e : LiveInterval × NodeSet) (he : e ∈ g) :
    (removeSpill K g e).2 = true ↔
      ∀ j ∈ e.2, K ≤ ((removeNode g e).neighbours j).length := by
  have hk := mem_keys_of_mem g e he
  have he2 : e.2 = g.neighbours e.1 := (neighbours_of_mem g hg.1 e he).symm
  have hj : ∀ j ∈ e.2, j ∈ g.keys ∧ j ≠ e.1 ∧
      ((removeNode g e).neighbours j).length + 1 = (g.neighbours j).length := by
    intro j hj
    rw [he2] at hj
    obtain ⟨h1, h2, h3⟩ := ((hg.2 e.1 hk).2 j).1 hj
    refine ⟨h1, h2, ?_⟩
    rw [removeNode_neighbours g hg e he j h1 h2]
    apply remove_length _ _ (hg.2 j h1).1
    exact ((hg.2 j h1).2 e.1).2 ⟨hk, fun e1 => h2 e1.symm, by rw [overlaps_comm]; exact h3⟩
  rw [removeSpill_flag_iff K g hg e he]
  constructor
  · intro h j hjm
    have := h j hjm
    have := (hj j hjm).2.2
    omega
  · intro h j hjm
    have := h j hjm
    have := (hj j hjm).2.2
    omega

/-- The removal of a spill candidate after which the flag `go` is still set leaves a
graph in which every entry has at least `K` neighbours, when the graph before was such. -/
theorem removeNode_high (K : Nat) (g : Graph) (hg : g.IsOverlapGraph)
    (e : LiveInterval × NodeSet) (he : e ∈ g) (hhigh : ∀ x ∈ g, K ≤ x.2.length)
    (hflag : ∀ j ∈ e.2, K ≤ ((removeNode g e).neighbours j).length) :
    ∀ x ∈ removeNode g e, K ≤ x.2.length := by
  intro x hx
  obtain ⟨hg1, hk1⟩ := removeNode_spec g hg e he
  have hk := mem_keys_of_mem g e he
  have he2 : e.2 = g.neighbours e.1 := (neighbours_of_mem g hg.1 e he).symm
  have hxk := mem_keys_of_mem _ x hx
  have hx2 := neighbours_of_mem _ hg1.1 x hx
  rw [hk1, List.mem_filter] at hxk
  have hne : x.1 ≠ e.1 := by simpa using hxk.2
  rw [← hx2]
  by_cases hm : x.1 ∈ e.2
  · exact hflag x.1 hm
  · rw [removeNode_neighbours g hg e he x.1 hxk.1 hne, remove_of_not_mem]
    · exact hhigh _ (mem_of_mem_keys g hg.1 x.1 hxk.1)
    · intro hc
      apply hm
      rw [he2]
      obtain ⟨_, _, ho⟩ := ((hg.2 x.1 hxk.1).2 e.1).1 hc
      exact ((hg.2 e.1 hk).2 x.1).2 ⟨hxk.1, hne, by rw [overlaps_comm]; exact ho⟩

theorem keys_sub_removeNode (g : Graph) (hg : g.IsOverlapGraph) (e : LiveInterval × NodeSet)
    (he : e ∈ g) : ∀ v ∈ (removeNode g e).keys, v ∈ g.keys := by
  intro v hv
  rw [(removeNode_spec g hg e he).2] at hv
  exact (List.mem_filter.1 hv).1

/-- The simplify loop as a sequence of simplify steps. -/
theorem simplifyLoop_steps (K : Nat) :
    ∀ (fuel : Nat) (s r : Graph × List LiveInterval), simplifyLoop K fuel s = some r →
      Relation.ReflTransGen (ReductionStep K) s r := by
  intro fuel
  induction fuel with
  | zero => intro s r h; simp [simplifyLoop] at h
  | succ fuel ih =>
    intro s r h
    rw [simplifyLoop_succ] at h
    cases hf : (findLowest K s.1).1 with
    | none =>
      rw [hf] at h
      simp only [Option.some.injEq] at h
      rw [h]
    | some e =>
      rw [hf] at h
      simp only at h
      have hstep : ReductionStep K s (removeNode s.1 e, e.1 :: s.2) :=
        ReductionStep.simplify s.1 s.2 e hf
      split at h
      · exact Relation.ReflTransGen.head hstep (ih _ r h)
      · simp only [Option.some.injEq] at h
        rw [← h]
        exact Relation.ReflTransGen.single hstep

/-- The spill loop, started in an interference graph in which every entry has at least `K`
neighbours, as a sequence of spill steps. -/
theorem spillLoop_steps (K : Nat) :
    ∀ (fuel : Nat) (s r : Graph × List LiveInterval), s.1.IsOverlapGraph →
      (∀ x ∈ s.1, K ≤ x.2.length) → spillLoop K fuel s = some r →
      Relation.ReflTransGen (ReductionStep K) s r := by
  intro fuel
  induction fuel with
  | zero => intro s r _ _ h; simp [spillLoop] at h
  | succ fuel ih =>
    intro s r hg hhigh h
    rw [spillLoop_succ] at h
    by_cases hnil : s.1 = []
    · rw [if_pos hnil] at h
      simp only [Option.some.injEq] at h
      rw [h]
    · rw [if_neg hnil] at h
      cases hf : findMin s.1 with
      | none => rw [hf] at h; cases h
      | some p =>
        obtain ⟨w, c⟩ := p
        cases c with
        | none => rw [hf] at h; cases h
        | some e =>
          rw [hf] at h
          simp only at h
          have he := findMin_mem s.1 w e hf
          have hstep : ReductionStep K s ((removeSpill K s.1 e).1, e.1 :: s.2) :=
            ReductionStep.spill s.1 s.2 w e hnil hhigh hf
          cases hb : (removeSpill K s.1 e).2 with
          | true =>
            rw [hb] at h
            simp only [if_true] at h
            refine Relation.ReflTransGen.head hstep (ih _ r ?_ ?_ h)
            · show ((removeSpill K s.1 e).1).IsOverlapGraph
              rw [removeSpill_fst]
              exact (removeNode_spec s.1 hg e he).1
            · show ∀ x ∈ (removeSpill K s.1 e).1, K ≤ x.2.length
              rw [removeSpill_fst]
              exact removeNode_high K s.1 hg e he hhigh
                ((removeSpill_flag_after K s.1 hg e he).1 hb)
          | false =>
            rw [hb] at h
            simp only [Bool.false_eq_true, if_false, Option.some.injEq] at h
            rw [← h]
            exact Relation.ReflTransGen.single hstep

/-- The reduction of an interference graph whose register numbers are below `UINT32_MAX`
as a sequence of simplify steps and of spill steps, each spill step being made in a
non-empty graph in which every entry has at least `K` neighbours. -/
theorem simplifyOuter_steps (K : Nat) :
    ∀ (fuel : Nat) (s r : Graph × List LiveInterval), s.1.IsOverlapGraph →
      (∀ v ∈ s.1.keys, v.reg < UINT32_MAX) → simplifyOuter K fuel s = some r →
      Relation.ReflTransGen (ReductionStep K) s r := by
  intro fuel
  induction fuel with
  | zero => intro s r _ _ h; simp [simplifyOuter] at h
  | succ fuel ih =>
    intro s r hg hreg h
    rw [simplifyOuter_succ] at h
    split at h
    · cases h1 : simplifyLoop K (s.1.length + 1) s with
      | none => rw [h1] at h; cases h
      | some s1 =>
        rw [h1] at h
        simp only at h
        cases h2 : spillLoop K (s1.1.length + 1) s1 with
        | none => rw [h2] at h; cases h
        | some s2 =>
          rw [h2] at h
          simp only at h
          obtain ⟨hg1, _, hsub1, _⟩ :=
            removals_spec K s s1 (simplifyLoop_removals K _ s s1 h1) hg
          obtain ⟨hg2, _, hsub2, _⟩ :=
            removals_spec K s1 s2 (spillLoop_removals K _ s1 s2 h2) hg1
          have hhigh := simplifyLoop_high K _ s s1 hg hreg h1
          exact (simplifyLoop_steps K _ s s1 h1).trans
            ((spillLoop_steps K _ s1 s2 hg1 hhigh h2).trans
              (ih s2 r hg2 (fun v hv => hreg v (hsub1 v (hsub2 v hv))) h))
    · simp only [Option.some.injEq] at h
      rw [h]

theorem simplifyOuter_bind (K fuel : Nat) (s : Graph × List LiveInterval)
    (hpos : 0 < s.1.length) :
    simplifyOuter K (fuel + 1) s =
      (simplifyLoop K (s.1.length + 1) s).bind
        (fun s1 => (spillLoop K (s1.1.length + 1) s1).bind (simplifyOuter K fuel)) := by
  rw [simplifyOuter_succ, if_pos hpos]
  cases simplifyLoop K (s.1.length + 1) s with
  | none => rfl
  | some s1 =>
    simp only [Option.some_bind]
    cases spillLoop K (s1.1.length + 1) s1 with
    | none => rfl
    | some s2 => rfl

/-- Claim C32.  In the reduction of an interference graph whose register numbers are below
`UINT32_MAX`, every removal is a simplify step or a spill step made in a non-empty graph in
which every entry has at least `K` neighbours: each pass of the outer loop runs the spill
loop on the state that the simplify loop returns, and the result of the spill loop goes
back to the simplify loop.  A spill candidate is the entry with the smallest spill weight
and, among the entries of that weight, the smallest register number.  After its removal
the spill loop goes on when no neighbour of the candidate is left with fewer than `K`
neighbours (every entry then has at least `K` neighbours again), and returns
otherwise. -/
theorem c32_spill_step (K : Nat) (g : Graph) (stk : List LiveInterval)
    (hg : g.IsOverlapGraph) (hreg : ∀ v ∈ g.keys, v.reg < UINT32_MAX) :
    (∀ fuel r, simplifyOuter K fuel (g, stk) = some r →
        Relation.ReflTransGen (ReductionStep K) (g, stk) r) ∧
      (∀ fuel, 0 < g.length →
        simplifyOuter K (fuel + 1) (g, stk) =
          (simplifyLoop K (g.length + 1) (g, stk)).bind
            (fun s1 => (spillLoop K (s1.1.length + 1) s1).bind (simplifyOuter K fuel))) ∧
      (∀ fuel r, simplifyLoop K fuel (g, stk) = some r → ∀ x ∈ r.1, K ≤ x.2.length) ∧
      (∀ w e, g ≠ [] → findMin g = some (w, some e) →
        e ∈ g ∧ w = e.1.weight ∧
          (∀ x ∈ g, e.1.weight < x.1.weight ∨
            (e.1.weight = x.1.weight ∧ e.1.reg ≤ x.1.reg)) ∧
          (removeSpill K g e).1 = removeNode g e ∧
          ((∀ j ∈ e.2, K ≤ ((removeNode g e).neighbours j).length) →
            (∀ fuel, spillLoop K (fuel + 1) (g, stk) =
              spillLoop K fuel (removeNode g e, e.1 :: stk)) ∧
            ((∀ x ∈ g, K ≤ x.2.length) → ∀ x ∈ removeNode g e, K ≤ x.2.length)) ∧
          ((∃ j ∈ e.2, ((removeNode g e).neighbours j).length < K) →
            ∀ fuel, spillLoop K (fuel + 1) (g, stk) =
              some (removeNode g e, e.1 :: stk))) := by
  refine ⟨fun fuel r h => simplifyOuter_steps K fuel (g, stk) r hg hreg h,
    fun fuel hpos => simplifyOuter_bind K fuel (g, stk) hpos,
    fun fuel r h => simplifyLoop_high K fuel (g, stk) r hg hreg h, ?_⟩
  intro w e hne hf
  obtain ⟨he, hw, _, hmin⟩ := findMin_least g w e hf
  refine ⟨he, hw, hmin, removeSpill_fst K g e, ?_, ?_⟩
  · intro hflag
    have hb := (removeSpill_flag_after K g hg e he).2 hflag
    refine ⟨?_, fun hhigh => removeNode_high K g hg e he hhigh hflag⟩
    intro fuel
    rw [spillLoop_succ]
    simp only [hne, if_false, hf, hb, if_true, removeSpill_fst]
  · rintro ⟨j, hj, hjl⟩ fuel
    have hb : (removeSpill K g e).2 = false := by
      cases hb : (removeSpill K g e).2 with
      | false => rfl
      | true =>
        have := (removeSpill_flag_after K g hg e he).1 hb j hj
        omega
    rw [spillLoop_succ]
    simp only [hne, if_false, hf, hb, Bool.false_eq_true, removeSpill_fst]

set_option maxRecDepth 20000 in
/-- Witness of C32 on the five registers of `exFive`, which all overlap each other, with
four colours: the candidate is register 2, of weight 1. -/
theorem c32_spill_step_witness :
    (RAUSCC.empty.initGraph exFive).interferenceGraph.IsOverlapGraph ∧
      (∀ x ∈ (RAUSCC.empty.initGraph exFive).interferenceGraph, 4 ≤ x.2.length) ∧
      (findMin (RAUSCC.empty.initGraph exFive).interferenceGraph).map
          (fun r => (r.1, r.2.map (fun e => e.1))) = some (1, some (mkReg 2 1 [(0, 10)])) ∧
      ∀ fuel r, simplifyOuter 4 fuel ((RAUSCC.empty.initGraph exFive).interferenceGraph, []) =
        some r → Relation.ReflTransGen (ReductionStep 4)
          ((RAUSCC.empty.initGraph exFive).interferenceGraph, []) r :=
  ⟨(initGraph_spec exFive (by decide)).1, by decide, by decide,
    (c32_spill_step 4 (RAUSCC.empty.initGraph exFive).interferenceGraph []
      (initGraph_spec exFive (by decide)).1 (by decide)).1⟩

/-! ### The choice of a free register -/

theorem scanOrder_first_free (env : RegEnv) (st : RAUSCC) (v : LiveInterval) :
    ∀ (l cands : List Nat), (∃ p ∈ l, st.checkInterference env v p = .IK_Free) →
      ∃ pre p suf, l = pre ++ p :: suf ∧
        (∀ q ∈ pre, st.checkInterference env v q ≠ .IK_Free) ∧
        st.checkInterference env v p = .IK_Free ∧ scanOrder env st v l cands = .inl p := by
  intro l
  induction l with
  | nil => intro cands h; obtain ⟨p, hp, _⟩ := h; cases hp
  | cons q rest ih =>
    intro cands h
    by_cases hq : st.checkInterference env v q = .IK_Free
    · refine ⟨[], q, rest, rfl, (fun x hx => by cases hx), hq, ?_⟩
      rw [scanOrder, hq]
    · have hrest : ∃ p ∈ rest, st.checkInterference env v p = .IK_Free := by
        obtain ⟨p, hp, hf⟩ := h
        rcases List.mem_cons.1 hp with e | e
        · rw [e] at hf; exact absurd hf hq
        · exact ⟨p, e, hf⟩
      cases hc : st.checkInterference env v q with
      | IK_Free => exact absurd hc hq
      | IK_VirtReg =>
        obtain ⟨pre, p, suf, h1, h2, h3, h4⟩ := ih (cands ++ [q]) hrest
        refine ⟨q :: pre, p, suf, by rw [h1]; rfl, ?_, h3, ?_⟩
        · intro x hx
          rcases List.mem_cons.1 hx with e | e
          · rw [e]; exact hq
          · exact h2 x e
        · rw [scanOrder, hc]; exact h4
      | IK_RegUnit =>
        obtain ⟨pre, p, suf, h1, h2, h3, h4⟩ := ih cands hrest
        refine ⟨q :: pre, p, suf, by rw [h1]; rfl, ?_, h3, ?_⟩
        · intro x hx
          rcases List.mem_cons.1 hx with e | e
          · rw [e]; exact hq
          · exact h2 x e
        · rw [scanOrder, hc]; exact h4

/-- Claim C34.  When a register of the allocation order of `v` is free of interference,
`selectOrSplit` returns the first such register of the order; the state of the allocator
is unchanged, so that nothing is unassigned or handed to the spiller, and `SplitVRegs` is
returned as it was. -/
theorem c34_first_free_register (env : RegEnv) (st : RAUSCC) (v : LiveInterval)
    (splits : List LiveInterval)
    (h : ∃ p ∈ env.order v, st.checkInterference env v p = .IK_Free) :
    ∃ pre p suf, env.order v = pre ++ p :: suf ∧
      (∀ q ∈ pre, st.checkInterference env v q ≠ .IK_Free) ∧
      st.checkInterference env v p = .IK_Free ∧
      st.selectOrSplit env v splits = some (p, st, splits) := by
  obtain ⟨pre, p, suf, h1, h2, h3, h4⟩ := scanOrder_first_free env st v (env.order v) [] h
  refine ⟨pre, p, suf, h1, h2, h3, ?_⟩
  unfold RAUSCC.selectOrSplit
  rw [h4]

/-- Witness of C34: register 0 holds the physical register `1`; for register 1, which
overlaps it, the palette `1, 2` has the free register `2`. -/
theorem c34_first_free_register_witness :
    (∃ p ∈ env2.order (mkReg 1 5 [(0, 10)]),
        stHeld.checkInterference env2 (mkReg 1 5 [(0, 10)]) p = .IK_Free) ∧
      stHeld.selectOrSplit env2 (mkReg 1 5 [(0, 10)]) [] = some (2, stHeld, []) ∧
      ∃ pre p suf, env2.order (mkReg 1 5 [(0, 10)]) = pre ++ p :: suf ∧
        (∀ q ∈ pre, stHeld.checkInterference env2 (mkReg 1 5 [(0, 10)]) q ≠ .IK_Free) ∧
        stHeld.checkInterference env2 (mkReg 1 5 [(0, 10)]) p = .IK_Free ∧
        stHeld.selectOrSplit env2 (mkReg 1 5 [(0, 10)]) [] = some (p, stHeld, []) :=
  ⟨⟨2, by decide, by decide⟩, by decide,
    c34_first_free_register env2 stHeld (mkReg 1 5 [(0, 10)]) [] ⟨2, by decide, by decide⟩⟩

/-! ### The order of the pops -/

theorem dequeueN_nil : ∀ (k : Nat) (st : RAUSCC), st.stack = [] →
    (dequeueN k st).1 = List.replicate k none := by
  intro k
  induction k with
  | zero => intro st _; rfl
  | succ k ih =>
    intro st h
    have hd : st.dequeue = (none, st) := by simp [RAUSCC.dequeue, h]
    show st.dequeue.1 :: (dequeueN k st.dequeue.2).1 = _
    rw [hd]
    simp only [List.replicate_succ]
    rw [ih st h]

/-- Successive calls of `dequeue` return the stack from its top, then `nullptr`. -/
theorem dequeueN_spec : ∀ (l : List LiveInterval) (k : Nat) (st : RAUSCC), st.stack = l →
    (dequeueN (l.length + k) st).1 = l.map some ++ List.replicate k none := by
  intro l
  induction l with
  | nil =>
    intro k st h
    simp only [List.length_nil, Nat.zero_add, List.map_nil, List.nil_append]
    exact dequeueN_nil k st h
  | cons v rest ih =>
    intro k st h
    have hd : st.dequeue = (some v, { st with stack := rest }) := by
      simp [RAUSCC.dequeue, h]
    have hlen : (v :: rest).length + k = (rest.length + k) + 1 := by
      simp only [List.length_cons]; omega
    rw [hlen]
    show st.dequeue.1 :: (dequeueN (rest.length + k) st.dequeue.2).1 = _
    rw [hd]
    simp only [List.map_cons, List.cons_append]
    rw [ih k { st with stack := rest } rfl]

theorem pushes_stack (K : Nat) (s t : Graph × List LiveInterval) (l : List LiveInterval)
    (h : Pushes K s l t) : t.2 = l.reverse ++ s.2 := by
  induction h with
  | done s => simp
  | push s t u x l _ hx _ ih =>
    rw [ih, hx]
    simp

theorem removal_push (K : Nat) (s t : Graph × List LiveInterval) (h : Removal K s t) :
    ∃ x, t.2 = x :: s.2 := by
  cases h with
  | simplify g stk e _ => exact ⟨e.1, rfl⟩
  | spill g stk w e _ _ => exact ⟨e.1, rfl⟩

theorem pushes_of_removals (K : Nat) (s t : Graph × List LiveInterval)
    (h : Relation.ReflTransGen (Removal K) s t) : ∃ l, Pushes K s l t := by
  induction h using Relation.ReflTransGen.head_induction_on with
  | refl => exact ⟨[], Pushes.done t⟩
  | head hstep _ ih =>
    obtain ⟨l, hl⟩ := ih
    obtain ⟨x, hx⟩ := removal_push K _ _ hstep
    exact ⟨x :: l, Pushes.push _ _ _ x l hstep hx hl⟩

theorem spillFold_stack (env : RegEnv) (l : List LiveInterval) :
    ∀ (acc : RAUSCC × List LiveInterval),
      (l.foldl
          (fun (acc : RAUSCC × List LiveInterval) u =>
            if acc.1.hasPhys u then (acc.1.unassign u).spill env u acc.2 else acc)
          acc).1.stack = acc.1.stack := by
  induction l with
  | nil => intro acc; rfl
  | cons u l ih =>
    intro acc
    simp only [List.foldl_cons]
    rw [ih]
    by_cases hp : acc.1.hasPhys u = true
    · simp only [hp, if_true, RAUSCC.spill, RAUSCC.unassign]
    · simp only [hp]
      rfl

theorem spillInterferences_stack (env : RegEnv) (st : RAUSCC) (v : LiveInterval) (p : Nat)
    (splits : List LiveInterval) (r : RAUSCC × List LiveInterval)
    (h : st.spillInterferences env v p splits = some (some r)) : r.1.stack = st.stack := by
  unfold RAUSCC.spillInterferences at h
  by_cases h1 : (st.interferingVRegs v p).any (fun u => !u.spillable) = true
  · simp [h1] at h
  · simp only [h1] at h
    by_cases h2 : (st.interferingVRegs v p).reverse.any
        (fun u => !u.spillable || decide (u.weight > v.weight)) = true
    · simp [h2] at h
    · simp only [h2] at h
      by_cases h3 : (st.interferingVRegs v p).reverse = []
      · simp [h3] at h
      · simp only [h3, if_false, Bool.false_eq_true, Option.some.injEq] at h
        rw [← h]
        exact spillFold_stack env _ (st, splits)

theorem selectOrSplit_stack (env : RegEnv) (st : RAUSCC) (v : LiveInterval)
    (splits : List LiveInterval) (r : Nat) (st1 : RAUSCC) (sp : List LiveInterval)
    (h : st.selectOrSplit env v splits = some (r, st1, sp)) : st1.stack = st.stack := by
  unfold RAUSCC.selectOrSplit at h
  cases hs : scanOrder env st v (env.order v) [] with
  | inl p =>
    simp only [hs, Option.some.injEq, Prod.mk.injEq] at h
    obtain ⟨_, rfl, _⟩ := h
    rfl
  | inr cands =>
    simp only [hs] at h
    cases ht : trySpill env st v splits cands with
    | none => simp [ht] at h
    | some o =>
      cases o with
      | some q =>
        simp only [ht, Option.some.injEq] at h
        subst h
        obtain ⟨_, h2, _⟩ := trySpill_some env st v splits _ cands ht
        exact spillInterferences_stack env st v _ splits _ h2
      | none =>
        simp only [ht] at h
        by_cases hsp : v.spillable = true
        · simp only [hsp, Bool.not_true, Bool.false_eq_true, if_false, Option.some.injEq,
            Prod.mk.injEq] at h
          obtain ⟨_, rfl, _⟩ := h
          rfl
        · simp only [Bool.not_eq_true] at hsp
          simp only [hsp, Bool.not_false, if_true, Option.some.injEq, Prod.mk.injEq] at h
          obtain ⟨_, rfl, _⟩ := h
          rfl

theorem enqueueFold_stack (l : List LiveInterval) (st : RAUSCC) :
    (l.foldl RAUSCC.enqueue st).stack = st.stack :=
  (enqueueFold_assigned l st).2.2.1

/-- The body of the select loop leaves the allocation stack as it is. -/
theorem allocStep_stack (env : RegEnv) (st : RAUSCC) (v : LiveInterval) (st2 : RAUSCC)
    (h : st.allocStep env v = some st2) : st2.stack = st.stack := by
  unfold RAUSCC.allocStep at h
  by_cases hp : st.hasPhys v = true
  · simp [hp] at h
  · simp only [hp] at h
    cases hs : st.selectOrSplit env v [] with
    | none => simp [hs] at h
    | some q =>
      obtain ⟨r, st1, sp⟩ := q
      simp only [hs, Bool.false_eq_true, if_false] at h
      have h1 := selectOrSplit_stack env st v [] r st1 sp hs
      by_cases hr : r = UINT32_MAX
      · simp [hr] at h
      · simp only [hr, if_false, Option.some.injEq] at h
        rw [← h, enqueueFold_stack, ← h1]
        split <;> rfl

theorem simplifyGraph_removals (K : Nat) (st st1 : RAUSCC)
    (h : st.simplifyGraph K = some st1) :
    Relation.ReflTransGen (Removal K) (st.interferenceGraph, st.stack)
      (st1.interferenceGraph, st1.stack) := by
  unfold RAUSCC.simplifyGraph at h
  obtain ⟨s, hs, rfl⟩ := Option.map_eq_some'.1 h
  exact simplifyOuter_removals K _ _ s hs

/-- Claim C35.  Let `l` be the registers that `simplifyGraph` pushes, in the order of the
pushes, on the graph that `initGraph` builds in a new allocator.  Successive calls of
`dequeue` return the registers of `l` from the last to the first, each once, and `nullptr`
from then on; the calls of `selectOrSplit` and of `enqueue` made between two calls of
`dequeue` leave the stack as it is. -/
theorem c35_dequeue_order (K : Nat) (mri : List VirtRegInfo) (st1 : RAUSCC)
    (h : (RAUSCC.empty.initGraph mri).simplifyGraph K = some st1) :
    ∃ l, Pushes K ((RAUSCC.empty.initGraph mri).interferenceGraph, [])
        l (st1.interferenceGraph, st1.stack) ∧
      st1.stack = l.reverse ∧
      (∀ k, (dequeueN (l.length + k) st1).1 = l.reverse.map some ++ List.replicate k none) ∧
      (∀ (env : RegEnv) (st : RAUSCC) (v : LiveInterval) (st2 : RAUSCC),
        st.allocStep env v = some st2 → st2.stack = st.stack) ∧
      ∀ (st : RAUSCC) (v : LiveInterval), (st.enqueue v).stack = st.stack := by
  have hch := simplifyGraph_removals K _ st1 h
  obtain ⟨l, hl⟩ := pushes_of_removals K _ _ hch
  have hstk := pushes_stack K _ _ l hl
  have e0 : (RAUSCC.empty.initGraph mri).stack = [] := rfl
  simp only [e0, List.append_nil] at hstk hl
  refine ⟨l, hl, hstk, ?_, allocStep_stack, fun st v => rfl⟩
  intro k
  have := dequeueN_spec l.reverse k st1 hstk
  rw [List.length_reverse] at this
  exact this

/-- Witness of C35 on the three registers of `exChain3` with two colours: the registers
are pushed in the order 0, 1, 2 and four calls of `dequeue` return 2, 1, 0 and
`nullptr`. -/
theorem c35_dequeue_order_witness :
    ∃ st1, (RAUSCC.empty.initGraph exChain3).simplifyGraph 2 = some st1 ∧
      st1.stack = [mkReg 2 1 [(5, 8)], mkReg 1 1 [(2, 6)], mkReg 0 1 [(0, 4)]] ∧
      (dequeueN 4 st1).1 =
        [some (mkReg 2 1 [(5, 8)]), some (mkReg 1 1 [(2, 6)]), some (mkReg 0 1 [(0, 4)]),
          none] ∧
      ∃ l, Pushes 2 ((RAUSCC.empty.initGraph exChain3).interferenceGraph, [])
          l (st1.interferenceGraph, st1.stack) ∧
        st1.stack = l.reverse ∧
        (∀ k, (dequeueN (l.length + k) st1).1 =
          l.reverse.map some ++ List.replicate k none) ∧
        (∀ (env : RegEnv) (st : RAUSCC) (v : LiveInterval) (st2 : RAUSCC),
          st.allocStep env v = some st2 → st2.stack = st.stack) ∧
        ∀ (st : RAUSCC) (v : LiveInterval), (st.enqueue v).stack = st.stack := by
  have h1 : ((RAUSCC.empty.initGraph exChain3).simplifyGraph 2).map
      (fun s => (s.stack, (dequeueN 4 s).1)) =
      some ([mkReg 2 1 [(5, 8)], mkReg 1 1 [(2, 6)], mkReg 0 1 [(0, 4)]],
        [some (mkReg 2 1 [(5, 8)]), some (mkReg 1 1 [(2, 6)]), some (mkReg 0 1 [(0, 4)]),
          none]) := by decide
  obtain ⟨st1, hst, h2⟩ := Option.map_eq_some'.1 h1
  simp only [Prod.mk.injEq] at h2
  exact ⟨st1, hst, h2.1, h2.2, c35_dequeue_order 2 exChain3 st1 hst⟩

/-! ### The candidate iterator of the spill step -/

theorem findMin_first_sentinel (e : LiveInterval × NodeSet) (g : Graph)
    (h : e.1.weight = FLT_MAX) : findMin (e :: g) = none := by
  unfold findMin
  rw [List.foldlM_cons]
  simp [h]

theorem findMin_all_above (g : Graph) (h : ∀ e ∈ g, FLT_MAX < e.1.weight) :
    findMin g = some (FLT_MAX, none) := by
  unfold findMin
  apply foldlM_const
  intro a ha
  have := h a ha
  have h1 : ¬ a.1.weight = FLT_MAX := by omega
  have h2 : ¬ a.1.weight < FLT_MAX := by omega
  simp only [h1, h2, if_false]

theorem spillLoop_no_candidate (K fuel : Nat) (g : Graph) (stk : List LiveInterval)
    (hne : g ≠ []) (h : findMin g = none ∨ ∃ w, findMin g = some (w, none)) :
    spillLoop K (fuel + 1) (g, stk) = none := by
  rw [spillLoop_succ]
  simp only [hne, if_false]
  rcases h with h | ⟨w, h⟩
  · rw [h]
  · rw [h]

/-- Claim C36 fails.  The `for` loop of the spill step reads the iterator `min` before any
assignment when the first entry of the iteration order has the weight `FLT_MAX`, the
initial `minWeight`; and when every weight is above `FLT_MAX` no entry is ever assigned to
`min`, which is then compared with `end()` uninitialised.  In both cases the spill loop on
a non-empty graph has no defined result.  On the two overlapping registers of `exFltMax`
(weights `FLT_MAX` and 1) and of `exInfWeights` (weights above `FLT_MAX`) with one colour,
no entry has fewer neighbours than colours, the spill step is reached, and `simplifyGraph`
has no defined result. -/
theorem c36_uninitialised_candidate :
    (∀ (e : LiveInterval × NodeSet) (g : Graph), e.1.weight = FLT_MAX →
        findMin (e :: g) = none) ∧
      (∀ g : Graph, (∀ e ∈ g, FLT_MAX < e.1.weight) → findMin g = some (FLT_MAX, none)) ∧
      (∀ (K fuel : Nat) (g : Graph) (stk : List LiveInterval), g ≠ [] →
        (findMin g = none ∨ ∃ w, findMin g = some (w, none)) →
        spillLoop K (fuel + 1) (g, stk) = none) ∧
      (RAUSCC.empty.initGraph exFltMax).interferenceGraph ≠ [] ∧
      (findLowest 1 (RAUSCC.empty.initGraph exFltMax).interferenceGraph).1 = none ∧
      findMin (RAUSCC.empty.initGraph exFltMax).interferenceGraph = none ∧
      (RAUSCC.empty.initGraph exFltMax).simplifyGraph 1 = none ∧
      (RAUSCC.empty.initGraph exInfWeights).interferenceGraph ≠ [] ∧
      (findLowest 1 (RAUSCC.empty.initGraph exInfWeights).interferenceGraph).1 = none ∧
      findMin (RAUSCC.empty.initGraph exInfWeights).interferenceGraph =
        some (FLT_MAX, none) ∧
      (RAUSCC.empty.initGraph exInfWeights).simplifyGraph 1 = none := by
  refine ⟨findMin_first_sentinel, findMin_all_above, spillLoop_no_candidate, by decide,
    by decide, by decide, by decide, by decide, by decide, by decide, by decide⟩

/-! ### The registers pushed by a simplify step in the select phase -/

/-- Along a sequence of node removals the stack grows at its top by registers that were
keys of the graph. -/
theorem removals_stack (K : Nat) (s t : Graph × List LiveInterval)
    (h : Relation.ReflTransGen (Removal K) s t) (hg : s.1.IsOverlapGraph) :
    ∃ pre, t.2 = pre ++ s.2 ∧ (t.1.keys ++ pre).Perm s.1.keys := by
  induction h with
  | refl => exact ⟨[], rfl, by simp⟩
  | tail hst hstep ih =>
    obtain ⟨pre, h1, h2⟩ := ih
    have hgt := (removals_spec K _ _ hst hg).1
    obtain ⟨e, he, _, hstk, _, hk, _, _⟩ := removal_spec K _ _ hstep hgt
    refine ⟨e.1 :: pre, by rw [hstk, h1]; rfl, ?_⟩
    refine List.Perm.trans ?_ h2
    rw [hk]
    have hp := perm_cons_filter_ne _ e.1 hgt.1 (mem_keys_of_mem _ e he)
    refine List.Perm.trans List.perm_middle ?_
    exact List.Perm.append_right _ hp.symm

theorem length_le_one_of_all_eq {α : Type} (l : List α) (hn : l.Nodup)
    (h : ∀ a ∈ l, ∀ b ∈ l, a = b) : l.length ≤ 1 := by
  cases l with
  | nil => simp
  | cons a l =>
    cases l with
    | nil => simp
    | cons b l =>
      exfalso
      have := h a (List.mem_cons_self _ _) b (List.mem_cons_of_mem _ (List.mem_cons_self _ _))
      rw [List.nodup_cons] at hn
      apply hn.1
      rw [this]
      exact List.mem_cons_self _ _

/-- Different physical registers that are each held by a register of the list `nb`, when
no register holds two physical registers, are no more than the registers of `nb`. -/
theorem palette_blocked (assigned : List (LiveInterval × Nat))
    (hfun : ∀ a ∈ assigned, ∀ b ∈ assigned, a.1 = b.1 → a.2 = b.2) :
    ∀ (nb : List LiveInterval) (palette : List Nat), palette.Nodup →
      (∀ p ∈ palette, ∃ u ∈ nb, (u, p) ∈ assigned) → palette.length ≤ nb.length := by
  intro nb
  induction nb with
  | nil =>
    intro palette _ h
    cases palette with
    | nil => simp
    | cons p _ =>
      obtain ⟨u, hu, _⟩ := h p (List.mem_cons_self _ _)
      cases hu
  | cons u rest ih =>
    intro palette hpal h
    have h1 := List.length_eq_countP_add_countP (fun p => decide ((u, p) ∈ assigned)) palette
    rw [List.countP_eq_length_filter, List.countP_eq_length_filter] at h1
    have h2 : (palette.filter (fun p => decide ((u, p) ∈ assigned))).length ≤ 1 := by
      apply length_le_one_of_all_eq _ (hpal.filter _)
      intro a ha b hb
      simp only [List.mem_filter, decide_eq_true_eq] at ha hb
      exact hfun (u, a) ha.2 (u, b) hb.2 rfl
    have h3 := ih (palette.filter (fun a => decide ¬ (decide ((u, a) ∈ assigned)) = true))
      (hpal.filter _) (by
        intro p hp
        simp only [List.mem_filter, decide_eq_true_eq, decide_not, Bool.not_eq_eq_eq_not,
          Bool.not_true, decide_eq_false_iff_not] at hp
        obtain ⟨u1, hu1, ha⟩ := h p hp.1
        rcases List.mem_cons.1 hu1 with e | e
        · rw [e] at ha; exact absurd ha hp.2
        · exact ⟨u1, e, ha⟩)
    simp only [List.length_cons]
    omega

/-- What the body of the select loop does to the assignment: the register popped held no
physical register, and an assignment left is one that was there or is that of the register
popped. -/
theorem allocStep_assigned (env : RegEnv) (st : RAUSCC) (v : LiveInterval) (st2 : RAUSCC)
    (h : st.allocStep env v = some st2) :
    st.hasPhys v = false ∧ ∃ r, ∀ a ∈ st2.assigned, a ∈ st.assigned ∨ a = (v, r) := by
  unfold RAUSCC.allocStep at h
  by_cases hp : st.hasPhys v = true
  · simp [hp] at h
  · simp only [hp] at h
    refine ⟨by simpa using hp, ?_⟩
    cases hs : st.selectOrSplit env v [] with
    | none => simp [hs] at h
    | some q =>
      obtain ⟨r, st1, sp⟩ := q
      simp only [hs, Bool.false_eq_true, if_false] at h
      have h1 := (selectOrSplit_free env st v [] r st1 sp hs).1
      by_cases hr : r = UINT32_MAX
      · simp [hr] at h
      · simp only [hr, if_false, Option.some.injEq] at h
        refine ⟨r, ?_⟩
        intro a ha
        rw [← h, (enqueueFold_assigned _ _).1] at ha
        by_cases h0 : r ≠ 0
        · simp only [h0, ne_eq, not_false_eq_true, if_true, RAUSCC.assign, List.mem_append,
            List.mem_singleton] at ha
          rcases ha with ha | ha
          · exact Or.inl (h1 a ha)
          · exact Or.inr ha
        · simp only [h0, if_false] at ha
          exact Or.inl (h1 a ha)

/-- What holds at every moment of the select loop started with the stack `stkF` and no
assignment: the stack is the lower part of `stkF`, only registers popped so far hold a
physical register, and none holds two. -/
theorem select_inv (env : RegEnv) (stkF : List LiveInterval) (st0 st : RAUSCC)
    (h0s : st0.stack = stkF) (h0a : st0.assigned = [])
    (h : Relation.ReflTransGen (SelectStep env) st0 st) :
    ∃ popped, stkF = popped ++ st.stack ∧ (∀ a ∈ st.assigned, a.1 ∈ popped) ∧
      ∀ a ∈ st.assigned, ∀ b ∈ st.assigned, a.1 = b.1 → a.2 = b.2 := by
  induction h with
  | refl =>
    refine ⟨[], by simp [h0s], ?_, ?_⟩
    · intro a ha; rw [h0a] at ha; cases ha
    · intro a ha; rw [h0a] at ha; cases ha
  | tail _ hstep ih =>
    rename_i b c _
    obtain ⟨popped, h1, h2, h3⟩ := ih
    obtain ⟨v, st1, hd, hal⟩ := hstep
    unfold RAUSCC.dequeue at hd
    cases hstk : b.stack with
    | nil => rw [hstk] at hd; simp at hd
    | cons x rest =>
      rw [hstk] at hd
      simp only [Prod.mk.injEq, Option.some.injEq] at hd
      obtain ⟨hx, hst1⟩ := hd
      subst hx
      have hstack := allocStep_stack env st1 x c hal
      obtain ⟨hphys, r, hass⟩ := allocStep_assigned env st1 x c hal
      have e1 : st1.assigned = b.assigned := by rw [← hst1]
      have e2 : st1.stack = rest := by rw [← hst1]
      refine ⟨popped ++ [x], ?_, ?_, ?_⟩
      · rw [hstack, e2, h1, hstk]; simp
      · intro a ha
        rcases hass a ha with h4 | h4
        · rw [e1] at h4
          exact List.mem_append_left _ (h2 a h4)
        · rw [h4]; simp
      · have hno : ∀ a ∈ b.assigned, a.1 ≠ x := by
          intro a ha hc
          have : st1.hasPhys x = true := by
            unfold RAUSCC.hasPhys
            rw [e1]
            exact List.any_eq_true.2 ⟨a, ha, by simp [hc]⟩
          rw [hphys] at this
          cases this
        intro a ha a1 ha1 heq
        rcases hass a ha with h4 | h4
        · rw [e1] at h4
          rcases hass a1 ha1 with h5 | h5
          · rw [e1] at h5
            exact h3 a h4 a1 h5 heq
          · rw [h5] at heq
            exact absurd heq (hno a h4)
        · rcases hass a1 ha1 with h5 | h5
          · rw [e1] at h5
            rw [h4] at heq
            exact absurd heq.symm (hno a1 h5)
          · rw [h4, h5]

theorem not_free_blocked (env : RegEnv) (st : RAUSCC) (v : LiveInterval) (p : Nat)
    (hfix : env.fixedIntf v p = false) (h : st.checkInterference env v p ≠ .IK_Free) :
    ∃ u, (u, p) ∈ st.assigned ∧ v.overlaps u = true := by
  unfold RAUSCC.checkInterference at h
  by_cases hs : v.segs = []
  · simp [hs] at h
  · simp only [hs, if_false, hfix, Bool.false_eq_true] at h
    by_cases hi : st.interferingVRegs v p ≠ []
    · obtain ⟨u, hu⟩ := List.exists_mem_of_ne_nil _ hi
      exact ⟨u, (mem_interferingVRegs st v u p).1 hu⟩
    · simp [hi] at h

theorem hasPhys_iff (st : RAUSCC) (u : LiveInterval) :
    st.hasPhys u = true ↔ ∃ p, (u, p) ∈ st.assigned := by
  unfold RAUSCC.hasPhys
  simp only [List.any_eq_true, decide_eq_true_eq]
  constructor
  · rintro ⟨a, ha, rfl⟩; exact ⟨a.2, ha⟩
  · rintro ⟨p, hp⟩; exact ⟨(u, p), hp, rfl⟩

/-- A register pushed by a simplify step, at the moment it is at the top of the stack in the
select phase: fewer than `K` of its neighbours hold a physical register, and a register of
an allocation order of at least `K` registers is free for it. -/
theorem simplified_colourable (K : Nat) (env : RegEnv) (g0 : Graph)
    (hg0 : g0.IsOverlapGraph) (g : Graph) (stk : List LiveInterval)
    (e : LiveInterval × NodeSet)
    (hbefore : Relation.ReflTransGen (Removal K) (g0, []) (g, stk))
    (hlow : (findLowest K g).1 = some e) (gF : Graph) (stkF : List LiveInterval)
    (hafter : Relation.ReflTransGen (Removal K) (removeNode g e, e.1 :: stk) (gF, stkF))
    (hpal : (env.order e.1).Nodup) (hK : K ≤ (env.order e.1).length)
    (hfix : ∀ p, env.fixedIntf e.1 p = false) (st0 st : RAUSCC)
    (h0s : st0.stack = stkF) (h0a : st0.assigned = [])
    (hreach : Relation.ReflTransGen (SelectStep env) st0 st)
    (hpop : st.stack = e.1 :: stk) :
    e.2.length < K ∧
      ((g0.neighbours e.1).filter (fun u => st.hasPhys u)).length < K ∧
      ∃ p ∈ env.order e.1, st.checkInterference env e.1 p = .IK_Free := by
  obtain ⟨hgg, _, hsubg, _⟩ := removals_spec K _ _ hbefore hg0
  simp only at hgg hsubg
  obtain ⟨he, hel⟩ := (findLowest_spec K g).1 e hlow
  obtain ⟨hg1, hk1⟩ := removeNode_spec g hgg e he
  have hek := mem_keys_of_mem g e he
  have hek0 := hsubg e.1 hek
  have he2 : e.2 = g.neighbours e.1 := (neighbours_of_mem g hgg.1 e he).symm
  obtain ⟨pre, hpre, hperm⟩ := removals_stack K _ _ hafter hg1
  simp only at hpre hperm
  have hpre_sub : ∀ u ∈ pre, u ∈ g.keys ∧ u ≠ e.1 := by
    intro u hu
    have := hperm.mem_iff.1 (List.mem_append_right _ hu)
    rw [hk1, List.mem_filter] at this
    exact ⟨this.1, by simpa using this.2⟩
  obtain ⟨popped, h1, h2, h3⟩ := select_inv env stkF st0 st h0s h0a hreach
  have hpp : popped = pre := by
    rw [hpop, hpre] at h1
    exact (List.append_cancel_right h1).symm
  subst hpp
  have hnb : ∀ u, (∃ p, (u, p) ∈ st.assigned) → e.1.overlaps u = true → u ∈ e.2 := by
    rintro u ⟨p, hp⟩ hov
    obtain ⟨h4, h5⟩ := hpre_sub u (h2 (u, p) hp)
    rw [he2]
    exact ((hgg.2 e.1 hek).2 u).2 ⟨h4, h5, hov⟩
  have hcount : ((g0.neighbours e.1).filter (fun u => st.hasPhys u)).length < K := by
    apply lt_of_le_of_lt _ hel
    apply List.Subperm.length_le
    apply List.subperm_of_subset ((hg0.2 e.1 hek0).1.filter _)
    intro u hu
    rw [List.mem_filter] at hu
    exact hnb u ((hasPhys_iff st u).1 hu.2) (((hg0.2 e.1 hek0).2 u).1 hu.1).2.2
  refine ⟨hel, hcount, ?_⟩
  by_contra hc
  have hall : ∀ p ∈ env.order e.1,
      ∃ u ∈ (g0.neighbours e.1).filter (fun u => st.hasPhys u), (u, p) ∈ st.assigned := by
    intro p hp
    have hnf : st.checkInterference env e.1 p ≠ .IK_Free := fun hf => hc ⟨p, hp, hf⟩
    obtain ⟨u, hu, hov⟩ := not_free_blocked env st e.1 p (hfix p) hnf
    refine ⟨u, ?_, hu⟩
    rw [List.mem_filter]
    obtain ⟨h4, h5⟩ := hpre_sub u (h2 (u, p) hu)
    exact ⟨((hg0.2 e.1 hek0).2 u).2 ⟨hsubg u h4, h5, hov⟩, (hasPhys_iff st u).2 ⟨p, hu⟩⟩
  have := palette_blocked st.assigned h3 _ (env.order e.1) hpal hall
  omega

/-- Claim C33.  Take a register pushed by a simplify step of `simplifyGraph` on the graph
that `initGraph` builds in a new allocator: the entry `e` found by the simplify loop in
the graph `g`, when the stack was `stk`.  It had fewer than `K` neighbours.  In the select
phase that follows, at the moment the register is at the top of the stack, fewer than `K`
of its neighbours in the graph hold a physical register; when its allocation order has at
least `K` different registers and it has no fixed interference, the call of `dequeue`
returns it and `selectOrSplit` returns a register of the order that is free for it, with
the state of the allocator unchanged (nothing is unassigned or handed to the spiller) and
`SplitVRegs` empty. -/
theorem c33_simplified_register_colourable (K : Nat) (env : RegEnv) (mri : List VirtRegInfo)
    (hn : (liveIntervalsOf mri).Nodup) (st1 : RAUSCC)
    (h1 : (RAUSCC.empty.initGraph mri).simplifyGraph K = some st1)
    (g : Graph) (stk : List LiveInterval) (e : LiveInterval × NodeSet)
    (hbefore : Relation.ReflTransGen (Removal K)
      ((RAUSCC.empty.initGraph mri).interferenceGraph, []) (g, stk))
    (hlow : (findLowest K g).1 = some e)
    (hafter : Relation.ReflTransGen (Removal K) (removeNode g e, e.1 :: stk)
      (st1.interferenceGraph, st1.stack))
    (hpal : (env.order e.1).Nodup) (hK : K ≤ (env.order e.1).length)
    (hfix : ∀ p, env.fixedIntf e.1 p = false) (st : RAUSCC)
    (hreach : Relation.ReflTransGen (SelectStep env)
      ((liveIntervalsOf mri).foldl RAUSCC.enqueue st1) st)
    (hpop : st.stack = e.1 :: stk) :
    e.2.length < K ∧
      (((RAUSCC.empty.initGraph mri).interferenceGraph.neighbours e.1).filter
        (fun u => st.hasPhys u)).length < K ∧
      st.dequeue = (some e.1, { st with stack := stk }) ∧
      ∃ p ∈ env.order e.1,
        RAUSCC.checkInterference env { st with stack := stk } e.1 p = .IK_Free ∧
        RAUSCC.selectOrSplit env { st with stack := stk } e.1 [] =
          some (p, { st with stack := stk }, []) := by
  obtain ⟨hg0, _⟩ := initGraph_spec mri hn
  have ha1 : st1.assigned = [] := by
    unfold RAUSCC.simplifyGraph at h1
    obtain ⟨s, _, rfl⟩ := Option.map_eq_some'.1 h1
    rfl
  obtain ⟨e1, e2, e3, _⟩ := enqueueFold_assigned (liveIntervalsOf mri) st1
  obtain ⟨h2, h3, h4⟩ := simplified_colourable K env _ hg0 g stk e hbefore hlow
    st1.interferenceGraph st1.stack hafter hpal hK hfix _ st e3 (by rw [e1, ha1]) hreach hpop
  refine ⟨h2, h3, by simp [RAUSCC.dequeue, hpop], ?_⟩
  have h5 : ∃ p ∈ env.order e.1,
      RAUSCC.checkInterference env { st with stack := stk } e.1 p = .IK_Free := h4
  obtain ⟨pre, p, suf, h6, _, h8, h9⟩ :=
    scanOrder_first_free env { st with stack := stk } e.1 (env.order e.1) [] h5
  refine ⟨p, by rw [h6]; simp, h8, ?_⟩
  unfold RAUSCC.selectOrSplit
  rw [h9]

set_option maxRecDepth 20000 in
/-- Witness of C33 on the three registers of `exChain3` with two colours and the palette
`1, 2`: register 2 is pushed by the third simplify step, when the stack holds registers 1
and 0; it is at the top of the stack when the select phase starts, and `selectOrSplit`
returns the physical register `1` for it. -/
theorem c33_simplified_register_colourable_witness :
    (RAUSCC.empty.initGraph exChain3).simplifyGraph 2 = some exChain3Simplified ∧
      (findLowest 2 [(mkReg 2 1 [(5, 8)], [])]).1 = some (mkReg 2 1 [(5, 8)], []) ∧
      ((liveIntervalsOf exChain3).foldl RAUSCC.enqueue exChain3Simplified).stack =
        mkReg 2 1 [(5, 8)] :: [mkReg 1 1 [(2, 6)], mkReg 0 1 [(0, 4)]] ∧
      RAUSCC.selectOrSplit env2
        { (liveIntervalsOf exChain3).foldl RAUSCC.enqueue exChain3Simplified with
          stack := [mkReg 1 1 [(2, 6)], mkReg 0 1 [(0, 4)]] } (mkReg 2 1 [(5, 8)]) [] =
        some (1, { (liveIntervalsOf exChain3).foldl RAUSCC.enqueue exChain3Simplified with
          stack := [mkReg 1 1 [(2, 6)], mkReg 0 1 [(0, 4)]] }, []) ∧
      ∃ p ∈ env2.order (mkReg 2 1 [(5, 8)]),
        RAUSCC.checkInterference env2
          { (liveIntervalsOf exChain3).foldl RAUSCC.enqueue exChain3Simplified with
            stack := [mkReg 1 1 [(2, 6)], mkReg 0 1 [(0, 4)]] } (mkReg 2 1 [(5, 8)]) p =
          .IK_Free ∧
        RAUSCC.selectOrSplit env2
          { (liveIntervalsOf exChain3).foldl RAUSCC.enqueue exChain3Simplified with
            stack := [mkReg 1 1 [(2, 6)], mkReg 0 1 [(0, 4)]] } (mkReg 2 1 [(5, 8)]) [] =
          some (p, { (liveIntervalsOf exChain3).foldl RAUSCC.enqueue exChain3Simplified with
            stack := [mkReg 1 1 [(2, 6)], mkReg 0 1 [(0, 4)]] }, []) := by
  have hrun : (RAUSCC.empty.initGraph exChain3).simplifyGraph 2 = some exChain3Simplified := by
    decide
  have hstep1 : Removal 2 ((RAUSCC.empty.initGraph exChain3).interferenceGraph, [])
      ([(mkReg 1 1 [(2, 6)], [mkReg 2 1 [(5, 8)]]), (mkReg 2 1 [(5, 8)], [mkReg 1 1 [(2, 6)]])],
        [mkReg 0 1 [(0, 4)]]) :=
    Removal.simplify (RAUSCC.empty.initGraph exChain3).interferenceGraph []
      (mkReg 0 1 [(0, 4)], [mkReg 1 1 [(2, 6)]]) (by decide)
  have hstep2 : Removal 2
      ([(mkReg 1 1 [(2, 6)], [mkReg 2 1 [(5, 8)]]), (mkReg 2 1 [(5, 8)], [mkReg 1 1 [(2, 6)]])],
        [mkReg 0 1 [(0, 4)]])
      ([(mkReg 2 1 [(5, 8)], [])], [mkReg 1 1 [(2, 6)], mkReg 0 1 [(0, 4)]]) :=
    Removal.simplify
      [(mkReg 1 1 [(2, 6)], [mkReg 2 1 [(5, 8)]]), (mkReg 2 1 [(5, 8)], [mkReg 1 1 [(2, 6)]])]
      [mkReg 0 1 [(0, 4)]] (mkReg 1 1 [(2, 6)], [mkReg 2 1 [(5, 8)]]) (by decide)
  have hlow : (findLowest 2 [(mkReg 2 1 [(5, 8)], [])]).1 = some (mkReg 2 1 [(5, 8)], []) := by
    decide
  have hpop : ((liveIntervalsOf exChain3).foldl RAUSCC.enqueue exChain3Simplified).stack =
      mkReg 2 1 [(5, 8)] :: [mkReg 1 1 [(2, 6)], mkReg 0 1 [(0, 4)]] := by decide
  refine ⟨hrun, hlow, hpop, by decide, ?_⟩
  exact (c33_simplified_register_colourable 2 env2 exChain3 (by decide) exChain3Simplified
    hrun [(mkReg 2 1 [(5, 8)], [])] [mkReg 1 1 [(2, 6)], mkReg 0 1 [(0, 4)]]
    (mkReg 2 1 [(5, 8)], []) (Relation.ReflTransGen.tail (Relation.ReflTransGen.single hstep1)
      hstep2) hlow Relation.ReflTransGen.refl (by decide) (by decide) (fun _ => rfl)
    _ Relation.ReflTransGen.refl hpop).2.2.2

/-! ### The return statement without an expression -/

theorem peek_not_mem (s : ParserState) (h : NoExprStart s) :
    peekToken s ≠ .Identifier ∧ peekToken s ≠ .Constant ∧ peekToken s ≠ .String ∧
      peekToken s ≠ .LParen ∧ peekToken s ≠ .Inc ∧ peekToken s ≠ .Dec ∧
      peekToken s ≠ .Addr ∧ peekToken s ≠ .Not := by
  have h1 := h.1
  simp only [List.mem_cons, List.mem_singleton, not_or, List.not_mem_nil, or_false] at h1
  exact h1

/-- Where no expression starts, `parseFactor` returns `nullptr` and consumes nothing. -/
theorem parseFactor_null (env : ParseEnv) (pe : ExprParser) (s : ParserState)
    (h : NoExprStart s) : parseFactor env pe s = (.ok none, s) := by
  obtain ⟨h1, h2, h3, h4, h5, h6, h7, _⟩ := peek_not_mem s h
  obtain ⟨_, hu, ha⟩ := h
  have e1 : parseIdentFactor env pe s = (.ok none, s) := by
    unfold parseIdentFactor
    simp [h1, hu, ha]
  have e2 : parseConstantFactor s = (.ok none, s) := by
    unfold parseConstantFactor; simp [h2]
  have e3 : parseStringFactor s = (.ok none, s) := by
    unfold parseStringFactor; simp [h3]
  have e4 : parseParenFactor pe s = (.ok none, s) := by
    unfold parseParenFactor; simp [h4]
  have e5 : parseIncFactor env s = (.ok none, s) := by
    unfold parseIncFactor; simp [h5]
  have e6 : parseDecFactor env s = (.ok none, s) := by
    unfold parseDecFactor; simp [h6]
  have e7 : parseAddrOfArrayFactor env pe s = (.ok none, s) := by
    unfold parseAddrOfArrayFactor; simp [h7]
  simp only [parseFactor, orElse, e1, e2, e3, e4, e5, e6, e7]

theorem parseValue_null (env : ParseEnv) (pe : ExprParser) (s : ParserState)
    (h : NoExprStart s) : parseValue env pe s = (.ok none, s) := by
  have h8 := (peek_not_mem s h).2.2.2.2.2.2.2
  unfold parseValue
  rw [if_neg h8]
  exact parseFactor_null env pe s h

/-- Where no expression starts, `parseExpr` returns `nullptr` and consumes nothing. -/
theorem parseExpr_null (env : ParseEnv) (n : Nat) (s : ParserState) (h : NoExprStart s) :
    parseExpr env (n + 1) s = (.ok none, s) := by
  have e1 : parseTerm env (parseExpr env n) s = (.ok none, s) := by
    simp only [parseTerm, parseValue_null env _ s h]
  have e2 : parseNumExpr env (parseExpr env n) s = (.ok none, s) := by
    simp only [parseNumExpr, e1]
  have e3 : parseRelExpr env (parseExpr env n) s = (.ok none, s) := by
    simp only [parseRelExpr, e2]
  have e4 : parseAndTerm env (parseExpr env n) s = (.ok none, s) := by
    simp only [parseAndTerm, e3]
  simp only [parseExpr, e4]

theorem parseReturnStmt_null (env : ParseEnv) (n : Nat) (s : ParserState)
    (hr : peekToken s = .Key_return) (hs : peekToken (consumeToken s) ≠ .SemiColon)
    (h : NoExprStart (consumeToken s)) :
    parseReturnStmt env (n + 1) s = (.nullDeref, consumeToken s) := by
  unfold parseReturnStmt
  simp only [hr, if_true, hs, if_false, parseExpr_null env n _ h]

/-- Claim C37 fails.  When the token after `return` is neither `;` nor a token at which an
expression starts, `parseExpr` returns `nullptr` without consuming a token, and
`parseReturnStmt` calls `getType` through that null pointer: it neither returns a
statement nor throws a parse exception.  This happens on `return` followed by a closing
brace and on `return + 1 ;`. -/
theorem c37_return_null_expression :
    (∀ (env : ParseEnv) (n : Nat) (s : ParserState), NoExprStart s →
        parseExpr env (n + 1) s = (.ok none, s)) ∧
      (∀ (env : ParseEnv) (n : Nat) (s : ParserState), peekToken s = .Key_return →
        peekToken (consumeToken s) ≠ .SemiColon → NoExprStart (consumeToken s) →
        parseReturnStmt env (n + 1) s = (.nullDeref, consumeToken s)) ∧
      parseReturnStmt envPlain 1 (startAt [(.Key_return, "return"), (.Other, "\x7d")]) =
        (.nullDeref, startAt [(.Other, "\x7d")]) ∧
      parseReturnStmt envPlain 1
          (startAt [(.Key_return, "return"), (.Plus, "+"), (.Constant, "1"),
            (.SemiColon, ";")]) =
        (.nullDeref, startAt [(.Plus, "+"), (.Constant, "1"), (.SemiColon, ";")]) ∧
      parseReturnStmt envPlain 1
          (startAt [(.Key_return, "return"), (.Constant, "1"), (.SemiColon, ";")]) =
        (.ok (some ⟨some (.constant "1")⟩), startAt []) := by
  refine ⟨parseExpr_null, parseReturnStmt_null, by decide, by decide, by decide⟩

/-! ### Left associativity of the binary operators -/

theorem finalize_toks (env : ParseEnv) (node : ASTExpr) (s : ParserState) :
    (finalize env node s).toks = s.toks := by
  unfold finalize
  split <;> rfl

theorem peek_finalize (env : ParseEnv) (node : ASTExpr) (s : ParserState) :
    peekToken (finalize env node s) = peekToken s := by
  unfold peekToken
  rw [finalize_toks]

/-- A run over `n` operators consumes at least `n` tokens. -/
theorem operandRun_length (env : ParseEnv) (ops : List Token)
    (mk : Token → ASTExpr → ASTExpr → ASTExpr) (sub : ExprParser) (lhs : ASTExpr)
    (s : ParserState) (rest : List (Token × ASTExpr)) (s2 : ParserState)
    (h : OperandRun env ops mk sub lhs s rest s2) :
    rest.length + s2.toks.length ≤ s.toks.length := by
  induction h with
  | done lhs s => simp
  | step lhs s op txt vi rhs s1 rest s2 _ htoks _ _ ih =>
    rw [finalize_toks] at ih
    rw [htoks]
    simp only [List.length_cons, List.length_append]
    omega

/-- The function for the operators of a level on a run of operands: the tree nested to
the left when no operator follows the run, `OperandMissing` when an operator follows and
no operand does. -/
theorem parsePrime_run (env : ParseEnv) (ops : List Token)
    (mk : Token → ASTExpr → ASTExpr → ASTExpr) (sub : ExprParser) (lhs : ASTExpr)
    (s : ParserState) (rest : List (Token × ASTExpr)) (s2 : ParserState)
    (h : OperandRun env ops mk sub lhs s rest s2) :
    ∀ fuel, rest.length < fuel →
      (peekToken s2 ∉ ops →
        parsePrime env ops mk sub fuel lhs s =
          (.ok (if rest = [] then none else some (leftNested mk lhs rest)), s2)) ∧
      (peekToken s2 ∈ ops → ∀ s3, sub (consumeToken s2) = (.ok none, s3) →
        parsePrime env ops mk sub fuel lhs s =
          (.throw (.OperandMissing (peekToken s2)), s3)) := by
  induction h with
  | done lhs s =>
    intro fuel hf
    obtain ⟨f, rfl⟩ : ∃ f, fuel = f + 1 := ⟨fuel - 1, by omega⟩
    constructor
    · intro hp
      simp only [parsePrime, hp, if_false, if_true]
    · intro hp s3 hs3
      simp only [parsePrime, hp, if_true, hs3]
  | step lhs s op txt vi rhs s1 rest s2 hop htoks hsub _ ih =>
    intro fuel hf
    obtain ⟨f, rfl⟩ : ∃ f, fuel = f + 1 := ⟨fuel - 1, by omega⟩
    simp only [List.length_cons] at hf
    have hpeek : peekToken s = op := by simp [peekToken, htoks]
    obtain ⟨ih1, ih2⟩ := ih f (by omega)
    constructor
    · intro hp
      have := ih1 hp
      simp only [parsePrime, hpeek, hop, if_true, hsub, this]
      by_cases hr : rest = []
      · simp [hr, leftNested]
      · simp [hr, leftNested]
    · intro hp s3 hs3
      have := ih2 hp s3 hs3
      simp only [parsePrime, hpeek, hop, if_true, hsub, this]

/-- The parser of a level on a first operand followed by a run of operands. -/
theorem parseLevel_leftAssoc (env : ParseEnv) (ops : List Token)
    (mk : Token → ASTExpr → ASTExpr → ASTExpr) (sub : ExprParser) :
    LeftAssoc env ops mk sub (parseLevel env ops mk sub) := by
  intro s v0 s0 rest s2 hv0 hrun
  have hlen := operandRun_length env ops mk sub v0 s0 rest s2 hrun
  obtain ⟨h1, h2⟩ := parsePrime_run env ops mk sub v0 s0 rest s2 hrun (s0.toks.length + 1)
    (by omega)
  constructor
  · intro hp
    simp only [parseLevel, hv0, h1 hp]
    by_cases hr : rest = []
    · simp [hr, leftNested]
    · simp [hr]
  · intro hp s3 hs3
    simp only [parseLevel, hv0, h2 hp s3 hs3]

theorem parseTermPrime_eq (env : ParseEnv) (pe : ExprParser) :
    ∀ (fuel : Nat) (lhs : ASTExpr) (s : ParserState),
      parseTermPrime env pe fuel lhs s =
        parsePrime env [.Mult, .Div, .Mod] ASTExpr.binaryMath (parseValue env pe) fuel lhs s := by
  intro fuel
  induction fuel with
  | zero => intro lhs s; rfl
  | succ f ih =>
    intro lhs s
    simp only [parseTermPrime, parsePrime, ih]

theorem parseTerm_eq (env : ParseEnv) (pe : ExprParser) (s : ParserState) :
    parseTerm env pe s =
      parseLevel env [.Mult, .Div, .Mod] ASTExpr.binaryMath (parseValue env pe) s := by
  simp only [parseTerm, parseLevel, parseTermPrime_eq]

theorem parseNumExprPrime_eq (env : ParseEnv) (pe : ExprParser) :
    ∀ (fuel : Nat) (lhs : ASTExpr) (s : ParserState),
      parseNumExprPrime env pe fuel lhs s =
        parsePrime env [.Plus, .Minus] ASTExpr.binaryMath (parseTerm env pe) fuel lhs s := by
  intro fuel
  induction fuel with
  | zero => intro lhs s; rfl
  | succ f ih =>
    intro lhs s
    simp only [parseNumExprPrime, parsePrime, ih]

theorem parseNumExpr_eq (env : ParseEnv) (pe : ExprParser) (s : ParserState) :
    parseNumExpr env pe s =
      parseLevel env [.Plus, .Minus] ASTExpr.binaryMath (parseTerm env pe) s := by
  simp only [parseNumExpr, parseLevel, parseNumExprPrime_eq]

theorem parseRelExprPrime_eq (env : ParseEnv) (pe : ExprParser) :
    ∀ (fuel : Nat) (lhs : ASTExpr) (s : ParserState),
      parseRelExprPrime env pe fuel lhs s =
        parsePrime env [.EqualTo, .NotEqual, .LessThan, .GreaterThan] ASTExpr.binaryCmp
          (parseNumExpr env pe) fuel lhs s := by
  intro fuel
  induction fuel with
  | zero => intro lhs s; rfl
  | succ f ih =>
    intro lhs s
    simp only [parseRelExprPrime, parsePrime, ih]

theorem parseRelExpr_eq (env : ParseEnv) (pe : ExprParser) (s : ParserState) :
    parseRelExpr env pe s =
      parseLevel env [.EqualTo, .NotEqual, .LessThan, .GreaterThan] ASTExpr.binaryCmp
        (parseNumExpr env pe) s := by
  simp only [parseRelExpr, parseLevel, parseRelExprPrime_eq]

theorem parseAndTermPrime_eq (env : ParseEnv) (pe : ExprParser) :
    ∀ (fuel : Nat) (lhs : ASTExpr) (s : ParserState),
      parseAndTermPrime env pe fuel lhs s =
        parsePrime env [.And] (fun _ => ASTExpr.logicalAnd) (parseRelExpr env pe) fuel lhs s := by
  intro fuel
  induction fuel with
  | zero => intro lhs s; rfl
  | succ f ih =>
    intro lhs s
    by_cases hp : peekToken s = .And
    · simp only [parseAndTermPrime, parsePrime, ih, hp, if_true, List.mem_singleton]
    · simp only [parseAndTermPrime, parsePrime, hp, if_false, List.mem_singleton]

theorem parseAndTerm_eq (env : ParseEnv) (pe : ExprParser) (s : ParserState) :
    parseAndTerm env pe s =
      parseLevel env [.And] (fun _ => ASTExpr.logicalAnd) (parseRelExpr env pe) s := by
  simp only [parseAndTerm, parseLevel, parseAndTermPrime_eq]

theorem parseExprPrime_eq (env : ParseEnv) (pe : ExprParser) :
    ∀ (fuel : Nat) (lhs : ASTExpr) (s : ParserState),
      parseExprPrime env pe fuel lhs s =
        parsePrime env [.Or] (fun _ => ASTExpr.logicalOr) (parseAndTerm env pe) fuel lhs s := by
  intro fuel
  induction fuel with
  | zero => intro lhs s; rfl
  | succ f ih =>
    intro lhs s
    by_cases hp : peekToken s = .Or
    · simp only [parseExprPrime, parsePrime, ih, hp, if_true, List.mem_singleton]
    · simp only [parseExprPrime, parsePrime, hp, if_false, List.mem_singleton]

theorem parseExpr_eq (env : ParseEnv) (n : Nat) (s : ParserState) :
    parseExpr env (n + 1) s =
      parseLevel env [.Or] (fun _ => ASTExpr.logicalOr) (parseAndTerm env (parseExpr env n))
        s := by
  simp only [parseExpr, parseLevel, parseExprPrime_eq]

theorem leftAssoc_congr (env : ParseEnv) (ops : List Token)
    (mk : Token → ASTExpr → ASTExpr → ASTExpr) (sub level level1 : ExprParser)
    (h : ∀ s, level1 s = level s) (hl : LeftAssoc env ops mk sub level) :
    LeftAssoc env ops mk sub level1 := by
  intro s v0 s0 rest s2 hv0 hrun
  rw [h s]
  exact hl s v0 s0 rest s2 hv0 hrun

/-- Claim C38.  Each of the five levels of binary operators is parsed left
associatively.  For tokens `v0 op1 v1 ... opn vn` whose operators belong to one level and
each of whose operands the parser of the next tighter level accepts, the parser of the
level returns the tree `opn(...op2(op1(v0, v1), v2)..., vn)` when no operator of the level
follows, and throws `OperandMissing` for an operator after which the parser of the next
level finds no operand.  The levels are `||` (`parseExpr` over `parseAndTerm`), `&&`
(`parseAndTerm` over `parseRelExpr`), `== != < >` (`parseRelExpr` over `parseNumExpr`),
`+ -` (`parseNumExpr` over `parseTerm`) and `* / %` (`parseTerm` over `parseValue`). -/
theorem c38_left_associative (env : ParseEnv) (pe : ExprParser) (n : Nat) :
    LeftAssoc env [.Or] (fun _ => ASTExpr.logicalOr) (parseAndTerm env (parseExpr env n))
        (parseExpr env (n + 1)) ∧
      LeftAssoc env [.And] (fun _ => ASTExpr.logicalAnd) (parseRelExpr env pe)
        (parseAndTerm env pe) ∧
      LeftAssoc env [.EqualTo, .NotEqual, .LessThan, .GreaterThan] ASTExpr.binaryCmp
        (parseNumExpr env pe) (parseRelExpr env pe) ∧
      LeftAssoc env [.Plus, .Minus] ASTExpr.binaryMath (parseTerm env pe)
        (parseNumExpr env pe) ∧
      LeftAssoc env [.Mult, .Div, .Mod] ASTExpr.binaryMath (parseValue env pe)
        (parseTerm env pe) :=
  ⟨leftAssoc_congr env _ _ _ _ _ (parseExpr_eq env n) (parseLevel_leftAssoc env _ _ _),
    leftAssoc_congr env _ _ _ _ _ (parseAndTerm_eq env pe) (parseLevel_leftAssoc env _ _ _),
    leftAssoc_congr env _ _ _ _ _ (parseRelExpr_eq env pe) (parseLevel_leftAssoc env _ _ _),
    leftAssoc_congr env _ _ _ _ _ (parseNumExpr_eq env pe) (parseLevel_leftAssoc env _ _ _),
    leftAssoc_congr env _ _ _ _ _ (parseTerm_eq env pe) (parseLevel_leftAssoc env _ _ _)⟩

/-- Witness of C38 at the level `+ -` on the tokens `1 - 2 - 3 ;`: the run of operands
`- 2 - 3` after the first operand `1` gives the tree `(1 - 2) - 3`; and on `1 - ;` the
operator is followed by no operand and `OperandMissing` is thrown. -/
theorem c38_left_associative_witness :
    parseNumExpr envPlain (parseExpr envPlain 0)
        (startAt [(.Constant, "1"), (.Minus, "-"), (.Constant, "2"), (.Minus, "-"),
          (.Constant, "3"), (.SemiColon, ";")]) =
      (.ok (some (.binaryMath .Minus
        (.binaryMath .Minus (.constant "1") (.constant "2")) (.constant "3"))),
        startAt [(.SemiColon, ";")]) ∧
      parseNumExpr envPlain (parseExpr envPlain 0)
        (startAt [(.Constant, "1"), (.Minus, "-"), (.SemiColon, ";")]) =
      (.throw (.OperandMissing .Minus), startAt [(.SemiColon, ";")]) := by
  have hl := (c38_left_associative envPlain (parseExpr envPlain 0) 0).2.2.2.1
  constructor
  · have hrun : OperandRun envPlain [.Plus, .Minus] ASTExpr.binaryMath
        (parseTerm envPlain (parseExpr envPlain 0)) (.constant "1")
        (startAt [(.Minus, "-"), (.Constant, "2"), (.Minus, "-"), (.Constant, "3"),
          (.SemiColon, ";")])
        [(.Minus, .constant "2"), (.Minus, .constant "3")] (startAt [(.SemiColon, ";")]) :=
      OperandRun.step _ _ .Minus "-" [(.Constant, "2")] (.constant "2")
        (startAt [(.Minus, "-"), (.Constant, "3"), (.SemiColon, ";")]) _ _
        (by decide) rfl (by decide)
        (OperandRun.step _ _ .Minus "-" [(.Constant, "3")] (.constant "3")
          (startAt [(.SemiColon, ";")]) _ _ (by decide) rfl (by decide)
          (OperandRun.done _ _))
    exact (hl _ (.constant "1") _ _ _ (by decide) hrun).1 (by decide)
  · exact (hl (startAt [(.Constant, "1"), (.Minus, "-"), (.SemiColon, ";")]) (.constant "1")
      (startAt [(.Minus, "-"), (.SemiColon, ";")]) [] _ (by decide)
      (OperandRun.done _ _)).2 (by decide) (startAt [(.SemiColon, ";")]) (by decide)

end USCC
